import Mathlib

/-!
# TFT graphics core: transport, pixel-window protocol and rasterizer

A shallow embedding of `Core/Src/TFTc/TFT_io.c` and `Core/Src/TFTc/TFT_CAD.c`.

* A device is a `Dev`: the C handle `TFT_HandleTypeDef` together with the
  list of actions performed so far on its hardware lines (`bus`).
* `uint16_t` values are natural numbers below `2^16`; every place where C
  converts an `int` expression to `uint16_t` is an explicit `% 65536`, every
  conversion to `int16_t` is `i16`.
* The handle pointer itself is never `NULL` in the model (the `htft == NULL`
  guards of the C code are the only thing lost); a `NULL` transport or a
  `NULL` staging buffer is `none`.
-/

namespace TFT

/-! ## Machine integers -/

/-- Conversion of a C `int` to `uint16_t`. -/
def u16 (v : Int) : Nat := (v % 65536).toNat

/-- Conversion of a C `int` to `int16_t` (two's complement wrap). -/
def i16 (v : Int) : Int := (v + 32768) % 65536 - 32768

/-- Conversion of a C `int` to `int32_t` (two's complement wrap). -/
def i32 (v : Int) : Int := (v + 2147483648) % 4294967296 - 2147483648

/-- The two bytes of a 16-bit word, most significant first:
`(data >> 8) & 0xFF` and `data & 0xFF`. -/
def be16 (data : Nat) : List Nat := [(data / 256) % 256, data % 256]

/-! ## Hardware lines and the device handle -/

/-- One action on the hardware lines of a display. -/
inductive HwEvent where
  /-- `TFT_Pin_DC_Set`: 0 = command mode, 1 = data mode. -/
  | DC (level : Nat)
  /-- `TFT_Pin_CS_Set`: 0 = selected, 1 = deselected. -/
  | CS (level : Nat)
  /-- `TFT_Platform_SPI_Transmit_Blocking` of the given bytes. -/
  | tx (bytes : List Nat)
  /-- `TFT_Platform_SPI_Transmit_DMA_Start`; the bytes are the contents of
  the source memory at the moment the transfer is started. -/
  | dma (bytes : List Nat)
  deriving DecidableEq

/-- The C structure `TFT_HandleTypeDef` (pin numbers and ports left out:
each control line is its own kind of `HwEvent`). -/
structure TFT_HandleTypeDef where
  /-- `spi_handle`: `none` is `NULL`. -/
  spi_handle : Option Nat
  /-- `tx_buffer`: `none` is `NULL`, otherwise the bytes of the allocated block. -/
  tx_buffer : Option (List Nat)
  buffer_size : Nat
  buffer_write_index : Nat
  is_dma_enabled : Nat
  is_dma_transfer_active : Nat
  display_direction : Nat
  x_offset : Nat
  y_offset : Nat
  deriving DecidableEq

/-- A device: its handle and everything done so far on its lines, oldest first. -/
structure Dev where
  htft : TFT_HandleTypeDef
  bus : List HwEvent
  deriving DecidableEq

def TFT_Pin_DC_Set (d : Dev) (level : Nat) : Dev :=
  { d with bus := d.bus ++ [HwEvent.DC level] }

def TFT_Pin_CS_Set (d : Dev) (level : Nat) : Dev :=
  { d with bus := d.bus ++ [HwEvent.CS level] }

def TFT_Platform_SPI_Transmit_Blocking (d : Dev) (pData : List Nat) : Dev :=
  { d with bus := d.bus ++ [HwEvent.tx pData] }

def TFT_Platform_SPI_Transmit_DMA_Start (d : Dev) (pData : List Nat) : Dev :=
  { d with bus := d.bus ++ [HwEvent.dma pData] }

/-- `HAL_SPI_TxCpltCallback` for the transport of this device, the device
being registered: on a DMA device chip-select is raised and the busy flag
cleared. -/
def HAL_SPI_TxCpltCallback (d : Dev) : Dev :=
  if d.htft.is_dma_enabled ≠ 0 then
    let d1 := TFT_Pin_CS_Set d 1
    { d1 with htft := { d1.htft with is_dma_transfer_active := 0 } }
  else d

/-- `TFT_Wait_DMA_Transfer_Complete`: the busy-wait `while (is_dma_transfer_active)`.
The loop is left only once the completion callback has cleared the flag; the
model lets the pending completion arrive while the flag is being polled. -/
def TFT_Wait_DMA_Transfer_Complete (d : Dev) : Dev :=
  if d.htft.is_dma_enabled ≠ 0 ∧ d.htft.is_dma_transfer_active ≠ 0 then
    HAL_SPI_TxCpltCallback d
  else d

/-- `TFT_SPI_Send`: `data_buffer` is the memory the pointer refers to
(`none` for `NULL`), of which the first `length` bytes are sent. -/
def TFT_SPI_Send (d : Dev) (data_buffer : Option (List Nat)) (length : Nat)
    (wait_completion : Nat) : Dev :=
  match d.htft.spi_handle, data_buffer with
  | some _, some buf =>
    if length = 0 then d
    else
      let d1 := TFT_Wait_DMA_Transfer_Complete d
      let d2 := TFT_Pin_DC_Set d1 1
      let d3 := TFT_Pin_CS_Set d2 0
      if d3.htft.is_dma_enabled ≠ 0 then
        let d4 : Dev := { d3 with htft := { d3.htft with is_dma_transfer_active := 1 } }
        let d5 := TFT_Platform_SPI_Transmit_DMA_Start d4 (buf.take length)
        if wait_completion ≠ 0 then
          let d6 := TFT_Wait_DMA_Transfer_Complete d5
          TFT_Pin_CS_Set d6 1
        else d5
      else
        let d4 := TFT_Platform_SPI_Transmit_Blocking d3 (buf.take length)
        TFT_Pin_CS_Set d4 1
  | _, _ => d

/-- `TFT_Flush_Buffer`. -/
def TFT_Flush_Buffer (d : Dev) (wait_completion : Nat) : Dev :=
  if d.htft.tx_buffer = none ∨ d.htft.buffer_write_index = 0 then d
  else
    let d1 := TFT_SPI_Send d d.htft.tx_buffer d.htft.buffer_write_index wait_completion
    { d1 with htft := { d1.htft with buffer_write_index := 0 } }

/-- The statement `tx_buffer[buffer_write_index++] = v`. -/
def bufferStore (h : TFT_HandleTypeDef) (v : Nat) : TFT_HandleTypeDef :=
  { h with
    tx_buffer := h.tx_buffer.map (fun b => b.set h.buffer_write_index v)
    buffer_write_index := (h.buffer_write_index + 1) % 65536 }

/-- `TFT_Buffer_Write16`; the comparison `buffer_write_index >= buffer_size - 1`
is done on `int` in C. -/
def TFT_Buffer_Write16 (d : Dev) (data : Nat) : Dev :=
  if d.htft.tx_buffer = none then d
  else
    let d1 :=
      if (d.htft.buffer_write_index : Int) ≥ (d.htft.buffer_size : Int) - 1 then
        TFT_Flush_Buffer d 0
      else d
    let h2 := bufferStore d1.htft ((data / 256) % 256)
    { d1 with htft := bufferStore h2 (data % 256) }

/-- `TFT_Reset_Buffer`. -/
def TFT_Reset_Buffer (d : Dev) : Dev :=
  { d with htft := { d.htft with buffer_write_index := 0 } }

/-- `TFT_Write_Data16`. -/
def TFT_Write_Data16 (d : Dev) (data : Nat) : Dev :=
  if d.htft.spi_handle = none then d
  else
    let d1 := TFT_Wait_DMA_Transfer_Complete d
    let d2 := TFT_Pin_DC_Set d1 1
    let d3 := TFT_Pin_CS_Set d2 0
    let d4 := TFT_Platform_SPI_Transmit_Blocking d3 (be16 data)
    TFT_Pin_CS_Set d4 1

/-- `TFT_Write_Command`. -/
def TFT_Write_Command (d : Dev) (command : Nat) : Dev :=
  if d.htft.spi_handle = none then d
  else
    let d1 := TFT_Flush_Buffer d 1
    let d2 := TFT_Pin_DC_Set d1 0
    let d3 := TFT_Pin_CS_Set d2 0
    let d4 := TFT_Platform_SPI_Transmit_Blocking d3 [command]
    TFT_Pin_CS_Set d4 1

/-- `TFT_Set_Address`. -/
def TFT_Set_Address (d : Dev) (x_start y_start x_end y_end : Nat) : Dev :=
  let d1 := TFT_Flush_Buffer d 1
  let d2 := TFT_Write_Command d1 0x2A
  let d3 :=
    if d2.htft.display_direction = 0 ∨ d2.htft.display_direction = 2 then
      TFT_Write_Data16 (TFT_Write_Data16 d2 ((x_start + d2.htft.x_offset) % 65536))
        ((x_end + d2.htft.x_offset) % 65536)
    else
      TFT_Write_Data16 (TFT_Write_Data16 d2 ((x_start + d2.htft.y_offset) % 65536))
        ((x_end + d2.htft.y_offset) % 65536)
  let d4 := TFT_Write_Command d3 0x2B
  let d5 :=
    if d4.htft.display_direction = 0 ∨ d4.htft.display_direction = 2 then
      TFT_Write_Data16 (TFT_Write_Data16 d4 ((y_start + d4.htft.y_offset) % 65536))
        ((y_end + d4.htft.y_offset) % 65536)
    else
      TFT_Write_Data16 (TFT_Write_Data16 d4 ((y_start + d4.htft.x_offset) % 65536))
        ((y_end + d4.htft.x_offset) % 65536)
  TFT_Write_Command d5 0x2C

/-! ## What the display receives

The display controller is hardware outside the repository.  It sees the bytes
clocked out while chip-select is low, told apart by the data/command line;
a command byte opens a frame and the data bytes that follow are its
arguments.  Frame `0x2A` sets the column range, `0x2B` the row range and
`0x2C` writes 16-bit pixel words into the selected window. -/

/-- One byte as the display controller receives it. -/
inductive Wire where
  | cmd (b : Nat)
  | dat (b : Nat)
  deriving DecidableEq

/-- The bytes of one transmission as the controller takes them, given the
levels of the two control lines. -/
def wireBytes (dc cs : Nat) (bs : List Nat) : List Wire :=
  if cs = 0 then (if dc = 0 then bs.map Wire.cmd else bs.map Wire.dat) else []

/-- The byte stream received by the controller, from the line levels
`dc`, `cs` before the first event. -/
def wireOf : Nat → Nat → List HwEvent → List Wire
  | _, _, [] => []
  | _, cs, HwEvent.DC l :: t => wireOf l cs t
  | dc, _, HwEvent.CS l :: t => wireOf dc l t
  | dc, cs, HwEvent.tx bs :: t => wireBytes dc cs bs ++ wireOf dc cs t
  | dc, cs, HwEvent.dma bs :: t => wireBytes dc cs bs ++ wireOf dc cs t

/-- Splits a byte stream into the data bytes before the first command and
the frames (command, arguments) that follow. -/
def lcdSplit : List Wire → List Nat × List (Nat × List Nat)
  | [] => ([], [])
  | Wire.dat b :: t => (b :: (lcdSplit t).1, (lcdSplit t).2)
  | Wire.cmd c :: t => ([], (c, (lcdSplit t).1) :: (lcdSplit t).2)

/-- The frames of a byte stream; data bytes that come before any command
continue a memory write. -/
def lcdFrames (w : List Wire) : List (Nat × List Nat) :=
  if (lcdSplit w).1 = [] then (lcdSplit w).2 else (0x2C, (lcdSplit w).1) :: (lcdSplit w).2

/-- Pairs bytes into 16-bit words, most significant byte first. -/
def words16 : List Nat → List Nat
  | hi :: lo :: t => (hi * 256 + lo) :: words16 t
  | _ => []

/-- A memory write: the window in force and the pixel words streamed into it. -/
structure Burst where
  x0 : Nat
  y0 : Nat
  x1 : Nat
  y1 : Nat
  words : List Nat
  deriving DecidableEq

/-- The address range carried by the four argument bytes of a range command
(start and end, each most significant byte first). -/
def lcdRange : List Nat → Option (Nat × Nat)
  | [a0, a1, a2, a3] => some (a0 * 256 + a1, a2 * 256 + a3)
  | _ => none

/-- Modelled from the spec: the windowed-memory protocol of the display
controller (section 6: column-range command, row-range command, memory-write
command, then pixel words of 2 bytes each).  Runs the frames from the column
range `col` and row range `row` and lists the memory writes; a range command
without exactly four argument bytes changes nothing. -/
def lcdRun (col row : Nat × Nat) : List (Nat × List Nat) → List Burst
  | [] => []
  | (c, args) :: t =>
    if c = 0x2A then lcdRun ((lcdRange args).getD col) row t
    else if c = 0x2B then lcdRun col ((lcdRange args).getD row) t
    else if c = 0x2C then
      ⟨col.1, row.1, col.2, row.2, words16 args⟩ :: lcdRun col row t
    else lcdRun col row t

/-- The offset `TFT_Set_Address` adds to column addresses. -/
def colOffset (h : TFT_HandleTypeDef) : Nat :=
  if h.display_direction = 0 ∨ h.display_direction = 2 then h.x_offset else h.y_offset

/-- The offset `TFT_Set_Address` adds to row addresses. -/
def rowOffset (h : TFT_HandleTypeDef) : Nat :=
  if h.display_direction = 0 ∨ h.display_direction = 2 then h.y_offset else h.x_offset

/-- Removes an offset from a 16-bit address. -/
def unOffset (off v : Nat) : Nat := (v + (65536 - off % 65536)) % 65536

/-- A memory write in the coordinates of the caller of `TFT_Set_Address`. -/
def toCaller (h : TFT_HandleTypeDef) (b : Burst) : Burst :=
  ⟨unOffset (colOffset h) b.x0, unOffset (rowOffset h) b.y0,
   unOffset (colOffset h) b.x1, unOffset (rowOffset h) b.y1, b.words⟩

/-- Everything written to display memory since power-on (both control lines
high, window at the origin), in caller coordinates, oldest first. -/
def TFT_Display (d : Dev) : List Burst :=
  (lcdRun (0, 0) (0, 0) (lcdFrames (wireOf 1 1 d.bus))).map (toCaller d.htft)

/-- A pixel of the display: column, row and colour. -/
structure Pixel where
  x : Nat
  y : Nat
  color : Nat
  deriving DecidableEq

/-- Modelled from the spec: the address window of the glossary, "subsequent
streamed pixel words are written row-by-row into it"; a stream longer than
the window starts again at its first row. -/
def Burst.pixels (b : Burst) : List Pixel :=
  b.words.enum.map fun iw =>
    ⟨b.x0 + iw.1 % (b.x1 + 1 - b.x0),
     b.y0 + (iw.1 / (b.x1 + 1 - b.x0)) % (b.y1 + 1 - b.y0), iw.2⟩

/-- All pixels written by a list of memory writes, in order. -/
def pixelsOf (bs : List Burst) : List Pixel := bs.flatMap Burst.pixels

/-- The memory writes a call added: those of `d1` after the first ones, which
`d0` had already made. -/
def written (d0 d1 : Dev) : List Burst :=
  (TFT_Display d1).drop (TFT_Display d0).length

/-! ## Rasterizer (`TFT_CAD.c`) -/

/-- The C structure `TFT_Point`. -/
structure TFT_Point where
  x : Nat
  y : Nat
  deriving DecidableEq

/-- A bound on the iterations of any loop over a 16-bit counter that ends at
all: such a counter returns to its first value after `2^16` steps. -/
def loopFuel : Nat := 65536

/-- `TFT_Draw_Point`. -/
def TFT_Draw_Point (d : Dev) (x y color : Nat) : Dev :=
  TFT_Write_Data16 (TFT_Set_Address d x y x y) color

/-- `TFT_Draw_MultiPoint`: the loop runs over the first `count` entries of
the array. -/
def TFT_Draw_MultiPoint (d : Dev) (points : List TFT_Point) (count color : Nat) : Dev :=
  if count = 0 then d
  else
    let d1 := TFT_Reset_Buffer d
    let d2 := (points.take count).foldl
      (fun acc p => TFT_Buffer_Write16 (TFT_Set_Address acc p.x p.y p.x p.y) color) d1
    TFT_Flush_Buffer d2 1

/-- The loop `for (i = 0; i < n; i++) TFT_Buffer_Write16(htft, color);`. -/
def streamWords (color : Nat) : Nat → Dev → Dev
  | 0, d => d
  | n + 1, d => streamWords color n (TFT_Buffer_Write16 d color)

/-- `TFT_Fill_Area`; the end coordinates are exclusive. -/
def TFT_Fill_Area (d : Dev) (x_start y_start x_end y_end color : Nat) : Dev :=
  if x_end ≤ x_start ∨ y_end ≤ y_start then d
  else
    let total_pixels := ((x_end - x_start) * (y_end - y_start)) % 4294967296
    if total_pixels = 0 then d
    else
      let d1 := TFT_Set_Address d x_start y_start ((x_end - 1) % 65536) ((y_end - 1) % 65536)
      let d2 := TFT_Reset_Buffer d1
      let d3 := streamWords color total_pixels d2
      TFT_Flush_Buffer d3 1

/-- `TFT_Draw_Fast_HLine`. -/
def TFT_Draw_Fast_HLine (d : Dev) (x y width color : Nat) : Dev :=
  if width = 0 then d
  else
    let d1 := TFT_Set_Address d x y ((x + width - 1) % 65536) y
    let d2 := TFT_Reset_Buffer d1
    let d3 := streamWords color width d2
    TFT_Flush_Buffer d3 1

/-- `TFT_Draw_Fast_VLine`. -/
def TFT_Draw_Fast_VLine (d : Dev) (x y height color : Nat) : Dev :=
  if height = 0 then d
  else
    let d1 := TFT_Set_Address d x y x ((y + height - 1) % 65536)
    let d2 := TFT_Reset_Buffer d1
    let d3 := streamWords color height d2
    TFT_Flush_Buffer d3 1

/-- The x-major loop of `TFT_Draw_Line`, `while (currentX != x2)`; the result
is the device and `currentX`, `currentY` after the loop, `none` when the fuel
is used up. -/
def lineLoopX (x2 : Nat) (deltaX deltaY stepX stepY : Int) (color : Nat) :
    Nat → Dev → Int → Int → Int → Option (Dev × Int × Int)
  | 0, _, _, _, _ => none
  | fuel + 1, d, currentX, currentY, errorTerm =>
    if currentX ≠ (x2 : Int) then
      let d1 := TFT_Draw_Point d (u16 currentX) (u16 currentY) color
      let e1 := i16 (errorTerm - deltaY)
      if e1 < 0 then
        lineLoopX x2 deltaX deltaY stepX stepY color fuel d1
          (i16 (currentX + stepX)) (i16 (currentY + stepY)) (i16 (e1 + deltaX))
      else
        lineLoopX x2 deltaX deltaY stepX stepY color fuel d1
          (i16 (currentX + stepX)) currentY e1
    else some (d, currentX, currentY)

/-- The y-major loop of `TFT_Draw_Line`, `while (currentY != y2)`. -/
def lineLoopY (y2 : Nat) (deltaX deltaY stepX stepY : Int) (color : Nat) :
    Nat → Dev → Int → Int → Int → Option (Dev × Int × Int)
  | 0, _, _, _, _ => none
  | fuel + 1, d, currentX, currentY, errorTerm =>
    if currentY ≠ (y2 : Int) then
      let d1 := TFT_Draw_Point d (u16 currentX) (u16 currentY) color
      let e1 := i16 (errorTerm - deltaX)
      if e1 < 0 then
        lineLoopY y2 deltaX deltaY stepX stepY color fuel d1
          (i16 (currentX + stepX)) (i16 (currentY + stepY)) (i16 (e1 + deltaY))
      else
        lineLoopY y2 deltaX deltaY stepX stepY color fuel d1
          currentX (i16 (currentY + stepY)) e1
    else some (d, currentX, currentY)

/-- `TFT_Draw_Line`; `none` when a Bresenham loop does not end.  C division
truncates (`Int.tdiv`). -/
def TFT_Draw_Line (d : Dev) (x1 y1 x2 y2 color : Nat) : Option Dev :=
  if y1 = y2 then
    let xa := if x1 > x2 then x2 else x1
    let xb := if x1 > x2 then x1 else x2
    some (TFT_Draw_Fast_HLine d xa y1 ((xb - xa + 1) % 65536) color)
  else if x1 = x2 then
    let ya := if y1 > y2 then y2 else y1
    let yb := if y1 > y2 then y1 else y2
    some (TFT_Draw_Fast_VLine d x1 ya ((yb - ya + 1) % 65536) color)
  else
    let deltaX := i16 (|(x2 : Int) - x1|)
    let deltaY := i16 (|(y2 : Int) - y1|)
    let stepX : Int := if x1 < x2 then 1 else -1
    let stepY : Int := if y1 < y2 then 1 else -1
    let currentX := i16 x1
    let currentY := i16 y1
    let r :=
      if deltaX > deltaY then
        lineLoopX x2 deltaX deltaY stepX stepY color loopFuel d currentX currentY
          (i16 (Int.tdiv deltaX 2))
      else
        lineLoopY y2 deltaX deltaY stepX stepY color loopFuel d currentX currentY
          (i16 (Int.tdiv deltaY 2))
    match r with
    | none => none
    | some (d1, cx, cy) =>
      some (TFT_Flush_Buffer (TFT_Draw_Point d1 (u16 cx) (u16 cy) color) 1)

/-- `TFT_Fill_Rectangle`. -/
def TFT_Fill_Rectangle (d : Dev) (x1 y1 x2 y2 color : Nat) : Dev :=
  let xa := if x1 > x2 then x2 else x1
  let xb := if x1 > x2 then x1 else x2
  let ya := if y1 > y2 then y2 else y1
  let yb := if y1 > y2 then y1 else y2
  TFT_Fill_Area d xa ya ((xb + 1) % 65536) ((yb + 1) % 65536) color

/-- The points of one step of `TFT_Draw_Circle`, the array `circlePoints`
as filled for the offsets `plotX`, `plotY`. -/
def circlePoints (x0 y0 : Nat) (plotX plotY : Int) : List TFT_Point :=
  [⟨u16 (x0 + plotX), u16 (y0 + plotY)⟩, ⟨u16 (x0 - plotX), u16 (y0 + plotY)⟩,
   ⟨u16 (x0 + plotX), u16 (y0 - plotY)⟩, ⟨u16 (x0 - plotX), u16 (y0 - plotY)⟩,
   ⟨u16 (x0 + plotY), u16 (y0 + plotX)⟩, ⟨u16 (x0 - plotY), u16 (y0 + plotX)⟩,
   ⟨u16 (x0 + plotY), u16 (y0 - plotX)⟩, ⟨u16 (x0 - plotY), u16 (y0 - plotX)⟩]

/-- The loop `while (plotX < plotY)` of `TFT_Draw_Circle`. -/
def circleLoop (x0 y0 color : Nat) : Nat → Dev → Int → Int → Int → Option Dev
  | 0, _, _, _, _ => none
  | fuel + 1, d, plotX, plotY, decisionParam =>
    if plotX < plotY then
      let px := i16 (plotX + 1)
      let py := if decisionParam < 0 then plotY else i16 (plotY - 1)
      let dp :=
        if decisionParam < 0 then i16 (decisionParam + (px * 4 + 6))
        else i16 (decisionParam + ((px - py) * 4 + 10))
      let d1 :=
        if px = py then TFT_Draw_MultiPoint d (circlePoints x0 y0 px py) 4 color
        else TFT_Draw_MultiPoint d (circlePoints x0 y0 px py) 8 color
      circleLoop x0 y0 color fuel d1 px py dp
    else some d

/-- `TFT_Draw_Circle`; `r` is a `uint8_t`. -/
def TFT_Draw_Circle (d : Dev) (x0 y0 r color : Nat) : Option Dev :=
  if r > 0 then
    let d1 := TFT_Draw_Point d x0 (u16 ((y0 : Int) + r)) color
    let d2 := TFT_Draw_Point d1 x0 (u16 ((y0 : Int) - r)) color
    let d3 := TFT_Draw_Point d2 (u16 ((x0 : Int) + r)) y0 color
    let d4 := TFT_Draw_Point d3 (u16 ((x0 : Int) - r)) y0 color
    let d5 := TFT_Flush_Buffer d4 1
    circleLoop x0 y0 color loopFuel d5 0 r (i16 (3 - 2 * (r : Int)))
  else
    some (TFT_Flush_Buffer (TFT_Draw_Point d x0 y0 color) 1)

/-- The loop `while (plotX < plotY)` of `TFT_Fill_Circle`. -/
def fillCircleLoop (x0 y0 color : Nat) : Nat → Dev → Int → Int → Int → Option Dev
  | 0, _, _, _, _ => none
  | fuel + 1, d, plotX, plotY, decisionParam =>
    if plotX < plotY then
      let px := i16 (plotX + 1)
      let d2 :=
        if decisionParam < 0 then d
        else
          TFT_Draw_Fast_HLine
            (TFT_Draw_Fast_HLine d (u16 (x0 - px)) (u16 (y0 + plotY)) (u16 (2 * px + 1)) color)
            (u16 (x0 - px)) (u16 (y0 - plotY)) (u16 (2 * px + 1)) color
      let py := if decisionParam < 0 then plotY else i16 (plotY - 1)
      let dp :=
        if decisionParam < 0 then i16 (decisionParam + (px * 4 + 6))
        else i16 (decisionParam + ((px - py) * 4 + 10))
      let d3 := TFT_Draw_Fast_HLine d2 (u16 (x0 - py)) (u16 (y0 + px)) (u16 (2 * py + 1)) color
      let d4 := TFT_Draw_Fast_HLine d3 (u16 (x0 - py)) (u16 (y0 - px)) (u16 (2 * py + 1)) color
      fillCircleLoop x0 y0 color fuel d4 px py dp
    else some d

/-- `TFT_Fill_Circle`; `r` is a `uint8_t`. -/
def TFT_Fill_Circle (d : Dev) (x0 y0 r color : Nat) : Option Dev :=
  if r = 0 then
    some (TFT_Flush_Buffer (TFT_Draw_Point d x0 y0 color) 1)
  else
    let d1 := TFT_Draw_Fast_HLine d (u16 ((x0 : Int) - r)) y0 (u16 (2 * (r : Int) + 1)) color
    fillCircleLoop x0 y0 color loopFuel d1 0 r (i16 (3 - 2 * (r : Int)))

/-- The loop `for (currentY = y1; currentY <= lastY; currentY++)` of
`TFT_Fill_Triangle` (upper part); the result is the device, `currentY` and the
two accumulators after the loop.  C leaves a division by zero undefined; here
it yields 0. -/
def triangleLoopTop (x1 : Nat) (deltaX1 deltaY1 deltaX2 deltaY2 lastY : Int) (color : Nat) :
    Nat → Dev → Int → Int → Int → Option (Dev × Int × Int × Int)
  | 0, _, _, _, _ => none
  | fuel + 1, d, currentY, edge1Accumulator, edge2Accumulator =>
    if currentY ≤ lastY then
      let s := i16 (x1 + Int.tdiv edge1Accumulator deltaY1)
      let e := i16 (x1 + Int.tdiv edge2Accumulator deltaY2)
      let a1 := i32 (edge1Accumulator + deltaX1)
      let a2 := i32 (edge2Accumulator + deltaX2)
      let scanlineStartX := if s > e then e else s
      let scanlineEndX := if s > e then s else e
      let d1 := TFT_Draw_Fast_HLine d (u16 scanlineStartX) (u16 currentY)
        (u16 (scanlineEndX - scanlineStartX + 1)) color
      triangleLoopTop x1 deltaX1 deltaY1 deltaX2 deltaY2 lastY color fuel d1
        (i16 (currentY + 1)) a1 a2
    else some (d, currentY, edge1Accumulator, edge2Accumulator)

/-- The loop `for (; currentY <= lastY; currentY++)` of `TFT_Fill_Triangle`
(lower part). -/
def triangleLoopBottom (x1 x2 : Nat) (deltaX3 deltaY3 deltaX2 deltaY2 lastY : Int)
    (color : Nat) : Nat → Dev → Int → Int → Int → Option Dev
  | 0, _, _, _, _ => none
  | fuel + 1, d, currentY, edge1Accumulator, edge2Accumulator =>
    if currentY ≤ lastY then
      let s := i16 (x2 + Int.tdiv edge1Accumulator deltaY3)
      let e := i16 (x1 + Int.tdiv edge2Accumulator deltaY2)
      let a1 := i32 (edge1Accumulator + deltaX3)
      let a2 := i32 (edge2Accumulator + deltaX2)
      let scanlineStartX := if s > e then e else s
      let scanlineEndX := if s > e then s else e
      let d1 := TFT_Draw_Fast_HLine d (u16 scanlineStartX) (u16 currentY)
        (u16 (scanlineEndX - scanlineStartX + 1)) color
      triangleLoopBottom x1 x2 deltaX3 deltaY3 deltaX2 deltaY2 lastY color fuel d1
        (i16 (currentY + 1)) a1 a2
    else some d

/-- `TFT_Fill_Triangle`.  The C variable `currentY` is declared without a
value and first assigned by the loop of the upper part; `currentY0` is what it
holds before that.  `none` when a loop does not end. -/
def TFT_Fill_Triangle (d : Dev) (x1 y1 x2 y2 x3 y3 color : Nat) (currentY0 : Int) :
    Option Dev :=
  -- 1. sort the vertices by y
  let ax := if y1 > y2 then x2 else x1
  let ay := if y1 > y2 then y2 else y1
  let bx := if y1 > y2 then x1 else x2
  let bY := if y1 > y2 then y1 else y2
  let mx := if bY > y3 then x3 else bx
  let my := if bY > y3 then y3 else bY
  let cx := if bY > y3 then bx else x3
  let cy := if bY > y3 then bY else y3
  let px := if ay > my then mx else ax
  let py := if ay > my then my else ay
  let qx := if ay > my then ax else mx
  let qy := if ay > my then ay else my
  -- from here on the vertices are (px, py), (qx, qy), (cx, cy)
  if py = cy then
    let s0 := i16 px
    let e0 := i16 px
    let s1 := if (qx : Int) < s0 then i16 qx else s0
    let e1 := if (qx : Int) < s0 then e0 else if (qx : Int) > e0 then i16 qx else e0
    let s2 := if (cx : Int) < s1 then i16 cx else s1
    let e2 := if (cx : Int) < s1 then e1 else if (cx : Int) > e1 then i16 cx else e1
    some (TFT_Draw_Fast_HLine d (u16 s2) py (u16 (e2 - s2 + 1)) color)
  else
    let deltaX1 := i16 ((qx : Int) - px)
    let deltaY1 := i16 ((qy : Int) - py)
    let deltaX2 := i16 ((cx : Int) - px)
    let deltaY2 := i16 ((cy : Int) - py)
    let deltaX3 := i16 ((cx : Int) - qx)
    let deltaY3 := i16 ((cy : Int) - qy)
    let top :=
      if py ≠ qy then
        triangleLoopTop px deltaX1 deltaY1 deltaX2 deltaY2 (i16 ((qy : Int) - 1)) color
          loopFuel d (i16 py) 0 0
      else some (d, currentY0, 0, 0)
    match top with
    | none => none
    | some (d1, currentY, _, edge2Accumulator) =>
      let edge1Accumulator := i32 (deltaX3 * (currentY - qy))
      if qy ≠ cy then
        triangleLoopBottom px qx deltaX3 deltaY3 deltaX2 deltaY2 (i16 cy) color
          loopFuel d1 currentY edge1Accumulator edge2Accumulator
      else some d1

/-! ## Vocabulary of the proofs -/

/-- The events `t` deliver the byte stream `w` whatever the line levels before. -/
def Delivers (t : List HwEvent) (w : List Wire) : Prop :=
  ∀ dc cs, wireOf dc cs t = w

/-- Going from `d` to `d1` appends events that deliver `w`. -/
def Sends (d d1 : Dev) (w : List Wire) : Prop :=
  ∃ t, d1.bus = d.bus ++ t ∧ Delivers t w

/-- The bytes that select the window of `b` and stream its words, for a
device whose column and row offsets are `co` and `ro`. -/
def burstWire (co ro : Nat) (b : Burst) : List Wire :=
  Wire.cmd 0x2A :: ((be16 ((b.x0 + co) % 65536) ++ be16 ((b.x1 + co) % 65536)).map Wire.dat ++
    (Wire.cmd 0x2B :: ((be16 ((b.y0 + ro) % 65536) ++ be16 ((b.y1 + ro) % 65536)).map Wire.dat ++
      (Wire.cmd 0x2C :: (b.words.flatMap be16).map Wire.dat))))

/-- All coordinates and words of a memory write are 16-bit values. -/
def Burst.ok (b : Burst) : Prop :=
  b.x0 < 65536 ∧ b.y0 < 65536 ∧ b.x1 < 65536 ∧ b.y1 < 65536 ∧ ∀ w ∈ b.words, w < 65536

/-- A device as `TFT_IO_Init` and every drawing primitive leave it: transport
bound, staging buffer allocated with `buffer_size` bytes (at least one pixel
word, a `uint16_t` size), nothing staged. -/
def Ready (h : TFT_HandleTypeDef) : Prop :=
  h.spi_handle ≠ none ∧ h.tx_buffer.map List.length = some h.buffer_size ∧
    2 ≤ h.buffer_size ∧ h.buffer_size < 65536 ∧ h.buffer_write_index = 0

instance (h : TFT_HandleTypeDef) : Decidable (Ready h) := by
  unfold Ready; infer_instance

/-- The handles agree on everything but the busy flag. -/
def FlagOnly (h h1 : TFT_HandleTypeDef) : Prop :=
  h1.spi_handle = h.spi_handle ∧ h1.tx_buffer = h.tx_buffer ∧
    h1.buffer_size = h.buffer_size ∧ h1.buffer_write_index = h.buffer_write_index ∧
    h1.is_dma_enabled = h.is_dma_enabled ∧ h1.display_direction = h.display_direction ∧
    h1.x_offset = h.x_offset ∧ h1.y_offset = h.y_offset

/-- The handles agree on the fields fixed at bring-up. -/
def SameConfig (h h1 : TFT_HandleTypeDef) : Prop :=
  h1.spi_handle = h.spi_handle ∧ h1.buffer_size = h.buffer_size ∧
    h1.is_dma_enabled = h.is_dma_enabled ∧ h1.display_direction = h.display_direction ∧
    h1.x_offset = h.x_offset ∧ h1.y_offset = h.y_offset

/-- The bytes of `m` pixel words of colour `c`. -/
def pattern (m c : Nat) : List Nat := (List.replicate m c).flatMap be16

/-- The staging buffer holds exactly `m` words of colour `c`. -/
def Staged (h : TFT_HandleTypeDef) (m c : Nat) : Prop :=
  h.spi_handle ≠ none ∧ 2 ≤ h.buffer_size ∧ h.buffer_size < 65536 ∧
    h.buffer_write_index = 2 * m ∧ 2 * m ≤ h.buffer_size ∧
    ∃ buf, h.tx_buffer = some buf ∧ buf.length = h.buffer_size ∧ buf.take (2 * m) = pattern m c

/-- The bytes by which `TFT_Set_Address` selects a window. -/
def addressWire (co ro x0 y0 x1 y1 : Nat) : List Wire :=
  Wire.cmd 0x2A :: ((be16 ((x0 + co) % 65536) ++ be16 ((x1 + co) % 65536)).map Wire.dat ++
    (Wire.cmd 0x2B :: ((be16 ((y0 + ro) % 65536) ++ be16 ((y1 + ro) % 65536)).map Wire.dat ++
      [Wire.cmd 0x2C])))

/-- Going from `d` to `d1` the display receives exactly the memory writes
`bs`, the configuration is kept and `d1` is ready for the next primitive. -/
def Emits (d d1 : Dev) (bs : List Burst) : Prop :=
  Ready d1.htft ∧ SameConfig d.htft d1.htft ∧
    Sends d d1 (bs.flatMap (burstWire (colOffset d.htft) (rowOffset d.htft)))

/-- Going from `d` to `d1` changes at most the busy flag and delivers `w`. -/
def Step (d d1 : Dev) (w : List Wire) : Prop :=
  FlagOnly d.htft d1.htft ∧ Sends d d1 w

/-- The number of pixels of the window of a memory write. -/
def Burst.area (b : Burst) : Nat := (b.x1 + 1 - b.x0) * (b.y1 + 1 - b.y0)

/-- A device for the concrete scenarios: transport 0, an 8-byte staging
buffer, DMA in use, orientation 3, offsets 2 and 1. -/
def demoDev : Dev :=
  ⟨⟨some 0, some (List.replicate 8 0), 8, 0, 1, 0, 3, 2, 1⟩, []⟩

/-- The memory write of a single point: a 1x1 window and one word. -/
def pointBurst (c : Nat) (p : Nat × Nat) : Burst := ⟨p.1, p.2, p.1, p.2, [c]⟩

/-- One step of a rasterized line from `p` to `q`: the major-axis coordinate
moves by exactly one in its direction (`sx` or `sy`), the minor-axis
coordinate stays or moves by one in its direction. -/
def LineStep (sx sy : Int) (xMajor : Bool) (p q : Nat × Nat) : Prop :=
  if xMajor then
    (q.1 : Int) = p.1 + sx ∧ ((q.2 : Int) = p.2 ∨ (q.2 : Int) = p.2 + sy)
  else
    (q.2 : Int) = p.2 + sy ∧ ((q.1 : Int) = p.1 ∨ (q.1 : Int) = p.1 + sx)

/-- One pass of the loop `while (plotX < plotY)` shared by `TFT_Draw_Circle`
and `TFT_Fill_Circle`: `plotX` and `plotY` after the pass, `plotY` before it,
and whether the pass took the south-east branch (`decisionParam >= 0`). -/
structure CircleStep where
  x : Int
  y : Int
  yOld : Int
  se : Bool
  deriving DecidableEq

/-- The passes of the loop `while (plotX < plotY)` from the given `plotX`,
`plotY` and `decisionParam`, in order. -/
def circleSteps : Nat → Int → Int → Int → List CircleStep
  | 0, _, _, _ => []
  | fuel + 1, plotX, plotY, decisionParam =>
    if plotX < plotY then
      let px := i16 (plotX + 1)
      let py := if decisionParam < 0 then plotY else i16 (plotY - 1)
      let dp :=
        if decisionParam < 0 then i16 (decisionParam + (px * 4 + 6))
        else i16 (decisionParam + ((px - py) * 4 + 10))
      ⟨px, py, plotY, decide (¬ decisionParam < 0)⟩ :: circleSteps fuel px py dp
    else []

/-- The memory writes of one pass of `TFT_Draw_Circle`. -/
def drawStepBursts (x0 y0 c : Nat) (s : CircleStep) : List Burst :=
  ((circlePoints x0 y0 s.x s.y).take (if s.x = s.y then 4 else 8)).map
    (fun p => pointBurst c (p.x, p.y))

/-- The memory write of `TFT_Draw_Fast_HLine` called with the `int` arguments
`x`, `y`, `w`. -/
def spanBurst (c : Nat) (x y w : Int) : Burst :=
  ⟨u16 x, u16 y, (u16 x + u16 w - 1) % 65536, u16 y, List.replicate (u16 w) c⟩

/-- The memory writes of one pass of `TFT_Fill_Circle`. -/
def fillStepBursts (x0 y0 c : Nat) (s : CircleStep) : List Burst :=
  (if s.se then
    [spanBurst c (x0 - s.x) (y0 + s.yOld) (2 * s.x + 1),
     spanBurst c (x0 - s.x) (y0 - s.yOld) (2 * s.x + 1)]
   else []) ++
  [spanBurst c (x0 - s.y) (y0 + s.x) (2 * s.y + 1),
   spanBurst c (x0 - s.y) (y0 - s.x) (2 * s.y + 1)]


/-- The offsets from the centre of the points of one pass of
`TFT_Draw_Circle`: 4 when the pass ends on the diagonal, else 8. -/
def stepOffsets (s : CircleStep) : List (Int × Int) :=
  [(s.x, s.y), (-s.x, s.y), (s.x, -s.y), (-s.x, -s.y),
   (s.y, s.x), (-s.y, s.x), (s.y, -s.x), (-s.y, -s.x)].take (if s.x = s.y then 4 else 8)

/-- The offsets from the centre of all points of `TFT_Draw_Circle` for the
radius `r`, in the order they are drawn. -/
def drawCircleOffsets (r : Nat) : List (Int × Int) :=
  if r > 0 then
    [(0, (r : Int)), (0, -(r : Int)), ((r : Int), 0), (-(r : Int), 0)] ++
      (circleSteps loopFuel 0 r (i16 (3 - 2 * (r : Int)))).flatMap stepOffsets
  else [(0, 0)]

/-- The offsets from `(x0, y0)` of a list of pixels. -/
def offsetsOf (x0 y0 : Nat) (ps : List Pixel) : List (Int × Int) :=
  ps.map fun p => ((p.x : Int) - x0, (p.y : Int) - y0)

/-- A set of offsets is closed under the 8 octant reflections. -/
def OctantClosed (s : List (Int × Int)) : Prop :=
  ∀ a b, (a, b) ∈ s →
    (-a, b) ∈ s ∧ (a, -b) ∈ s ∧ (-a, -b) ∈ s ∧
      (b, a) ∈ s ∧ (-b, a) ∈ s ∧ (b, -a) ∈ s ∧ (-b, -a) ∈ s

/-- The squared distance of a pixel from `(x0, y0)`. -/
def sqDist (x0 y0 : Nat) (p : Pixel) : Nat :=
  Int.natAbs ((p.x : Int) - x0) ^ 2 + Int.natAbs ((p.y : Int) - y0) ^ 2

/-- The square root of `n` rounded to the nearest integer:
`floor (sqrt n + 1/2) = floor ((sqrt (4 n) + 1) / 2)`. -/
def roundSqrt (n : Nat) : Nat := (Nat.sqrt (4 * n) + 1) / 2

/-- The point written for the offset `o` from the centre `(x0, y0)`. -/
def offsetBurst (x0 y0 c : Nat) (o : Int × Int) : Burst :=
  pointBurst c (u16 (x0 + o.1), u16 (y0 + o.2))

/-- The horizontal spans of one pass of `TFT_Fill_Circle`, each as the row
offset from the centre and the half width: the narrow pair on the old rows
`±yOld` (south-east branch only), then the wide pair on the rows `±x`. -/
def stepSpans (s : CircleStep) : List (Int × Int) :=
  (if s.se then [(s.yOld, s.x), (-s.yOld, s.x)] else []) ++ [(s.x, s.y), (-s.x, s.y)]

/-- All spans of `TFT_Fill_Circle` for a radius `r > 0`, in the order they
are drawn: the centre row, then the spans of every pass. -/
def fillCircleSpans (r : Nat) : List (Int × Int) :=
  (0, (r : Int)) :: (circleSteps loopFuel 0 r (i16 (3 - 2 * (r : Int)))).flatMap stepSpans

/-- The offset `o` lies on one of the spans (row offset, half width). -/
def Covered (spans : List (Int × Int)) (o : Int × Int) : Prop :=
  ∃ f ∈ spans, f.1 = o.2 ∧ -f.2 ≤ o.1 ∧ o.1 ≤ f.2

/-- The memory write of the span `f` (row offset, half width) around the
centre `(x0, y0)`. -/
def spanOf (x0 y0 c : Nat) (f : Int × Int) : Burst :=
  spanBurst c (x0 - f.2) (y0 + f.1) (2 * f.2 + 1)

/-! ## Transport: vocabulary of the claims on `TFT_SPI_Send` -/

/-- `TFT_Write_Data8`. -/
def TFT_Write_Data8 (d : Dev) (data : Nat) : Dev :=
  if d.htft.spi_handle = none then d
  else
    let d1 := TFT_Wait_DMA_Transfer_Complete d
    let d2 := TFT_Pin_DC_Set d1 1
    let d3 := TFT_Pin_CS_Set d2 0
    let d4 := TFT_Platform_SPI_Transmit_Blocking d3 [data]
    TFT_Pin_CS_Set d4 1

/-- The level last written to chip-select, if any. -/
def lastCS : List HwEvent → Option Nat
  | [] => none
  | HwEvent.CS l :: t => (lastCS t).orElse (fun _ => some l)
  | _ :: t => lastCS t

/-- The levels written to chip-select, in order. -/
def csWrites : List HwEvent → List Nat
  | [] => []
  | HwEvent.CS l :: t => l :: csWrites t
  | _ :: t => csWrites t

/-- Whether a DMA transfer is in flight after the events `t`, given whether
one was in flight before them.  A transfer started by
`TFT_Platform_SPI_Transmit_DMA_Start` is in flight until chip-select is
released: after a DMA start the first release is the one made by
`HAL_SPI_TxCpltCallback`. -/
def inFlightAfter (f : Bool) : List HwEvent → Bool
  | [] => f
  | HwEvent.dma _ :: t => inFlightAfter true t
  | HwEvent.CS l :: t => inFlightAfter (f && decide (l = 0)) t
  | HwEvent.DC _ :: t => inFlightAfter f t
  | HwEvent.tx _ :: t => inFlightAfter f t

/-- Every transmission of `t`, blocking or DMA, is started while no DMA
transfer is in flight (`f`: whether one is in flight before `t`). -/
def startsIdle (f : Bool) : List HwEvent → Bool
  | [] => true
  | HwEvent.dma _ :: t => !f && startsIdle true t
  | HwEvent.tx _ :: t => !f && startsIdle f t
  | HwEvent.CS l :: t => startsIdle (f && decide (l = 0)) t
  | HwEvent.DC _ :: t => startsIdle f t

/-- The busy flag of the handle tells whether a transfer is in flight on the
lines: it is set when a DMA transfer is started and cleared by its completion
callback, and has no other writer. -/
def FlagTracksBus (d : Dev) : Prop :=
  (d.htft.is_dma_transfer_active ≠ 0) ↔ inFlightAfter false d.bus = true

/-- The operations of the transport that transmit: `TFT_SPI_Send`,
`TFT_Write_Data8` and `TFT_Write_Data16`. -/
inductive TransferOp where
  | send (data_buffer : Option (List Nat)) (length wait_completion : Nat)
  | data8 (data : Nat)
  | data16 (data : Nat)

/-- Runs one operation of the transport. -/
def TransferOp.run (d : Dev) : TransferOp → Dev
  | TransferOp.send b n w => TFT_SPI_Send d b n w
  | TransferOp.data8 v => TFT_Write_Data8 d v
  | TransferOp.data16 v => TFT_Write_Data16 d v

/-! ## Bring-up and the operations on the staging buffer -/

/-- `TFT_Init_Instance`, with the defaults of `TFT_config.h`:
`TFT_BUFFER_SIZE` 4096, `DISPLAY_DIRECTION` 3, `TFT_X_OFFSET` 2 and
`TFT_Y_OFFSET` 1 (the chip-select port and pin are not part of the model). -/
def TFT_Init_Instance (h : TFT_HandleTypeDef) (hspi : Option Nat) : TFT_HandleTypeDef :=
  { h with
    spi_handle := hspi
    buffer_size := 4096
    buffer_write_index := 0
    tx_buffer := none
    display_direction := 3
    x_offset := 2
    y_offset := 1 }

/-- `TFT_IO_Init`.  `block` is what `malloc(buffer_size)` returns, `none` for
`NULL`; `hdmatx` tells whether the transport has a DMA transmit channel.  The
registration of the device for the completion callback is not part of the
handle. -/
def TFT_IO_Init (h : TFT_HandleTypeDef) (block : Option (List Nat)) (hdmatx : Bool) :
    TFT_HandleTypeDef :=
  if h.spi_handle = none then h
  else
    let h1 := if h.tx_buffer = none then { h with tx_buffer := block } else h
    if h1.tx_buffer = none then h1
    else
      { h1 with
        buffer_write_index := 0
        is_dma_enabled := if hdmatx then 1 else 0
        is_dma_transfer_active := 0 }

/-- The operations that read or move the cursor of the staging buffer. -/
inductive BufferOp where
  | write16 (data : Nat)
  | flush (wait_completion : Nat)
  | reset
  | command (command : Nat)
  | address (x_start y_start x_end y_end : Nat)

/-- Runs one operation on the staging buffer. -/
def BufferOp.run (d : Dev) : BufferOp → Dev
  | BufferOp.write16 v => TFT_Buffer_Write16 d v
  | BufferOp.flush w => TFT_Flush_Buffer d w
  | BufferOp.reset => TFT_Reset_Buffer d
  | BufferOp.command c => TFT_Write_Command d c
  | BufferOp.address x0 y0 x1 y1 => TFT_Set_Address d x0 y0 x1 y1

/-- The events a call added to the bus. -/
def busSince (d0 d1 : Dev) : List HwEvent := d1.bus.drop d0.bus.length

/-- The arguments of the first frame with command `c`. -/
def frameArgs (c : Nat) : List (Nat × List Nat) → Option (List Nat)
  | [] => none
  | (c1, args) :: t => if c1 = c then some args else frameArgs c t

/-- The address range set by the first frame with the range command `c` among
the frames a call sent. -/
def rangeSent (c : Nat) (d0 d1 : Dev) : Option (Nat × Nat) :=
  (frameArgs c (lcdFrames (wireOf 1 1 (busSince d0 d1)))).bind lcdRange

/-! ## Polygon fill (`TFT_CAD.c`) -/

/-- The array element `points[i]`; a read past the end of the array, which C
leaves undefined, yields the point (0, 0). -/
def pointAt (points : List TFT_Point) (i : Nat) : TFT_Point := points.getD i ⟨0, 0⟩

/-- The first loop of `TFT_Fill_Polygon`: `minY` and `maxY`, both `int16_t`,
compared with the `uint16_t` coordinates as `int`. -/
def polygonBounds (points : List TFT_Point) (numPoints : Nat) : Int × Int :=
  (List.range' 1 (numPoints - 1)).foldl
    (fun (mm : Int × Int) i =>
      let py : Int := (pointAt points i).y
      (if py < mm.1 then i16 py else mm.1, if py > mm.2 then i16 py else mm.2))
    (i16 (pointAt points 0).y, i16 (pointAt points 0).y)

/-- The body of the edge loop of `TFT_Fill_Polygon` for the edge from vertex
`i` to vertex `(i + 1) % numPoints` and the scanline `y`: the `int32_t` value
`x` when the edge passes the crossing test, `none` when it does not.  C
division truncates (`Int.tdiv`). -/
def polygonEdge (points : List TFT_Point) (numPoints : Nat) (y : Int) (i : Nat) : Option Int :=
  let j := (i + 1) % numPoints
  let y1 := i16 (pointAt points i).y
  let y2 := i16 (pointAt points j).y
  if (y1 ≤ y ∧ y2 > y) ∨ (y2 ≤ y ∧ y1 > y) then
    let x1 := i16 (pointAt points i).x
    let x2 := i16 (pointAt points j).x
    if y1 = y2 then some (i32 (Int.tdiv (x1 + x2) 2))
    else some (i32 (x1 + Int.tdiv (i32 ((y - y1) * (x2 - x1))) (y2 - y1)))
  else none

/-- The edge loop of `TFT_Fill_Polygon` for the scanline `y`: the entries
`intersections[0 .. intersectCount - 1]`, at most 128, each stored as
`int16_t`. -/
def polygonScan (points : List TFT_Point) (numPoints : Nat) (y : Int) : List Int :=
  (List.range numPoints).foldl
    (fun acc i =>
      match polygonEdge points numPoints y i with
      | some x => if acc.length < 128 then acc ++ [i16 x] else acc
      | none => acc)
    []

/-- The inner loop of the insertion sort,
`while (j > 0 && a[j - 1] > temp) { a[j] = a[j - 1]; j--; } a[j] = temp;`,
entered with the given `j`. -/
def insertLoop (a : List Int) (temp : Int) : Nat → List Int
  | 0 => a.set 0 temp
  | j + 1 =>
    if a.getD j 0 > temp then insertLoop (a.set (j + 1) (a.getD j 0)) temp j
    else a.set (j + 1) temp

/-- The insertion sort of `TFT_Fill_Polygon` on the stored intersections:
`for (i = 1; i < intersectCount; i++)`. -/
def polygonSort (a : List Int) : List Int :=
  (List.range' 1 (a.length - 1)).foldl (fun b i => insertLoop b (b.getD i 0) i) a

/-- The pairing loop of `TFT_Fill_Polygon`,
`for (i = 0; i < intersectCount; i += 2) if (i + 1 < intersectCount) ...`,
on the sorted intersections `a` of the scanline `y`. -/
def polygonSpans (d : Dev) (a : List Int) (y : Int) (color : Nat) : Dev :=
  ((List.range ((a.length + 1) / 2)).map (2 * ·)).foldl
    (fun acc i =>
      if i + 1 < a.length then
        TFT_Draw_Fast_HLine acc (u16 (a.getD i 0)) (u16 y)
          (u16 (a.getD (i + 1) 0 - a.getD i 0 + 1)) color
      else acc)
    d

/-- The scanline loop of `TFT_Fill_Polygon`,
`for (int16_t y = minY; y <= maxY; y++)`; `none` when the fuel is used up. -/
def polygonRows (points : List TFT_Point) (numPoints color : Nat) (maxY : Int) :
    Nat → Dev → Int → Option Dev
  | 0, _, _ => none
  | fuel + 1, d, y =>
    if y ≤ maxY then
      polygonRows points numPoints color maxY fuel
        (polygonSpans d (polygonSort (polygonScan points numPoints y)) y color) (i16 (y + 1))
    else some d

/-- `TFT_Fill_Polygon`; `points` is `none` for `NULL`.  `none` when the
scanline loop does not end. -/
def TFT_Fill_Polygon (d : Dev) (points : Option (List TFT_Point)) (numPoints color : Nat) :
    Option Dev :=
  match points with
  | none => some d
  | some pts =>
    if numPoints < 3 then some d
    else
      let mm := polygonBounds pts numPoints
      if mm.1 ≥ mm.2 then some d
      else polygonRows pts numPoints color mm.2 loopFuel d mm.1
/-! ## Convex polygons -/

/-- Twice the signed area of the triangle `a`, `b`, `p`: positive when `p`
lies on one side of the line from `a` to `b`, negative on the other, zero on
the line. -/
def cross (a b p : TFT_Point) : Int :=
  ((b.x : Int) - a.x) * ((p.y : Int) - a.y) - ((b.y : Int) - a.y) * ((p.x : Int) - a.x)

/-- A vertex cycle is strictly convex: seen from every edge, all vertices
other than the two ends of the edge lie strictly on the same side, and that
side is the same for all edges. -/
def StrictlyConvex (pts : List TFT_Point) : Prop :=
  (∀ i, i < pts.length → ∀ k, k < pts.length → k ≠ i → k ≠ (i + 1) % pts.length →
      0 < cross (pointAt pts i) (pointAt pts ((i + 1) % pts.length)) (pointAt pts k)) ∨
    (∀ i, i < pts.length → ∀ k, k < pts.length → k ≠ i → k ≠ (i + 1) % pts.length →
      cross (pointAt pts i) (pointAt pts ((i + 1) % pts.length)) (pointAt pts k) < 0)

instance (pts : List TFT_Point) : Decidable (StrictlyConvex pts) := by
  unfold StrictlyConvex; infer_instance

/-- The scalar product of `b - a` and `p - a`: for `p` on the line through
`a` and `b` it is positive exactly when `p` lies on the side of `a` where `b`
is. -/
def dot (a b p : TFT_Point) : Int :=
  ((b.x : Int) - a.x) * ((p.x : Int) - a.x) + ((b.y : Int) - a.y) * ((p.y : Int) - a.y)

/-- Seen from every edge of the vertex cycle, every vertex lies on the line of
the edge or on one side of it, and that side is the same for all edges. -/
def SameSide (pts : List TFT_Point) : Prop :=
  (∀ i, i < pts.length → ∀ k, k < pts.length →
      0 ≤ cross (pointAt pts i) (pointAt pts ((i + 1) % pts.length)) (pointAt pts k)) ∨
    (∀ i, i < pts.length → ∀ k, k < pts.length →
      cross (pointAt pts i) (pointAt pts ((i + 1) % pts.length)) (pointAt pts k) ≤ 0)

instance (pts : List TFT_Point) : Decidable (SameSide pts) := by
  unfold SameSide; infer_instance

/-- No vertex lies on an edge of the cycle strictly between the two ends of
the edge. -/
def EdgesClear (pts : List TFT_Point) : Prop :=
  ∀ i, i < pts.length → ∀ k, k < pts.length →
    cross (pointAt pts i) (pointAt pts ((i + 1) % pts.length)) (pointAt pts k) = 0 →
    ¬ (0 < dot (pointAt pts i) (pointAt pts ((i + 1) % pts.length)) (pointAt pts k) ∧
      0 < dot (pointAt pts ((i + 1) % pts.length)) (pointAt pts i) (pointAt pts k))

instance (pts : List TFT_Point) : Decidable (EdgesClear pts) := by
  unfold EdgesClear; infer_instance

/-- The vertices `i < k` are joined, one way round the cycle or the other, by
vertices equal to vertex `i`. -/
def Joined (pts : List TFT_Point) (i k : Nat) : Prop :=
  (∀ j, j < k → i < j → pointAt pts j = pointAt pts i) ∨
    (∀ j, j < pts.length → j < i ∨ k < j → pointAt pts j = pointAt pts i)

instance (pts : List TFT_Point) (i k : Nat) : Decidable (Joined pts i k) := by
  unfold Joined; infer_instance

/-- The cycle comes to no point twice: two equal vertices are joined, one way
round the cycle or the other, by vertices equal to them. -/
def OnceRound (pts : List TFT_Point) : Prop :=
  ∀ k, k < pts.length → ∀ i, i < k → pointAt pts i = pointAt pts k → Joined pts i k

instance (pts : List TFT_Point) : Decidable (OnceRound pts) := by
  unfold OnceRound; infer_instance

/-- A vertex cycle is a convex polygon; vertices on a side and vertices given
several times in a row are allowed. -/
def ConvexCycle (pts : List TFT_Point) : Prop :=
  SameSide pts ∧ EdgesClear pts ∧ OnceRound pts

instance (pts : List TFT_Point) : Decidable (ConvexCycle pts) := by
  unfold ConvexCycle; infer_instance

/-- The edge from vertex `i` to the next vertex passes the crossing test of
`TFT_Fill_Polygon` at the scanline `y` (coordinates read as `int`). -/
def Crosses (pts : List TFT_Point) (y : Int) (i : Nat) : Prop :=
  (((pointAt pts i).y : Int) ≤ y ∧ y < (pointAt pts ((i + 1) % pts.length)).y) ∨
    (((pointAt pts ((i + 1) % pts.length)).y : Int) ≤ y ∧ y < (pointAt pts i).y)
/-- The memory write of the span between the first two entries of the sorted
intersections `a` on row `y`. -/
def rowSpan (c y : Nat) (a : List Int) : Burst :=
  spanBurst c (a.getD 0 0) y (a.getD 1 0 - a.getD 0 0 + 1)

/-- A triangle for the concrete scenarios. -/
def demoTriangle : List TFT_Point := [⟨5, 1⟩, ⟨9, 4⟩, ⟨2, 6⟩]

/-- A triangle with a vertex on the last row an `int16_t` can hold. -/
def tallTriangle : List TFT_Point := [⟨0, 0⟩, ⟨4, 32767⟩, ⟨8, 0⟩]

/-- A rectangle with a vertex in the middle of one side and one corner given
twice. -/
def demoSquare : List TFT_Point := [⟨2, 1⟩, ⟨5, 1⟩, ⟨8, 1⟩, ⟨8, 5⟩, ⟨8, 5⟩, ⟨2, 5⟩]

/-! ## Polygon fill: vocabulary of the claims on the intersection list -/

/-- The consecutive pairs (0,1), (2,3), ... of a list; a last entry without
partner is left out. -/
def pairsOf : List Int → List (Int × Int)
  | p :: q :: t => (p, q) :: pairsOf t
  | _ => []

/-- The values the edge loop finds for the scanline `y`, one for each edge
that passes the crossing test, in edge order, as they would be stored. -/
def polygonFound (points : List TFT_Point) (numPoints : Nat) (y : Int) : List Int :=
  (List.range numPoints).filterMap fun i => (polygonEdge points numPoints y i).map i16

/-- The entries stored by the edge loop of `TFT_Fill_Polygon` once the edges
`0 .. k - 1` have been examined (the loop of `polygonScan` stopped at `k`). -/
def scanPrefix (points : List TFT_Point) (numPoints : Nat) (y : Int) (k : Nat) : List Int :=
  (List.range k).foldl
    (fun acc i =>
      match polygonEdge points numPoints y i with
      | some x => if acc.length < 128 then acc ++ [i16 x] else acc
      | none => acc)
    []
/-! ## Colour packing, the device registry, polygon outline -/

/-- `TFT_RGB`: `((r & 0xF8) << 8) | ((g & 0xFC) << 3) | (b >> 3)`, returned as
`uint16_t`. -/
def TFT_RGB (r g b : Nat) : Nat :=
  ((((r &&& 0xF8) <<< 8) ||| ((g &&& 0xFC) <<< 3)) ||| (b >>> 3)) % 65536

/-- An entry of the array `g_tft_handles`: the address of a device handle and
the `spi_handle` stored in it. -/
structure RegEntry where
  device : Nat
  spi_handle : Option Nat
  deriving DecidableEq

/-- The loop of `TFT_Register_Device` from the index `i`, with `n` slots still
to look at: the first slot that is `NULL` or holds a device with the same
`spi_handle` takes the new device, and the loop ends there. -/
def registerLoop (htft : RegEntry) : Nat → Nat → List (Option RegEntry) → List (Option RegEntry)
  | 0, _, g => g
  | n + 1, i, g =>
    if g.getD i none = none ∨ (g.getD i none).map RegEntry.spi_handle = some htft.spi_handle then
      g.set i (some htft)
    else registerLoop htft n (i + 1) g

/-- `TFT_Register_Device` on the array `g_tft_handles` of `MAX_TFT_DEVICES`
= 4 slots. -/
def TFT_Register_Device (g : List (Option RegEntry)) (htft : RegEntry) :
    List (Option RegEntry) :=
  registerLoop htft 4 0 g

/-- `TFT_Draw_Polygon`; `points` is `none` for `NULL`.  `none` when a line
does not end. -/
def TFT_Draw_Polygon (d : Dev) (points : Option (List TFT_Point)) (numPoints color : Nat) :
    Option Dev :=
  match points with
  | none => some d
  | some pts =>
    if numPoints < 3 then some d
    else
      let r := (List.range (numPoints - 1)).foldl
        (fun acc i =>
          acc.bind fun d1 =>
            TFT_Draw_Line d1 (pointAt pts i).x (pointAt pts i).y
              (pointAt pts (i + 1)).x (pointAt pts (i + 1)).y color)
        (some d)
      r.bind fun d1 =>
        TFT_Draw_Line d1 (pointAt pts (numPoints - 1)).x (pointAt pts (numPoints - 1)).y
          (pointAt pts 0).x (pointAt pts 0).y color

/-- Draws the lines of a list one after the other, each with `TFT_Draw_Line`. -/
def drawLines (color : Nat) : Dev → List (TFT_Point × TFT_Point) → Option Dev
  | d, [] => some d
  | d, (p, q) :: t =>
    (TFT_Draw_Line d p.x p.y q.x q.y color).bind fun d1 => drawLines color d1 t

/-- The sides of the polygon with the vertices `points[0 .. n - 1]`: from each
vertex to the next, then from the last back to the first. -/
def polygonSides (points : List TFT_Point) (n : Nat) : List (TFT_Point × TFT_Point) :=
  (List.range (n - 1)).map (fun i => (pointAt points i, pointAt points (i + 1))) ++
    [(pointAt points (n - 1), pointAt points 0)]

/-- The test of the loop of `TFT_Register_Device` on slot `i`:
`g_tft_handles[i] == NULL || g_tft_handles[i]->spi_handle == htft->spi_handle`. -/
def slotMatches (g : List (Option RegEntry)) (htft : RegEntry) (i : Nat) : Prop :=
  g.getD i none = none ∨ (g.getD i none).map RegEntry.spi_handle = some htft.spi_handle

instance (g : List (Option RegEntry)) (htft : RegEntry) (i : Nat) :
    Decidable (slotMatches g htft i) := by
  unfold slotMatches; infer_instance

/-! ## Quarter circles and rounded rectangles (`TFT_CAD.c`) -/

/-- Calls `TFT_Draw_Point` for each point of the list, in order. -/
def drawPoints (d : Dev) (color : Nat) (ps : List (Nat × Nat)) : Dev :=
  ps.foldl (fun acc p => TFT_Draw_Point acc p.1 p.2 color) d

/-- The arguments of the `TFT_Draw_Point` calls made by
`TFT_Draw_Quarter_Circle` before its loop, in order: two axis points when
`cornerMask` is exactly 1, 2, 4 or 8. -/
def quarterAxisPoints (centerX centerY radius cornerMask : Nat) : List (Nat × Nat) :=
  (if cornerMask = 1 then
    [(u16 ((centerX : Int) + radius), centerY), (centerX, u16 ((centerY : Int) - radius))]
   else []) ++
  (if cornerMask = 2 then
    [(u16 ((centerX : Int) + radius), centerY), (centerX, u16 ((centerY : Int) + radius))]
   else []) ++
  (if cornerMask = 4 then
    [(u16 ((centerX : Int) - radius), centerY), (centerX, u16 ((centerY : Int) + radius))]
   else []) ++
  (if cornerMask = 8 then
    [(u16 ((centerX : Int) - radius), centerY), (centerX, u16 ((centerY : Int) - radius))]
   else [])

/-- The arguments of the `TFT_Draw_Point` calls of one pass of the loop of
`TFT_Draw_Quarter_Circle`, in order, for the updated `plotX`, `plotY`. -/
def quarterStepPoints (centerX centerY cornerMask : Nat) (plotX plotY : Int) :
    List (Nat × Nat) :=
  if plotX ≠ plotY then
    (if cornerMask &&& 1 ≠ 0 then
      [(u16 (centerX + plotX), u16 (centerY - plotY)),
       (u16 (centerX + plotY), u16 (centerY - plotX))]
     else []) ++
    (if cornerMask &&& 2 ≠ 0 then
      [(u16 (centerX + plotY), u16 (centerY + plotX)),
       (u16 (centerX + plotX), u16 (centerY + plotY))]
     else []) ++
    (if cornerMask &&& 4 ≠ 0 then
      [(u16 (centerX - plotX), u16 (centerY + plotY)),
       (u16 (centerX - plotY), u16 (centerY + plotX))]
     else []) ++
    (if cornerMask &&& 8 ≠ 0 then
      [(u16 (centerX - plotY), u16 (centerY - plotX)),
       (u16 (centerX - plotX), u16 (centerY - plotY))]
     else [])
  else
    (if cornerMask &&& 1 ≠ 0 then [(u16 (centerX + plotX), u16 (centerY - plotY))] else []) ++
    (if cornerMask &&& 2 ≠ 0 then [(u16 (centerX + plotX), u16 (centerY + plotY))] else []) ++
    (if cornerMask &&& 4 ≠ 0 then [(u16 (centerX - plotX), u16 (centerY + plotY))] else []) ++
    (if cornerMask &&& 8 ≠ 0 then [(u16 (centerX - plotX), u16 (centerY - plotY))] else [])

/-- The loop `while (plotX < plotY)` of `TFT_Draw_Quarter_Circle`. -/
def quarterLoop (centerX centerY cornerMask color : Nat) :
    Nat → Dev → Int → Int → Int → Option Dev
  | 0, _, _, _, _ => none
  | fuel + 1, d, plotX, plotY, decisionParam =>
    if plotX < plotY then
      let px := i16 (plotX + 1)
      let py := if decisionParam < 0 then plotY else i16 (plotY - 1)
      let dp :=
        if decisionParam < 0 then i16 (decisionParam + (px * 4 + 6))
        else i16 (decisionParam + ((px - py) * 4 + 10))
      quarterLoop centerX centerY cornerMask color fuel
        (drawPoints d color (quarterStepPoints centerX centerY cornerMask px py)) px py dp
    else some d

/-- `TFT_Draw_Quarter_Circle`; `radius` and `cornerMask` are `uint8_t`. -/
def TFT_Draw_Quarter_Circle (d : Dev) (centerX centerY radius cornerMask color : Nat) :
    Option Dev :=
  let d1 := drawPoints d color (quarterAxisPoints centerX centerY radius cornerMask)
  (quarterLoop centerX centerY cornerMask color loopFuel d1 0 radius
    (i16 (3 - 2 * (radius : Int)))).map fun d2 => TFT_Flush_Buffer d2 1

/-- A call of one of the two fast-line primitives. -/
inductive LineCall where
  /-- `TFT_Draw_Fast_HLine(htft, x, y, width, color)`. -/
  | h (x y width : Nat)
  /-- `TFT_Draw_Fast_VLine(htft, x, y, height, color)`. -/
  | v (x y height : Nat)
  deriving DecidableEq

/-- Makes the calls of the list, in order. -/
def drawFastLines (d : Dev) (color : Nat) (ls : List LineCall) : Dev :=
  ls.foldl
    (fun acc l =>
      match l with
      | LineCall.h x y w => TFT_Draw_Fast_HLine acc x y w color
      | LineCall.v x y h => TFT_Draw_Fast_VLine acc x y h color)
    d

/-- The fast-line calls made by `TFT_Fill_Quarter_Circle` before its loop, in
order. -/
def quarterAxisLines (centerX centerY radius cornerMask : Nat) : List LineCall :=
  (if cornerMask &&& 1 ≠ 0 then
    [LineCall.v centerX (u16 ((centerY : Int) - radius)) (u16 ((radius : Int) + 1)),
     LineCall.h centerX centerY (u16 ((radius : Int) + 1))]
   else []) ++
  (if cornerMask &&& 2 ≠ 0 then
    [LineCall.v centerX centerY (u16 ((radius : Int) + 1)),
     LineCall.h centerX centerY (u16 ((radius : Int) + 1))]
   else []) ++
  (if cornerMask &&& 4 ≠ 0 then
    [LineCall.v centerX centerY (u16 ((radius : Int) + 1)),
     LineCall.h (u16 ((centerX : Int) - radius)) centerY (u16 ((radius : Int) + 1))]
   else []) ++
  (if cornerMask &&& 8 ≠ 0 then
    [LineCall.v centerX (u16 ((centerY : Int) - radius)) (u16 ((radius : Int) + 1)),
     LineCall.h (u16 ((centerX : Int) - radius)) centerY (u16 ((radius : Int) + 1))]
   else [])

/-- The four conditional `TFT_Draw_Fast_HLine` calls of `TFT_Fill_Quarter_Circle`
for the offsets `offX` (columns) and `offY` (rows), of width `offX + 1` stored
in the `uint16_t hlineWidth`. -/
def quarterSpans (centerX centerY cornerMask : Nat) (offX offY : Int) : List LineCall :=
  (if cornerMask &&& 1 ≠ 0 then
    [LineCall.h centerX (u16 (centerY - offY)) (u16 (offX + 1))] else []) ++
  (if cornerMask &&& 2 ≠ 0 then
    [LineCall.h centerX (u16 (centerY + offY)) (u16 (offX + 1))] else []) ++
  (if cornerMask &&& 4 ≠ 0 then
    [LineCall.h (u16 (centerX - offX)) (u16 (centerY + offY)) (u16 (offX + 1))] else []) ++
  (if cornerMask &&& 8 ≠ 0 then
    [LineCall.h (u16 (centerX - offX)) (u16 (centerY - offY)) (u16 (offX + 1))] else [])

/-- The loop `while (plotX < plotY)` of `TFT_Fill_Quarter_Circle`. -/
def fillQuarterLoop (centerX centerY cornerMask color : Nat) :
    Nat → Dev → Int → Int → Int → Option Dev
  | 0, _, _, _, _ => none
  | fuel + 1, d, plotX, plotY, decisionParam =>
    if plotX < plotY then
      let px := i16 (plotX + 1)
      let d1 :=
        if decisionParam < 0 then d
        else drawFastLines d color (quarterSpans centerX centerY cornerMask px plotY)
      let py := if decisionParam < 0 then plotY else i16 (plotY - 1)
      let dp :=
        if decisionParam < 0 then i16 (decisionParam + (px * 4 + 6))
        else i16 (decisionParam + ((px - py) * 4 + 10))
      fillQuarterLoop centerX centerY cornerMask color fuel
        (drawFastLines d1 color (quarterSpans centerX centerY cornerMask py px)) px py dp
    else some d

/-- `TFT_Fill_Quarter_Circle`; `radius` and `cornerMask` are `uint8_t`. -/
def TFT_Fill_Quarter_Circle (d : Dev) (centerX centerY radius cornerMask color : Nat) :
    Option Dev :=
  fillQuarterLoop centerX centerY cornerMask color loopFuel
    (drawFastLines d color (quarterAxisLines centerX centerY radius cornerMask)) 0 radius
    (i16 (3 - 2 * (radius : Int)))

/-- The radius of a rounded rectangle after the two statements
`if (radius > width / 2) radius = width / 2;` and
`if (radius > height / 2) radius = height / 2;` (`radius` is a `uint8_t`). -/
def clampRadius (width height radius : Nat) : Nat :=
  let r1 := if radius > width / 2 then (width / 2) % 256 else radius
  if r1 > height / 2 then (height / 2) % 256 else r1

/-- `TFT_Draw_Rounded_Rectangle`. -/
def TFT_Draw_Rounded_Rectangle (d : Dev) (x y width height radius color : Nat) : Option Dev :=
  if width = 0 ∨ height = 0 then some d
  else
    let r := clampRadius width height radius
    let d1 := TFT_Draw_Fast_HLine d (u16 ((x : Int) + r)) y (u16 ((width : Int) - 2 * r)) color
    let d2 := TFT_Draw_Fast_HLine d1 (u16 ((x : Int) + r)) (u16 ((y : Int) + height - 1))
      (u16 ((width : Int) - 2 * r)) color
    let d3 := TFT_Draw_Fast_VLine d2 x (u16 ((y : Int) + r)) (u16 ((height : Int) - 2 * r)) color
    let d4 := TFT_Draw_Fast_VLine d3 (u16 ((x : Int) + width - 1)) (u16 ((y : Int) + r))
      (u16 ((height : Int) - 2 * r)) color
    (TFT_Draw_Quarter_Circle d4 (u16 ((x : Int) + r)) (u16 ((y : Int) + r)) r 8 color).bind
      fun d5 =>
    (TFT_Draw_Quarter_Circle d5 (u16 ((x : Int) + width - r - 1)) (u16 ((y : Int) + r)) r 1
      color).bind fun d6 =>
    (TFT_Draw_Quarter_Circle d6 (u16 ((x : Int) + width - r - 1))
      (u16 ((y : Int) + height - r - 1)) r 2 color).bind fun d7 =>
    TFT_Draw_Quarter_Circle d7 (u16 ((x : Int) + r)) (u16 ((y : Int) + height - r - 1)) r 4 color

/-- `TFT_Fill_Rounded_Rectangle`. -/
def TFT_Fill_Rounded_Rectangle (d : Dev) (x y width height radius color : Nat) : Option Dev :=
  if width = 0 ∨ height = 0 then some d
  else
    let r := clampRadius width height radius
    let d1 := TFT_Fill_Rectangle d (u16 ((x : Int) + r)) y (u16 ((x : Int) + width - r - 1))
      (u16 ((y : Int) + height - 1)) color
    let d2 := TFT_Fill_Rectangle d1 x (u16 ((y : Int) + r)) (u16 ((x : Int) + r - 1))
      (u16 ((y : Int) + height - r - 1)) color
    let d3 := TFT_Fill_Rectangle d2 (u16 ((x : Int) + width - r)) (u16 ((y : Int) + r))
      (u16 ((x : Int) + width - 1)) (u16 ((y : Int) + height - r - 1)) color
    (TFT_Fill_Quarter_Circle d3 (u16 ((x : Int) + r)) (u16 ((y : Int) + r)) r 8 color).bind
      fun d4 =>
    (TFT_Fill_Quarter_Circle d4 (u16 ((x : Int) + width - r - 1)) (u16 ((y : Int) + r)) r 1
      color).bind fun d5 =>
    (TFT_Fill_Quarter_Circle d5 (u16 ((x : Int) + width - r - 1))
      (u16 ((y : Int) + height - r - 1)) r 2 color).bind fun d6 =>
    TFT_Fill_Quarter_Circle d6 (u16 ((x : Int) + r)) (u16 ((y : Int) + height - r - 1)) r 4 color

/-- The crossing test of the edge loop of `TFT_Fill_Polygon` for the edge from
vertex `i` to vertex `(i + 1) % numPoints` and the scanline `y`:
`(y1 <= y && y2 > y) || (y2 <= y && y1 > y)` on the `int16_t` values. -/
def edgePasses (points : List TFT_Point) (numPoints : Nat) (y : Int) (i : Nat) : Bool :=
  let j := (i + 1) % numPoints
  let y1 := i16 (pointAt points i).y
  let y2 := i16 (pointAt points j).y
  decide ((y1 ≤ y ∧ y2 > y) ∨ (y2 ≤ y ∧ y1 > y))

/-- The chunks handed to the transport, blocking or DMA, in order. -/
def txChunks : List HwEvent → List (List Nat)
  | [] => []
  | HwEvent.tx bs :: t => bs :: txChunks t
  | HwEvent.dma bs :: t => bs :: txChunks t
  | HwEvent.DC _ :: t => txChunks t
  | HwEvent.CS _ :: t => txChunks t

/-- The state of a stream of words through the staging buffer of a device
without DMA: `t` are the events since the start, `sent` the bytes of the words
written so far. -/
def Streaming (size : Nat) (bus0 : List HwEvent) (d : Dev) (sent : List Nat) : Prop :=
  d.htft.spi_handle ≠ none ∧ d.htft.is_dma_enabled = 0 ∧ d.htft.buffer_size = size ∧
    d.htft.buffer_write_index % 2 = 0 ∧ d.htft.buffer_write_index ≤ size ∧
    ∃ t buf, d.bus = bus0 ++ t ∧ d.htft.tx_buffer = some buf ∧ buf.length = size ∧
      (txChunks t).flatten ++ buf.take d.htft.buffer_write_index = sent ∧
      ∀ c ∈ txChunks t, c.length % 2 = 0 ∧ c.length ≤ size ∧ c ≠ []

/-! ## Arcs (`TFT_CAD.c`)

The end points of the chords of `TFT_Draw_Arc` are computed in floating point
(`cos`, `sin`, a running `currentAngle`), which is not modelled: `sample i`
stands for the point `(x, y)` the code computes at its `i`-th evaluation, the
first point of the arc being `sample 0`. -/

/-- The start angle after `startAngle = startAngle % 360`. -/
def arcStart (startAngle : Nat) : Nat := startAngle % 360

/-- The end angle after `endAngle = endAngle % 360` and
`if (endAngle < startAngle) endAngle += 360` (a `uint16_t`). -/
def arcEnd (startAngle endAngle : Nat) : Nat :=
  if endAngle % 360 < arcStart startAngle then (endAngle % 360 + 360) % 65536
  else endAngle % 360

/-- The `uint16_t segments`: `(endAngle - startAngle) / 2` computed on `int`,
and 1 when that is below 1. -/
def arcSegments (startAngle endAngle : Nat) : Nat :=
  let segments := u16 (Int.tdiv ((arcEnd startAngle endAngle : Int) - arcStart startAngle) 2)
  if segments < 1 then 1 else segments

/-- The loop `for (uint16_t i = 1; i <= segments; i++)` of `TFT_Draw_Arc`;
`last` is `(lastX, lastY)`. -/
def arcLoop (sample : Nat → TFT_Point) (segments color : Nat) :
    Nat → Dev → Nat → TFT_Point → Option Dev
  | 0, _, _, _ => none
  | fuel + 1, d, i, last =>
    if i ≤ segments then
      (TFT_Draw_Line d last.x last.y (sample i).x (sample i).y color).bind fun d1 =>
        arcLoop sample segments color fuel d1 ((i + 1) % 65536) (sample i)
    else some d

/-- `TFT_Draw_Arc`; centre and radius enter only through `sample`. -/
def TFT_Draw_Arc (d : Dev) (sample : Nat → TFT_Point) (startAngle endAngle color : Nat) :
    Option Dev :=
  let d1 := TFT_Draw_Point d (sample 0).x (sample 0).y color
  arcLoop sample (arcSegments startAngle endAngle) color loopFuel d1 1 (sample 0)

/-- The chords of an arc of `n` segments, in order: chord `i` runs from
`sample i` to `sample (i + 1)`. -/
def arcChords (sample : Nat → TFT_Point) (n : Nat) : List (TFT_Point × TFT_Point) :=
  (List.range n).map fun i => (sample i, sample (i + 1))

/-! ## Division by zero made visible

C leaves a division by zero undefined and `Int.tdiv` yields 0.  The loops of
`TFT_Fill_Triangle` are given here a second time with every `/` checked: the
run stops with `divByZero` when a divisor is 0. -/

/-- How a run with checked divisions ends. -/
inductive Outcome (α : Type) where
  /-- The code ran to its end. -/
  | done (a : α)
  /-- A division was reached with the divisor 0. -/
  | divByZero
  /-- A loop was still running when the fuel was used up. -/
  | noFuel
  deriving DecidableEq

/-- The result of a run that ended, `none` otherwise. -/
def Outcome.toOption {α : Type} : Outcome α → Option α
  | Outcome.done a => some a
  | _ => none

/-- The upper loop of `TFT_Fill_Triangle` (`triangleLoopTop`) with the
divisions by `deltaY1` and `deltaY2` checked. -/
def triangleLoopTopChecked (x1 : Nat) (deltaX1 deltaY1 deltaX2 deltaY2 lastY : Int)
    (color : Nat) : Nat → Dev → Int → Int → Int → Outcome (Dev × Int × Int × Int)
  | 0, _, _, _, _ => Outcome.noFuel
  | fuel + 1, d, currentY, edge1Accumulator, edge2Accumulator =>
    if currentY ≤ lastY then
      if deltaY1 = 0 ∨ deltaY2 = 0 then Outcome.divByZero
      else
        let s := i16 (x1 + Int.tdiv edge1Accumulator deltaY1)
        let e := i16 (x1 + Int.tdiv edge2Accumulator deltaY2)
        let a1 := i32 (edge1Accumulator + deltaX1)
        let a2 := i32 (edge2Accumulator + deltaX2)
        let scanlineStartX := if s > e then e else s
        let scanlineEndX := if s > e then s else e
        let d1 := TFT_Draw_Fast_HLine d (u16 scanlineStartX) (u16 currentY)
          (u16 (scanlineEndX - scanlineStartX + 1)) color
        triangleLoopTopChecked x1 deltaX1 deltaY1 deltaX2 deltaY2 lastY color fuel d1
          (i16 (currentY + 1)) a1 a2
    else Outcome.done (d, currentY, edge1Accumulator, edge2Accumulator)

/-- The lower loop of `TFT_Fill_Triangle` (`triangleLoopBottom`) with the
divisions by `deltaY3` and `deltaY2` checked. -/
def triangleLoopBottomChecked (x1 x2 : Nat) (deltaX3 deltaY3 deltaX2 deltaY2 lastY : Int)
    (color : Nat) : Nat → Dev → Int → Int → Int → Outcome Dev
  | 0, _, _, _, _ => Outcome.noFuel
  | fuel + 1, d, currentY, edge1Accumulator, edge2Accumulator =>
    if currentY ≤ lastY then
      if deltaY3 = 0 ∨ deltaY2 = 0 then Outcome.divByZero
      else
        let s := i16 (x2 + Int.tdiv edge1Accumulator deltaY3)
        let e := i16 (x1 + Int.tdiv edge2Accumulator deltaY2)
        let a1 := i32 (edge1Accumulator + deltaX3)
        let a2 := i32 (edge2Accumulator + deltaX2)
        let scanlineStartX := if s > e then e else s
        let scanlineEndX := if s > e then s else e
        let d1 := TFT_Draw_Fast_HLine d (u16 scanlineStartX) (u16 currentY)
          (u16 (scanlineEndX - scanlineStartX + 1)) color
        triangleLoopBottomChecked x1 x2 deltaX3 deltaY3 deltaX2 deltaY2 lastY color fuel d1
          (i16 (currentY + 1)) a1 a2
    else Outcome.done d

/-- `TFT_Fill_Triangle` with every division checked; otherwise as
`TFT_Fill_Triangle` above. -/
def TFT_Fill_Triangle_Checked (d : Dev) (x1 y1 x2 y2 x3 y3 color : Nat) (currentY0 : Int) :
    Outcome Dev :=
  let ax := if y1 > y2 then x2 else x1
  let ay := if y1 > y2 then y2 else y1
  let bx := if y1 > y2 then x1 else x2
  let bY := if y1 > y2 then y1 else y2
  let mx := if bY > y3 then x3 else bx
  let my := if bY > y3 then y3 else bY
  let cx := if bY > y3 then bx else x3
  let cy := if bY > y3 then bY else y3
  let px := if ay > my then mx else ax
  let py := if ay > my then my else ay
  let qx := if ay > my then ax else mx
  let qy := if ay > my then ay else my
  if py = cy then
    let s0 := i16 px
    let e0 := i16 px
    let s1 := if (qx : Int) < s0 then i16 qx else s0
    let e1 := if (qx : Int) < s0 then e0 else if (qx : Int) > e0 then i16 qx else e0
    let s2 := if (cx : Int) < s1 then i16 cx else s1
    let e2 := if (cx : Int) < s1 then e1 else if (cx : Int) > e1 then i16 cx else e1
    Outcome.done (TFT_Draw_Fast_HLine d (u16 s2) py (u16 (e2 - s2 + 1)) color)
  else
    let deltaX1 := i16 ((qx : Int) - px)
    let deltaY1 := i16 ((qy : Int) - py)
    let deltaX2 := i16 ((cx : Int) - px)
    let deltaY2 := i16 ((cy : Int) - py)
    let deltaX3 := i16 ((cx : Int) - qx)
    let deltaY3 := i16 ((cy : Int) - qy)
    let top :=
      if py ≠ qy then
        triangleLoopTopChecked px deltaX1 deltaY1 deltaX2 deltaY2 (i16 ((qy : Int) - 1)) color
          loopFuel d (i16 py) 0 0
      else Outcome.done (d, currentY0, 0, 0)
    match top with
    | Outcome.divByZero => Outcome.divByZero
    | Outcome.noFuel => Outcome.noFuel
    | Outcome.done (d1, currentY, _, edge2Accumulator) =>
      let edge1Accumulator := i32 (deltaX3 * (currentY - qy))
      if qy ≠ cy then
        triangleLoopBottomChecked px qx deltaX3 deltaY3 deltaX2 deltaY2 (i16 cy) color
          loopFuel d1 currentY edge1Accumulator edge2Accumulator
      else Outcome.done d1

/-! ## Blocks of offsets -/

/-- A block of offsets from a centre: the columns `a0 .. a1` of the rows
`b0 .. b1`. -/
structure Block where
  a0 : Int
  a1 : Int
  b0 : Int
  b1 : Int
  deriving DecidableEq

/-- The offset `(a, b)` lies in the block. -/
def Block.has (k : Block) (a b : Int) : Prop :=
  k.a0 ≤ a ∧ a ≤ k.a1 ∧ k.b0 ≤ b ∧ b ≤ k.b1

/-- The block lies within `R` of the centre and is not empty. -/
def Block.within (k : Block) (R : Int) : Prop :=
  -R ≤ k.a0 ∧ k.a0 ≤ k.a1 ∧ k.a1 ≤ R ∧ -R ≤ k.b0 ∧ k.b0 ≤ k.b1 ∧ k.b1 ≤ R

/-- The memory write that fills the block around the centre `(x0, y0)`. -/
def blockBurst (x0 y0 c : Nat) (k : Block) : Burst :=
  ⟨u16 (x0 + k.a0), u16 (y0 + k.b0), u16 (x0 + k.a1), u16 (y0 + k.b1),
    List.replicate ((k.a1 - k.a0 + 1).toNat * (k.b1 - k.b0 + 1).toNat) c⟩

/-- The pixel of colour `c` at the offset `(a, b)` from `(x0, y0)`. -/
def offsetPixel (x0 y0 c : Nat) (a b : Int) : Pixel := ⟨u16 (x0 + a), u16 (y0 + b), c⟩

/-- The block of the span `f` (row offset, half width). -/
def spanBlock (f : Int × Int) : Block := ⟨-f.2, f.2, f.1, f.1⟩

/-- The length argument of a fast-line call. -/
def LineCall.size : LineCall → Nat
  | LineCall.h _ _ n => n
  | LineCall.v _ _ n => n

/-- The memory write of a fast-line call of non-zero length. -/
def lineBurst (c : Nat) : LineCall → Burst
  | LineCall.h x y n => ⟨x, y, (x + n - 1) % 65536, y, List.replicate n c⟩
  | LineCall.v x y n => ⟨x, y, x, (y + n - 1) % 65536, List.replicate n c⟩

/-- The fast-line calls of one pass of `TFT_Fill_Quarter_Circle`, in order:
the narrow spans on the old rows (south-east branch only), then the wide
spans. -/
def quarterStepLines (centerX centerY cornerMask : Nat) (s : CircleStep) : List LineCall :=
  (if s.se then quarterSpans centerX centerY cornerMask s.x s.yOld else []) ++
    quarterSpans centerX centerY cornerMask s.y s.x

/-- The blocks of offsets filled by the four spans of `quarterSpans` when all
four corners are requested. -/
def quarterSpanBlocks (offX offY : Int) : List Block :=
  [⟨0, offX, -offY, -offY⟩, ⟨0, offX, offY, offY⟩, ⟨-offX, 0, offY, offY⟩,
   ⟨-offX, 0, -offY, -offY⟩]

/-- The blocks of offsets filled by one pass of `TFT_Fill_Quarter_Circle` when
all four corners are requested. -/
def quarterStepBlocks (s : CircleStep) : List Block :=
  (if s.se then quarterSpanBlocks s.x s.yOld else []) ++ quarterSpanBlocks s.y s.x

/-- The blocks of offsets filled by `TFT_Fill_Quarter_Circle` with all four
corners requested, in the order they are drawn: the eight axis lines, then the
spans of every pass. -/
def quarterBlocks (r : Nat) : List Block :=
  [⟨0, 0, -(r : Int), 0⟩, ⟨0, r, 0, 0⟩, ⟨0, 0, 0, r⟩, ⟨0, r, 0, 0⟩,
   ⟨0, 0, 0, r⟩, ⟨-(r : Int), 0, 0, 0⟩, ⟨0, 0, -(r : Int), 0⟩, ⟨-(r : Int), 0, 0, 0⟩] ++
    (circleSteps loopFuel 0 r (i16 (3 - 2 * (r : Int)))).flatMap quarterStepBlocks

/-! ## Ellipses (`TFT_CAD.c`)

`TFT_Draw_Ellipse` and `TFT_Fill_Ellipse` run the same two loops on the
`int32_t` variables `x`, `y` and `error` and differ only in what a pass
draws; `plot` is that drawing.  Arithmetic on `int32_t` wraps (`i32`). -/

/-- The array `ellipsePoints` of one pass of `TFT_Draw_Ellipse`. -/
def ellipsePoints (centerX centerY : Nat) (x y : Int) : List TFT_Point :=
  [⟨u16 (centerX + x), u16 (centerY + y)⟩, ⟨u16 (centerX - x), u16 (centerY + y)⟩,
   ⟨u16 (centerX + x), u16 (centerY - y)⟩, ⟨u16 (centerX - x), u16 (centerY - y)⟩]

/-- What one pass of `TFT_Draw_Ellipse` draws: the loop
`for (i = 0; i < 4; i++) { TFT_Set_Address(...); TFT_Buffer_Write16(htft, color); }`. -/
def ellipsePlot (centerX centerY color : Nat) (d : Dev) (x y : Int) : Dev :=
  (ellipsePoints centerX centerY x y).foldl
    (fun acc p => TFT_Buffer_Write16 (TFT_Set_Address acc p.x p.y p.x p.y) color) d

/-- What one pass of `TFT_Fill_Ellipse` draws: the two spans. -/
def ellipseSpans (centerX centerY color : Nat) (d : Dev) (x y : Int) : Dev :=
  TFT_Draw_Fast_HLine
    (TFT_Draw_Fast_HLine d (u16 (centerX - x)) (u16 (centerY + y)) (u16 (2 * x + 1)) color)
    (u16 (centerX - x)) (u16 (centerY - y)) (u16 (2 * x + 1)) color

/-- The end of a pass of the first loop:
`if (error >= 0) { y--; error -= 2 * radiusX2 * y; } x++;
error += 2 * radiusY2 * x + radiusY2;`; the result is `(x, y, error)`. -/
def ellipseNext1 (radiusX2 radiusY2 x y error : Int) : Int × Int × Int :=
  let y1 := if error ≥ 0 then i32 (y - 1) else y
  let e1 := if error ≥ 0 then i32 (error - i32 (i32 (2 * radiusX2) * y1)) else error
  let x1 := i32 (x + 1)
  (x1, y1, i32 (e1 + i32 (i32 (i32 (2 * radiusY2) * x1) + radiusY2)))

/-- The end of a pass of the second loop:
`if (error <= 0) { x++; error += 2 * radiusY2 * x; } y--;
error += -2 * radiusX2 * y + radiusX2;`; the result is `(x, y, error)`. -/
def ellipseNext2 (radiusX2 radiusY2 x y error : Int) : Int × Int × Int :=
  let x1 := if error ≤ 0 then i32 (x + 1) else x
  let e1 := if error ≤ 0 then i32 (error + i32 (i32 (2 * radiusY2) * x1)) else error
  let y1 := i32 (y - 1)
  (x1, y1, i32 (e1 + i32 (i32 (i32 (-2 * radiusX2) * y1) + radiusX2)))

/-- The loop `while (radiusX2 * y > radiusY2 * x)`; the result is the device
and `x`, `y` after the loop, `none` when the loop is still running after
`fuel` passes. -/
def ellipseRegion1 (plot : Dev → Int → Int → Dev) (radiusX2 radiusY2 : Int) :
    Nat → Dev → Int → Int → Int → Option (Dev × Int × Int)
  | 0, _, _, _, _ => none
  | fuel + 1, d, x, y, error =>
    if i32 (radiusX2 * y) > i32 (radiusY2 * x) then
      ellipseRegion1 plot radiusX2 radiusY2 fuel (plot d x y)
        (ellipseNext1 radiusX2 radiusY2 x y error).1
        (ellipseNext1 radiusX2 radiusY2 x y error).2.1
        (ellipseNext1 radiusX2 radiusY2 x y error).2.2
    else some (d, x, y)

/-- The loop `while (y >= 0)`. -/
def ellipseRegion2 (plot : Dev → Int → Int → Dev) (radiusX2 radiusY2 : Int) :
    Nat → Dev → Int → Int → Int → Option Dev
  | 0, _, _, _, _ => none
  | fuel + 1, d, x, y, error =>
    if y ≥ 0 then
      ellipseRegion2 plot radiusX2 radiusY2 fuel (plot d x y)
        (ellipseNext2 radiusX2 radiusY2 x y error).1
        (ellipseNext2 radiusX2 radiusY2 x y error).2.1
        (ellipseNext2 radiusX2 radiusY2 x y error).2.2
    else some d

/-- The first value of `error`:
`radiusY2 - (radiusX2 * radiusY) + (radiusX2 / 4)`. -/
def ellipseError1 (radiusX2 radiusY2 : Int) (radiusY : Nat) : Int :=
  i32 (i32 (radiusY2 - i32 (radiusX2 * radiusY)) + Int.tdiv radiusX2 4)

/-- The value of `error` between the loops:
`radiusY2 * x * x + radiusX2 * y * y - radiusX2 * radiusY2`. -/
def ellipseError2 (radiusX2 radiusY2 x y : Int) : Int :=
  i32 (i32 (i32 (i32 (radiusY2 * x) * x) + i32 (i32 (radiusX2 * y) * y)) -
    i32 (radiusX2 * radiusY2))

/-- The two loops of `TFT_Draw_Ellipse` and `TFT_Fill_Ellipse`, from the
declarations of `x`, `y`, `radiusX2`, `radiusY2` and `error` on. -/
def ellipseRun (plot : Dev → Int → Int → Dev) (d : Dev) (radiusX radiusY : Nat) :
    Option Dev :=
  let radiusX2 := i32 ((radiusX : Int) * radiusX)
  let radiusY2 := i32 ((radiusY : Int) * radiusY)
  (ellipseRegion1 plot radiusX2 radiusY2 loopFuel d 0 radiusY
      (ellipseError1 radiusX2 radiusY2 radiusY)).bind fun r =>
    ellipseRegion2 plot radiusX2 radiusY2 loopFuel r.1 r.2.1 r.2.2
      (ellipseError2 radiusX2 radiusY2 r.2.1 r.2.2)

/-- `TFT_Draw_Ellipse`. -/
def TFT_Draw_Ellipse (d : Dev) (centerX centerY radiusX radiusY color : Nat) : Option Dev :=
  (ellipseRun (ellipsePlot centerX centerY color) (TFT_Reset_Buffer d) radiusX radiusY).map
    fun d1 => TFT_Flush_Buffer d1 1

/-- `TFT_Fill_Ellipse`. -/
def TFT_Fill_Ellipse (d : Dev) (centerX centerY radiusX radiusY color : Nat) : Option Dev :=
  ellipseRun (ellipseSpans centerX centerY color) d radiusX radiusY

/-- The values `(x, y)` at which the passes of the first loop draw, in order. -/
def ellipseSteps1 (radiusX2 radiusY2 : Int) : Nat → Int → Int → Int → List (Int × Int)
  | 0, _, _, _ => []
  | fuel + 1, x, y, error =>
    if i32 (radiusX2 * y) > i32 (radiusY2 * x) then
      (x, y) :: ellipseSteps1 radiusX2 radiusY2 fuel
        (ellipseNext1 radiusX2 radiusY2 x y error).1
        (ellipseNext1 radiusX2 radiusY2 x y error).2.1
        (ellipseNext1 radiusX2 radiusY2 x y error).2.2
    else []

/-- The values of `x` and `y` when the first loop is left, `none` when it is
still running after `fuel` passes. -/
def ellipseExit1 (radiusX2 radiusY2 : Int) : Nat → Int → Int → Int → Option (Int × Int)
  | 0, _, _, _ => none
  | fuel + 1, x, y, error =>
    if i32 (radiusX2 * y) > i32 (radiusY2 * x) then
      ellipseExit1 radiusX2 radiusY2 fuel
        (ellipseNext1 radiusX2 radiusY2 x y error).1
        (ellipseNext1 radiusX2 radiusY2 x y error).2.1
        (ellipseNext1 radiusX2 radiusY2 x y error).2.2
    else some (x, y)

/-- The values `(x, y)` at which the passes of the second loop draw, in order. -/
def ellipseSteps2 (radiusX2 radiusY2 : Int) : Nat → Int → Int → Int → List (Int × Int)
  | 0, _, _, _ => []
  | fuel + 1, x, y, error =>
    if y ≥ 0 then
      (x, y) :: ellipseSteps2 radiusX2 radiusY2 fuel
        (ellipseNext2 radiusX2 radiusY2 x y error).1
        (ellipseNext2 radiusX2 radiusY2 x y error).2.1
        (ellipseNext2 radiusX2 radiusY2 x y error).2.2
    else []

/-- Whether the second loop is left within `fuel` passes. -/
def ellipseEnds2 (radiusX2 radiusY2 : Int) : Nat → Int → Int → Int → Bool
  | 0, _, _, _ => false
  | fuel + 1, x, y, error =>
    if y ≥ 0 then
      ellipseEnds2 radiusX2 radiusY2 fuel
        (ellipseNext2 radiusX2 radiusY2 x y error).1
        (ellipseNext2 radiusX2 radiusY2 x y error).2.1
        (ellipseNext2 radiusX2 radiusY2 x y error).2.2
    else true

/-- The values `(x, y)` at which the passes of the two loops draw, in order,
for the radii `radiusX` and `radiusY`. -/
def ellipseSteps (radiusX radiusY : Nat) : List (Int × Int) :=
  let radiusX2 := i32 ((radiusX : Int) * radiusX)
  let radiusY2 := i32 ((radiusY : Int) * radiusY)
  ellipseSteps1 radiusX2 radiusY2 loopFuel 0 radiusY (ellipseError1 radiusX2 radiusY2 radiusY) ++
    ((ellipseExit1 radiusX2 radiusY2 loopFuel 0 radiusY
        (ellipseError1 radiusX2 radiusY2 radiusY)).map fun q =>
      ellipseSteps2 radiusX2 radiusY2 loopFuel q.1 q.2
        (ellipseError2 radiusX2 radiusY2 q.1 q.2)).getD []

/-- Whether both loops are left within `loopFuel` passes each. -/
def ellipseEnds (radiusX radiusY : Nat) : Bool :=
  let radiusX2 := i32 ((radiusX : Int) * radiusX)
  let radiusY2 := i32 ((radiusY : Int) * radiusY)
  ((ellipseExit1 radiusX2 radiusY2 loopFuel 0 radiusY
      (ellipseError1 radiusX2 radiusY2 radiusY)).map fun q =>
    ellipseEnds2 radiusX2 radiusY2 loopFuel q.1 q.2
      (ellipseError2 radiusX2 radiusY2 q.1 q.2)).getD false

/-- The radii are small enough for every `int32_t` value of the two loops:
`(radiusX + 2) * (radiusY + 2) < 2^15`. -/
def EllipseFits (radiusX radiusY : Nat) : Prop := (radiusX + 2) * (radiusY + 2) < 32768

instance (radiusX radiusY : Nat) : Decidable (EllipseFits radiusX radiusY) := by
  unfold EllipseFits; infer_instance

/-- The four offsets from the centre drawn by a pass of `TFT_Draw_Ellipse` at
`(x, y)`. -/
def ellipseOffsets (s : Int × Int) : List (Int × Int) :=
  [(s.1, s.2), (-s.1, s.2), (s.1, -s.2), (-s.1, -s.2)]

/-- A set of offsets is closed under the reflections in the two axes. -/
def AxisClosed (s : List (Int × Int)) : Prop :=
  ∀ a b, (a, b) ∈ s → (-a, b) ∈ s ∧ (a, -b) ∈ s
/-- The constants of the two loops for the radii `rx`, `ry`: `A` and `B` are
`radiusX2` and `radiusY2`, and every product the loops form stays well below
`2^31`. -/
def EllipseCtx (rx ry A B : Int) : Prop :=
  0 ≤ rx ∧ 0 ≤ ry ∧ rx < 32768 ∧ ry < 32768 ∧ A = rx * rx ∧ B = ry * ry ∧
    A * B + 4 * (A * ry) + 4 * A + 4 * (B * rx) + 4 * B + 16 < 1073741824

/-! # Theorems -/

/-! ## Decoding the bus -/

theorem wireOf_append (t1 : List HwEvent) : ∀ (dc cs : Nat),
    ∃ dc1 cs1, ∀ t2, wireOf dc cs (t1 ++ t2) = wireOf dc cs t1 ++ wireOf dc1 cs1 t2 := by
  induction t1 with
  | nil => intro dc cs; exact ⟨dc, cs, fun t2 => by simp [wireOf]⟩
  | cons e t ih =>
    intro dc cs
    cases e with
    | DC l =>
      obtain ⟨a, b, h⟩ := ih l cs
      exact ⟨a, b, fun t2 => by simp [wireOf, h]⟩
    | CS l =>
      obtain ⟨a, b, h⟩ := ih dc l
      exact ⟨a, b, fun t2 => by simp [wireOf, h]⟩
    | tx bs =>
      obtain ⟨a, b, h⟩ := ih dc cs
      exact ⟨a, b, fun t2 => by simp [wireOf, h]⟩
    | dma bs =>
      obtain ⟨a, b, h⟩ := ih dc cs
      exact ⟨a, b, fun t2 => by simp [wireOf, h]⟩

theorem delivers_nil : Delivers [] [] := fun _ _ => rfl

theorem delivers_append {t1 t2 : List HwEvent} {w1 w2 : List Wire}
    (h1 : Delivers t1 w1) (h2 : Delivers t2 w2) : Delivers (t1 ++ t2) (w1 ++ w2) := by
  intro dc cs
  obtain ⟨a, b, h⟩ := wireOf_append t1 dc cs
  rw [h, h1, h2]

theorem sends_refl (d : Dev) : Sends d d [] := ⟨[], by simp, delivers_nil⟩

theorem sends_trans {d d1 d2 : Dev} {w1 w2 : List Wire}
    (h1 : Sends d d1 w1) (h2 : Sends d1 d2 w2) : Sends d d2 (w1 ++ w2) := by
  obtain ⟨t1, e1, k1⟩ := h1
  obtain ⟨t2, e2, k2⟩ := h2
  exact ⟨t1 ++ t2, by rw [e2, e1, List.append_assoc], delivers_append k1 k2⟩

theorem lcdSplit_data (ds : List Nat) (w : List Wire) :
    lcdSplit (ds.map Wire.dat ++ w) = (ds ++ (lcdSplit w).1, (lcdSplit w).2) := by
  induction ds with
  | nil => simp
  | cons a t ih => simp [lcdSplit, ih]

theorem lcdSplit_append (w w1 : List Wire) (h : (lcdSplit w1).1 = []) :
    lcdSplit (w ++ w1) = ((lcdSplit w).1, (lcdSplit w).2 ++ (lcdSplit w1).2) := by
  induction w with
  | nil => simp [lcdSplit, ← h]
  | cons a t ih =>
    cases a with
    | cmd c => simp [lcdSplit, ih]
    | dat b => simp [lcdSplit, ih]

theorem lcdFrames_append (w w1 : List Wire) (h : (lcdSplit w1).1 = []) :
    lcdFrames (w ++ w1) = lcdFrames w ++ (lcdSplit w1).2 := by
  unfold lcdFrames
  rw [lcdSplit_append w w1 h]
  by_cases h0 : (lcdSplit w).1 = [] <;> simp [h0]

theorem lcdRun_append (f : List (Nat × List Nat)) : ∀ (col row : Nat × Nat),
    ∃ col1 row1, ∀ g, lcdRun col row (f ++ g) = lcdRun col row f ++ lcdRun col1 row1 g := by
  induction f with
  | nil => intro col row; exact ⟨col, row, fun g => by simp [lcdRun]⟩
  | cons a t ih =>
    intro col row
    obtain ⟨c, args⟩ := a
    by_cases h1 : c = 0x2A
    · obtain ⟨x, y, h⟩ := ih ((lcdRange args).getD col) row
      exact ⟨x, y, fun g => by simp [lcdRun, h1, h]⟩
    · by_cases h2 : c = 0x2B
      · obtain ⟨x, y, h⟩ := ih col ((lcdRange args).getD row)
        exact ⟨x, y, fun g => by simp [lcdRun, h2, h]⟩
      · obtain ⟨x, y, h⟩ := ih col row
        by_cases h3 : c = 0x2C
        · exact ⟨x, y, fun g => by simp [lcdRun, h3, h]⟩
        · exact ⟨x, y, fun g => by simp [lcdRun, h1, h2, h3, h]⟩

theorem be16_value (v : Nat) (h : v < 65536) : (v / 256) % 256 * 256 + v % 256 = v := by
  omega

theorem words16_be16 (ws : List Nat) (h : ∀ w ∈ ws, w < 65536) :
    words16 (ws.flatMap be16) = ws := by
  induction ws with
  | nil => simp [words16]
  | cons a t ih =>
    have ha : a < 65536 := h a (by simp)
    have ht : ∀ w ∈ t, w < 65536 := fun w hw => h w (by simp [hw])
    show words16 ((a / 256 % 256) :: (a % 256) :: t.flatMap be16) = a :: t
    rw [words16, ih ht, be16_value a ha]

theorem unOffset_add (off v : Nat) (h : v < 65536) : unOffset off ((v + off) % 65536) = v := by
  unfold unOffset
  omega

theorem lcdSplit_frame (c : Nat) (ds : List Nat) (w : List Wire) :
    lcdSplit (Wire.cmd c :: (ds.map Wire.dat ++ w)) =
      ([], (c, ds ++ (lcdSplit w).1) :: (lcdSplit w).2) := by
  simp [lcdSplit, lcdSplit_data]

theorem lcdSplit_burstWire (co ro : Nat) (b : Burst) (w : List Wire)
    (h : (lcdSplit w).1 = []) :
    lcdSplit (burstWire co ro b ++ w) =
      ([], (0x2A, be16 ((b.x0 + co) % 65536) ++ be16 ((b.x1 + co) % 65536)) ::
           (0x2B, be16 ((b.y0 + ro) % 65536) ++ be16 ((b.y1 + ro) % 65536)) ::
           (0x2C, b.words.flatMap be16) :: (lcdSplit w).2) := by
  have e : burstWire co ro b ++ w =
      Wire.cmd 0x2A :: ((be16 ((b.x0 + co) % 65536) ++ be16 ((b.x1 + co) % 65536)).map Wire.dat ++
      (Wire.cmd 0x2B :: ((be16 ((b.y0 + ro) % 65536) ++ be16 ((b.y1 + ro) % 65536)).map Wire.dat ++
      (Wire.cmd 0x2C :: ((b.words.flatMap be16).map Wire.dat ++ w))))) := by
    simp [burstWire]
  rw [e, lcdSplit_frame, lcdSplit_frame, lcdSplit_frame, h]
  simp

theorem lcdSplit_bursts (co ro : Nat) (bs : List Burst) :
    (lcdSplit (bs.flatMap (burstWire co ro))).1 = [] := by
  cases bs with
  | nil => simp [lcdSplit]
  | cons b t => simp [List.flatMap_cons, burstWire, lcdSplit]

theorem toCaller_offset (h : TFT_HandleTypeDef) (b : Burst) (hb : b.ok) :
    toCaller h ⟨(b.x0 + colOffset h) % 65536, (b.y0 + rowOffset h) % 65536,
      (b.x1 + colOffset h) % 65536, (b.y1 + rowOffset h) % 65536, b.words⟩ = b := by
  obtain ⟨h0, h1, h2, h3, _⟩ := hb
  cases b
  simp only [toCaller] at *
  simp [unOffset_add, h0, h1, h2, h3]

theorem lcdRun_bursts (h : TFT_HandleTypeDef) (bs : List Burst) (hok : ∀ b ∈ bs, b.ok) :
    ∀ col row, (lcdRun col row
      (lcdSplit (bs.flatMap (burstWire (colOffset h) (rowOffset h)))).2).map (toCaller h) = bs := by
  induction bs with
  | nil => intro col row; simp [lcdSplit, lcdRun]
  | cons b t ih =>
    intro col row
    have hb : b.ok := hok b (by simp)
    have ht : ∀ b ∈ t, b.ok := fun x hx => hok x (by simp [hx])
    rw [List.flatMap_cons, lcdSplit_burstWire _ _ _ _ (lcdSplit_bursts _ _ t)]
    have e1 : ∀ v, (v % 65536 / 256 % 256) * 256 + v % 65536 % 256 = v % 65536 :=
      fun v => be16_value _ (Nat.mod_lt _ (by norm_num))
    simp only [lcdRun, be16, List.cons_append, List.nil_append, lcdRange, Option.getD_some,
      List.map_cons, words16_be16 _ hb.2.2.2.2, e1]
    simp only [reduceIte, Nat.reduceEqDiff, List.map_cons]
    rw [toCaller_offset h b hb, ih ht]

/-- Going from `d` to `d1` the display receives exactly the memory writes
`bs`, and `d1` is again a device ready for the next primitive. -/
theorem display_append (d d1 : Dev) (bs : List Burst) (hok : ∀ b ∈ bs, b.ok)
    (hc : colOffset d1.htft = colOffset d.htft) (hr : rowOffset d1.htft = rowOffset d.htft)
    (hs : Sends d d1 (bs.flatMap (burstWire (colOffset d.htft) (rowOffset d.htft)))) :
    TFT_Display d1 = TFT_Display d ++ bs := by
  obtain ⟨t, e, k⟩ := hs
  unfold TFT_Display
  obtain ⟨a, b, hw⟩ := wireOf_append d.bus 1 1
  rw [e, hw, k a b, lcdFrames_append _ _ (lcdSplit_bursts _ _ bs)]
  obtain ⟨c, r, hl⟩ := lcdRun_append (lcdFrames (wireOf 1 1 d.bus)) (0, 0) (0, 0)
  have : toCaller d1.htft = toCaller d.htft := by
    funext b; simp [toCaller, hc, hr]
  rw [hl, List.map_append, this, lcdRun_bursts d.htft bs hok]

/-! ## The transport layer -/

theorem flagOnly_refl (h : TFT_HandleTypeDef) : FlagOnly h h := by simp [FlagOnly]

theorem flagOnly_trans {h h1 h2 : TFT_HandleTypeDef} (a : FlagOnly h h1) (b : FlagOnly h1 h2) :
    FlagOnly h h2 := by
  unfold FlagOnly at *
  simp [a, b]

theorem sends_of_bus {d d1 : Dev} {w : List Wire} (t : List HwEvent)
    (e : d1.bus = d.bus ++ t) (k : Delivers t w) : Sends d d1 w := ⟨t, e, k⟩

theorem delivers_data (pre : List HwEvent) (hp : Delivers pre []) (bs : List Nat) :
    Delivers (pre ++ [HwEvent.DC 1, HwEvent.CS 0, HwEvent.tx bs, HwEvent.CS 1])
      (bs.map Wire.dat) := by
  have h2 : Delivers [HwEvent.DC 1, HwEvent.CS 0, HwEvent.tx bs, HwEvent.CS 1]
      (bs.map Wire.dat) := fun _ _ => by simp [wireOf, wireBytes]
  have := delivers_append hp h2
  simpa using this

theorem spi_send_spec (d : Dev) (buf : List Nat) (len wait : Nat)
    (hs : d.htft.spi_handle ≠ none) (hl : len ≠ 0) :
    Step d (TFT_SPI_Send d (some buf) len wait) ((buf.take len).map Wire.dat) := by
  unfold Step
  obtain ⟨s, hs1⟩ := Option.ne_none_iff_exists.mp hs
  unfold TFT_SPI_Send
  rw [← hs1]
  simp only [hl, if_false]
  unfold TFT_Wait_DMA_Transfer_Complete HAL_SPI_TxCpltCallback TFT_Pin_CS_Set TFT_Pin_DC_Set
    TFT_Platform_SPI_Transmit_DMA_Start TFT_Platform_SPI_Transmit_Blocking
  by_cases h1 : d.htft.is_dma_enabled = 0
  · simp only [h1, ne_eq, not_true_eq_false, false_and, if_false]
    refine ⟨flagOnly_refl _, sends_of_bus [HwEvent.DC 1, HwEvent.CS 0, HwEvent.tx (buf.take len), HwEvent.CS 1] (by simp) ?_⟩
    intro dc cs
    simp [wireOf, wireBytes]
  · by_cases h2 : d.htft.is_dma_transfer_active = 0 <;> by_cases h3 : wait = 0
    · simp only [h1, h2, h3, ne_eq, not_true_eq_false, not_false_eq_true, and_false, and_true,
        if_false, if_true, true_and]
      exact ⟨by simp [FlagOnly], sends_of_bus
        [HwEvent.DC 1, HwEvent.CS 0, HwEvent.dma (buf.take len)] (by simp)
        (fun dc cs => by simp [wireOf, wireBytes])⟩
    · simp only [h1, h2, h3, ne_eq, not_true_eq_false, not_false_eq_true, and_false, and_true,
        if_false, if_true, true_and, one_ne_zero, and_self]
      exact ⟨by simp [FlagOnly], sends_of_bus
        [HwEvent.DC 1, HwEvent.CS 0, HwEvent.dma (buf.take len), HwEvent.CS 1, HwEvent.CS 1]
        (by simp) (fun dc cs => by simp [wireOf, wireBytes])⟩
    · simp only [h1, h2, h3, ne_eq, not_true_eq_false, not_false_eq_true, and_false, and_true,
        if_false, if_true, true_and, one_ne_zero, and_self]
      exact ⟨by simp [FlagOnly], sends_of_bus
        [HwEvent.CS 1, HwEvent.DC 1, HwEvent.CS 0, HwEvent.dma (buf.take len)] (by simp)
        (fun dc cs => by simp [wireOf, wireBytes])⟩
    · simp only [h1, h2, h3, ne_eq, not_true_eq_false, not_false_eq_true, and_false, and_true,
        if_false, if_true, true_and, one_ne_zero, and_self]
      exact ⟨by simp [FlagOnly], sends_of_bus
        [HwEvent.CS 1, HwEvent.DC 1, HwEvent.CS 0, HwEvent.dma (buf.take len), HwEvent.CS 1,
          HwEvent.CS 1]
        (by simp) (fun dc cs => by simp [wireOf, wireBytes])⟩

theorem write_data16_spec (d : Dev) (v : Nat) (hs : d.htft.spi_handle ≠ none) :
    Step d (TFT_Write_Data16 d v) ((be16 v).map Wire.dat) := by
  unfold Step
  unfold TFT_Write_Data16 TFT_Wait_DMA_Transfer_Complete HAL_SPI_TxCpltCallback TFT_Pin_CS_Set
    TFT_Pin_DC_Set TFT_Platform_SPI_Transmit_Blocking
  simp only [hs, if_false]
  split_ifs
  · exact ⟨by simp [FlagOnly], sends_of_bus
      [HwEvent.CS 1, HwEvent.DC 1, HwEvent.CS 0, HwEvent.tx (be16 v), HwEvent.CS 1] (by simp)
      (fun dc cs => by simp [wireOf, wireBytes])⟩
  · exact ⟨by simp [FlagOnly], sends_of_bus
      [HwEvent.DC 1, HwEvent.CS 0, HwEvent.tx (be16 v), HwEvent.CS 1] (by simp)
      (fun dc cs => by simp [wireOf, wireBytes])⟩
  · exact ⟨by simp [FlagOnly], sends_of_bus
      [HwEvent.DC 1, HwEvent.CS 0, HwEvent.tx (be16 v), HwEvent.CS 1] (by simp)
      (fun dc cs => by simp [wireOf, wireBytes])⟩

theorem flush_idle (d : Dev) (w : Nat) (h : d.htft.buffer_write_index = 0) :
    TFT_Flush_Buffer d w = d := by
  simp [TFT_Flush_Buffer, h]

theorem write_command_spec (d : Dev) (c : Nat) (hs : d.htft.spi_handle ≠ none)
    (h0 : d.htft.buffer_write_index = 0) :
    Step d (TFT_Write_Command d c) [Wire.cmd c] := by
  unfold Step
  unfold TFT_Write_Command
  simp only [hs, if_false, flush_idle d 1 h0]
  unfold TFT_Pin_CS_Set TFT_Pin_DC_Set TFT_Platform_SPI_Transmit_Blocking
  exact ⟨by simp [FlagOnly], sends_of_bus
      [HwEvent.DC 0, HwEvent.CS 0, HwEvent.tx [c], HwEvent.CS 1] (by simp)
      (fun dc cs => by simp [wireOf, wireBytes])⟩

theorem ready_of_flagOnly {h h1 : TFT_HandleTypeDef} (r : Ready h) (f : FlagOnly h h1) :
    Ready h1 := by
  unfold Ready FlagOnly at *
  obtain ⟨f1, f2, f3, f4, -⟩ := f
  rw [f1, f2, f3, f4]
  exact r

theorem colOffset_flagOnly {h h1 : TFT_HandleTypeDef} (f : FlagOnly h h1) :
    colOffset h1 = colOffset h := by
  unfold colOffset FlagOnly at *
  obtain ⟨-, -, -, -, -, f6, f7, f8⟩ := f
  rw [f6, f7, f8]

theorem rowOffset_flagOnly {h h1 : TFT_HandleTypeDef} (f : FlagOnly h h1) :
    rowOffset h1 = rowOffset h := by
  unfold rowOffset FlagOnly at *
  obtain ⟨-, -, -, -, -, f6, f7, f8⟩ := f
  rw [f6, f7, f8]

theorem step_trans {d d1 d2 : Dev} {w1 w2 : List Wire} (a : Step d d1 w1) (b : Step d1 d2 w2) :
    Step d d2 (w1 ++ w2) := ⟨flagOnly_trans a.1 b.1, sends_trans a.2 b.2⟩

theorem set_address_eq (d : Dev) (x0 y0 x1 y1 : Nat) (h0 : d.htft.buffer_write_index = 0) :
    TFT_Set_Address d x0 y0 x1 y1 =
      TFT_Write_Command
        (TFT_Write_Data16
          (TFT_Write_Data16
            (TFT_Write_Command
              (TFT_Write_Data16
                (TFT_Write_Data16 (TFT_Write_Command d 0x2A)
                  ((x0 + colOffset (TFT_Write_Command d 0x2A).htft) % 65536))
                ((x1 + colOffset (TFT_Write_Command d 0x2A).htft) % 65536)) 0x2B)
            ((y0 + rowOffset (TFT_Write_Command
              (TFT_Write_Data16
                (TFT_Write_Data16 (TFT_Write_Command d 0x2A)
                  ((x0 + colOffset (TFT_Write_Command d 0x2A).htft) % 65536))
                ((x1 + colOffset (TFT_Write_Command d 0x2A).htft) % 65536)) 0x2B).htft) % 65536))
          ((y1 + rowOffset (TFT_Write_Command
              (TFT_Write_Data16
                (TFT_Write_Data16 (TFT_Write_Command d 0x2A)
                  ((x0 + colOffset (TFT_Write_Command d 0x2A).htft) % 65536))
                ((x1 + colOffset (TFT_Write_Command d 0x2A).htft) % 65536)) 0x2B).htft) % 65536))
        0x2C := by
  unfold TFT_Set_Address
  simp only [flush_idle d 1 h0, colOffset, rowOffset]
  split_ifs <;> rfl

theorem set_address_spec (d : Dev) (x0 y0 x1 y1 : Nat) (r : Ready d.htft) :
    Step d (TFT_Set_Address d x0 y0 x1 y1)
      (addressWire (colOffset d.htft) (rowOffset d.htft) x0 y0 x1 y1) := by
  rw [set_address_eq d x0 y0 x1 y1 r.2.2.2.2]
  have s1 := write_command_spec d 0x2A r.1 r.2.2.2.2
  have r1 := ready_of_flagOnly r s1.1
  generalize TFT_Write_Command d 0x2A = d1 at *
  have s2 := write_data16_spec d1 ((x0 + colOffset d1.htft) % 65536) r1.1
  have r2 := ready_of_flagOnly r1 s2.1
  generalize TFT_Write_Data16 d1 ((x0 + colOffset d1.htft) % 65536) = d2 at *
  have s3 := write_data16_spec d2 ((x1 + colOffset d1.htft) % 65536) r2.1
  have r3 := ready_of_flagOnly r2 s3.1
  generalize TFT_Write_Data16 d2 ((x1 + colOffset d1.htft) % 65536) = d3 at *
  have s4 := write_command_spec d3 0x2B r3.1 r3.2.2.2.2
  have r4 := ready_of_flagOnly r3 s4.1
  generalize TFT_Write_Command d3 0x2B = d4 at *
  have s5 := write_data16_spec d4 ((y0 + rowOffset d4.htft) % 65536) r4.1
  have r5 := ready_of_flagOnly r4 s5.1
  generalize TFT_Write_Data16 d4 ((y0 + rowOffset d4.htft) % 65536) = d5 at *
  have s6 := write_data16_spec d5 ((y1 + rowOffset d4.htft) % 65536) r5.1
  have r6 := ready_of_flagOnly r5 s6.1
  generalize TFT_Write_Data16 d5 ((y1 + rowOffset d4.htft) % 65536) = d6 at *
  have s7 := write_command_spec d6 0x2C r6.1 r6.2.2.2.2
  have key := step_trans (step_trans (step_trans (step_trans (step_trans (step_trans s1 s2) s3) s4) s5) s6) s7
  have c1 : colOffset d1.htft = colOffset d.htft := colOffset_flagOnly s1.1
  have c4 : rowOffset d4.htft = rowOffset d.htft :=
    rowOffset_flagOnly (flagOnly_trans (flagOnly_trans (flagOnly_trans s1.1 s2.1) s3.1) s4.1)
  rw [c1, c4] at key
  simpa [addressWire] using key


/-! ## The staging buffer -/

theorem sameConfig_refl (h : TFT_HandleTypeDef) : SameConfig h h := by simp [SameConfig]

theorem sameConfig_trans {h h1 h2 : TFT_HandleTypeDef} (a : SameConfig h h1)
    (b : SameConfig h1 h2) : SameConfig h h2 := by
  unfold SameConfig at *
  simp [a, b]

theorem sameConfig_of_flagOnly {h h1 : TFT_HandleTypeDef} (f : FlagOnly h h1) :
    SameConfig h h1 := by
  unfold SameConfig FlagOnly at *
  simp [f]

theorem colOffset_sameConfig {h h1 : TFT_HandleTypeDef} (f : SameConfig h h1) :
    colOffset h1 = colOffset h := by
  unfold colOffset SameConfig at *
  obtain ⟨-, -, -, f6, f7, f8⟩ := f
  rw [f6, f7, f8]

theorem rowOffset_sameConfig {h h1 : TFT_HandleTypeDef} (f : SameConfig h h1) :
    rowOffset h1 = rowOffset h := by
  unfold rowOffset SameConfig at *
  obtain ⟨-, -, -, f6, f7, f8⟩ := f
  rw [f6, f7, f8]

theorem pattern_zero (c : Nat) : pattern 0 c = [] := rfl

theorem pattern_succ (m c : Nat) : pattern (m + 1) c = pattern m c ++ be16 c := by
  unfold pattern
  rw [List.replicate_succ', List.flatMap_append]
  simp

theorem pattern_add (a b c : Nat) : pattern (a + b) c = pattern a c ++ pattern b c := by
  unfold pattern
  rw [List.replicate_add, List.flatMap_append]

theorem staged_of_ready {h : TFT_HandleTypeDef} (r : Ready h) (c : Nat) : Staged h 0 c := by
  obtain ⟨r1, r2, r3, r4, r5⟩ := r
  cases hb : h.tx_buffer with
  | none => simp [hb] at r2
  | some buf =>
    rw [hb] at r2
    simp only [Option.map_some', Option.some.injEq] at r2
    exact ⟨r1, r3, r4, by simpa using r5, by simp, buf, hb, r2, by simp [pattern]⟩

theorem ready_of_staged {h : TFT_HandleTypeDef} {c : Nat} (s : Staged h 0 c) : Ready h := by
  obtain ⟨s1, s2, s3, s4, -, buf, hb, hl, -⟩ := s
  exact ⟨s1, by simp [hb, hl], s2, s3, by simpa using s4⟩

theorem reset_ready (d : Dev) (r : Ready d.htft) : TFT_Reset_Buffer d = d := by
  unfold TFT_Reset_Buffer
  have := r.2.2.2.2
  cases d with
  | mk h b =>
    cases h
    simp_all

theorem flush_spec (d : Dev) (w m c : Nat) (s : Staged d.htft m c) :
    Staged (TFT_Flush_Buffer d w).htft 0 c ∧ SameConfig d.htft (TFT_Flush_Buffer d w).htft ∧
      Sends d (TFT_Flush_Buffer d w) ((pattern m c).map Wire.dat) := by
  obtain ⟨s1, s2, s3, s4, s5, buf, hb, hl, ht⟩ := s
  by_cases hm : m = 0
  · subst hm
    rw [flush_idle d w (by simpa using s4)]
    exact ⟨⟨s1, s2, s3, s4, s5, buf, hb, hl, ht⟩, sameConfig_refl _, sends_refl _⟩
  · have hi : d.htft.buffer_write_index ≠ 0 := by omega
    unfold TFT_Flush_Buffer
    simp only [hb, hi, or_self, if_false, reduceCtorEq]
    obtain ⟨f, sd⟩ := spi_send_spec d buf d.htft.buffer_write_index w s1 hi
    rw [s4, ht] at sd
    obtain ⟨t, e, k⟩ := sd
    rw [← s4] at e
    refine ⟨?_, ?_, ⟨t, e, k⟩⟩
    · obtain ⟨f1, f2, f3, -⟩ := f
      refine ⟨by simpa [f1] using s1, by simpa [f3] using s2, by simpa [f3] using s3, by simp,
        by simp, buf, by simpa [f2] using hb, by simpa [f3] using hl, by simp [pattern]⟩
    · have := sameConfig_of_flagOnly f
      unfold SameConfig at *
      simpa using this


theorem take_set_two (a b : Nat) : ∀ (buf : List Nat) (i : Nat), i + 2 ≤ buf.length →
    ((buf.set i a).set (i + 1) b).take (i + 2) = buf.take i ++ [a, b] := by
  intro buf
  induction buf with
  | nil => intro i h; simp at h
  | cons x t ih =>
    intro i h
    cases i with
    | zero =>
      cases t with
      | nil => simp at h
      | cons y u => simp
    | succ j =>
      have := ih j (by simpa using h)
      simpa using this

theorem store_two (h : TFT_HandleTypeDef) (buf : List Nat) (a b : Nat)
    (hb : h.tx_buffer = some buf) (hlt : h.buffer_write_index + 2 < 65536) :
    bufferStore (bufferStore h a) b =
      { h with
        tx_buffer := some ((buf.set h.buffer_write_index a).set (h.buffer_write_index + 1) b)
        buffer_write_index := h.buffer_write_index + 2 } := by
  unfold bufferStore
  have e1 : (h.buffer_write_index + 1) % 65536 = h.buffer_write_index + 1 :=
    Nat.mod_eq_of_lt (by omega)
  have e2 : (h.buffer_write_index + 1 + 1) % 65536 = h.buffer_write_index + 2 :=
    Nat.mod_eq_of_lt (by omega)
  simp [hb, e1, e2]

theorem write16_spec (d : Dev) (m c : Nat) (s : Staged d.htft m c) :
    ∃ e m1, Staged (TFT_Buffer_Write16 d c).htft m1 c ∧
      SameConfig d.htft (TFT_Buffer_Write16 d c).htft ∧
      Sends d (TFT_Buffer_Write16 d c) ((pattern e c).map Wire.dat) ∧ e + m1 = m + 1 := by
  have s0 := s
  obtain ⟨s1, s2, s3, s4, s5, buf, hb, hl, ht⟩ := s
  unfold TFT_Buffer_Write16
  simp only [hb, reduceCtorEq, if_false]
  by_cases hc : (d.htft.buffer_write_index : Int) ≥ (d.htft.buffer_size : Int) - 1
  · simp only [hc, if_true]
    obtain ⟨⟨q1, q2, q3, q4, q5, buf1, qb, ql, qt⟩, cf, sd⟩ := flush_spec d 0 m c s0
    generalize TFT_Flush_Buffer d 0 = d1 at *
    refine ⟨m, 1, ?_, ?_, ?_, rfl⟩
    · rw [store_two d1.htft buf1 _ _ qb (by omega)]
      refine ⟨q1, q2, q3, by simp [q4], by simpa using q2, _, rfl, by simpa using ql, ?_⟩
      have := take_set_two (c / 256 % 256) (c % 256) buf1 0 (by omega)
      simpa [q4, pattern_succ, pattern_zero, be16] using this
    · rw [store_two d1.htft buf1 _ _ qb (by omega)]
      unfold SameConfig at *
      simpa using cf
    · obtain ⟨t, e, k⟩ := sd
      exact ⟨t, e, k⟩
  · simp only [hc, if_false]
    have hlt : 2 * m + 2 ≤ d.htft.buffer_size := by omega
    refine ⟨0, m + 1, ?_, ?_, ?_, by omega⟩
    · rw [store_two d.htft buf _ _ hb (by omega)]
      refine ⟨s1, s2, s3, by simp [s4]; ring, by simpa using (by omega : 2 * (m + 1) ≤ d.htft.buffer_size), _, rfl,
        by simpa using hl, ?_⟩
      have := take_set_two (c / 256 % 256) (c % 256) buf (2 * m) (by omega)
      simp only [s4]
      rw [show 2 * (m + 1) = 2 * m + 2 by ring, this, ht, pattern_succ]
      rfl
    · rw [store_two d.htft buf _ _ hb (by omega)]
      simp [SameConfig]
    · exact ⟨[], by simp, by simpa [pattern] using delivers_nil⟩

theorem streamWords_spec (c n : Nat) : ∀ (d : Dev) (m : Nat), Staged d.htft m c →
    ∃ e m1, Staged (streamWords c n d).htft m1 c ∧ SameConfig d.htft (streamWords c n d).htft ∧
      Sends d (streamWords c n d) ((pattern e c).map Wire.dat) ∧ e + m1 = m + n := by
  induction n with
  | zero =>
    intro d m s
    exact ⟨0, m, s, sameConfig_refl _, by simpa [pattern] using sends_refl d, by simp⟩
  | succ k ih =>
    intro d m s
    obtain ⟨e1, m1, t1, c1, sd1, q1⟩ := write16_spec d m c s
    obtain ⟨e2, m2, t2, c2, sd2, q2⟩ := ih (TFT_Buffer_Write16 d c) m1 t1
    refine ⟨e1 + e2, m2, t2, sameConfig_trans c1 c2, ?_, by omega⟩
    have := sends_trans sd1 sd2
    rw [pattern_add, List.map_append]
    exact this

theorem burstWire_eq (co ro x0 y0 x1 y1 : Nat) (ws : List Nat) :
    burstWire co ro ⟨x0, y0, x1, y1, ws⟩ =
      addressWire co ro x0 y0 x1 y1 ++ (ws.flatMap be16).map Wire.dat := by
  simp [burstWire, addressWire]

/-- Selecting a window and streaming `n` words of one colour through the
staging buffer is one memory write of `n` words into that window. -/
theorem stream_spec (d : Dev) (x0 y0 x1 y1 n c : Nat) (r : Ready d.htft) :
    Emits d (TFT_Flush_Buffer (streamWords c n (TFT_Reset_Buffer (TFT_Set_Address d x0 y0 x1 y1))) 1)
      [⟨x0, y0, x1, y1, List.replicate n c⟩] := by
  obtain ⟨f, sd⟩ := set_address_spec d x0 y0 x1 y1 r
  have r1 := ready_of_flagOnly r f
  rw [reset_ready _ r1]
  generalize TFT_Set_Address d x0 y0 x1 y1 = d1 at *
  obtain ⟨e, m1, t1, c1, sd1, q1⟩ := streamWords_spec c n d1 0 (staged_of_ready r1 c)
  generalize streamWords c n d1 = d2 at *
  obtain ⟨t2, c2, sd2⟩ := flush_spec d2 1 m1 c t1
  refine ⟨ready_of_staged t2, sameConfig_trans (sameConfig_trans (sameConfig_of_flagOnly f) c1) c2, ?_⟩
  have := sends_trans (sends_trans sd sd1) sd2
  rw [List.append_assoc, ← List.map_append, ← pattern_add] at this
  rw [show e + m1 = n by omega] at this
  simpa [burstWire_eq, pattern] using this

/-- A single point is one memory write of one word into a 1x1 window. -/
theorem draw_point_spec (d : Dev) (x y c : Nat) (r : Ready d.htft) :
    Emits d (TFT_Draw_Point d x y c) [⟨x, y, x, y, [c]⟩] := by
  unfold TFT_Draw_Point
  obtain ⟨f, sd⟩ := set_address_spec d x y x y r
  have r1 := ready_of_flagOnly r f
  generalize TFT_Set_Address d x y x y = d1 at *
  obtain ⟨f2, sd2⟩ := write_data16_spec d1 c r1.1
  refine ⟨ready_of_flagOnly r1 f2, sameConfig_of_flagOnly (flagOnly_trans f f2), ?_⟩
  have := sends_trans sd sd2
  simpa [burstWire_eq] using this

theorem emits_refl (d : Dev) (r : Ready d.htft) : Emits d d [] :=
  ⟨r, sameConfig_refl _, by simpa using sends_refl d⟩

theorem emits_trans {d d1 d2 : Dev} {a b : List Burst} (h1 : Emits d d1 a) (h2 : Emits d1 d2 b) :
    Emits d d2 (a ++ b) := by
  obtain ⟨-, c1, s1⟩ := h1
  obtain ⟨r2, c2, s2⟩ := h2
  refine ⟨r2, sameConfig_trans c1 c2, ?_⟩
  rw [colOffset_sameConfig c1, rowOffset_sameConfig c1] at s2
  rw [List.flatMap_append]
  exact sends_trans s1 s2

/-- What a call emitted is what the display has received in addition. -/
theorem display_of_emits {d d1 : Dev} {bs : List Burst} (h : Emits d d1 bs)
    (hok : ∀ b ∈ bs, b.ok) : TFT_Display d1 = TFT_Display d ++ bs :=
  display_append d d1 bs hok (colOffset_sameConfig h.2.1) (rowOffset_sameConfig h.2.1) h.2.2

theorem written_of_emits {d d1 : Dev} {bs : List Burst} (h : Emits d d1 bs)
    (hok : ∀ b ∈ bs, b.ok) : written d d1 = bs := by
  unfold written
  rw [display_of_emits h hok]
  simp

/-! ## Pixels of a memory write -/

theorem pixels_replicate (x0 y0 x1 y1 n c : Nat) :
    (⟨x0, y0, x1, y1, List.replicate n c⟩ : Burst).pixels =
      (List.range n).map fun i =>
        ⟨x0 + i % (x1 + 1 - x0), y0 + (i / (x1 + 1 - x0)) % (y1 + 1 - y0), c⟩ := by
  unfold Burst.pixels
  apply List.ext_getElem
  · simp
  · intro i h1 h2
    simp

theorem pixels_point (x y c : Nat) : (⟨x, y, x, y, [c]⟩ : Burst).pixels = [⟨x, y, c⟩] := by
  simp [Burst.pixels, List.enum]

theorem written_self (d : Dev) : written d d = [] := by simp [written]

theorem demoDev_ready : Ready demoDev.htft := by decide

/-! ## Runs: fast lines, areas, rectangles -/

theorem hline_spec (d : Dev) (x y width c : Nat) (r : Ready d.htft) (hw : width ≠ 0) :
    Emits d (TFT_Draw_Fast_HLine d x y width c)
      [⟨x, y, (x + width - 1) % 65536, y, List.replicate width c⟩] := by
  unfold TFT_Draw_Fast_HLine
  simp only [hw, if_false]
  exact stream_spec d x y _ y width c r

theorem vline_spec (d : Dev) (x y height c : Nat) (r : Ready d.htft) (hw : height ≠ 0) :
    Emits d (TFT_Draw_Fast_VLine d x y height c)
      [⟨x, y, x, (y + height - 1) % 65536, List.replicate height c⟩] := by
  unfold TFT_Draw_Fast_VLine
  simp only [hw, if_false]
  exact stream_spec d x y x _ height c r

theorem replicate_ok (n c : Nat) (hc : c < 65536) : ∀ w ∈ List.replicate n c, w < 65536 := by
  intro w hw
  rw [List.eq_of_mem_replicate hw]
  exact hc

theorem ok_single (x0 y0 x1 y1 : Nat) (ws : List Nat) (h0 : x0 < 65536) (h1 : y0 < 65536)
    (h2 : x1 < 65536) (h3 : y1 < 65536) (hw : ∀ w ∈ ws, w < 65536) :
    ∀ b ∈ [(⟨x0, y0, x1, y1, ws⟩ : Burst)], b.ok := by
  intro b hb
  rw [List.mem_singleton.mp hb]
  exact ⟨h0, h1, h2, h3, hw⟩

theorem fill_area_spec (d : Dev) (xs ys xe ye c : Nat) (r : Ready d.htft)
    (hx : xs < xe) (hy : ys < ye) (hxe : xe < 65536) (hye : ye < 65536) :
    Emits d (TFT_Fill_Area d xs ys xe ye c)
      [⟨xs, ys, xe - 1, ye - 1, List.replicate ((xe - xs) * (ye - ys)) c⟩] := by
  unfold TFT_Fill_Area
  have h1 : ¬ (xe ≤ xs ∨ ye ≤ ys) := by omega
  have h2 : (xe - xs) * (ye - ys) < 4294967296 := by
    have a : xe - xs ≤ 65536 := by omega
    have b : ye - ys ≤ 65536 := by omega
    calc (xe - xs) * (ye - ys) ≤ 65535 * 65535 := Nat.mul_le_mul (by omega) (by omega)
      _ < 4294967296 := by norm_num
  have h3 : (xe - xs) * (ye - ys) ≠ 0 := by
    have a : 0 < xe - xs := by omega
    have b : 0 < ye - ys := by omega
    exact (Nat.mul_pos a b).ne'
  simp only [h1, if_false, Nat.mod_eq_of_lt h2, h3]
  rw [Nat.mod_eq_of_lt (by omega : xe - 1 < 65536), Nat.mod_eq_of_lt (by omega : ye - 1 < 65536)]
  exact stream_spec d xs ys (xe - 1) (ye - 1) _ c r

theorem fill_rectangle_spec (d : Dev) (x1 y1 x2 y2 c : Nat) (r : Ready d.htft)
    (hx : x1 ≤ x2) (hy : y1 ≤ y2) (hx2 : x2 < 65535) (hy2 : y2 < 65535) :
    Emits d (TFT_Fill_Rectangle d x1 y1 x2 y2 c)
      [⟨x1, y1, x2, y2, List.replicate ((x2 - x1 + 1) * (y2 - y1 + 1)) c⟩] := by
  unfold TFT_Fill_Rectangle
  have e1 : ¬ x1 > x2 := by omega
  have e2 : ¬ y1 > y2 := by omega
  simp only [e1, e2, if_false]
  rw [Nat.mod_eq_of_lt (by omega : x2 + 1 < 65536), Nat.mod_eq_of_lt (by omega : y2 + 1 < 65536)]
  have := fill_area_spec d x1 y1 (x2 + 1) (y2 + 1) c r (by omega) (by omega) (by omega) (by omega)
  rw [show x2 + 1 - x1 = x2 - x1 + 1 by omega, show y2 + 1 - y1 = y2 - y1 + 1 by omega] at this
  simpa using this

/-- C1 (amended): for every rectangle with `x1 ≤ x2 < 65535` and
`y1 ≤ y2 < 65535` and every colour, on a ready device `TFT_Fill_Rectangle`
makes exactly one memory write: the inclusive window `(x1,y1)-(x2,y2)` with
`(x2-x1+1)*(y2-y1+1)` words, all equal to `color`.  The pixels written are the
rows of that rectangle in order, so every one of them lies inside it. -/
theorem C1_fill_rectangle (d : Dev) (x1 y1 x2 y2 color : Nat) (hr : Ready d.htft)
    (hx : x1 ≤ x2) (hy : y1 ≤ y2) (hx2 : x2 < 65535) (hy2 : y2 < 65535)
    (hc : color < 65536) :
    written d (TFT_Fill_Rectangle d x1 y1 x2 y2 color) =
        [⟨x1, y1, x2, y2, List.replicate ((x2 - x1 + 1) * (y2 - y1 + 1)) color⟩] ∧
      pixelsOf (written d (TFT_Fill_Rectangle d x1 y1 x2 y2 color)) =
        (List.range ((x2 - x1 + 1) * (y2 - y1 + 1))).map
          (fun i => ⟨x1 + i % (x2 - x1 + 1), y1 + i / (x2 - x1 + 1), color⟩) ∧
      ∀ p ∈ pixelsOf (written d (TFT_Fill_Rectangle d x1 y1 x2 y2 color)),
        x1 ≤ p.x ∧ p.x ≤ x2 ∧ y1 ≤ p.y ∧ p.y ≤ y2 ∧ p.color = color := by
  have hw := written_of_emits (fill_rectangle_spec d x1 y1 x2 y2 color hr hx hy hx2 hy2)
    (ok_single _ _ _ _ _ (by omega) (by omega) (by omega) (by omega) (replicate_ok _ _ hc))
  have hp : pixelsOf (written d (TFT_Fill_Rectangle d x1 y1 x2 y2 color)) =
      (List.range ((x2 - x1 + 1) * (y2 - y1 + 1))).map
        (fun i => ⟨x1 + i % (x2 - x1 + 1), y1 + i / (x2 - x1 + 1), color⟩) := by
    rw [hw]
    simp only [pixelsOf, List.flatMap_cons, List.flatMap_nil, List.append_nil, pixels_replicate]
    apply List.map_congr_left
    intro i hi
    have hi2 : i < (x2 - x1 + 1) * (y2 - y1 + 1) := List.mem_range.mp hi
    have hdiv : i / (x2 + 1 - x1) < y2 + 1 - y1 := by
      rw [show x2 + 1 - x1 = x2 - x1 + 1 by omega, show y2 + 1 - y1 = y2 - y1 + 1 by omega]
      exact Nat.div_lt_of_lt_mul hi2
    rw [Nat.mod_eq_of_lt hdiv, show x2 + 1 - x1 = x2 - x1 + 1 by omega]
  refine ⟨hw, hp, ?_⟩
  intro p hpm
  rw [hp] at hpm
  obtain ⟨i, hi, rfl⟩ := List.mem_map.mp hpm
  have hi2 : i < (x2 - x1 + 1) * (y2 - y1 + 1) := List.mem_range.mp hi
  have h1 : i % (x2 - x1 + 1) < x2 - x1 + 1 := Nat.mod_lt _ (by omega)
  have h2 : i / (x2 - x1 + 1) < y2 - y1 + 1 := Nat.div_lt_of_lt_mul hi2
  exact ⟨by simp, by simp only; omega, by simp, by simp only; omega, rfl⟩

/-- C1, the scenario of the specification: `(10,10,12,12,0xF800)` writes the
3x3 block `10..12 x 10..12` and nothing else. -/
theorem C1_fill_rectangle_witness :
    Ready demoDev.htft ∧
      written demoDev (TFT_Fill_Rectangle demoDev 10 10 12 12 0xF800) =
        [⟨10, 10, 12, 12, List.replicate 9 0xF800⟩] ∧
      pixelsOf (written demoDev (TFT_Fill_Rectangle demoDev 10 10 12 12 0xF800)) =
        [⟨10, 10, 0xF800⟩, ⟨11, 10, 0xF800⟩, ⟨12, 10, 0xF800⟩,
         ⟨10, 11, 0xF800⟩, ⟨11, 11, 0xF800⟩, ⟨12, 11, 0xF800⟩,
         ⟨10, 12, 0xF800⟩, ⟨11, 12, 0xF800⟩, ⟨12, 12, 0xF800⟩] :=
  ⟨demoDev_ready,
   (C1_fill_rectangle demoDev 10 10 12 12 0xF800 demoDev_ready (by decide) (by decide)
      (by decide) (by decide) (by decide)).1,
   (C1_fill_rectangle demoDev 10 10 12 12 0xF800 demoDev_ready (by decide) (by decide)
      (by decide) (by decide) (by decide)).2.1.trans (by decide)⟩

/-- C1 as stated fails at the last column: the rectangle `(0,0)-(65535,0)`
has in-range 16-bit corners, yet `TFT_Fill_Rectangle` writes nothing, because
the exclusive end `x2 + 1` wraps to 0. -/
theorem C1_counterexample :
    written demoDev (TFT_Fill_Rectangle demoDev 0 0 65535 0 0xF800) = [] ∧
      written demoDev (TFT_Fill_Rectangle demoDev 0 0 65535 0 0xF800) ≠
        [⟨0, 0, 65535, 0, List.replicate ((65535 - 0 + 1) * (0 - 0 + 1)) 0xF800⟩] := by
  have e : TFT_Fill_Rectangle demoDev 0 0 65535 0 0xF800 = demoDev := by
    simp [TFT_Fill_Rectangle, TFT_Fill_Area]
  rw [e, written_self]
  exact ⟨rfl, (List.cons_ne_nil _ _).symm⟩

/-- What `TFT_Fill_Rectangle` writes for sorted corners below the last column
and row: the window, and the pixels row by row. -/
theorem fill_rectangle_written (d : Dev) (x1 y1 x2 y2 color : Nat) (hr : Ready d.htft)
    (hx : x1 ≤ x2) (hy : y1 ≤ y2) (hx2 : x2 < 65535) (hy2 : y2 < 65535)
    (hc : color < 65536) :
    written d (TFT_Fill_Rectangle d x1 y1 x2 y2 color) =
        [⟨x1, y1, x2, y2, List.replicate ((x2 - x1 + 1) * (y2 - y1 + 1)) color⟩] ∧
      pixelsOf (written d (TFT_Fill_Rectangle d x1 y1 x2 y2 color)) =
        (List.range ((x2 - x1 + 1) * (y2 - y1 + 1))).map
          (fun i => ⟨x1 + i % (x2 - x1 + 1), y1 + i / (x2 - x1 + 1), color⟩) := by
  have hw := written_of_emits (fill_rectangle_spec d x1 y1 x2 y2 color hr hx hy hx2 hy2)
    (ok_single _ _ _ _ _ (by omega) (by omega) (by omega) (by omega) (replicate_ok _ _ hc))
  refine ⟨hw, ?_⟩
  rw [hw]
  simp only [pixelsOf, List.flatMap_cons, List.flatMap_nil, List.append_nil, pixels_replicate]
  apply List.map_congr_left
  intro i hi
  have hi2 : i < (x2 - x1 + 1) * (y2 - y1 + 1) := List.mem_range.mp hi
  have hdiv : i / (x2 + 1 - x1) < y2 + 1 - y1 := by
    rw [show x2 + 1 - x1 = x2 - x1 + 1 by omega, show y2 + 1 - y1 = y2 - y1 + 1 by omega]
    exact Nat.div_lt_of_lt_mul hi2
  rw [Nat.mod_eq_of_lt hdiv, show x2 + 1 - x1 = x2 - x1 + 1 by omega]

/-- C2 (amended): `TFT_Fill_Rectangle` does not depend on the order of the
corners.  For all corners and colours the device state after the call (handle
and every event on the bus, hence window and pixel stream) is the same for
`(x1,y1,x2,y2)`, `(x2,y2,x1,y1)`, `(x2,y1,x1,y2)` and `(x1,y2,x2,y1)`.  When
the larger column and the larger row are both below 65535, what the call
writes on a ready device is the fill of `(min x, min y)-(max x, max y)`: one
memory write, of that window, with
`(max x - min x + 1) * (max y - min y + 1)` words of `color`, its pixels being
the rows of that rectangle in order.  When the larger column or the larger
row is 65535 the call changes nothing, whatever the order of the corners. -/
theorem C2_fill_rectangle_corner_order (d : Dev) (x1 y1 x2 y2 color : Nat) :
    TFT_Fill_Rectangle d x2 y2 x1 y1 color = TFT_Fill_Rectangle d x1 y1 x2 y2 color ∧
      TFT_Fill_Rectangle d x2 y1 x1 y2 color = TFT_Fill_Rectangle d x1 y1 x2 y2 color ∧
      TFT_Fill_Rectangle d x1 y2 x2 y1 color = TFT_Fill_Rectangle d x1 y1 x2 y2 color ∧
      (Ready d.htft → max x1 x2 < 65535 → max y1 y2 < 65535 → color < 65536 →
        written d (TFT_Fill_Rectangle d x1 y1 x2 y2 color) =
            [⟨min x1 x2, min y1 y2, max x1 x2, max y1 y2,
              List.replicate ((max x1 x2 - min x1 x2 + 1) * (max y1 y2 - min y1 y2 + 1))
                color⟩] ∧
          pixelsOf (written d (TFT_Fill_Rectangle d x1 y1 x2 y2 color)) =
            (List.range ((max x1 x2 - min x1 x2 + 1) * (max y1 y2 - min y1 y2 + 1))).map
              (fun i => ⟨min x1 x2 + i % (max x1 x2 - min x1 x2 + 1),
                min y1 y2 + i / (max x1 x2 - min x1 x2 + 1), color⟩)) ∧
      (max x1 x2 = 65535 ∨ max y1 y2 = 65535 →
        TFT_Fill_Rectangle d x1 y1 x2 y2 color = d) := by
  have key : ∀ a b c e, TFT_Fill_Rectangle d a b c e color =
      TFT_Fill_Area d (min a c) (min b e) ((max a c + 1) % 65536) ((max b e + 1) % 65536)
        color := by
    intro a b c e
    unfold TFT_Fill_Rectangle
    rcases Nat.lt_or_ge c a with h1 | h1 <;> rcases Nat.lt_or_ge e b with h2 | h2
    · simp [h1, h2, Nat.min_eq_right h1.le, Nat.max_eq_left h1.le, Nat.min_eq_right h2.le,
        Nat.max_eq_left h2.le]
    · simp [h1, Nat.not_lt.mpr h2, Nat.min_eq_right h1.le, Nat.max_eq_left h1.le,
        Nat.min_eq_left h2, Nat.max_eq_right h2]
    · simp [Nat.not_lt.mpr h1, h2, Nat.min_eq_left h1, Nat.max_eq_right h1,
        Nat.min_eq_right h2.le, Nat.max_eq_left h2.le]
    · simp [Nat.not_lt.mpr h1, Nat.not_lt.mpr h2, Nat.min_eq_left h1, Nat.max_eq_right h1,
        Nat.min_eq_left h2, Nat.max_eq_right h2]
  have sorted : TFT_Fill_Rectangle d x1 y1 x2 y2 color =
      TFT_Fill_Rectangle d (min x1 x2) (min y1 y2) (max x1 x2) (max y1 y2) color := by
    rw [key, key]
    simp
  refine ⟨?_, ?_, ?_, ?_, ?_⟩
  · rw [key, key, Nat.min_comm x2, Nat.min_comm y2, Nat.max_comm x2, Nat.max_comm y2]
  · rw [key, key, Nat.min_comm x2, Nat.max_comm x2]
  · rw [key, key, Nat.min_comm y2, Nat.max_comm y2]
  · intro hr hx hy hc
    rw [sorted]
    exact fill_rectangle_written d _ _ _ _ color hr (by omega) (by omega) hx hy hc
  · intro h
    rw [key]
    unfold TFT_Fill_Area
    rcases h with h | h
    · rw [h, if_pos (Or.inl (by norm_num))]
    · rw [h, if_pos (Or.inr (by norm_num))]

/-- C2 on a sample: the corners `(12,12)` and `(10,10)` given in the opposite
order write the 3x3 block `10..12 x 10..12`, as the call with the corners in
order does. -/
theorem C2_fill_rectangle_corner_order_witness :
    Ready demoDev.htft ∧
      TFT_Fill_Rectangle demoDev 10 10 12 12 0xF800 =
        TFT_Fill_Rectangle demoDev 12 12 10 10 0xF800 ∧
      written demoDev (TFT_Fill_Rectangle demoDev 12 12 10 10 0xF800) =
        [⟨10, 10, 12, 12, List.replicate 9 0xF800⟩] :=
  ⟨demoDev_ready, (C2_fill_rectangle_corner_order demoDev 12 12 10 10 0xF800).1,
   ((C2_fill_rectangle_corner_order demoDev 12 12 10 10 0xF800).2.2.2.1 demoDev_ready
      (by decide) (by decide) (by decide)).1⟩

/-- C2 as stated fails at the last column: with the corners `(65535,5)` and
`(65533,5)`, in either order, `TFT_Fill_Rectangle` writes nothing, not the
fill of `(65533,5)-(65535,5)`, because the exclusive end `65535 + 1` wraps
to 0. -/
theorem C2_counterexample :
    written demoDev (TFT_Fill_Rectangle demoDev 65535 5 65533 5 7) = [] ∧
      written demoDev (TFT_Fill_Rectangle demoDev 65533 5 65535 5 7) = [] ∧
      written demoDev (TFT_Fill_Rectangle demoDev 65535 5 65533 5 7) ≠
        [⟨65533, 5, 65535, 5, List.replicate ((65535 - 65533 + 1) * (5 - 5 + 1)) 7⟩] := by
  have e1 : TFT_Fill_Rectangle demoDev 65535 5 65533 5 7 = demoDev := by
    simp [TFT_Fill_Rectangle, TFT_Fill_Area]
  have e2 : TFT_Fill_Rectangle demoDev 65533 5 65535 5 7 = demoDev := by
    simp [TFT_Fill_Rectangle, TFT_Fill_Area]
  rw [e1, e2, written_self]
  exact ⟨rfl, rfl, (List.cons_ne_nil _ _).symm⟩

/-- C5 (amended): a fast line of length 0 changes nothing at all (handle and
bus are the ones before the call).  On a ready device a horizontal line of
`len > 0` pixels with `x + len ≤ 65536` is exactly one memory write, the window
`(x,y)-(x+len-1,y)` with `len` words of `color`, and `len` is the pixel count
of that window; symmetrically `TFT_Draw_Fast_VLine` with `y + len ≤ 65536`
writes the window `(x,y)-(x,y+len-1)` with `len` words.  In general the end
coordinate is `x + len - 1` (resp. `y + len - 1`) modulo `2^16`. -/
theorem C5_fast_lines (d : Dev) (x y len color : Nat) (hr : Ready d.htft)
    (hx : x < 65536) (hy : y < 65536) (hl : 0 < len) (hc : color < 65536) :
    TFT_Draw_Fast_HLine d x y 0 color = d ∧ TFT_Draw_Fast_VLine d x y 0 color = d ∧
      written d (TFT_Draw_Fast_HLine d x y len color) =
        [⟨x, y, (x + len - 1) % 65536, y, List.replicate len color⟩] ∧
      written d (TFT_Draw_Fast_VLine d x y len color) =
        [⟨x, y, x, (y + len - 1) % 65536, List.replicate len color⟩] ∧
      (x + len ≤ 65536 →
        written d (TFT_Draw_Fast_HLine d x y len color) =
          [⟨x, y, x + len - 1, y, List.replicate len color⟩] ∧
        (⟨x, y, x + len - 1, y, List.replicate len color⟩ : Burst).area = len) ∧
      (y + len ≤ 65536 →
        written d (TFT_Draw_Fast_VLine d x y len color) =
          [⟨x, y, x, y + len - 1, List.replicate len color⟩] ∧
        (⟨x, y, x, y + len - 1, List.replicate len color⟩ : Burst).area = len) := by
  have h1 := written_of_emits (hline_spec d x y len color hr hl.ne')
    (ok_single _ _ _ _ _ hx hy (Nat.mod_lt _ (by norm_num)) hy (replicate_ok _ _ hc))
  have h2 := written_of_emits (vline_spec d x y len color hr hl.ne')
    (ok_single _ _ _ _ _ hx hy hx (Nat.mod_lt _ (by norm_num)) (replicate_ok _ _ hc))
  refine ⟨by simp [TFT_Draw_Fast_HLine], by simp [TFT_Draw_Fast_VLine], h1, h2, ?_, ?_⟩
  · intro hb
    rw [h1, Nat.mod_eq_of_lt (by omega)]
    refine ⟨rfl, ?_⟩
    simp only [Burst.area]
    rw [show x + len - 1 + 1 - x = len by omega, show y + 1 - y = 1 by omega, Nat.mul_one]
  · intro hb
    rw [h2, Nat.mod_eq_of_lt (by omega)]
    refine ⟨rfl, ?_⟩
    simp only [Burst.area]
    rw [show y + len - 1 + 1 - y = len by omega, show x + 1 - x = 1 by omega, Nat.one_mul]

/-- C5 at a concrete input: a horizontal and a vertical run of 5 pixels from
`(10,20)`. -/
theorem C5_fast_lines_witness :
    Ready demoDev.htft ∧
      written demoDev (TFT_Draw_Fast_HLine demoDev 10 20 5 0x07E0) =
        [⟨10, 20, 14, 20, [0x07E0, 0x07E0, 0x07E0, 0x07E0, 0x07E0]⟩] ∧
      written demoDev (TFT_Draw_Fast_VLine demoDev 10 20 5 0x07E0) =
        [⟨10, 20, 10, 24, [0x07E0, 0x07E0, 0x07E0, 0x07E0, 0x07E0]⟩] :=
  ⟨demoDev_ready,
   ((C5_fast_lines demoDev 10 20 5 0x07E0 demoDev_ready (by decide) (by decide) (by decide)
      (by decide)).2.2.2.2.1 (by decide)).1,
   ((C5_fast_lines demoDev 10 20 5 0x07E0 demoDev_ready (by decide) (by decide) (by decide)
      (by decide)).2.2.2.2.2 (by decide)).1⟩

/-- C5 as stated fails when the run passes the last column: for `x = 65535`
and `width = 2` the window selected ends at column 0, not at `x + width - 1`,
and its pixel count is not `width`. -/
theorem C5_counterexample :
    written demoDev (TFT_Draw_Fast_HLine demoDev 65535 3 2 7) = [⟨65535, 3, 0, 3, [7, 7]⟩] ∧
      written demoDev (TFT_Draw_Fast_HLine demoDev 65535 3 2 7) ≠
        [⟨65535, 3, 65535 + 2 - 1, 3, List.replicate 2 7⟩] ∧
      (⟨65535, 3, 0, 3, [7, 7]⟩ : Burst).area ≠ 2 := by
  have h := written_of_emits (hline_spec demoDev 65535 3 2 7 demoDev_ready (by decide))
    (ok_single _ _ _ _ _ (by decide) (by decide) (by decide) (by decide)
      (replicate_ok _ _ (by decide)))
  rw [h]
  decide

theorem draw_line_horizontal (d : Dev) (x1 x2 y color : Nat) :
    TFT_Draw_Line d x1 y x2 y color =
      some (TFT_Draw_Fast_HLine d (min x1 x2) y ((max x1 x2 - min x1 x2 + 1) % 65536) color) := by
  unfold TFT_Draw_Line
  rcases Nat.lt_or_ge x2 x1 with h | h
  · simp [h, Nat.min_eq_right h.le, Nat.max_eq_left h.le]
  · simp [Nat.not_lt.mpr h, Nat.min_eq_left h, Nat.max_eq_right h]

theorem draw_line_vertical (d : Dev) (x y1 y2 color : Nat) (hy : y1 ≠ y2) :
    TFT_Draw_Line d x y1 x y2 color =
      some (TFT_Draw_Fast_VLine d x (min y1 y2) ((max y1 y2 - min y1 y2 + 1) % 65536) color) := by
  unfold TFT_Draw_Line
  rcases Nat.lt_or_ge y2 y1 with h | h
  · simp [hy, h, Nat.min_eq_right h.le, Nat.max_eq_left h.le]
  · simp [hy, Nat.not_lt.mpr h, Nat.min_eq_left h, Nat.max_eq_right h]

/-- C4 (amended): for every axis-aligned segment `TFT_Draw_Line` returns and
delegates to the fast-line primitive: with `y1 = y2` its result is that of
`TFT_Draw_Fast_HLine(min(x1,x2), y1, w)` and with `x1 = x2`, `y1 ≠ y2` that
of `TFT_Draw_Fast_VLine(x1, min(y1,y2), w)`, where `w` is `|delta| + 1` as a
16-bit value; the result is the same when the end points are exchanged.  When
`|delta| < 65535`, on a ready device exactly `|delta| + 1` pixels are written,
in one window from the smaller to the larger end point. -/
theorem C4_axis_aligned_line (d : Dev) (x1 y1 x2 y2 color : Nat) (hr : Ready d.htft)
    (hx1 : x1 < 65536) (hy1 : y1 < 65536) (hx2 : x2 < 65536) (hy2 : y2 < 65536)
    (hc : color < 65536) :
    (y1 = y2 →
      TFT_Draw_Line d x1 y1 x2 y2 color =
          some (TFT_Draw_Fast_HLine d (min x1 x2) y1
            ((max x1 x2 - min x1 x2 + 1) % 65536) color) ∧
        TFT_Draw_Line d x2 y2 x1 y1 color = TFT_Draw_Line d x1 y1 x2 y2 color ∧
        (max x1 x2 - min x1 x2 < 65535 →
          ∃ d1, TFT_Draw_Line d x1 y1 x2 y2 color = some d1 ∧
            written d d1 = [⟨min x1 x2, y1, max x1 x2, y1,
              List.replicate (max x1 x2 - min x1 x2 + 1) color⟩])) ∧
    (x1 = x2 → y1 ≠ y2 →
      TFT_Draw_Line d x1 y1 x2 y2 color =
          some (TFT_Draw_Fast_VLine d x1 (min y1 y2)
            ((max y1 y2 - min y1 y2 + 1) % 65536) color) ∧
        TFT_Draw_Line d x2 y2 x1 y1 color = TFT_Draw_Line d x1 y1 x2 y2 color ∧
        (max y1 y2 - min y1 y2 < 65535 →
          ∃ d1, TFT_Draw_Line d x1 y1 x2 y2 color = some d1 ∧
            written d d1 = [⟨x1, min y1 y2, x1, max y1 y2,
              List.replicate (max y1 y2 - min y1 y2 + 1) color⟩])) := by
  constructor
  · intro h
    subst h
    refine ⟨draw_line_horizontal d x1 x2 y1 color, ?_, ?_⟩
    · rw [draw_line_horizontal, draw_line_horizontal, Nat.min_comm, Nat.max_comm]
    · intro hd
      refine ⟨_, draw_line_horizontal d x1 x2 y1 color, ?_⟩
      rw [Nat.mod_eq_of_lt (by omega)]
      have hm : min x1 x2 ≤ max x1 x2 := le_trans (Nat.min_le_left _ _) (Nat.le_max_left _ _)
      have hM : max x1 x2 < 65536 := Nat.max_lt.mpr ⟨hx1, hx2⟩
      have := written_of_emits
        (hline_spec d (min x1 x2) y1 (max x1 x2 - min x1 x2 + 1) color hr (by omega))
        (ok_single _ _ _ _ _ (by omega) hy1 (Nat.mod_lt _ (by norm_num)) hy1
          (replicate_ok _ _ hc))
      rw [this, show min x1 x2 + (max x1 x2 - min x1 x2 + 1) - 1 = max x1 x2 by omega,
        Nat.mod_eq_of_lt hM]
  · intro h hy
    subst h
    refine ⟨draw_line_vertical d x1 y1 y2 color hy, ?_, ?_⟩
    · rw [draw_line_vertical _ _ _ _ _ hy, draw_line_vertical _ _ _ _ _ (Ne.symm hy),
        Nat.min_comm, Nat.max_comm]
    · intro hd
      refine ⟨_, draw_line_vertical d x1 y1 y2 color hy, ?_⟩
      rw [Nat.mod_eq_of_lt (by omega)]
      have hm : min y1 y2 ≤ max y1 y2 := le_trans (Nat.min_le_left _ _) (Nat.le_max_left _ _)
      have hM : max y1 y2 < 65536 := Nat.max_lt.mpr ⟨hy1, hy2⟩
      have := written_of_emits
        (vline_spec d x1 (min y1 y2) (max y1 y2 - min y1 y2 + 1) color hr (by omega))
        (ok_single _ _ _ _ _ hx1 (by omega) hx1 (Nat.mod_lt _ (by norm_num))
          (replicate_ok _ _ hc))
      rw [this, show min y1 y2 + (max y1 y2 - min y1 y2 + 1) - 1 = max y1 y2 by omega,
        Nat.mod_eq_of_lt hM]

/-- C4 at concrete inputs: the horizontal segment from `(7,5)` back to `(3,5)`
and the vertical segment from `(3,9)` up to `(3,6)`. -/
theorem C4_axis_aligned_line_witness :
    Ready demoDev.htft ∧
      (∃ d1, TFT_Draw_Line demoDev 7 5 3 5 1 = some d1 ∧
        written demoDev d1 = [⟨3, 5, 7, 5, [1, 1, 1, 1, 1]⟩]) ∧
      (∃ d1, TFT_Draw_Line demoDev 3 9 3 6 1 = some d1 ∧
        written demoDev d1 = [⟨3, 6, 3, 9, [1, 1, 1, 1]⟩]) :=
  ⟨demoDev_ready,
   ((C4_axis_aligned_line demoDev 7 5 3 5 1 demoDev_ready (by decide) (by decide) (by decide)
      (by decide) (by decide)).1 rfl).2.2 (by decide),
   ((C4_axis_aligned_line demoDev 3 9 3 6 1 demoDev_ready (by decide) (by decide) (by decide)
      (by decide) (by decide)).2 rfl (by decide)).2.2 (by decide)⟩

/-- C4 as stated fails for the segment from column 0 to column 65535: the
width `|delta| + 1 = 65536` is 0 as a 16-bit value, so nothing is drawn at
all instead of 65536 pixels in one window. -/
theorem C4_counterexample :
    TFT_Draw_Line demoDev 0 0 65535 0 7 = some demoDev ∧
      written demoDev demoDev = [] ∧
      ¬ ∃ d1, TFT_Draw_Line demoDev 0 0 65535 0 7 = some d1 ∧
        written demoDev d1 = [⟨0, 0, 65535, 0, List.replicate (65535 + 1) 7⟩] := by
  have e : TFT_Draw_Line demoDev 0 0 65535 0 7 = some demoDev := by
    rw [draw_line_horizontal]
    simp [TFT_Draw_Fast_HLine]
  refine ⟨e, written_self _, ?_⟩
  rintro ⟨d1, h1, h2⟩
  rw [e] at h1
  cases h1
  rw [written_self] at h2
  exact List.cons_ne_nil _ _ h2.symm

/-! ## Machine integers in range -/

theorem i16_of_small (v : Int) (h0 : -32768 ≤ v) (h1 : v < 32768) : i16 v = v := by
  unfold i16
  omega

theorem u16_of_nat (n : Nat) (h : n < 65536) : u16 (n : Int) = n := by
  unfold u16
  omega

theorem u16_of_nonneg (v : Int) (h0 : 0 ≤ v) (h1 : v < 65536) : ((u16 v : Nat) : Int) = v := by
  unfold u16
  omega

/-! ## Degenerate shapes -/

theorem flush_ready (d : Dev) (w : Nat) (r : Ready d.htft) : TFT_Flush_Buffer d w = d :=
  flush_idle d w r.2.2.2.2

/-- C8: with radius 0, `TFT_Draw_Circle` and `TFT_Fill_Circle` both return
and, on a ready device, make exactly one memory write: the single pixel
`(x0,y0)` in the given colour, and nothing else. -/
theorem C8_circle_radius_zero (d : Dev) (x0 y0 color : Nat) (hr : Ready d.htft)
    (hx : x0 < 65536) (hy : y0 < 65536) (hc : color < 65536) :
    (∃ d1, TFT_Draw_Circle d x0 y0 0 color = some d1 ∧
        written d d1 = [⟨x0, y0, x0, y0, [color]⟩] ∧
        pixelsOf (written d d1) = [⟨x0, y0, color⟩]) ∧
      (∃ d1, TFT_Fill_Circle d x0 y0 0 color = some d1 ∧
        written d d1 = [⟨x0, y0, x0, y0, [color]⟩] ∧
        pixelsOf (written d d1) = [⟨x0, y0, color⟩]) := by
  have e := draw_point_spec d x0 y0 color hr
  have w := written_of_emits e
    (ok_single _ _ _ _ _ hx hy hx hy (by intro w hw; rw [List.mem_singleton.mp hw]; exact hc))
  have p : pixelsOf [(⟨x0, y0, x0, y0, [color]⟩ : Burst)] = [⟨x0, y0, color⟩] := by
    simp [pixelsOf, pixels_point]
  constructor
  · refine ⟨TFT_Draw_Point d x0 y0 color, ?_, w, by rw [w, p]⟩
    simp [TFT_Draw_Circle, flush_ready _ 1 e.1]
  · refine ⟨TFT_Draw_Point d x0 y0 color, ?_, w, by rw [w, p]⟩
    simp [TFT_Fill_Circle, flush_ready _ 1 e.1]

/-- C8 at a concrete input: radius 0 at `(30,40)`. -/
theorem C8_circle_radius_zero_witness :
    Ready demoDev.htft ∧
      (∃ d1, TFT_Draw_Circle demoDev 30 40 0 0x001F = some d1 ∧
        written demoDev d1 = [⟨30, 40, 30, 40, [0x001F]⟩] ∧
        pixelsOf (written demoDev d1) = [⟨30, 40, 0x001F⟩]) ∧
      (∃ d1, TFT_Fill_Circle demoDev 30 40 0 0x001F = some d1 ∧
        written demoDev d1 = [⟨30, 40, 30, 40, [0x001F]⟩] ∧
        pixelsOf (written demoDev d1) = [⟨30, 40, 0x001F⟩]) :=
  ⟨demoDev_ready,
   C8_circle_radius_zero demoDev 30 40 0x001F demoDev_ready (by decide) (by decide) (by decide)⟩

/-- C10: for three vertices on one row `y` (all coordinates below `2^15`),
whatever the start value of the uninitialised `currentY`, `TFT_Fill_Triangle`
returns and, on a ready device, makes exactly one memory write: the window
`(min x, y)-(max x, y)` with `max x - min x + 1` words of `color`. -/
theorem C10_fill_triangle_degenerate (d : Dev) (x1 x2 x3 y color : Nat) (currentY0 : Int)
    (hr : Ready d.htft) (h1 : x1 < 32768) (h2 : x2 < 32768) (h3 : x3 < 32768)
    (hy : y < 32768) (hc : color < 65536) :
    ∃ d1, TFT_Fill_Triangle d x1 y x2 y x3 y color currentY0 = some d1 ∧
      written d d1 =
        [⟨min x1 (min x2 x3), y, max x1 (max x2 x3), y,
          List.replicate (max x1 (max x2 x3) - min x1 (min x2 x3) + 1) color⟩] := by
  have a1 : i16 (x1 : Int) = x1 := i16_of_small _ (by omega) (by omega)
  have a2 : i16 (x2 : Int) = x2 := i16_of_small _ (by omega) (by omega)
  have a3 : i16 (x3 : Int) = x3 := i16_of_small _ (by omega) (by omega)
  have key : TFT_Fill_Triangle d x1 y x2 y x3 y color currentY0 =
      some (TFT_Draw_Fast_HLine d (min x1 (min x2 x3)) y
        (max x1 (max x2 x3) - min x1 (min x2 x3) + 1) color) := by
    unfold TFT_Fill_Triangle
    simp only [gt_iff_lt, lt_self_iff_false, if_false, if_true, a1, a2, a3]
    have hs : (if (x3 : Int) < (if (x2 : Int) < x1 then (x2 : Int) else x1) then (x3 : Int)
        else (if (x2 : Int) < x1 then (x2 : Int) else x1)) = ((min x1 (min x2 x3) : Nat) : Int) := by
      split_ifs <;> omega
    have he : (if (x3 : Int) < (if (x2 : Int) < x1 then (x2 : Int) else x1)
          then (if (x2 : Int) < x1 then (x1 : Int) else if (x2 : Int) > x1 then (x2 : Int) else x1)
        else if (x3 : Int) >
            (if (x2 : Int) < x1 then (x1 : Int) else if (x2 : Int) > x1 then (x2 : Int) else x1)
          then (x3 : Int)
          else (if (x2 : Int) < x1 then (x1 : Int) else if (x2 : Int) > x1 then (x2 : Int) else x1)) =
        ((max x1 (max x2 x3) : Nat) : Int) := by
      split_ifs <;> omega
    rw [hs, he]
    have hm : min x1 (min x2 x3) ≤ max x1 (max x2 x3) :=
      le_trans (Nat.min_le_left _ _) (Nat.le_max_left _ _)
    have hM : max x1 (max x2 x3) < 32768 := by omega
    rw [u16_of_nat _ (by omega)]
    have : ((max x1 (max x2 x3) : Nat) : Int) - ((min x1 (min x2 x3) : Nat) : Int) + 1 =
        ((max x1 (max x2 x3) - min x1 (min x2 x3) + 1 : Nat) : Int) := by omega
    rw [this, u16_of_nat _ (by omega)]
  refine ⟨_, key, ?_⟩
  have hm : min x1 (min x2 x3) ≤ max x1 (max x2 x3) :=
    le_trans (Nat.min_le_left _ _) (Nat.le_max_left _ _)
  have hM : max x1 (max x2 x3) < 32768 := by omega
  have := written_of_emits
    (hline_spec d (min x1 (min x2 x3)) y (max x1 (max x2 x3) - min x1 (min x2 x3) + 1) color hr
      (by omega))
    (ok_single _ _ _ _ _ (by omega) (by omega) (Nat.mod_lt _ (by norm_num)) (by omega)
      (replicate_ok _ _ hc))
  rw [this, show min x1 (min x2 x3) + (max x1 (max x2 x3) - min x1 (min x2 x3) + 1) - 1 =
    max x1 (max x2 x3) by omega, Nat.mod_eq_of_lt (by omega)]

/-- C10 at a concrete input: the vertices `(5,3)`, `(2,3)`, `(9,3)`. -/
theorem C10_fill_triangle_degenerate_witness :
    Ready demoDev.htft ∧
      ∃ d1, TFT_Fill_Triangle demoDev 5 3 2 3 9 3 7 0 = some d1 ∧
        written demoDev d1 = [⟨2, 3, 9, 3, [7, 7, 7, 7, 7, 7, 7, 7]⟩] :=
  ⟨demoDev_ready,
   C10_fill_triangle_degenerate demoDev 5 2 9 3 7 0 demoDev_ready (by decide) (by decide)
     (by decide) (by decide) (by decide)⟩

/-! ## Bresenham lines -/

theorem draw_point_emits (d : Dev) (cx cy : Int) (c : Nat) (r : Ready d.htft) :
    Emits d (TFT_Draw_Point d (u16 cx) (u16 cy) c) [pointBurst c (u16 cx, u16 cy)] :=
  draw_point_spec d (u16 cx) (u16 cy) c r

theorem u16_lt (v : Int) : u16 v < 65536 := by
  unfold u16
  omega

theorem bresenham_final (dx dy e e0 j : Int) (hdx : 0 < dx) (he0 : 0 ≤ e) (he1 : e < dx)
    (h0 : 0 ≤ e0) (h1 : e0 < dx) (h : e + dx * dy = e0 + j * dx) : j = dy := by
  have h2 : (j - dy) * dx = e - e0 := by ring_nf; ring_nf at h; linarith
  by_contra hne
  rcases lt_or_gt_of_ne hne with hlt | hgt
  · have : (j - dy) * dx ≤ -1 * dx := by
      apply mul_le_mul_of_nonneg_right _ hdx.le
      omega
    linarith
  · have : 1 * dx ≤ (j - dy) * dx := by
      apply mul_le_mul_of_nonneg_right _ hdx.le
      omega
    linarith

theorem bresenham_bound (dx dy e e0 j n : Int) (hdx : 0 < dx) (hdy : 0 ≤ dy) (he1 : e < dx)
    (h0 : 0 ≤ e0) (hn : 0 ≤ n) (h : e + (dx - n) * dy = e0 + j * dx) : j ≤ dy := by
  by_contra hne
  have hj : dy + 1 ≤ j := by omega
  have : (dy + 1) * dx ≤ j * dx := mul_le_mul_of_nonneg_right hj hdx.le
  have : 0 ≤ n * dy := mul_nonneg hn hdy
  nlinarith

theorem lineLoopX_spec (x2 y1 : Nat) (dx dy sx sy e0 : Int) (c : Nat)
    (hdy : 0 < dy) (hlt : dy < dx) (hdx : dx < 32768)
    (hsx : sx = 1 ∨ sx = -1)
    (hx2 : x2 < 32768) (h0 : 0 ≤ e0) (h1 : e0 < dx)
    (hy : ∀ j : Int, 0 ≤ j → j ≤ dy → 0 ≤ y1 + sy * j ∧ (y1 : Int) + sy * j < 32768) :
    ∀ (n fuel : Nat) (d : Dev) (cx cy e j : Int), n < fuel → Ready d.htft →
      (x2 : Int) = cx + sx * n → 0 ≤ cx → cx < 32768 → 0 ≤ e → e < dx → (n : Int) ≤ dx →
      0 ≤ j → e + (dx - n) * dy = e0 + j * dx → cy = y1 + sy * j →
      ∃ d1 pts, lineLoopX x2 dx dy sx sy c fuel d cx cy e = some (d1, (x2 : Int), y1 + sy * dy) ∧
        Emits d d1 (pts.map (pointBurst c)) ∧ pts.length = n ∧
        (∀ p ∈ pts, p.1 < 65536 ∧ p.2 < 65536) ∧
        (pts ++ [(x2, u16 (y1 + sy * dy))]).head? = some (u16 cx, u16 cy) ∧
        List.Chain' (LineStep sx sy true) (pts ++ [(x2, u16 (y1 + sy * dy))]) := by
  intro n
  induction n with
  | zero =>
    intro fuel d cx cy e j hf hr hx hc0 hc1 he0 he1 hn hj hrel hcy
    obtain ⟨f, rfl⟩ : ∃ f, fuel = f + 1 := ⟨fuel - 1, by omega⟩
    have hcx : cx = x2 := by simp at hx; omega
    have hjd : j = dy := bresenham_final dx dy e e0 j (by omega) he0 he1 h0 h1
      (by simp at hrel; linarith)
    subst hjd
    refine ⟨d, [], ?_, emits_refl d hr, rfl, by simp, ?_, ?_⟩
    · rw [lineLoopX]
      simp [hcx, hcy]
    · simp [hcx, hcy, u16_of_nat _ (by omega : x2 < 65536)]
    · simp
  | succ n ih =>
    intro fuel d cx cy e j hf hr hx hc0 hc1 he0 he1 hn hj hrel hcy
    obtain ⟨f, rfl⟩ : ∃ f, fuel = f + 1 := ⟨fuel - 1, by omega⟩
    have hne : cx ≠ (x2 : Int) := by
      rcases hsx with h | h <;> subst h <;> push_cast at hx <;> omega
    have hjle : j ≤ dy := bresenham_bound dx dy e e0 j (n + 1) (by omega) hdy.le he1 h0
      (by omega) (by push_cast at hrel; linarith)
    have hcyr := hy j hj hjle
    have hxn : (x2 : Int) = cx + sx + sx * n := by push_cast at hx; linarith
    have hcx1 : 0 ≤ cx + sx ∧ cx + sx < 32768 := by
      rcases hsx with h | h <;> subst h <;> constructor <;> omega
    have e1 : i16 (e - dy) = e - dy := i16_of_small _ (by omega) (by omega)
    have ecx : i16 (cx + sx) = cx + sx := i16_of_small _ (by omega) (by omega)
    have hp := draw_point_emits d cx cy c hr
    rw [lineLoopX]
    simp only [hne, ne_eq, not_false_eq_true, if_true, e1, ecx]
    by_cases hneg : e - dy < 0
    · simp only [hneg, if_true]
      have hj1 : j + 1 ≤ dy := by
        apply bresenham_bound dx dy (e - dy + dx) e0 (j + 1) n (by omega) hdy.le (by omega) h0
          (by omega)
        push_cast at hrel
        linarith
      have hcy1 := hy (j + 1) (by omega) hj1
      have ecy : i16 (cy + sy) = cy + sy := by
        apply i16_of_small <;> rw [hcy] <;> linarith [hcy1.1, hcy1.2]
      have ee : i16 (e - dy + dx) = e - dy + dx := i16_of_small _ (by omega) (by omega)
      rw [ecy, ee]
      obtain ⟨d1, pts, hl, hem, hlen, hrg, hhd, hch⟩ :=
        ih f (TFT_Draw_Point d (u16 cx) (u16 cy) c) (cx + sx) (cy + sy) (e - dy + dx) (j + 1)
          (by omega) hp.1 (by linarith) hcx1.1 hcx1.2 (by omega) (by omega) (by omega) (by omega)
          (by push_cast at hrel; linarith) (by rw [hcy]; ring)
      refine ⟨d1, (u16 cx, u16 cy) :: pts, hl, ?_, by simp [hlen], ?_, by simp, ?_⟩
      · simpa using emits_trans hp hem
      · intro p hp2
        rcases List.mem_cons.mp hp2 with h | h
        · rw [h]; exact ⟨u16_lt _, u16_lt _⟩
        · exact hrg p h
      · rw [List.cons_append, List.chain'_cons', ]
        refine ⟨?_, hch⟩
        intro q hq
        rw [hhd] at hq
        cases hq
        simp only [LineStep, if_true]
        rw [u16_of_nonneg _ hcx1.1 (by omega), u16_of_nonneg _ hc0 (by omega),
          u16_of_nonneg cy (by rw [hcy]; exact hcyr.1) (by rw [hcy]; linarith [hcyr.2]),
          u16_of_nonneg (cy + sy) (by rw [hcy]; linarith [hcy1.1]) (by rw [hcy]; linarith [hcy1.2])]
        exact ⟨rfl, Or.inr rfl⟩
    · simp only [hneg, if_false]
      obtain ⟨d1, pts, hl, hem, hlen, hrg, hhd, hch⟩ :=
        ih f (TFT_Draw_Point d (u16 cx) (u16 cy) c) (cx + sx) cy (e - dy) j
          (by omega) hp.1 (by linarith) hcx1.1 hcx1.2 (by omega) (by omega) (by omega) hj
          (by push_cast at hrel; linarith) hcy
      refine ⟨d1, (u16 cx, u16 cy) :: pts, hl, ?_, by simp [hlen], ?_, by simp, ?_⟩
      · simpa using emits_trans hp hem
      · intro p hp2
        rcases List.mem_cons.mp hp2 with h | h
        · rw [h]; exact ⟨u16_lt _, u16_lt _⟩
        · exact hrg p h
      · rw [List.cons_append, List.chain'_cons']
        refine ⟨?_, hch⟩
        intro q hq
        rw [hhd] at hq
        cases hq
        simp only [LineStep, if_true]
        rw [u16_of_nonneg _ hcx1.1 (by omega), u16_of_nonneg _ hc0 (by omega)]
        exact ⟨rfl, Or.inl trivial⟩



theorem lineLoopY_spec (y2 x1 : Nat) (dx dy sx sy e0 : Int) (c : Nat)
    (hdx : 0 < dx) (hle : dx ≤ dy) (hdy : dy < 32768)
    (hsy : sy = 1 ∨ sy = -1)
    (hy2 : y2 < 32768) (h0 : 0 ≤ e0) (h1 : e0 < dy)
    (hxr : ∀ j : Int, 0 ≤ j → j ≤ dx → 0 ≤ x1 + sx * j ∧ (x1 : Int) + sx * j < 32768) :
    ∀ (n fuel : Nat) (d : Dev) (cx cy e j : Int), n < fuel → Ready d.htft →
      (y2 : Int) = cy + sy * n → 0 ≤ cy → cy < 32768 → 0 ≤ e → e < dy → (n : Int) ≤ dy →
      0 ≤ j → e + (dy - n) * dx = e0 + j * dy → cx = x1 + sx * j →
      ∃ d1 pts, lineLoopY y2 dx dy sx sy c fuel d cx cy e = some (d1, x1 + sx * dx, (y2 : Int)) ∧
        Emits d d1 (pts.map (pointBurst c)) ∧ pts.length = n ∧
        (∀ p ∈ pts, p.1 < 65536 ∧ p.2 < 65536) ∧
        (pts ++ [(u16 (x1 + sx * dx), y2)]).head? = some (u16 cx, u16 cy) ∧
        List.Chain' (LineStep sx sy false) (pts ++ [(u16 (x1 + sx * dx), y2)]) := by
  intro n
  induction n with
  | zero =>
    intro fuel d cx cy e j hf hr hy hc0 hc1 he0 he1 hn hj hrel hcx
    obtain ⟨f, rfl⟩ : ∃ f, fuel = f + 1 := ⟨fuel - 1, by omega⟩
    have hcy : cy = y2 := by simp at hy; omega
    have hjd : j = dx := bresenham_final dy dx e e0 j (by omega) he0 he1 h0 h1
      (by simp at hrel; linarith)
    subst hjd
    refine ⟨d, [], ?_, emits_refl d hr, rfl, by simp, ?_, ?_⟩
    · rw [lineLoopY]
      simp [hcx, hcy]
    · simp [hcx, hcy, u16_of_nat _ (by omega : y2 < 65536)]
    · simp
  | succ n ih =>
    intro fuel d cx cy e j hf hr hy hc0 hc1 he0 he1 hn hj hrel hcx
    obtain ⟨f, rfl⟩ : ∃ f, fuel = f + 1 := ⟨fuel - 1, by omega⟩
    have hne : cy ≠ (y2 : Int) := by
      rcases hsy with h | h <;> subst h <;> push_cast at hy <;> omega
    have hjle : j ≤ dx := bresenham_bound dy dx e e0 j (n + 1) (by omega) hdx.le he1 h0
      (by omega) (by push_cast at hrel; linarith)
    have hcxr := hxr j hj hjle
    have hyn : (y2 : Int) = cy + sy + sy * n := by push_cast at hy; linarith
    have hcy1 : 0 ≤ cy + sy ∧ cy + sy < 32768 := by
      rcases hsy with h | h <;> subst h <;> constructor <;> omega
    have e1 : i16 (e - dx) = e - dx := i16_of_small _ (by omega) (by omega)
    have ecy : i16 (cy + sy) = cy + sy := i16_of_small _ (by omega) (by omega)
    have hp := draw_point_emits d cx cy c hr
    rw [lineLoopY]
    simp only [hne, ne_eq, not_false_eq_true, if_true, e1, ecy]
    by_cases hneg : e - dx < 0
    · simp only [hneg, if_true]
      have hj1 : j + 1 ≤ dx := by
        apply bresenham_bound dy dx (e - dx + dy) e0 (j + 1) n (by omega) hdx.le (by omega) h0
          (by omega)
        push_cast at hrel
        linarith
      have hcx1 := hxr (j + 1) (by omega) hj1
      have ecx : i16 (cx + sx) = cx + sx := by
        apply i16_of_small <;> rw [hcx] <;> linarith [hcx1.1, hcx1.2]
      have ee : i16 (e - dx + dy) = e - dx + dy := i16_of_small _ (by omega) (by omega)
      rw [ecx, ee]
      obtain ⟨d1, pts, hl, hem, hlen, hrg, hhd, hch⟩ :=
        ih f (TFT_Draw_Point d (u16 cx) (u16 cy) c) (cx + sx) (cy + sy) (e - dx + dy) (j + 1)
          (by omega) hp.1 (by linarith) hcy1.1 hcy1.2 (by omega) (by omega) (by omega) (by omega)
          (by push_cast at hrel; linarith) (by rw [hcx]; ring)
      refine ⟨d1, (u16 cx, u16 cy) :: pts, hl, ?_, by simp [hlen], ?_, by simp, ?_⟩
      · simpa using emits_trans hp hem
      · intro p hp2
        rcases List.mem_cons.mp hp2 with h | h
        · rw [h]; exact ⟨u16_lt _, u16_lt _⟩
        · exact hrg p h
      · rw [List.cons_append, List.chain'_cons']
        refine ⟨?_, hch⟩
        intro q hq
        rw [hhd] at hq
        cases hq
        simp only [LineStep, Bool.false_eq_true, if_false]
        rw [u16_of_nonneg _ hcy1.1 (by omega), u16_of_nonneg _ hc0 (by omega),
          u16_of_nonneg cx (by rw [hcx]; exact hcxr.1) (by rw [hcx]; linarith [hcxr.2]),
          u16_of_nonneg (cx + sx) (by rw [hcx]; linarith [hcx1.1]) (by rw [hcx]; linarith [hcx1.2])]
        exact ⟨rfl, Or.inr rfl⟩
    · simp only [hneg, if_false]
      obtain ⟨d1, pts, hl, hem, hlen, hrg, hhd, hch⟩ :=
        ih f (TFT_Draw_Point d (u16 cx) (u16 cy) c) cx (cy + sy) (e - dx) j
          (by omega) hp.1 (by linarith) hcy1.1 hcy1.2 (by omega) (by omega) (by omega) hj
          (by push_cast at hrel; linarith) hcx
      refine ⟨d1, (u16 cx, u16 cy) :: pts, hl, ?_, by simp [hlen], ?_, by simp, ?_⟩
      · simpa using emits_trans hp hem
      · intro p hp2
        rcases List.mem_cons.mp hp2 with h | h
        · rw [h]; exact ⟨u16_lt _, u16_lt _⟩
        · exact hrg p h
      · rw [List.cons_append, List.chain'_cons']
        refine ⟨?_, hch⟩
        intro q hq
        rw [hhd] at hq
        cases hq
        simp only [LineStep, Bool.false_eq_true, if_false]
        rw [u16_of_nonneg _ hcy1.1 (by omega), u16_of_nonneg _ hc0 (by omega)]
        exact ⟨rfl, Or.inl trivial⟩



theorem pointBurst_ok (c : Nat) (hc : c < 65536) (pts : List (Nat × Nat))
    (h : ∀ p ∈ pts, p.1 < 65536 ∧ p.2 < 65536) : ∀ b ∈ pts.map (pointBurst c), b.ok := by
  intro b hb
  obtain ⟨p, hp, rfl⟩ := List.mem_map.mp hb
  have := h p hp
  exact ⟨this.1, this.2, this.1, this.2, by
    intro w hw
    rw [List.mem_singleton.mp hw]
    exact hc⟩

/-- C3: for end points with `x1 ≠ x2` and `y1 ≠ y2` (coordinates below `2^15`)
`TFT_Draw_Line` returns and, on a ready device, writes a sequence of single
pixels, each in its own 1x1 window: exactly `max(|x2-x1|,|y2-y1|) + 1` points,
the first `(x1,y1)`, the last `(x2,y2)`, and from each point to the next the
major-axis coordinate moves by exactly one toward the end point while the
minor-axis coordinate stays or moves by one toward the end point. -/
theorem C3_bresenham_line (d : Dev) (x1 y1 x2 y2 color : Nat) (hr : Ready d.htft)
    (hx1 : x1 < 32768) (hy1 : y1 < 32768) (hx2 : x2 < 32768) (hy2 : y2 < 32768)
    (hc : color < 65536) (hx : x1 ≠ x2) (hy : y1 ≠ y2) :
    ∃ d1 pts, TFT_Draw_Line d x1 y1 x2 y2 color = some d1 ∧
      written d d1 = pts.map (pointBurst color) ∧
      pts.length = max (Int.natAbs ((x2 : Int) - x1)) (Int.natAbs ((y2 : Int) - y1)) + 1 ∧
      pts.head? = some (x1, y1) ∧ pts.getLast? = some (x2, y2) ∧
      List.Chain' (LineStep (if x1 < x2 then 1 else -1) (if y1 < y2 then 1 else -1)
        (decide (|(x2 : Int) - x1| > |(y2 : Int) - y1|))) pts := by
  have hdx0 : 0 < |(x2 : Int) - x1| := abs_pos.mpr (by omega)
  have hdy0 : 0 < |(y2 : Int) - y1| := abs_pos.mpr (by omega)
  have hdx1 : |(x2 : Int) - x1| < 32768 := abs_lt.mpr ⟨by omega, by omega⟩
  have hdy1 : |(y2 : Int) - y1| < 32768 := abs_lt.mpr ⟨by omega, by omega⟩
  have edx : i16 |(x2 : Int) - x1| = |(x2 : Int) - x1| := i16_of_small _ (by omega) hdx1
  have edy : i16 |(y2 : Int) - y1| = |(y2 : Int) - y1| := i16_of_small _ (by omega) hdy1
  have ex1 : i16 (x1 : Int) = x1 := i16_of_small _ (by omega) (by omega)
  have ey1 : i16 (y1 : Int) = y1 := i16_of_small _ (by omega) (by omega)
  have hsx : (if x1 < x2 then (1 : Int) else -1) = 1 ∨ (if x1 < x2 then (1 : Int) else -1) = -1 := by
    split_ifs <;> simp
  have hsy : (if y1 < y2 then (1 : Int) else -1) = 1 ∨ (if y1 < y2 then (1 : Int) else -1) = -1 := by
    split_ifs <;> simp
  have hxe : (x1 : Int) + (if x1 < x2 then (1 : Int) else -1) * |(x2 : Int) - x1| = x2 := by
    split_ifs with h
    · rw [abs_of_pos (by omega)]; ring
    · rw [abs_of_neg (by omega)]; ring
  have hye : (y1 : Int) + (if y1 < y2 then (1 : Int) else -1) * |(y2 : Int) - y1| = y2 := by
    split_ifs with h
    · rw [abs_of_pos (by omega)]; ring
    · rw [abs_of_neg (by omega)]; ring
  have hxr : ∀ j : Int, 0 ≤ j → j ≤ |(x2 : Int) - x1| →
      0 ≤ (x1 : Int) + (if x1 < x2 then (1 : Int) else -1) * j ∧
      (x1 : Int) + (if x1 < x2 then (1 : Int) else -1) * j < 32768 := by
    intro j hj0 hj1
    split_ifs with h
    · rw [abs_of_pos (by omega)] at hj1; constructor <;> omega
    · rw [abs_of_neg (by omega)] at hj1; constructor <;> omega
  have hyr : ∀ j : Int, 0 ≤ j → j ≤ |(y2 : Int) - y1| →
      0 ≤ (y1 : Int) + (if y1 < y2 then (1 : Int) else -1) * j ∧
      (y1 : Int) + (if y1 < y2 then (1 : Int) else -1) * j < 32768 := by
    intro j hj0 hj1
    split_ifs with h
    · rw [abs_of_pos (by omega)] at hj1; constructor <;> omega
    · rw [abs_of_neg (by omega)] at hj1; constructor <;> omega
  unfold TFT_Draw_Line
  simp only [Ne.symm hy |>.symm, hy, hx, if_false, edx, edy, ex1, ey1]
  by_cases hmaj : |(x2 : Int) - x1| > |(y2 : Int) - y1|
  · simp only [hmaj, if_true, decide_True]
    have he0 : Int.tdiv |(x2 : Int) - x1| 2 = |(x2 : Int) - x1| / 2 :=
      Int.tdiv_eq_ediv hdx0.le (by norm_num)
    have ee0 : i16 (Int.tdiv |(x2 : Int) - x1| 2) = |(x2 : Int) - x1| / 2 := by
      rw [he0]; exact i16_of_small _ (by omega) (by omega)
    rw [ee0]
    obtain ⟨d1, pts, hl, hem, hlen, hrg, hhd, hch⟩ :=
      lineLoopX_spec x2 y1 _ _ _ _ (|(x2 : Int) - x1| / 2) color hdy0 hmaj hdx1 hsx hx2
        (by omega) (by omega) hyr (Int.toNat |(x2 : Int) - x1|) loopFuel d x1 y1
        (|(x2 : Int) - x1| / 2) 0 (by unfold loopFuel; omega) hr
        (by rw [Int.toNat_of_nonneg hdx0.le]; exact hxe.symm)
        (by omega) (by omega) (by omega) (by omega)
        (by rw [Int.toNat_of_nonneg hdx0.le]) le_rfl
        (by rw [Int.toNat_of_nonneg hdx0.le]; ring) (by ring)
    rw [hye] at hl hhd hch
    rw [hl]
    have ux1 : u16 (x1 : Int) = x1 := u16_of_nat _ (by omega)
    have uy1 : u16 (y1 : Int) = y1 := u16_of_nat _ (by omega)
    have ux2 : u16 (x2 : Int) = x2 := u16_of_nat _ (by omega)
    have uy2 : u16 (y2 : Int) = y2 := u16_of_nat _ (by omega)
    have hp := draw_point_spec d1 x2 y2 color hem.1
    simp only [ux1, uy1, ux2, uy2] at hhd hch
    simp only [ux2, uy2, flush_ready _ 1 hp.1]
    refine ⟨_, pts ++ [(x2, y2)], rfl, ?_, ?_, hhd, by simp, hch⟩
    · have hall := emits_trans hem hp
      have : pts.map (pointBurst color) ++ [pointBurst color (x2, y2)] =
          (pts ++ [(x2, y2)]).map (pointBurst color) := by simp
      rw [show ([⟨x2, y2, x2, y2, [color]⟩] : List Burst) = [pointBurst color (x2, y2)] from rfl,
        this] at hall
      exact written_of_emits hall (pointBurst_ok color hc _ (by
        intro p hp2
        rcases List.mem_append.mp hp2 with h | h
        · exact hrg p h
        · rw [List.mem_singleton.mp h]; exact ⟨by simp; omega, by simp; omega⟩))
    · rw [List.length_append, hlen]
      have hn1 : Int.toNat |(x2 : Int) - x1| = Int.natAbs ((x2 : Int) - x1) := by
        rw [Int.abs_eq_natAbs]; exact Int.toNat_ofNat _
      have hn2 : Int.natAbs ((y2 : Int) - y1) < Int.natAbs ((x2 : Int) - x1) := by
        rw [Int.abs_eq_natAbs, Int.abs_eq_natAbs] at hmaj
        exact_mod_cast hmaj
      rw [hn1, Nat.max_eq_left hn2.le]
      rfl
  · simp only [hmaj, if_false, decide_False]
    have hle : |(x2 : Int) - x1| ≤ |(y2 : Int) - y1| := not_lt.mp hmaj
    have he0 : Int.tdiv |(y2 : Int) - y1| 2 = |(y2 : Int) - y1| / 2 :=
      Int.tdiv_eq_ediv hdy0.le (by norm_num)
    have ee0 : i16 (Int.tdiv |(y2 : Int) - y1| 2) = |(y2 : Int) - y1| / 2 := by
      rw [he0]; exact i16_of_small _ (by omega) (by omega)
    rw [ee0]
    obtain ⟨d1, pts, hl, hem, hlen, hrg, hhd, hch⟩ :=
      lineLoopY_spec y2 x1 _ _ _ _ (|(y2 : Int) - y1| / 2) color hdx0 hle hdy1 hsy hy2
        (by omega) (by omega) hxr (Int.toNat |(y2 : Int) - y1|) loopFuel d x1 y1
        (|(y2 : Int) - y1| / 2) 0 (by unfold loopFuel; omega) hr
        (by rw [Int.toNat_of_nonneg hdy0.le]; exact hye.symm)
        (by omega) (by omega) (by omega) (by omega)
        (by rw [Int.toNat_of_nonneg hdy0.le]) le_rfl
        (by rw [Int.toNat_of_nonneg hdy0.le]; ring) (by ring)
    rw [hxe] at hl hhd hch
    rw [hl]
    have ux1 : u16 (x1 : Int) = x1 := u16_of_nat _ (by omega)
    have uy1 : u16 (y1 : Int) = y1 := u16_of_nat _ (by omega)
    have ux2 : u16 (x2 : Int) = x2 := u16_of_nat _ (by omega)
    have uy2 : u16 (y2 : Int) = y2 := u16_of_nat _ (by omega)
    have hp := draw_point_spec d1 x2 y2 color hem.1
    simp only [ux1, uy1, ux2, uy2] at hhd hch
    simp only [ux2, uy2, flush_ready _ 1 hp.1]
    refine ⟨_, pts ++ [(x2, y2)], rfl, ?_, ?_, hhd, by simp, hch⟩
    · have hall := emits_trans hem hp
      have : pts.map (pointBurst color) ++ [pointBurst color (x2, y2)] =
          (pts ++ [(x2, y2)]).map (pointBurst color) := by simp
      rw [show ([⟨x2, y2, x2, y2, [color]⟩] : List Burst) = [pointBurst color (x2, y2)] from rfl,
        this] at hall
      exact written_of_emits hall (pointBurst_ok color hc _ (by
        intro p hp2
        rcases List.mem_append.mp hp2 with h | h
        · exact hrg p h
        · rw [List.mem_singleton.mp h]; exact ⟨by simp; omega, by simp; omega⟩))
    · rw [List.length_append, hlen]
      have hn1 : Int.toNat |(y2 : Int) - y1| = Int.natAbs ((y2 : Int) - y1) := by
        rw [Int.abs_eq_natAbs]; exact Int.toNat_ofNat _
      have hn2 : Int.natAbs ((x2 : Int) - x1) ≤ Int.natAbs ((y2 : Int) - y1) := by
        rw [Int.abs_eq_natAbs, Int.abs_eq_natAbs] at hle
        exact_mod_cast hle
      rw [hn1, Nat.max_eq_right hn2]
      rfl

/-- C3, the scenario of the specification: the line from `(0,0)` to `(4,2)`
visits exactly 5 points, with x = 0,1,2,3,4 and y non-decreasing from 0 to 2. -/
theorem C3_bresenham_line_witness :
    Ready demoDev.htft ∧
      ∃ d1 pts, TFT_Draw_Line demoDev 0 0 4 2 0xF800 = some d1 ∧
        written demoDev d1 = pts.map (pointBurst 0xF800) ∧
        pts.length = 5 ∧
        pts.head? = some (0, 0) ∧ pts.getLast? = some (4, 2) ∧
        List.Chain' (LineStep 1 1 true) pts :=
  ⟨demoDev_ready,
   C3_bresenham_line demoDev 0 0 4 2 0xF800 demoDev_ready (by decide) (by decide) (by decide)
     (by decide) (by decide) (by decide) (by decide)⟩

/-! ## Batches of points -/

theorem flatMap_map_comp {α β γ : Type} (l : List α) (f : α → β) (g : β → List γ) :
    (l.map f).flatMap g = l.flatMap (fun p => g (f p)) := by
  induction l with
  | nil => rfl
  | cons a t ih => simp [List.flatMap_cons, ih]

theorem set_address_flush (d : Dev) (x0 y0 x1 y1 : Nat)
    (h : (TFT_Flush_Buffer d 1).htft.buffer_write_index = 0) :
    TFT_Set_Address d x0 y0 x1 y1 = TFT_Set_Address (TFT_Flush_Buffer d 1) x0 y0 x1 y1 := by
  conv_rhs => unfold TFT_Set_Address
  rw [flush_idle (TFT_Flush_Buffer d 1) 1 h]
  rfl

theorem multipoint_body_spec (d : Dev) (m c x y : Nat) (s : Staged d.htft m c) :
    ∃ e m1, Staged (TFT_Buffer_Write16 (TFT_Set_Address d x y x y) c).htft m1 c ∧
      SameConfig d.htft (TFT_Buffer_Write16 (TFT_Set_Address d x y x y) c).htft ∧
      Sends d (TFT_Buffer_Write16 (TFT_Set_Address d x y x y) c)
        ((pattern m c).map Wire.dat ++
          addressWire (colOffset d.htft) (rowOffset d.htft) x y x y ++
          (pattern e c).map Wire.dat) ∧ e + m1 = 1 := by
  obtain ⟨s0, c0, sd0⟩ := flush_spec d 1 m c s
  have r0 := ready_of_staged s0
  rw [set_address_flush d x y x y r0.2.2.2.2]
  generalize TFT_Flush_Buffer d 1 = d0 at *
  obtain ⟨f1, sd1⟩ := set_address_spec d0 x y x y r0
  have r1 := ready_of_flagOnly r0 f1
  generalize TFT_Set_Address d0 x y x y = d1 at *
  obtain ⟨e, m1, s2, c2, sd2, q⟩ := write16_spec d1 0 c (staged_of_ready r1 c)
  refine ⟨e, m1, s2, sameConfig_trans (sameConfig_trans c0 (sameConfig_of_flagOnly f1)) c2, ?_,
    by omega⟩
  rw [colOffset_sameConfig c0, rowOffset_sameConfig c0] at sd1
  exact sends_trans (sends_trans sd0 sd1) sd2

theorem multipoint_loop_spec (c : Nat) (ps : List TFT_Point) : ∀ (d : Dev) (m : Nat),
    Staged d.htft m c →
    ∃ m1 w, Staged (ps.foldl
        (fun acc p => TFT_Buffer_Write16 (TFT_Set_Address acc p.x p.y p.x p.y) c) d).htft m1 c ∧
      SameConfig d.htft (ps.foldl
        (fun acc p => TFT_Buffer_Write16 (TFT_Set_Address acc p.x p.y p.x p.y) c) d).htft ∧
      Sends d (ps.foldl
        (fun acc p => TFT_Buffer_Write16 (TFT_Set_Address acc p.x p.y p.x p.y) c) d) w ∧
      w ++ (pattern m1 c).map Wire.dat =
        (pattern m c).map Wire.dat ++
          ps.flatMap (fun p => burstWire (colOffset d.htft) (rowOffset d.htft)
            (pointBurst c (p.x, p.y))) := by
  induction ps with
  | nil =>
    intro d m s
    exact ⟨m, [], s, sameConfig_refl _, sends_refl d, by simp⟩
  | cons p t ih =>
    intro d m s
    obtain ⟨e, m1, s1, c1, sd1, q1⟩ := multipoint_body_spec d m c p.x p.y s
    obtain ⟨m2, w2, s2, c2, sd2, q2⟩ :=
      ih (TFT_Buffer_Write16 (TFT_Set_Address d p.x p.y p.x p.y) c) m1 s1
    refine ⟨m2, _, s2, sameConfig_trans c1 c2, sends_trans sd1 sd2, ?_⟩
    rw [List.append_assoc, q2, colOffset_sameConfig c1, rowOffset_sameConfig c1]
    simp only [List.flatMap_cons, pointBurst, burstWire_eq, List.append_assoc]
    congr 2
    rw [← List.append_assoc, ← List.map_append, ← pattern_add, q1]
    simp [pattern]

theorem multipoint_spec (d : Dev) (points : List TFT_Point) (count c : Nat)
    (r : Ready d.htft) (hc : count ≠ 0) :
    Emits d (TFT_Draw_MultiPoint d points count c)
      ((points.take count).map (fun p => pointBurst c (p.x, p.y))) := by
  unfold TFT_Draw_MultiPoint
  simp only [hc, if_false]
  rw [reset_ready d r]
  obtain ⟨m1, w, s1, c1, sd1, q1⟩ := multipoint_loop_spec c (points.take count) d 0
    (staged_of_ready r c)
  generalize (points.take count).foldl
    (fun acc p => TFT_Buffer_Write16 (TFT_Set_Address acc p.x p.y p.x p.y) c) d = d1 at *
  obtain ⟨s2, c2, sd2⟩ := flush_spec d1 1 m1 c s1
  refine ⟨ready_of_staged s2, sameConfig_trans c1 c2, ?_⟩
  have := sends_trans sd1 sd2
  rw [q1] at this
  generalize points.take count = l at *
  rw [flatMap_map_comp]
  simpa [pattern] using this

/-! ## Circles: the loops -/

theorem circleLoop_spec (x0 y0 c : Nat) : ∀ (fuel : Nat) (d : Dev) (X Y D : Int),
    Ready d.htft → -32768 ≤ X → Y < 32768 → (Y - X).toNat < fuel →
    ∃ d1, circleLoop x0 y0 c fuel d X Y D = some d1 ∧
      Emits d d1 ((circleSteps fuel X Y D).flatMap (drawStepBursts x0 y0 c)) := by
  intro fuel
  induction fuel with
  | zero => intro d X Y D _ _ _ h; omega
  | succ f ih =>
    intro d X Y D hr hX hY hf
    rw [circleLoop, circleSteps]
    by_cases hlt : X < Y
    · simp only [hlt, if_true]
      have ex : i16 (X + 1) = X + 1 := i16_of_small _ (by omega) (by omega)
      have ey : i16 (Y - 1) = Y - 1 := i16_of_small _ (by omega) (by omega)
      rw [ex, ey]
      generalize hpy : (if D < 0 then Y else Y - 1) = py
      have hpy1 : py ≤ Y ∧ Y - 1 ≤ py := by
        rw [← hpy]; split_ifs <;> omega
      have hcnt : (if X + 1 = py then
            TFT_Draw_MultiPoint d (circlePoints x0 y0 (X + 1) py) 4 c
          else TFT_Draw_MultiPoint d (circlePoints x0 y0 (X + 1) py) 8 c) =
          TFT_Draw_MultiPoint d (circlePoints x0 y0 (X + 1) py)
            (if X + 1 = py then 4 else 8) c := by
        split_ifs <;> rfl
      have hm : Emits d
          (TFT_Draw_MultiPoint d (circlePoints x0 y0 (X + 1) py) (if X + 1 = py then 4 else 8) c)
          (drawStepBursts x0 y0 c ⟨X + 1, py, Y, decide (¬ D < 0)⟩) :=
        multipoint_spec d _ _ c hr (by split_ifs <;> decide)
      rw [hcnt]
      obtain ⟨d1, hl, he⟩ := ih _ (X + 1) py
        (if D < 0 then i16 (D + ((X + 1) * 4 + 6)) else i16 (D + ((X + 1 - py) * 4 + 10)))
        hm.1 (by omega) (by omega) (by omega)
      refine ⟨d1, hl, ?_⟩
      rw [List.flatMap_cons]
      exact emits_trans hm he
    · simp only [hlt, if_false]
      exact ⟨d, rfl, by simpa using emits_refl d hr⟩


theorem u16_odd_ne_zero (k : Int) : u16 (2 * k + 1) ≠ 0 := by
  unfold u16
  omega

theorem span_spec (d : Dev) (c : Nat) (x y k : Int) (r : Ready d.htft) :
    Emits d (TFT_Draw_Fast_HLine d (u16 x) (u16 y) (u16 (2 * k + 1)) c)
      [spanBurst c x y (2 * k + 1)] :=
  hline_spec d (u16 x) (u16 y) (u16 (2 * k + 1)) c r (u16_odd_ne_zero k)

theorem fillCircleLoop_spec (x0 y0 c : Nat) : ∀ (fuel : Nat) (d : Dev) (X Y D : Int),
    Ready d.htft → -32768 ≤ X → Y < 32768 → (Y - X).toNat < fuel →
    ∃ d1, fillCircleLoop x0 y0 c fuel d X Y D = some d1 ∧
      Emits d d1 ((circleSteps fuel X Y D).flatMap (fillStepBursts x0 y0 c)) := by
  intro fuel
  induction fuel with
  | zero => intro d X Y D _ _ _ h; omega
  | succ f ih =>
    intro d X Y D hr hX hY hf
    rw [fillCircleLoop, circleSteps]
    by_cases hlt : X < Y
    · simp only [hlt, if_true]
      have ex : i16 (X + 1) = X + 1 := i16_of_small _ (by omega) (by omega)
      have ey : i16 (Y - 1) = Y - 1 := i16_of_small _ (by omega) (by omega)
      rw [ex, ey]
      generalize hpy : (if D < 0 then Y else Y - 1) = py
      have hpy1 : py ≤ Y ∧ Y - 1 ≤ py := by
        rw [← hpy]; split_ifs <;> omega
      -- the narrow pair, drawn only on the south-east branch
      have hn : Emits d
          (if D < 0 then d
            else TFT_Draw_Fast_HLine
              (TFT_Draw_Fast_HLine d (u16 (x0 - (X + 1))) (u16 (y0 + Y))
                (u16 (2 * (X + 1) + 1)) c)
              (u16 (x0 - (X + 1))) (u16 (y0 - Y)) (u16 (2 * (X + 1) + 1)) c)
          (if decide (¬ D < 0) then
            [spanBurst c (x0 - (X + 1)) (y0 + Y) (2 * (X + 1) + 1),
             spanBurst c (x0 - (X + 1)) (y0 - Y) (2 * (X + 1) + 1)]
           else []) := by
        by_cases hD : D < 0
        · simp only [hD, if_true, not_true_eq_false, decide_False, Bool.false_eq_true, if_false]
          exact emits_refl d hr
        · simp only [hD, if_false, not_false_eq_true, decide_True, if_true]
          have a := span_spec d c (x0 - (X + 1)) (y0 + Y) (X + 1) hr
          have b := span_spec _ c (x0 - (X + 1)) (y0 - Y) (X + 1) a.1
          exact emits_trans a b
      generalize (if D < 0 then d
            else TFT_Draw_Fast_HLine
              (TFT_Draw_Fast_HLine d (u16 (x0 - (X + 1))) (u16 (y0 + Y))
                (u16 (2 * (X + 1) + 1)) c)
              (u16 (x0 - (X + 1))) (u16 (y0 - Y)) (u16 (2 * (X + 1) + 1)) c) = d2 at *
      have hw1 := span_spec d2 c (x0 - py) (y0 + (X + 1)) py hn.1
      have hw2 := span_spec _ c (x0 - py) (y0 - (X + 1)) py hw1.1
      obtain ⟨d1, hl, he⟩ := ih _ (X + 1) py
        (if D < 0 then i16 (D + ((X + 1) * 4 + 6)) else i16 (D + ((X + 1 - py) * 4 + 10)))
        hw2.1 (by omega) (by omega) (by omega)
      refine ⟨d1, hl, ?_⟩
      rw [List.flatMap_cons]
      have := emits_trans (emits_trans (emits_trans hn hw1) hw2) he
      simpa [fillStepBursts, List.append_assoc] using this
    · simp only [hlt, if_false]
      exact ⟨d, rfl, by simpa using emits_refl d hr⟩

/-! ## Circles: geometry of the passes -/

theorem circleSteps_range (R : Int) (hR : R < 32768) : ∀ (fuel : Nat) (X Y D : Int),
    0 ≤ X → X ≤ Y + 1 → Y ≤ R →
    ∀ s ∈ circleSteps fuel X Y D,
      1 ≤ s.x ∧ s.x ≤ s.yOld ∧ s.yOld ≤ R ∧ 0 ≤ s.y ∧ s.x ≤ s.y + 1 ∧
        (s.y = s.yOld ∨ s.y = s.yOld - 1) := by
  intro fuel
  induction fuel with
  | zero => intro X Y D _ _ _ s hs; simp [circleSteps] at hs
  | succ f ih =>
    intro X Y D hX hXY hY s hs
    rw [circleSteps] at hs
    by_cases hlt : X < Y
    · simp only [hlt, if_true] at hs
      have ex : i16 (X + 1) = X + 1 := i16_of_small _ (by omega) (by omega)
      have ey : i16 (Y - 1) = Y - 1 := i16_of_small _ (by omega) (by omega)
      rw [ex, ey] at hs
      rcases List.mem_cons.mp hs with h | h
      · subst h
        dsimp only
        split_ifs <;> refine ⟨?_, ?_, ?_, ?_, ?_, ?_⟩ <;> omega
      · exact ih _ _ _ (by omega) (by split_ifs <;> omega) (by split_ifs <;> omega) s h
    · simp [hlt] at hs

theorem drawStepBursts_eq (x0 y0 c : Nat) (s : CircleStep) :
    drawStepBursts x0 y0 c s = (stepOffsets s).map (offsetBurst x0 y0 c) := by
  unfold drawStepBursts stepOffsets circlePoints
  rw [List.map_take, List.map_take]
  congr 1

theorem offsetBurst_ok (x0 y0 c : Nat) (hc : c < 65536) (os : List (Int × Int)) :
    ∀ b ∈ os.map (offsetBurst x0 y0 c), b.ok := by
  intro b hb
  obtain ⟨o, _, rfl⟩ := List.mem_map.mp hb
  exact ⟨u16_lt _, u16_lt _, u16_lt _, u16_lt _, by
    intro w hw
    rw [List.mem_singleton.mp hw]
    exact hc⟩

theorem draw_circle_spec (d : Dev) (x0 y0 r c : Nat) (hr : Ready d.htft)
    (hx0 : x0 < 65536) (hy0 : y0 < 65536) (hr8 : r < 256) :
    ∃ d1, TFT_Draw_Circle d x0 y0 r c = some d1 ∧
      Emits d d1 ((drawCircleOffsets r).map (offsetBurst x0 y0 c)) := by
  have ux : u16 ((x0 : Int) + 0) = x0 := by rw [add_zero]; exact u16_of_nat _ hx0
  have uy : u16 ((y0 : Int) + 0) = y0 := by rw [add_zero]; exact u16_of_nat _ hy0
  unfold TFT_Draw_Circle drawCircleOffsets
  by_cases h0 : r > 0
  · simp only [h0, if_true]
    have p1 := draw_point_spec d x0 (u16 ((y0 : Int) + r)) c hr
    have p2 := draw_point_spec _ x0 (u16 ((y0 : Int) - r)) c p1.1
    have p3 := draw_point_spec _ (u16 ((x0 : Int) + r)) y0 c p2.1
    have p4 := draw_point_spec _ (u16 ((x0 : Int) - r)) y0 c p3.1
    rw [flush_ready _ 1 p4.1]
    obtain ⟨d1, hl, he⟩ := circleLoop_spec x0 y0 c loopFuel _ 0 r (i16 (3 - 2 * (r : Int)))
      p4.1 (by norm_num) (by omega) (by unfold loopFuel; omega)
    refine ⟨d1, hl, ?_⟩
    have := emits_trans (emits_trans (emits_trans (emits_trans p1 p2) p3) p4) he
    rw [List.map_append, List.map_flatMap]
    simp only [List.map_cons, List.map_nil, offsetBurst, ux, uy]
    have e : (fun s => drawStepBursts x0 y0 c s) =
        fun s => (stepOffsets s).map (offsetBurst x0 y0 c) := by
      funext s; exact drawStepBursts_eq x0 y0 c s
    have e2 : (List.flatMap (circleSteps loopFuel 0 (r : Int) (i16 (3 - 2 * (r : Int))))
        (drawStepBursts x0 y0 c)) =
        List.flatMap (circleSteps loopFuel 0 (r : Int) (i16 (3 - 2 * (r : Int))))
          (fun s => (stepOffsets s).map (offsetBurst x0 y0 c)) := by
      rw [← e]
    rw [e2] at this
    simpa [pointBurst, offsetBurst, sub_eq_add_neg] using this
  · simp only [h0, if_false]
    have p1 := draw_point_spec d x0 y0 c hr
    rw [flush_ready _ 1 p1.1]
    refine ⟨_, rfl, ?_⟩
    simpa [offsetBurst, pointBurst, u16_of_nat _ hx0, u16_of_nat _ hy0] using p1

/-! ## Circles: symmetry -/

theorem octantClosed_append {a b : List (Int × Int)} (ha : OctantClosed a)
    (hb : OctantClosed b) : OctantClosed (a ++ b) := by
  intro x y h
  rcases List.mem_append.mp h with h | h
  · obtain ⟨h1, h2, h3, h4, h5, h6, h7⟩ := ha x y h
    exact ⟨List.mem_append_left _ h1, List.mem_append_left _ h2, List.mem_append_left _ h3,
      List.mem_append_left _ h4, List.mem_append_left _ h5, List.mem_append_left _ h6,
      List.mem_append_left _ h7⟩
  · obtain ⟨h1, h2, h3, h4, h5, h6, h7⟩ := hb x y h
    exact ⟨List.mem_append_right _ h1, List.mem_append_right _ h2, List.mem_append_right _ h3,
      List.mem_append_right _ h4, List.mem_append_right _ h5, List.mem_append_right _ h6,
      List.mem_append_right _ h7⟩

theorem octantClosed_flatMap {α : Type} (l : List α) (f : α → List (Int × Int))
    (h : ∀ s ∈ l, OctantClosed (f s)) : OctantClosed (l.flatMap f) := by
  induction l with
  | nil => intro x y hm; simp at hm
  | cons a t ih =>
    rw [List.flatMap_cons]
    exact octantClosed_append (h a (by simp)) (ih (fun s hs => h s (by simp [hs])))

theorem octantClosed_eight (x y : Int) :
    OctantClosed [(x, y), (-x, y), (x, -y), (-x, -y), (y, x), (-y, x), (y, -x), (-y, -x)] := by
  intro a b h
  simp only [List.mem_cons, Prod.mk.injEq, List.mem_singleton, List.not_mem_nil, or_false] at h
  rcases h with h | h | h | h | h | h | h | h <;>
    (obtain ⟨ha, hb⟩ := h; subst ha; subst hb; simp)

theorem octantClosed_four (x : Int) :
    OctantClosed [(x, x), (-x, x), (x, -x), (-x, -x)] := by
  intro a b h
  simp only [List.mem_cons, Prod.mk.injEq, List.mem_singleton, List.not_mem_nil, or_false] at h
  rcases h with ⟨rfl, rfl⟩ | ⟨rfl, rfl⟩ | ⟨rfl, rfl⟩ | ⟨rfl, rfl⟩ <;> simp

theorem octantClosed_axis (r : Int) :
    OctantClosed [(0, r), (0, -r), (r, 0), (-r, 0)] := by
  intro a b h
  simp only [List.mem_cons, Prod.mk.injEq, List.mem_singleton, List.not_mem_nil, or_false] at h
  rcases h with ⟨rfl, rfl⟩ | ⟨rfl, rfl⟩ | ⟨rfl, rfl⟩ | ⟨rfl, rfl⟩ <;> simp

theorem octantClosed_step (s : CircleStep) : OctantClosed (stepOffsets s) := by
  unfold stepOffsets
  by_cases h : s.x = s.y
  · simp only [h, if_true]
    exact octantClosed_four s.y
  · simp only [h, if_false]
    exact octantClosed_eight s.x s.y

theorem octantClosed_circle (r : Nat) : OctantClosed (drawCircleOffsets r) := by
  unfold drawCircleOffsets
  split_ifs
  · exact octantClosed_append (octantClosed_axis r)
      (octantClosed_flatMap _ _ (fun s _ => octantClosed_step s))
  · intro a b h
    simp only [List.mem_singleton, Prod.mk.injEq] at h
    obtain ⟨rfl, rfl⟩ := h
    simp

/-! ## Circles: from offsets to pixels -/

theorem stepOffsets_range (R : Int) (s : CircleStep) (h1 : 0 ≤ s.x) (h2 : s.x ≤ R)
    (h3 : 0 ≤ s.y) (h4 : s.y ≤ R) :
    ∀ o ∈ stepOffsets s, -R ≤ o.1 ∧ o.1 ≤ R ∧ -R ≤ o.2 ∧ o.2 ≤ R := by
  intro o ho
  have ho2 := List.mem_of_mem_take ho
  simp only [List.mem_cons, List.mem_singleton, List.not_mem_nil, or_false] at ho2
  rcases ho2 with rfl | rfl | rfl | rfl | rfl | rfl | rfl | rfl <;>
    refine ⟨?_, ?_, ?_, ?_⟩ <;> dsimp only <;> omega

theorem drawCircleOffsets_range (r : Nat) (hr : r < 256) :
    ∀ o ∈ drawCircleOffsets r, -(r : Int) ≤ o.1 ∧ o.1 ≤ r ∧ -(r : Int) ≤ o.2 ∧ o.2 ≤ r := by
  intro o ho
  unfold drawCircleOffsets at ho
  split_ifs at ho with h0
  · rcases List.mem_append.mp ho with h | h
    · simp only [List.mem_cons, List.mem_singleton, List.not_mem_nil, or_false] at h
      rcases h with rfl | rfl | rfl | rfl <;> refine ⟨?_, ?_, ?_, ?_⟩ <;> dsimp only <;> omega
    · obtain ⟨s, hs, hos⟩ := List.mem_flatMap.mp h
      obtain ⟨a1, a2, a3, a4, a5, a6⟩ := circleSteps_range r (by omega) loopFuel 0 r _
        (by norm_num) (by omega) le_rfl s hs
      exact stepOffsets_range r s (by omega) (by omega) a4 (by omega) o hos
  · rw [List.mem_singleton.mp ho]
    refine ⟨?_, ?_, ?_, ?_⟩ <;> dsimp only <;> omega

theorem pixelsOf_offsets (x0 y0 c : Nat) (os : List (Int × Int)) :
    pixelsOf (os.map (offsetBurst x0 y0 c)) =
      os.map (fun o => ⟨u16 (x0 + o.1), u16 (y0 + o.2), c⟩) := by
  induction os with
  | nil => rfl
  | cons a t ih =>
    unfold pixelsOf at ih ⊢
    rw [List.map_cons, List.flatMap_cons, ih]
    simp [offsetBurst, pointBurst, pixels_point]

theorem offsetsOf_offsets (x0 y0 c : Nat) (R : Int) (hx : R ≤ x0) (hx1 : x0 + R < 65536)
    (hy : R ≤ y0) (hy1 : y0 + R < 65536) (os : List (Int × Int))
    (h : ∀ o ∈ os, -R ≤ o.1 ∧ o.1 ≤ R ∧ -R ≤ o.2 ∧ o.2 ≤ R) :
    offsetsOf x0 y0 (os.map (fun o => (⟨u16 (x0 + o.1), u16 (y0 + o.2), c⟩ : Pixel))) = os := by
  unfold offsetsOf
  rw [List.map_map]
  conv_rhs => rw [← List.map_id os]
  apply List.map_congr_left
  intro o ho
  obtain ⟨h1, h2, h3, h4⟩ := h o ho
  simp only [Function.comp, id]
  rw [u16_of_nonneg _ (by omega) (by omega), u16_of_nonneg _ (by omega) (by omega)]
  simp

/-- C7: for every radius (a `uint8_t`) and every centre for which no
coordinate wraps (`r ≤ x0`, `x0 + r < 2^16`, same for `y0`), `TFT_Draw_Circle`
returns and the offsets `(x - x0, y - y0)` of the pixels it writes on a ready
device form a set closed under the 8 octant reflections. -/
theorem C7_circle_octant_symmetry (d : Dev) (x0 y0 r color : Nat) (hr : Ready d.htft)
    (hr8 : r < 256) (hx : r ≤ x0) (hx1 : x0 + r < 65536) (hy : r ≤ y0) (hy1 : y0 + r < 65536)
    (hc : color < 65536) :
    ∃ d1, TFT_Draw_Circle d x0 y0 r color = some d1 ∧
      OctantClosed (offsetsOf x0 y0 (pixelsOf (written d d1))) := by
  obtain ⟨d1, hl, he⟩ := draw_circle_spec d x0 y0 r color hr (by omega) (by omega) hr8
  refine ⟨d1, hl, ?_⟩
  rw [written_of_emits he (offsetBurst_ok x0 y0 color hc _), pixelsOf_offsets,
    offsetsOf_offsets x0 y0 color r (by omega) (by omega) (by omega) (by omega) _
      (drawCircleOffsets_range r hr8)]
  exact octantClosed_circle r

/-! ## Circles: distance from the centre -/

theorem stepOffsets_norm (s : CircleStep) :
    ∀ o ∈ stepOffsets s, o.1 * o.1 + o.2 * o.2 = s.x * s.x + s.y * s.y := by
  intro o ho
  have ho2 := List.mem_of_mem_take ho
  simp only [List.mem_cons, List.mem_singleton, List.not_mem_nil, or_false] at ho2
  rcases ho2 with rfl | rfl | rfl | rfl | rfl | rfl | rfl | rfl <;> dsimp only <;> ring

theorem roundSqrt_bounds (r n : Nat) (hu : 4 * n < (2 * r + 3) * (2 * r + 3))
    (hl : 2 ≤ r → (2 * r - 3) * (2 * r - 3) ≤ 4 * n) :
    (r : Int) - 1 ≤ roundSqrt n ∧ roundSqrt n ≤ r + 1 := by
  unfold roundSqrt
  have h1 : Nat.sqrt (4 * n) < 2 * r + 3 := Nat.sqrt_lt.mpr hu
  constructor
  · by_cases h2 : 2 ≤ r
    · have h3 : 2 * r - 3 ≤ Nat.sqrt (4 * n) := Nat.le_sqrt.mpr (hl h2)
      omega
    · omega
  · omega

theorem circleSteps_norm (r : Int) (hr1 : 1 ≤ r) (hr : r < 256) :
    ∀ (fuel : Nat) (X Y D N : Int), 0 ≤ X → X ≤ Y + 1 → Y ≤ r →
      N = X * X + Y * Y - r * r → D = 2 * N + 8 * X - 6 * Y + 3 + 4 * r →
      -3 * r + 3 ≤ N → N ≤ r →
      ∀ s ∈ circleSteps fuel X Y D,
        -3 * r + 3 ≤ s.x * s.x + s.y * s.y - r * r ∧ s.x * s.x + s.y * s.y - r * r ≤ r := by
  intro fuel
  induction fuel with
  | zero => intro X Y D N _ _ _ _ _ _ _ s hs; simp [circleSteps] at hs
  | succ f ih =>
    intro X Y D N hX hXY hY hN hD hl hu s hs
    rw [circleSteps] at hs
    by_cases hlt : X < Y
    · simp only [hlt, if_true] at hs
      have ex : i16 (X + 1) = X + 1 := i16_of_small _ (by omega) (by omega)
      have ey : i16 (Y - 1) = Y - 1 := i16_of_small _ (by omega) (by omega)
      rw [ex, ey] at hs
      by_cases hneg : D < 0
      · simp only [hneg, if_true, not_true_eq_false, decide_False] at hs
        have hN1 : N + 2 * X + 1 = (X + 1) * (X + 1) + Y * Y - r * r := by rw [hN]; ring
        have ed : i16 (D + ((X + 1) * 4 + 6)) = D + ((X + 1) * 4 + 6) :=
          i16_of_small _ (by omega) (by omega)
        rw [ed] at hs
        rcases List.mem_cons.mp hs with h | h
        · subst h
          dsimp only
          rw [← hN1]
          constructor <;> omega
        · exact ih (X + 1) Y _ (N + 2 * X + 1) (by omega) (by omega) hY hN1 (by omega)
            (by omega) (by omega) s h
      · simp only [hneg, if_false, not_false_eq_true, decide_True] at hs
        have hN1 : N + 2 * X - 2 * Y + 2 = (X + 1) * (X + 1) + (Y - 1) * (Y - 1) - r * r := by
          rw [hN]; ring
        have ed : i16 (D + ((X + 1 - (Y - 1)) * 4 + 10)) = D + ((X + 1 - (Y - 1)) * 4 + 10) :=
          i16_of_small _ (by omega) (by omega)
        rw [ed] at hs
        rcases List.mem_cons.mp hs with h | h
        · subst h
          dsimp only
          rw [← hN1]
          constructor <;> omega
        · exact ih (X + 1) (Y - 1) _ (N + 2 * X - 2 * Y + 2) (by omega) (by omega) (by omega)
            hN1 (by omega) (by omega) (by omega) s h
    · simp [hlt] at hs

theorem drawCircleOffsets_bound (r : Nat) (hr : r < 256) :
    ∀ o ∈ drawCircleOffsets r,
      4 * (o.1 * o.1 + o.2 * o.2) < (2 * (r : Int) + 3) * (2 * (r : Int) + 3) ∧
        (2 ≤ r → (2 * (r : Int) - 3) * (2 * (r : Int) - 3) ≤ 4 * (o.1 * o.1 + o.2 * o.2)) := by
  intro o ho
  unfold drawCircleOffsets at ho
  split_ifs at ho with h0
  · rcases List.mem_append.mp ho with h | h
    · have e : o.1 * o.1 + o.2 * o.2 = (r : Int) * r := by
        simp only [List.mem_cons, List.mem_singleton, List.not_mem_nil, or_false] at h
        rcases h with rfl | rfl | rfl | rfl <;> dsimp only <;> ring
      rw [e]
      constructor
      · nlinarith
      · intro h2
        have : (2 : Int) ≤ r := by exact_mod_cast h2
        nlinarith
    · obtain ⟨s, hs, hos⟩ := List.mem_flatMap.mp h
      rw [stepOffsets_norm s o hos]
      have ed : i16 (3 - 2 * (r : Int)) = 3 - 2 * (r : Int) :=
        i16_of_small _ (by omega) (by omega)
      rw [ed] at hs
      obtain ⟨b1, b2⟩ := circleSteps_norm r (by omega) (by omega) loopFuel 0 r _ 0
        (by norm_num) (by omega) le_rfl (by ring) (by ring) (by omega) (by omega) s hs
      constructor
      · nlinarith
      · intro _
        nlinarith
  · rw [List.mem_singleton.mp ho]
    have : r = 0 := by omega
    subst this
    exact ⟨by norm_num, by omega⟩

theorem sqDist_offset (x0 y0 c : Nat) (o : Int × Int) (hx : 0 ≤ x0 + o.1)
    (hx1 : x0 + o.1 < 65536) (hy : 0 ≤ y0 + o.2) (hy1 : y0 + o.2 < 65536) :
    ((sqDist x0 y0 ⟨u16 (x0 + o.1), u16 (y0 + o.2), c⟩ : Nat) : Int) =
      o.1 * o.1 + o.2 * o.2 := by
  unfold sqDist
  simp only
  rw [u16_of_nonneg _ hx hx1, u16_of_nonneg _ hy hy1]
  push_cast
  rw [add_sub_cancel_left, add_sub_cancel_left, sq_abs, sq_abs]
  ring

/-- C6: for every radius `r` in 0..255 and every centre for which no
coordinate wraps, `TFT_Draw_Circle` returns and every pixel `(x,y)` it writes
on a ready device has `4*((x-x0)^2+(y-y0)^2) < (2r+3)^2`, and
`(2r-3)^2 ≤ 4*((x-x0)^2+(y-y0)^2)` when `r ≥ 2`; hence the distance to the
centre rounded to the nearest integer is `r-1`, `r` or `r+1`. -/
theorem C6_circle_radius_tolerance (d : Dev) (x0 y0 r color : Nat) (hr : Ready d.htft)
    (hr8 : r < 256) (hx : r ≤ x0) (hx1 : x0 + r < 65536) (hy : r ≤ y0) (hy1 : y0 + r < 65536)
    (hc : color < 65536) :
    ∃ d1, TFT_Draw_Circle d x0 y0 r color = some d1 ∧
      ∀ p ∈ pixelsOf (written d d1),
        4 * sqDist x0 y0 p < (2 * r + 3) ^ 2 ∧
          (2 ≤ r → (2 * r - 3) ^ 2 ≤ 4 * sqDist x0 y0 p) ∧
          (r : Int) - 1 ≤ roundSqrt (sqDist x0 y0 p) ∧ roundSqrt (sqDist x0 y0 p) ≤ r + 1 := by
  obtain ⟨d1, hl, he⟩ := draw_circle_spec d x0 y0 r color hr (by omega) (by omega) hr8
  refine ⟨d1, hl, ?_⟩
  rw [written_of_emits he (offsetBurst_ok x0 y0 color hc _), pixelsOf_offsets]
  intro p hp
  obtain ⟨o, ho, rfl⟩ := List.mem_map.mp hp
  obtain ⟨r1, r2, r3, r4⟩ := drawCircleOffsets_range r hr8 o ho
  obtain ⟨b1, b2⟩ := drawCircleOffsets_bound r hr8 o ho
  have e := sqDist_offset x0 y0 color o (by omega) (by omega) (by omega) (by omega)
  rw [← e] at b1 b2
  have u : 4 * sqDist x0 y0 ⟨u16 (x0 + o.1), u16 (y0 + o.2), color⟩ <
      (2 * r + 3) * (2 * r + 3) := by exact_mod_cast b1
  have l : 2 ≤ r → (2 * r - 3) * (2 * r - 3) ≤
      4 * sqDist x0 y0 ⟨u16 (x0 + o.1), u16 (y0 + o.2), color⟩ := by
    intro h2
    have := b2 h2
    have c3 : ((2 * r - 3 : Nat) : Int) = 2 * (r : Int) - 3 := by omega
    rw [← c3] at this
    exact_mod_cast this
  have rb := roundSqrt_bounds r _ u l
  refine ⟨by rw [sq]; exact u, fun h2 => by rw [sq]; exact l h2, rb.1, rb.2⟩

/-- C6 at a concrete input: the circle of radius 3 around `(50,60)`. -/
theorem C6_circle_radius_tolerance_witness :
    Ready demoDev.htft ∧
      ∃ d1, TFT_Draw_Circle demoDev 50 60 3 0xFFFF = some d1 ∧
        ∀ p ∈ pixelsOf (written demoDev d1),
          4 * sqDist 50 60 p < (2 * 3 + 3) ^ 2 ∧
            (2 ≤ 3 → (2 * 3 - 3) ^ 2 ≤ 4 * sqDist 50 60 p) ∧
            ((3 : Nat) : Int) - 1 ≤ roundSqrt (sqDist 50 60 p) ∧
            roundSqrt (sqDist 50 60 p) ≤ 3 + 1 :=
  ⟨demoDev_ready,
   C6_circle_radius_tolerance demoDev 50 60 3 0xFFFF demoDev_ready (by decide) (by decide)
     (by decide) (by decide) (by decide) (by decide)⟩

/-- C7 at a concrete input: the circle of radius 3 around `(50,60)`. -/
theorem C7_circle_octant_symmetry_witness :
    Ready demoDev.htft ∧
      ∃ d1, TFT_Draw_Circle demoDev 50 60 3 0xFFFF = some d1 ∧
        OctantClosed (offsetsOf 50 60 (pixelsOf (written demoDev d1))) :=
  ⟨demoDev_ready,
   C7_circle_octant_symmetry demoDev 50 60 3 0xFFFF demoDev_ready (by decide) (by decide)
     (by decide) (by decide) (by decide) (by decide)⟩

/-! ## Circles: the fill covers the outline -/

theorem covered_left {F G : List (Int × Int)} {o : Int × Int} (h : Covered F o) :
    Covered (F ++ G) o := by
  obtain ⟨f, hf, h1⟩ := h
  exact ⟨f, List.mem_append_left _ hf, h1⟩

theorem covered_right {F G : List (Int × Int)} {o : Int × Int} (h : Covered G o) :
    Covered (F ++ G) o := by
  obtain ⟨f, hf, h1⟩ := h
  exact ⟨f, List.mem_append_right _ hf, h1⟩

theorem covered_wide (x y yo : Int) (se : Bool) (a : Int) (h1 : -y ≤ a) (h2 : a ≤ y) :
    Covered (stepSpans ⟨x, y, yo, se⟩) (a, x) ∧ Covered (stepSpans ⟨x, y, yo, se⟩) (a, -x) := by
  constructor
  · exact ⟨(x, y), by simp [stepSpans], rfl, h1, h2⟩
  · exact ⟨(-x, y), by simp [stepSpans], rfl, h1, h2⟩

theorem covered_narrow (x y yo : Int) (a : Int) (h1 : -x ≤ a) (h2 : a ≤ x) :
    Covered (stepSpans ⟨x, y, yo, true⟩) (a, yo) ∧
      Covered (stepSpans ⟨x, y, yo, true⟩) (a, -yo) := by
  constructor
  · exact ⟨(yo, x), by simp [stepSpans], rfl, h1, h2⟩
  · exact ⟨(-yo, x), by simp [stepSpans], rfl, h1, h2⟩

theorem stepOffsets_cases (s : CircleStep) (o : Int × Int) (h : o ∈ stepOffsets s) :
    ((o.1 = s.x ∨ o.1 = -s.x) ∧ (o.2 = s.y ∨ o.2 = -s.y)) ∨
      ((o.1 = s.y ∨ o.1 = -s.y) ∧ (o.2 = s.x ∨ o.2 = -s.x)) := by
  have ho2 := List.mem_of_mem_take h
  simp only [List.mem_cons, List.mem_singleton, List.not_mem_nil, or_false] at ho2
  rcases ho2 with rfl | rfl | rfl | rfl | rfl | rfl | rfl | rfl <;> simp

theorem cover_steps : ∀ (fuel : Nat) (X Y D : Int) (F P : List (Int × Int)),
    0 ≤ X → X ≤ Y + 1 → 0 ≤ Y → Y < 32768 →
    (∀ o ∈ P, Covered F o ∨ ((o.2 = Y ∨ o.2 = -Y) ∧ -X ≤ o.1 ∧ o.1 ≤ X)) →
    (∀ j a : Int, 0 ≤ j → j ≤ X → -Y ≤ a → a ≤ Y → Covered F (a, j) ∧ Covered F (a, -j)) →
    (∀ j a : Int, 0 ≤ j → j < X → -(j + 1) ≤ a → a ≤ j + 1 →
      Covered F (a, j) ∧ Covered F (a, -j)) →
    (Y - X).toNat < fuel →
    ∀ o ∈ P ++ (circleSteps fuel X Y D).flatMap stepOffsets,
      Covered (F ++ (circleSteps fuel X Y D).flatMap stepSpans) o := by
  intro fuel
  induction fuel with
  | zero => intro X Y D F P _ _ _ _ _ _ _ h; omega
  | succ f ih =>
    intro X Y D F P hX hXY hY0 hY h1 h2 h3 hf o ho
    rw [circleSteps] at ho ⊢
    by_cases hlt : X < Y
    · simp only [hlt, if_true] at ho ⊢
      have ex : i16 (X + 1) = X + 1 := i16_of_small _ (by omega) (by omega)
      have ey : i16 (Y - 1) = Y - 1 := i16_of_small _ (by omega) (by omega)
      rw [ex, ey] at ho ⊢
      generalize hpy : (if D < 0 then Y else Y - 1) = py at ho ⊢
      generalize (if D < 0 then i16 (D + ((X + 1) * 4 + 6))
        else i16 (D + ((X + 1 - py) * 4 + 10))) = D1 at ho ⊢
      have hse : decide (¬ D < 0) = true → py = Y - 1 := by
        intro h; rw [← hpy]; simp only [decide_eq_true_eq] at h; simp [h]
      have hns : decide (¬ D < 0) = false → py = Y := by
        intro h; rw [← hpy]; simp only [decide_eq_false_iff_not, not_not] at h; simp [h]
      generalize decide (¬ D < 0) = se at ho hse hns ⊢
      have hpy1 : py ≤ Y ∧ Y - 1 ≤ py := by
        rw [← hpy]; split_ifs <;> omega
      rw [List.flatMap_cons, ← List.append_assoc] at ho ⊢
      refine ih (X + 1) py D1 (F ++ stepSpans ⟨X + 1, py, Y, se⟩)
        (P ++ stepOffsets ⟨X + 1, py, Y, se⟩) (by omega) (by omega) (by omega) (by omega)
        ?_ ?_ ?_ (by omega) o ho
      · intro q hq
        rcases List.mem_append.mp hq with hq | hq
        · rcases h1 q hq with hc | ⟨hrow, hl, hr⟩
          · exact Or.inl (covered_left hc)
          · cases se with
            | false =>
              have := hns rfl
              exact Or.inr ⟨by rw [this]; exact hrow, by omega, by omega⟩
            | true =>
              left
              apply covered_right
              have hn := covered_narrow (X + 1) py Y q.1 (by omega) (by omega)
              rcases hrow with hrow | hrow
              · have : q = (q.1, Y) := by rw [← hrow]
                rw [this]; exact hn.1
              · have : q = (q.1, -Y) := by rw [← hrow]
                rw [this]; exact hn.2
        · rcases stepOffsets_cases _ q hq with ⟨hx, hy⟩ | ⟨hx, hy⟩
          · right
            dsimp only at hx hy
            exact ⟨hy, by rcases hx with h | h <;> omega, by rcases hx with h | h <;> omega⟩
          · left
            apply covered_right
            dsimp only at hx hy
            have hw := covered_wide (X + 1) py Y se q.1 (by rcases hx with h | h <;> omega)
              (by rcases hx with h | h <;> omega)
            rcases hy with hy | hy
            · have : q = (q.1, X + 1) := by rw [← hy]
              rw [this]; exact hw.1
            · have : q = (q.1, -(X + 1)) := by rw [← hy]
              rw [this]; exact hw.2
      · intro j a hj0 hj1 ha0 ha1
        by_cases hj : j ≤ X
        · have := h2 j a hj0 hj (by omega) (by omega)
          exact ⟨covered_left this.1, covered_left this.2⟩
        · have hjx : j = X + 1 := by omega
          subst hjx
          have hw := covered_wide (X + 1) py Y se a ha0 ha1
          exact ⟨covered_right hw.1, covered_right hw.2⟩
      · intro j a hj0 hj1 ha0 ha1
        by_cases hj : j < X
        · have := h3 j a hj0 hj ha0 ha1
          exact ⟨covered_left this.1, covered_left this.2⟩
        · have hjx : j = X := by omega
          subst hjx
          have := h2 j a hj0 le_rfl (by omega) (by omega)
          exact ⟨covered_left this.1, covered_left this.2⟩
    · simp only [hlt, if_false, List.flatMap_nil, List.append_nil] at ho ⊢
      rcases h1 o ho with hc | ⟨hrow, hl, hr⟩
      · exact hc
      · by_cases hxy : Y < X
        · have := h3 Y o.1 hY0 hxy (by omega) (by omega)
          rcases hrow with hrow | hrow
          · have e : o = (o.1, Y) := by rw [← hrow]
            rw [e]; exact this.1
          · have e : o = (o.1, -Y) := by rw [← hrow]
            rw [e]; exact this.2
        · have hxy2 : Y = X := by omega
          have := h2 Y o.1 hY0 (by omega) (by omega) (by omega)
          rcases hrow with hrow | hrow
          · have e : o = (o.1, Y) := by rw [← hrow]
            rw [e]; exact this.1
          · have e : o = (o.1, -Y) := by rw [← hrow]
            rw [e]; exact this.2

theorem fillStepBursts_eq (x0 y0 c : Nat) (s : CircleStep) :
    fillStepBursts x0 y0 c s = (stepSpans s).map (spanOf x0 y0 c) := by
  unfold fillStepBursts stepSpans spanOf
  cases s.se <;> simp [sub_eq_add_neg]

theorem fill_circle_spec (d : Dev) (x0 y0 r c : Nat) (hr : Ready d.htft) (hy0 : y0 < 65536)
    (hr0 : 0 < r) (hr8 : r < 256) :
    ∃ d1, TFT_Fill_Circle d x0 y0 r c = some d1 ∧
      Emits d d1 ((fillCircleSpans r).map (spanOf x0 y0 c)) := by
  unfold TFT_Fill_Circle
  rw [if_neg (by omega)]
  have h0 := span_spec d c ((x0 : Int) - r) y0 r hr
  rw [u16_of_nat y0 hy0] at h0
  obtain ⟨d1, hl, he⟩ := fillCircleLoop_spec x0 y0 c loopFuel _ 0 r (i16 (3 - 2 * (r : Int)))
    h0.1 (by omega) (by omega) (by simp only [loopFuel]; omega)
  refine ⟨d1, hl, ?_⟩
  have := emits_trans h0 he
  have e : (fillCircleSpans r).map (spanOf x0 y0 c) =
      [spanBurst c ((x0 : Int) - r) y0 (2 * r + 1)] ++
        (circleSteps loopFuel 0 r (i16 (3 - 2 * (r : Int)))).flatMap (fillStepBursts x0 y0 c) := by
    unfold fillCircleSpans
    rw [List.map_cons, List.map_flatMap]
    have e2 : (fun s => fillStepBursts x0 y0 c s) = fun s => (stepSpans s).map (spanOf x0 y0 c) :=
      funext (fillStepBursts_eq x0 y0 c)
    show _ = _ ++ List.flatMap _ (fun s => fillStepBursts x0 y0 c s)
    rw [e2]
    simp only [spanOf, add_zero, List.singleton_append]
  rw [e]
  exact this

theorem fillCircleSpans_range (r : Nat) (hr8 : r < 256) :
    ∀ f ∈ fillCircleSpans r, 0 ≤ f.2 ∧ f.2 ≤ r ∧ -(r : Int) ≤ f.1 ∧ f.1 ≤ r := by
  intro f hf
  unfold fillCircleSpans at hf
  rcases List.mem_cons.mp hf with rfl | hf
  · simp
  · obtain ⟨s, hs, hfs⟩ := List.mem_flatMap.mp hf
    have := circleSteps_range r (by omega) loopFuel 0 r _ le_rfl (by omega) le_rfl s hs
    unfold stepSpans at hfs
    cases hse : s.se <;> simp only [hse, if_true, if_false, Bool.false_eq_true, List.nil_append,
      List.cons_append, List.mem_cons, List.mem_singleton, List.not_mem_nil, or_false] at hfs
    · rcases hfs with rfl | rfl <;> (dsimp only; omega)
    · rcases hfs with rfl | rfl | rfl | rfl <;> (dsimp only; omega)

theorem circle_covered (r : Nat) (hr0 : 0 < r) (hr8 : r < 256) :
    ∀ o ∈ drawCircleOffsets r, Covered (fillCircleSpans r) o := by
  intro o ho
  unfold drawCircleOffsets at ho
  rw [if_pos hr0] at ho
  have hc : ∀ a : Int, -(r : Int) ≤ a → a ≤ r → Covered [((0 : Int), (r : Int))] (a, 0) :=
    fun a h1 h2 => ⟨(0, r), List.mem_singleton.mpr rfl, rfl, h1, h2⟩
  refine cover_steps loopFuel 0 r _ [(0, (r : Int))] _ le_rfl (by omega) (by omega) (by omega)
    ?_ ?_ ?_ (by simp only [loopFuel]; omega) o ho
  · intro q hq
    simp only [List.mem_cons, List.mem_singleton, List.not_mem_nil, or_false] at hq
    rcases hq with rfl | rfl | rfl | rfl
    · right; simp
    · right; simp
    · left; exact hc _ (by omega) le_rfl
    · left; exact hc _ le_rfl (by omega)
  · intro j a hj0 hj1 ha0 ha1
    have : j = 0 := by omega
    subst this
    exact ⟨hc a ha0 ha1, by simpa using hc a ha0 ha1⟩
  · intro j a hj0 hj1
    omega

theorem span_pixel (x0 y0 c r : Nat) (f : Int × Int) (a : Int) (hx : r ≤ x0)
    (hx1 : x0 + r < 65536) (h0 : 0 ≤ f.2) (h1 : f.2 ≤ r) (ha0 : -f.2 ≤ a) (ha1 : a ≤ f.2) :
    (⟨u16 (x0 + a), u16 (y0 + f.1), c⟩ : Pixel) ∈ (spanOf x0 y0 c f).pixels := by
  obtain ⟨row, hw⟩ := f
  dsimp only at *
  obtain ⟨k, rfl⟩ := Int.eq_ofNat_of_zero_le h0
  obtain ⟨i, hi⟩ := Int.eq_ofNat_of_zero_le (show 0 ≤ a + k by omega)
  have e1 : u16 ((x0 : Int) - k) = x0 - k := by
    have := u16_of_nonneg ((x0 : Int) - k) (by omega) (by omega)
    omega
  have e2 : u16 (2 * (k : Int) + 1) = 2 * k + 1 := by
    have := u16_of_nonneg (2 * (k : Int) + 1) (by omega) (by omega)
    omega
  have e3 : u16 ((x0 : Int) + a) = x0 - k + i := by
    have := u16_of_nonneg ((x0 : Int) + a) (by omega) (by omega)
    omega
  unfold spanOf spanBurst
  rw [e1, e2, e3, pixels_replicate, List.mem_map]
  refine ⟨i, List.mem_range.mpr (by omega), ?_⟩
  have e4 : (x0 - k + (2 * k + 1) - 1) % 65536 + 1 - (x0 - k) = 2 * k + 1 := by
    rw [Nat.mod_eq_of_lt (by omega)]; omega
  rw [e4, Nat.mod_eq_of_lt (show i < 2 * k + 1 by omega), Nat.add_sub_cancel_left, Nat.mod_one]
  rfl

theorem spanOf_ok (x0 y0 c : Nat) (hc : c < 65536) (fs : List (Int × Int)) :
    ∀ b ∈ fs.map (spanOf x0 y0 c), b.ok := by
  intro b hb
  obtain ⟨f, _, rfl⟩ := List.mem_map.mp hb
  refine ⟨u16_lt _, u16_lt _, Nat.mod_lt _ (by norm_num), u16_lt _, ?_⟩
  exact replicate_ok _ c hc

/-- C9: for a radius below 256 and a centre at least `r` away from both ends
of the 16-bit coordinate range (so that no coordinate wraps), both
`TFT_Draw_Circle` and `TFT_Fill_Circle` return, and every pixel written by
`TFT_Draw_Circle` is also written by `TFT_Fill_Circle`, with the same
colour. -/
theorem C9_fill_circle_covers_outline (d : Dev) (x0 y0 r color : Nat) (hr : Ready d.htft)
    (hr8 : r < 256) (hx : r ≤ x0) (hx1 : x0 + r < 65536) (hy : r ≤ y0) (hy1 : y0 + r < 65536)
    (hc : color < 65536) :
    ∃ dd df, TFT_Draw_Circle d x0 y0 r color = some dd ∧
      TFT_Fill_Circle d x0 y0 r color = some df ∧
      ∀ p ∈ pixelsOf (written d dd), p ∈ pixelsOf (written d df) := by
  obtain ⟨dd, hl, he⟩ := draw_circle_spec d x0 y0 r color hr (by omega) (by omega) hr8
  rcases Nat.eq_zero_or_pos r with h0 | h0
  · subst h0
    refine ⟨dd, TFT_Flush_Buffer (TFT_Draw_Point d x0 y0 color) 1, hl, by simp [TFT_Fill_Circle], ?_⟩
    have hd : TFT_Draw_Circle d x0 y0 0 color =
        some (TFT_Flush_Buffer (TFT_Draw_Point d x0 y0 color) 1) := by simp [TFT_Draw_Circle]
    rw [hl] at hd
    rw [Option.some.inj hd]
    exact fun p hp => hp
  · obtain ⟨df, hf, hef⟩ := fill_circle_spec d x0 y0 r color hr (by omega) h0 hr8
    refine ⟨dd, df, hl, hf, ?_⟩
    rw [written_of_emits he (offsetBurst_ok x0 y0 color hc _), pixelsOf_offsets,
      written_of_emits hef (spanOf_ok x0 y0 color hc _)]
    intro p hp
    obtain ⟨o, ho, rfl⟩ := List.mem_map.mp hp
    obtain ⟨f, hfm, hrow, ha0, ha1⟩ := circle_covered r h0 hr8 o ho
    obtain ⟨g0, g1, _, _⟩ := fillCircleSpans_range r hr8 f hfm
    have := span_pixel x0 y0 color r f o.1 hx hx1 g0 g1 ha0 ha1
    rw [hrow] at this
    unfold pixelsOf
    exact List.mem_flatMap.mpr ⟨_, List.mem_map_of_mem _ hfm, this⟩

set_option maxRecDepth 100000 in
/-- C9 on a sample: radius 3 around (50, 60) on the demo device. -/
theorem C9_fill_circle_covers_outline_witness :
    ∃ dd df, TFT_Draw_Circle demoDev 50 60 3 7 = some dd ∧
      TFT_Fill_Circle demoDev 50 60 3 7 = some df ∧
      ∀ p ∈ pixelsOf (written demoDev dd), p ∈ pixelsOf (written demoDev df) :=
  C9_fill_circle_covers_outline demoDev 50 60 3 7 demoDev_ready (by decide) (by decide)
    (by decide) (by decide) (by decide) (by decide)

/-! ## The transport -/

theorem lastCS_append_cs (t : List HwEvent) (l : Nat) :
    lastCS (t ++ [HwEvent.CS l]) = some l := by
  induction t with
  | nil => rfl
  | cons e t ih => cases e <;> simp [lastCS, ih]

theorem csWrites_append (a b : List HwEvent) : csWrites (a ++ b) = csWrites a ++ csWrites b := by
  induction a with
  | nil => rfl
  | cons e t ih => cases e <;> simp [csWrites, ih]

theorem inFlightAfter_append (a b : List HwEvent) : ∀ f,
    inFlightAfter f (a ++ b) = inFlightAfter (inFlightAfter f a) b := by
  induction a with
  | nil => intro f; rfl
  | cons e t ih => intro f; cases e <;> simp [inFlightAfter, ih]

theorem startsIdle_append (a b : List HwEvent) : ∀ f,
    startsIdle f (a ++ b) = (startsIdle f a && startsIdle (inFlightAfter f a) b) := by
  induction a with
  | nil => intro f; simp [startsIdle, inFlightAfter]
  | cons e t ih => intro f; cases e <;> simp [startsIdle, inFlightAfter, ih, Bool.and_assoc]

/-- C14: on a device that is not DMA-enabled (transport bound, data not
`NULL`, length not 0) `TFT_SPI_Send` appends, for either value of
`wait_completion`, exactly the four actions data mode, chip-select low, one
blocking transmission of the first `length` bytes, chip-select high; the
handle, and so the busy flag, is left as it was, and the chip-select writes
are one assert followed by one release. -/
theorem C14_spi_send_blocking (d : Dev) (buf : List Nat) (len wait : Nat)
    (hs : d.htft.spi_handle ≠ none) (hl : len ≠ 0) (hdma : d.htft.is_dma_enabled = 0) :
    TFT_SPI_Send d (some buf) len wait =
        ⟨d.htft, d.bus ++ [HwEvent.DC 1, HwEvent.CS 0, HwEvent.tx (buf.take len), HwEvent.CS 1]⟩ ∧
      (TFT_SPI_Send d (some buf) len wait).htft.is_dma_transfer_active =
        d.htft.is_dma_transfer_active ∧
      csWrites (TFT_SPI_Send d (some buf) len wait).bus = csWrites d.bus ++ [0, 1] := by
  have e : TFT_SPI_Send d (some buf) len wait =
      ⟨d.htft, d.bus ++ [HwEvent.DC 1, HwEvent.CS 0, HwEvent.tx (buf.take len), HwEvent.CS 1]⟩ := by
    obtain ⟨s, hs1⟩ := Option.ne_none_iff_exists.mp hs
    unfold TFT_SPI_Send
    rw [← hs1]
    simp [hl, hdma, TFT_Wait_DMA_Transfer_Complete, TFT_Pin_CS_Set, TFT_Pin_DC_Set,
      TFT_Platform_SPI_Transmit_Blocking]
  rw [e]
  exact ⟨rfl, rfl, by simp [csWrites_append, csWrites]⟩

/-- C14 on a sample: three bytes of a four-byte block on a blocking device. -/
theorem C14_spi_send_blocking_witness :
    TFT_SPI_Send ⟨⟨some 0, none, 0, 0, 0, 0, 0, 0, 0⟩, []⟩ (some [1, 2, 3, 4]) 3 0 =
        ⟨⟨some 0, none, 0, 0, 0, 0, 0, 0, 0⟩,
          [] ++ [HwEvent.DC 1, HwEvent.CS 0, HwEvent.tx ([1, 2, 3, 4].take 3), HwEvent.CS 1]⟩ ∧
      (TFT_SPI_Send ⟨⟨some 0, none, 0, 0, 0, 0, 0, 0, 0⟩, []⟩ (some [1, 2, 3, 4]) 3
        0).htft.is_dma_transfer_active = 0 ∧
      csWrites (TFT_SPI_Send ⟨⟨some 0, none, 0, 0, 0, 0, 0, 0, 0⟩, []⟩ (some [1, 2, 3, 4]) 3
        0).bus = csWrites [] ++ [0, 1] :=
  C14_spi_send_blocking ⟨⟨some 0, none, 0, 0, 0, 0, 0, 0, 0⟩, []⟩ [1, 2, 3, 4] 3 0
    (by decide) (by decide) rfl

/-- C12: `TFT_SPI_Send` called with a bound transport, data that is not
`NULL`, a length that is not 0 and `wait_completion` set returns with the
busy flag 0 and with 1 as the level last written to chip-select, on a
DMA-enabled device whatever the flag was at entry, and on a device that is
not DMA-enabled, where nothing ever sets the flag, provided it was 0. -/
theorem C12_spi_send_wait (d : Dev) (buf : List Nat) (len wait : Nat)
    (hs : d.htft.spi_handle ≠ none) (hl : len ≠ 0) (hw : wait ≠ 0)
    (hflag : d.htft.is_dma_enabled = 0 → d.htft.is_dma_transfer_active = 0) :
    (TFT_SPI_Send d (some buf) len wait).htft.is_dma_transfer_active = 0 ∧
      lastCS (TFT_SPI_Send d (some buf) len wait).bus = some 1 := by
  by_cases hdma : d.htft.is_dma_enabled = 0
  · rw [(C14_spi_send_blocking d buf len wait hs hl hdma).1]
    refine ⟨hflag hdma, ?_⟩
    have := lastCS_append_cs (d.bus ++ [HwEvent.DC 1, HwEvent.CS 0, HwEvent.tx (buf.take len)]) 1
    simpa using this
  · obtain ⟨s, hs1⟩ := Option.ne_none_iff_exists.mp hs
    unfold TFT_SPI_Send
    rw [← hs1]
    simp only [hl, if_false]
    unfold TFT_Wait_DMA_Transfer_Complete HAL_SPI_TxCpltCallback TFT_Pin_CS_Set TFT_Pin_DC_Set
      TFT_Platform_SPI_Transmit_DMA_Start TFT_Platform_SPI_Transmit_Blocking
    by_cases h2 : d.htft.is_dma_transfer_active = 0
    · simp only [hdma, h2, hw, ne_eq, not_true_eq_false, not_false_eq_true, and_false, and_true,
        if_false, if_true, true_and, one_ne_zero, and_self]
      exact lastCS_append_cs _ 1
    · simp only [hdma, h2, hw, ne_eq, not_true_eq_false, not_false_eq_true, and_false, and_true,
        if_false, if_true, true_and, one_ne_zero, and_self]
      exact lastCS_append_cs _ 1

/-- C12 on a sample: a DMA device with a transfer in flight at entry. -/
theorem C12_spi_send_wait_witness :
    (TFT_SPI_Send ⟨⟨some 0, none, 0, 0, 1, 1, 0, 0, 0⟩, [HwEvent.CS 0]⟩ (some [7, 8]) 2
        1).htft.is_dma_transfer_active = 0 ∧
      lastCS (TFT_SPI_Send ⟨⟨some 0, none, 0, 0, 1, 1, 0, 0, 0⟩, [HwEvent.CS 0]⟩ (some [7, 8]) 2
        1).bus = some 1 :=
  C12_spi_send_wait ⟨⟨some 0, none, 0, 0, 1, 1, 0, 0, 0⟩, [HwEvent.CS 0]⟩ [7, 8] 2 1
    (by decide) (by decide) (by decide) (by decide)

theorem send_dma_bus (d : Dev) (buf : List Nat) (len wait : Nat)
    (hs : d.htft.spi_handle ≠ none) (hl : len ≠ 0) (hdma : d.htft.is_dma_enabled ≠ 0) :
    (TFT_SPI_Send d (some buf) len wait).bus =
        d.bus ++ ((if d.htft.is_dma_transfer_active ≠ 0 then [HwEvent.CS 1] else []) ++
          [HwEvent.DC 1, HwEvent.CS 0, HwEvent.dma (buf.take len)] ++
          (if wait ≠ 0 then [HwEvent.CS 1, HwEvent.CS 1] else [])) ∧
      (TFT_SPI_Send d (some buf) len wait).htft.is_dma_transfer_active =
        (if wait ≠ 0 then 0 else 1) := by
  obtain ⟨s, hs1⟩ := Option.ne_none_iff_exists.mp hs
  unfold TFT_SPI_Send
  rw [← hs1]
  simp only [hl, if_false]
  unfold TFT_Wait_DMA_Transfer_Complete HAL_SPI_TxCpltCallback TFT_Pin_CS_Set TFT_Pin_DC_Set
    TFT_Platform_SPI_Transmit_DMA_Start TFT_Platform_SPI_Transmit_Blocking
  by_cases h2 : d.htft.is_dma_transfer_active = 0 <;> by_cases h3 : wait = 0 <;>
    simp [hdma, h2, h3]

theorem data_bus (d : Dev) (bytes : List Nat) :
    (TFT_Pin_CS_Set (TFT_Platform_SPI_Transmit_Blocking
      (TFT_Pin_CS_Set (TFT_Pin_DC_Set (TFT_Wait_DMA_Transfer_Complete d) 1) 0) bytes) 1).bus =
        d.bus ++ ((if d.htft.is_dma_enabled ≠ 0 ∧ d.htft.is_dma_transfer_active ≠ 0
            then [HwEvent.CS 1] else []) ++
          [HwEvent.DC 1, HwEvent.CS 0, HwEvent.tx bytes, HwEvent.CS 1]) ∧
      (TFT_Pin_CS_Set (TFT_Platform_SPI_Transmit_Blocking
        (TFT_Pin_CS_Set (TFT_Pin_DC_Set (TFT_Wait_DMA_Transfer_Complete d) 1) 0)
          bytes) 1).htft.is_dma_transfer_active =
        (if d.htft.is_dma_enabled ≠ 0 then 0 else d.htft.is_dma_transfer_active) := by
  unfold TFT_Wait_DMA_Transfer_Complete HAL_SPI_TxCpltCallback TFT_Pin_CS_Set TFT_Pin_DC_Set
    TFT_Platform_SPI_Transmit_Blocking
  by_cases h1 : d.htft.is_dma_enabled = 0 <;> by_cases h2 : d.htft.is_dma_transfer_active = 0 <;>
    simp [h1, h2]

theorem transfer_step (d : Dev) (op : TransferOp) (hdma : d.htft.is_dma_enabled ≠ 0)
    (hf : FlagTracksBus d) (hi : startsIdle false d.bus = true) :
    (TransferOp.run d op).htft.spi_handle = d.htft.spi_handle ∧
      (TransferOp.run d op).htft.is_dma_enabled = d.htft.is_dma_enabled ∧
      FlagTracksBus (TransferOp.run d op) ∧ startsIdle false (TransferOp.run d op).bus = true := by
  unfold FlagTracksBus at *
  by_cases hs : d.htft.spi_handle = none
  · have e : TransferOp.run d op = d := by
      cases op <;> simp [TransferOp.run, TFT_SPI_Send, TFT_Write_Data8, TFT_Write_Data16, hs]
    rw [e]
    exact ⟨rfl, rfl, hf, hi⟩
  · cases op with
    | send b n w =>
      simp only [TransferOp.run]
      cases b with
      | none =>
        have e : TFT_SPI_Send d none n w = d := by
          unfold TFT_SPI_Send
          split <;> simp_all
        rw [e]
        exact ⟨rfl, rfl, hf, hi⟩
      | some buf =>
        by_cases hn : n = 0
        · have e : TFT_SPI_Send d (some buf) n w = d := by
            unfold TFT_SPI_Send
            split <;> simp_all
          rw [e]
          exact ⟨rfl, rfl, hf, hi⟩
        · obtain ⟨hb, hfl⟩ := send_dma_bus d buf n w hs hn hdma
          have hc := (spi_send_spec d buf n w hs hn).1
          refine ⟨hc.1, hc.2.2.2.2.1, ?_, ?_⟩
          · rw [hb, hfl, inFlightAfter_append]
            by_cases h2 : d.htft.is_dma_transfer_active = 0 <;> by_cases h3 : w = 0 <;>
              simp [h2, h3, inFlightAfter]
          · rw [hb, startsIdle_append, hi]
            by_cases h2 : d.htft.is_dma_transfer_active = 0
            · have h4 : inFlightAfter false d.bus = false := by
                have := hf.not
                simpa [h2] using this
              by_cases h3 : w = 0 <;> simp [h2, h3, h4, startsIdle]
            · by_cases h3 : w = 0 <;> simp [h2, h3, startsIdle]
    | data8 v =>
      simp only [TransferOp.run, TFT_Write_Data8, hs, if_false]
      obtain ⟨hb, hfl⟩ := data_bus d [v]
      refine ⟨?_, ?_, ?_, ?_⟩
      · unfold TFT_Wait_DMA_Transfer_Complete HAL_SPI_TxCpltCallback TFT_Pin_CS_Set
          TFT_Pin_DC_Set TFT_Platform_SPI_Transmit_Blocking
        split_ifs <;> rfl
      · unfold TFT_Wait_DMA_Transfer_Complete HAL_SPI_TxCpltCallback TFT_Pin_CS_Set
          TFT_Pin_DC_Set TFT_Platform_SPI_Transmit_Blocking
        split_ifs <;> rfl
      · rw [hb, hfl, inFlightAfter_append]
        by_cases h2 : d.htft.is_dma_transfer_active = 0 <;> simp [hdma, h2, inFlightAfter]
      · rw [hb, startsIdle_append, hi]
        by_cases h2 : d.htft.is_dma_transfer_active = 0
        · have h4 : inFlightAfter false d.bus = false := by
            have := hf.not
            simpa [h2] using this
          simp [hdma, h2, h4, startsIdle]
        · simp [hdma, h2, startsIdle]
    | data16 v =>
      simp only [TransferOp.run, TFT_Write_Data16, hs, if_false]
      obtain ⟨hb, hfl⟩ := data_bus d (be16 v)
      refine ⟨?_, ?_, ?_, ?_⟩
      · unfold TFT_Wait_DMA_Transfer_Complete HAL_SPI_TxCpltCallback TFT_Pin_CS_Set
          TFT_Pin_DC_Set TFT_Platform_SPI_Transmit_Blocking
        split_ifs <;> rfl
      · unfold TFT_Wait_DMA_Transfer_Complete HAL_SPI_TxCpltCallback TFT_Pin_CS_Set
          TFT_Pin_DC_Set TFT_Platform_SPI_Transmit_Blocking
        split_ifs <;> rfl
      · rw [hb, hfl, inFlightAfter_append]
        by_cases h2 : d.htft.is_dma_transfer_active = 0 <;> simp [hdma, h2, inFlightAfter]
      · rw [hb, startsIdle_append, hi]
        by_cases h2 : d.htft.is_dma_transfer_active = 0
        · have h4 : inFlightAfter false d.bus = false := by
            have := hf.not
            simpa [h2] using this
          simp [hdma, h2, h4, startsIdle]
        · simp [hdma, h2, startsIdle]

theorem transfer_steps (ops : List TransferOp) : ∀ (d : Dev), d.htft.is_dma_enabled ≠ 0 →
    FlagTracksBus d → startsIdle false d.bus = true →
    FlagTracksBus (ops.foldl TransferOp.run d) ∧
      startsIdle false (ops.foldl TransferOp.run d).bus = true := by
  induction ops with
  | nil => intro d _ hf hi; exact ⟨hf, hi⟩
  | cons op t ih =>
    intro d hdma hf hi
    obtain ⟨_, h2, h3, h4⟩ := transfer_step d op hdma hf hi
    exact ih _ (by rw [h2]; exact hdma) h3 h4

/-- C13: on a DMA-enabled device whose busy flag tells whether a transfer is
in flight, and on whose lines no transmission was started during a transfer
so far, any sequence of `TFT_SPI_Send` (either `wait_completion`),
`TFT_Write_Data8` and `TFT_Write_Data16` calls keeps both: every
transmission, DMA start or blocking send, is started while no transfer is in
flight.  In particular after `TFT_SPI_Send` with `wait_completion = 0` the
flag is 1, and a second such call starts its DMA transfer only after the
chip-select release of the first transfer's completion. -/
theorem C13_transfers_never_overlap (d : Dev) (hdma : d.htft.is_dma_enabled ≠ 0)
    (hf : FlagTracksBus d) (hi : startsIdle false d.bus = true) :
    (∀ ops : List TransferOp, FlagTracksBus (ops.foldl TransferOp.run d) ∧
        startsIdle false (ops.foldl TransferOp.run d).bus = true) ∧
      (∀ (b1 b2 : List Nat) (n1 n2 : Nat), d.htft.spi_handle ≠ none → n1 ≠ 0 → n2 ≠ 0 →
        (TFT_SPI_Send d (some b1) n1 0).htft.is_dma_transfer_active = 1 ∧
        (TFT_SPI_Send (TFT_SPI_Send d (some b1) n1 0) (some b2) n2 0).bus =
          (TFT_SPI_Send d (some b1) n1 0).bus ++
            [HwEvent.CS 1, HwEvent.DC 1, HwEvent.CS 0, HwEvent.dma (b2.take n2)]) := by
  refine ⟨fun ops => transfer_steps ops d hdma hf hi, ?_⟩
  intro b1 b2 n1 n2 hs h1 h2
  obtain ⟨_, hfl⟩ := send_dma_bus d b1 n1 0 hs h1 hdma
  have hc := (spi_send_spec d b1 n1 0 hs h1).1
  obtain ⟨hb2, _⟩ := send_dma_bus (TFT_SPI_Send d (some b1) n1 0) b2 n2 0
    (by rw [hc.1]; exact hs) h2 (by rw [hc.2.2.2.2.1]; exact hdma)
  refine ⟨by simpa using hfl, ?_⟩
  rw [hb2, hfl]
  simp

/-- C13 on a sample: two `TFT_SPI_Send` calls without waiting, then a
`TFT_Write_Data16`, on the demo device. -/
theorem C13_transfers_never_overlap_witness :
    startsIdle false
      ([TransferOp.send (some [1, 2]) 2 0, TransferOp.send (some [3, 4]) 2 0,
        TransferOp.data16 5].foldl TransferOp.run demoDev).bus = true :=
  ((C13_transfers_never_overlap demoDev (by decide)
    (by simp [FlagTracksBus, demoDev, inFlightAfter]) rfl).1 _).2

/-! ## The staging buffer: cursor and contents -/

theorem send_flagOnly (d : Dev) (b : Option (List Nat)) (n w : Nat) :
    FlagOnly d.htft (TFT_SPI_Send d b n w).htft := by
  by_cases hs : d.htft.spi_handle = none
  · have e : TFT_SPI_Send d b n w = d := by
      unfold TFT_SPI_Send
      split <;> simp_all
    rw [e]; exact flagOnly_refl _
  · cases b with
    | none =>
      have e : TFT_SPI_Send d none n w = d := by
        unfold TFT_SPI_Send
        split <;> simp_all
      rw [e]; exact flagOnly_refl _
    | some buf =>
      by_cases hn : n = 0
      · have e : TFT_SPI_Send d (some buf) n w = d := by
          unfold TFT_SPI_Send
          split <;> simp_all
        rw [e]; exact flagOnly_refl _
      · exact (spi_send_spec d buf n w hs hn).1

theorem flush_fields (d : Dev) (w : Nat) :
    SameConfig d.htft (TFT_Flush_Buffer d w).htft ∧
      (TFT_Flush_Buffer d w).htft.tx_buffer = d.htft.tx_buffer ∧
      (d.htft.tx_buffer ≠ none → (TFT_Flush_Buffer d w).htft.buffer_write_index = 0) := by
  unfold TFT_Flush_Buffer
  split_ifs with h
  · refine ⟨sameConfig_refl _, rfl, fun hb => ?_⟩
    rcases h with h | h
    · exact absurd h hb
    · exact h
  · have f := send_flagOnly d d.htft.tx_buffer d.htft.buffer_write_index w
    refine ⟨?_, f.2.1, fun _ => rfl⟩
    exact ⟨f.1, f.2.2.1, f.2.2.2.2.1, f.2.2.2.2.2.1, f.2.2.2.2.2.2.1, f.2.2.2.2.2.2.2⟩

/-- C15: on a device with an allocated staging buffer `TFT_Buffer_Write16`
stores the high byte and then the low byte of the word at the cursor and the
position after it and advances the cursor by 2; when
`buffer_write_index >= buffer_size - 1` it first calls `TFT_Flush_Buffer`
with `wait_completion = 0`, after which the cursor is 0, so that the bytes
go to positions 0 and 1 and the cursor ends at 2; otherwise nothing is
transmitted. -/
theorem C15_buffer_write16 (d : Dev) (buf : List Nat) (v : Nat)
    (hb : d.htft.tx_buffer = some buf) (hsz : d.htft.buffer_size < 65536) :
    (¬ ((d.htft.buffer_write_index : Int) ≥ (d.htft.buffer_size : Int) - 1) →
        TFT_Buffer_Write16 d v =
          ⟨{ d.htft with
              tx_buffer := some ((buf.set d.htft.buffer_write_index (v / 256 % 256)).set
                (d.htft.buffer_write_index + 1) (v % 256))
              buffer_write_index := d.htft.buffer_write_index + 2 }, d.bus⟩) ∧
      ((d.htft.buffer_write_index : Int) ≥ (d.htft.buffer_size : Int) - 1 →
        (TFT_Flush_Buffer d 0).htft.buffer_write_index = 0 ∧
        TFT_Buffer_Write16 d v =
          ⟨{ (TFT_Flush_Buffer d 0).htft with
              tx_buffer := some ((buf.set 0 (v / 256 % 256)).set 1 (v % 256))
              buffer_write_index := 2 }, (TFT_Flush_Buffer d 0).bus⟩) ∧
      (∀ c, c + 2 ≤ buf.length →
        ((buf.set c (v / 256 % 256)).set (c + 1) (v % 256))[c]? = some (v / 256 % 256) ∧
        ((buf.set c (v / 256 % 256)).set (c + 1) (v % 256))[c + 1]? = some (v % 256)) := by
  refine ⟨fun h => ?_, fun h => ?_, fun c hc => ?_⟩
  · unfold TFT_Buffer_Write16
    rw [if_neg (by rw [hb]; simp), if_neg h]
    show Dev.mk (bufferStore (bufferStore d.htft (v / 256 % 256)) (v % 256)) d.bus = _
    rw [store_two d.htft buf _ _ hb (by omega)]
  · obtain ⟨_, f2, f3⟩ := flush_fields d 0
    have h0 := f3 (by rw [hb]; simp)
    refine ⟨h0, ?_⟩
    unfold TFT_Buffer_Write16
    rw [if_neg (by rw [hb]; simp), if_pos h]
    show Dev.mk (bufferStore (bufferStore (TFT_Flush_Buffer d 0).htft (v / 256 % 256)) (v % 256))
      (TFT_Flush_Buffer d 0).bus = _
    rw [store_two (TFT_Flush_Buffer d 0).htft buf _ _ (by rw [f2, hb]) (by omega), h0]
  · constructor
    · rw [List.getElem?_set_ne (by omega), List.getElem?_set_self (by omega)]
    · rw [List.getElem?_set_self (by simp; omega)]

/-- C15 on a sample: the demo device with its 8-byte buffer filled up to
position 7, so that the word is stored after a flush. -/
theorem C15_buffer_write16_witness :
    (TFT_Flush_Buffer ⟨{ demoDev.htft with buffer_write_index := 7 }, []⟩
        0).htft.buffer_write_index = 0 ∧
      TFT_Buffer_Write16 ⟨{ demoDev.htft with buffer_write_index := 7 }, []⟩ 0x1234 =
        ⟨{ (TFT_Flush_Buffer ⟨{ demoDev.htft with buffer_write_index := 7 }, []⟩ 0).htft with
            tx_buffer := some (((List.replicate 8 0).set 0 (0x1234 / 256 % 256)).set 1
              (0x1234 % 256))
            buffer_write_index := 2 },
          (TFT_Flush_Buffer ⟨{ demoDev.htft with buffer_write_index := 7 }, []⟩ 0).bus⟩ :=
  (C15_buffer_write16 ⟨{ demoDev.htft with buffer_write_index := 7 }, []⟩
    (List.replicate 8 0) 0x1234 rfl (by decide)).2.1 (by decide)

/-- C17: `TFT_Flush_Buffer` returns the device unchanged, nothing
transmitted, when the staging buffer is `NULL` or the cursor is 0; otherwise
it makes the one call `TFT_SPI_Send(htft, tx_buffer, buffer_write_index,
wait_completion)` and sets the cursor to 0, for every `wait_completion`;
with a bound transport that call delivers exactly the first
`buffer_write_index` bytes of the buffer as data. -/
theorem C17_flush_buffer (d : Dev) (w : Nat) :
    ((d.htft.tx_buffer = none ∨ d.htft.buffer_write_index = 0) → TFT_Flush_Buffer d w = d) ∧
      (∀ buf, d.htft.tx_buffer = some buf → d.htft.buffer_write_index ≠ 0 →
        TFT_Flush_Buffer d w =
          ⟨{ (TFT_SPI_Send d (some buf) d.htft.buffer_write_index w).htft with
              buffer_write_index := 0 },
            (TFT_SPI_Send d (some buf) d.htft.buffer_write_index w).bus⟩ ∧
        (TFT_Flush_Buffer d w).htft.buffer_write_index = 0 ∧
        (d.htft.spi_handle ≠ none →
          Sends d (TFT_Flush_Buffer d w)
            ((buf.take d.htft.buffer_write_index).map Wire.dat))) := by
  constructor
  · intro h
    unfold TFT_Flush_Buffer
    rw [if_pos h]
  · intro buf hb hi
    have e : TFT_Flush_Buffer d w =
        ⟨{ (TFT_SPI_Send d (some buf) d.htft.buffer_write_index w).htft with
            buffer_write_index := 0 },
          (TFT_SPI_Send d (some buf) d.htft.buffer_write_index w).bus⟩ := by
      unfold TFT_Flush_Buffer
      rw [if_neg (by rw [hb]; simp [hi]), hb]
    refine ⟨e, by rw [e], fun hs => ?_⟩
    obtain ⟨t, ht, hd⟩ := (spi_send_spec d buf d.htft.buffer_write_index w hs hi).2
    exact ⟨t, by rw [e]; exact ht, hd⟩

/-- C17 on a sample: three staged bytes on a blocking device, flushed without
waiting. -/
theorem C17_flush_buffer_witness :
    TFT_Flush_Buffer ⟨⟨some 0, some [9, 8, 7, 6], 4, 3, 0, 0, 0, 0, 0⟩, []⟩ 0 =
      ⟨⟨some 0, some [9, 8, 7, 6], 4, 0, 0, 0, 0, 0, 0⟩,
        [HwEvent.DC 1, HwEvent.CS 0, HwEvent.tx [9, 8, 7], HwEvent.CS 1]⟩ :=
  ((C17_flush_buffer ⟨⟨some 0, some [9, 8, 7, 6], 4, 3, 0, 0, 0, 0, 0⟩, []⟩ 0).2
    [9, 8, 7, 6] rfl (by decide)).1.trans (by decide)

/-- C18: `TFT_Reset_Buffer` sets the cursor to 0 and changes nothing else:
the lines see no action, and the transport, the buffer and its contents, the
capacity, both DMA flags, the orientation and the offsets are as before. -/
theorem C18_reset_buffer (d : Dev) :
    (TFT_Reset_Buffer d).htft.buffer_write_index = 0 ∧
      (TFT_Reset_Buffer d).bus = d.bus ∧
      (TFT_Reset_Buffer d).htft = { d.htft with buffer_write_index := 0 } ∧
      (TFT_Reset_Buffer d).htft.spi_handle = d.htft.spi_handle ∧
      (TFT_Reset_Buffer d).htft.tx_buffer = d.htft.tx_buffer ∧
      (TFT_Reset_Buffer d).htft.buffer_size = d.htft.buffer_size ∧
      (TFT_Reset_Buffer d).htft.is_dma_enabled = d.htft.is_dma_enabled ∧
      (TFT_Reset_Buffer d).htft.is_dma_transfer_active = d.htft.is_dma_transfer_active ∧
      (TFT_Reset_Buffer d).htft.display_direction = d.htft.display_direction ∧
      (TFT_Reset_Buffer d).htft.x_offset = d.htft.x_offset ∧
      (TFT_Reset_Buffer d).htft.y_offset = d.htft.y_offset :=
  ⟨rfl, rfl, rfl, rfl, rfl, rfl, rfl, rfl, rfl, rfl, rfl⟩

/-! ## The cursor stays inside the buffer -/

theorem data16_handle (d : Dev) (v : Nat) : FlagOnly d.htft (TFT_Write_Data16 d v).htft := by
  by_cases hs : d.htft.spi_handle = none
  · simp [TFT_Write_Data16, hs, flagOnly_refl]
  · exact (write_data16_spec d v hs).1

theorem command_fields (d : Dev) (c : Nat) :
    (TFT_Write_Command d c).htft.buffer_size = d.htft.buffer_size ∧
      (TFT_Write_Command d c).htft.tx_buffer = d.htft.tx_buffer ∧
      ((TFT_Write_Command d c).htft.buffer_write_index = 0 ∨
        (TFT_Write_Command d c).htft.buffer_write_index = d.htft.buffer_write_index) := by
  by_cases hs : d.htft.spi_handle = none
  · simp [TFT_Write_Command, hs]
  · obtain ⟨f1, f2, f3⟩ := flush_fields d 1
    have e : (TFT_Write_Command d c).htft = (TFT_Flush_Buffer d 1).htft := by
      simp [TFT_Write_Command, hs, TFT_Pin_CS_Set, TFT_Pin_DC_Set,
        TFT_Platform_SPI_Transmit_Blocking]
    rw [e]
    refine ⟨f1.2.1, f2, ?_⟩
    by_cases hb : d.htft.tx_buffer = none
    · right
      simp [TFT_Flush_Buffer, hb]
    · exact Or.inl (f3 hb)

theorem address_fields (d : Dev) (x0 y0 x1 y1 : Nat) :
    (TFT_Set_Address d x0 y0 x1 y1).htft.buffer_size = d.htft.buffer_size ∧
      (TFT_Set_Address d x0 y0 x1 y1).htft.tx_buffer = d.htft.tx_buffer ∧
      ((TFT_Set_Address d x0 y0 x1 y1).htft.buffer_write_index = 0 ∨
        (TFT_Set_Address d x0 y0 x1 y1).htft.buffer_write_index = d.htft.buffer_write_index) := by
  have key : ∀ (a b : Dev) (P : Dev → Dev),
      (∀ e, (P e).htft.buffer_size = e.htft.buffer_size ∧
        (P e).htft.tx_buffer = e.htft.tx_buffer ∧
        ((P e).htft.buffer_write_index = 0 ∨
          (P e).htft.buffer_write_index = e.htft.buffer_write_index)) →
      (b.htft.buffer_size = a.htft.buffer_size ∧ b.htft.tx_buffer = a.htft.tx_buffer ∧
        (b.htft.buffer_write_index = 0 ∨ b.htft.buffer_write_index = a.htft.buffer_write_index)) →
      ((P b).htft.buffer_size = a.htft.buffer_size ∧ (P b).htft.tx_buffer = a.htft.tx_buffer ∧
        ((P b).htft.buffer_write_index = 0 ∨
          (P b).htft.buffer_write_index = a.htft.buffer_write_index)) := by
    intro a b P hP hb
    obtain ⟨p1, p2, p3⟩ := hP b
    obtain ⟨b1, b2, b3⟩ := hb
    refine ⟨p1.trans b1, p2.trans b2, ?_⟩
    rcases p3 with p3 | p3
    · exact Or.inl p3
    · rw [p3]; exact b3
  have hd : ∀ v e, (TFT_Write_Data16 e v).htft.buffer_size = e.htft.buffer_size ∧
      (TFT_Write_Data16 e v).htft.tx_buffer = e.htft.tx_buffer ∧
      ((TFT_Write_Data16 e v).htft.buffer_write_index = 0 ∨
        (TFT_Write_Data16 e v).htft.buffer_write_index = e.htft.buffer_write_index) := by
    intro v e
    have f := data16_handle e v
    exact ⟨f.2.2.1, f.2.1, Or.inr f.2.2.2.1⟩
  have hf : ∀ e, (TFT_Flush_Buffer e 1).htft.buffer_size = e.htft.buffer_size ∧
      (TFT_Flush_Buffer e 1).htft.tx_buffer = e.htft.tx_buffer ∧
      ((TFT_Flush_Buffer e 1).htft.buffer_write_index = 0 ∨
        (TFT_Flush_Buffer e 1).htft.buffer_write_index = e.htft.buffer_write_index) := by
    intro e
    obtain ⟨f1, f2, f3⟩ := flush_fields e 1
    refine ⟨f1.2.1, f2, ?_⟩
    by_cases hb : e.htft.tx_buffer = none
    · right
      simp [TFT_Flush_Buffer, hb]
    · exact Or.inl (f3 hb)
  unfold TFT_Set_Address
  simp only []
  apply key d _ (fun e => TFT_Write_Command e 0x2C) (fun e => command_fields e _)
  split_ifs <;>
    (apply key d _ (TFT_Write_Data16 · _) (hd _)
     apply key d _ (TFT_Write_Data16 · _) (hd _)
     apply key d _ (fun e => TFT_Write_Command e 0x2B) (fun e => command_fields e _)
     apply key d _ (TFT_Write_Data16 · _) (hd _)
     apply key d _ (TFT_Write_Data16 · _) (hd _)
     apply key d _ (fun e => TFT_Write_Command e 0x2A) (fun e => command_fields e _)
     exact hf d)

theorem write16_store (d : Dev) (buf : List Nat) (v : Nat) (hb : d.htft.tx_buffer = some buf)
    (hsz : d.htft.buffer_size < 65536) :
    (TFT_Buffer_Write16 d v).htft.buffer_size = d.htft.buffer_size ∧
      ∃ c, (c = if (d.htft.buffer_write_index : Int) ≥ (d.htft.buffer_size : Int) - 1 then 0
            else d.htft.buffer_write_index) ∧
        (TFT_Buffer_Write16 d v).htft.tx_buffer =
          some ((buf.set c (v / 256 % 256)).set (c + 1) (v % 256)) ∧
        (TFT_Buffer_Write16 d v).htft.buffer_write_index = c + 2 := by
  by_cases h : (d.htft.buffer_write_index : Int) ≥ (d.htft.buffer_size : Int) - 1
  · obtain ⟨f1, f2, f3⟩ := flush_fields d 0
    have h0 := f3 (by rw [hb]; simp)
    have e : TFT_Buffer_Write16 d v =
        ⟨{ (TFT_Flush_Buffer d 0).htft with
            tx_buffer := some ((buf.set 0 (v / 256 % 256)).set 1 (v % 256))
            buffer_write_index := 2 }, (TFT_Flush_Buffer d 0).bus⟩ := by
      unfold TFT_Buffer_Write16
      rw [if_neg (by rw [hb]; simp), if_pos h]
      show Dev.mk (bufferStore (bufferStore (TFT_Flush_Buffer d 0).htft (v / 256 % 256))
        (v % 256)) (TFT_Flush_Buffer d 0).bus = _
      rw [store_two (TFT_Flush_Buffer d 0).htft buf _ _ (by rw [f2, hb]) (by omega), h0]
    rw [e]
    exact ⟨f1.2.1, 0, by rw [if_pos h], rfl, rfl⟩
  · have e : TFT_Buffer_Write16 d v =
        ⟨{ d.htft with
            tx_buffer := some ((buf.set d.htft.buffer_write_index (v / 256 % 256)).set
              (d.htft.buffer_write_index + 1) (v % 256))
            buffer_write_index := d.htft.buffer_write_index + 2 }, d.bus⟩ := by
      unfold TFT_Buffer_Write16
      rw [if_neg (by rw [hb]; simp), if_neg h]
      show Dev.mk (bufferStore (bufferStore d.htft (v / 256 % 256)) (v % 256)) d.bus = _
      rw [store_two d.htft buf _ _ hb (by omega)]
    rw [e]
    exact ⟨rfl, d.htft.buffer_write_index, by rw [if_neg h], rfl, rfl⟩

theorem bufferOp_step (d : Dev) (op : BufferOp) (h2 : 2 ≤ d.htft.buffer_size)
    (hsz : d.htft.buffer_size < 65536)
    (hi : d.htft.buffer_write_index ≤ d.htft.buffer_size) :
    (BufferOp.run d op).htft.buffer_size = d.htft.buffer_size ∧
      (BufferOp.run d op).htft.buffer_write_index ≤ d.htft.buffer_size := by
  cases op with
  | write16 v =>
    simp only [BufferOp.run]
    cases hb : d.htft.tx_buffer with
    | none => simp [TFT_Buffer_Write16, hb, hi]
    | some buf =>
      obtain ⟨s, c, hc, _, hx⟩ := write16_store d buf v hb hsz
      refine ⟨s, ?_⟩
      rw [hx, hc]
      split_ifs with h <;> omega
  | flush w =>
    simp only [BufferOp.run]
    obtain ⟨f1, _, f3⟩ := flush_fields d w
    refine ⟨f1.2.1, ?_⟩
    by_cases hb : d.htft.tx_buffer = none
    · simp [TFT_Flush_Buffer, hb, hi]
    · rw [f3 hb]; omega
  | reset => exact ⟨rfl, Nat.zero_le _⟩
  | command c =>
    simp only [BufferOp.run]
    obtain ⟨f1, _, f3⟩ := command_fields d c
    refine ⟨f1, ?_⟩
    rcases f3 with f3 | f3 <;> rw [f3] <;> omega
  | address x0 y0 x1 y1 =>
    simp only [BufferOp.run]
    obtain ⟨f1, _, f3⟩ := address_fields d x0 y0 x1 y1
    refine ⟨f1, ?_⟩
    rcases f3 with f3 | f3 <;> rw [f3] <;> omega

theorem bufferOp_steps (ops : List BufferOp) : ∀ (d : Dev), 2 ≤ d.htft.buffer_size →
    d.htft.buffer_size < 65536 → d.htft.buffer_write_index ≤ d.htft.buffer_size →
    (ops.foldl BufferOp.run d).htft.buffer_size = d.htft.buffer_size ∧
      (ops.foldl BufferOp.run d).htft.buffer_write_index ≤ d.htft.buffer_size := by
  induction ops with
  | nil => intro d _ _ hi; exact ⟨rfl, hi⟩
  | cons op t ih =>
    intro d h2 hsz hi
    obtain ⟨s1, s2⟩ := bufferOp_step d op h2 hsz hi
    obtain ⟨t1, t2⟩ := ih (BufferOp.run d op) (by rw [s1]; exact h2) (by rw [s1]; exact hsz)
      (by rw [s1]; exact s2)
    rw [List.foldl_cons]
    exact ⟨t1.trans s1, by rw [s1] at t2; exact t2⟩

theorem io_init_cursor (h : TFT_HandleTypeDef) (hspi : Option Nat) (size : Nat)
    (block : Option (List Nat)) (hdmatx : Bool) :
    (TFT_IO_Init { TFT_Init_Instance h hspi with buffer_size := size } block
      hdmatx).buffer_write_index = 0 ∧
    (TFT_IO_Init { TFT_Init_Instance h hspi with buffer_size := size } block
      hdmatx).buffer_size = size := by
  unfold TFT_IO_Init TFT_Init_Instance
  constructor <;> (simp only []; split_ifs <;> rfl)

/-- C16: from a device context whose cursor is 0, as `TFT_Init_Instance` and
`TFT_IO_Init` leave it, with a capacity `buffer_size` of at least 2 (a
`uint16_t`), every sequence of `TFT_Buffer_Write16`, `TFT_Flush_Buffer`,
`TFT_Reset_Buffer`, `TFT_Write_Command` and `TFT_Set_Address` calls ends in
a state with `buffer_write_index <= buffer_size`, the capacity unchanged;
and a `TFT_Buffer_Write16` made in such a state stores its two bytes at
positions `c`, `c + 1` with `c + 2 <= buffer_size`. -/
theorem C16_cursor_within_capacity (d0 : Dev) (h0 : d0.htft.buffer_write_index = 0)
    (h2 : 2 ≤ d0.htft.buffer_size) (hsz : d0.htft.buffer_size < 65536) (ops : List BufferOp) :
    (ops.foldl BufferOp.run d0).htft.buffer_write_index ≤
        (ops.foldl BufferOp.run d0).htft.buffer_size ∧
      (ops.foldl BufferOp.run d0).htft.buffer_size = d0.htft.buffer_size ∧
      ∀ v buf, (ops.foldl BufferOp.run d0).htft.tx_buffer = some buf →
        ∃ c, c + 2 ≤ (ops.foldl BufferOp.run d0).htft.buffer_size ∧
          (TFT_Buffer_Write16 (ops.foldl BufferOp.run d0) v).htft.tx_buffer =
            some ((buf.set c (v / 256 % 256)).set (c + 1) (v % 256)) ∧
          (TFT_Buffer_Write16 (ops.foldl BufferOp.run d0) v).htft.buffer_write_index = c + 2 := by
  obtain ⟨s1, s2⟩ := bufferOp_steps ops d0 h2 hsz (by rw [h0]; exact Nat.zero_le _)
  refine ⟨by rw [s1]; exact s2, s1, ?_⟩
  intro v buf hb
  obtain ⟨_, c, hc, hst, hx⟩ := write16_store (ops.foldl BufferOp.run d0) buf v hb
    (by rw [s1]; exact hsz)
  refine ⟨c, ?_, hst, hx⟩
  rw [hc]
  split_ifs with h <;> omega

/-- C16 on a sample: five pixel words, a window and a flush on a device
brought up with an 8-byte buffer. -/
theorem C16_cursor_within_capacity_witness :
    ([BufferOp.write16 1, BufferOp.write16 2, BufferOp.write16 3, BufferOp.write16 4,
        BufferOp.write16 5, BufferOp.address 0 0 1 1, BufferOp.write16 6,
        BufferOp.flush 0].foldl BufferOp.run
      ⟨TFT_IO_Init { TFT_Init_Instance ⟨none, none, 0, 0, 0, 0, 0, 0, 0⟩ (some 0) with
        buffer_size := 8 } (some (List.replicate 8 0)) true, []⟩).htft.buffer_write_index ≤
    ([BufferOp.write16 1, BufferOp.write16 2, BufferOp.write16 3, BufferOp.write16 4,
        BufferOp.write16 5, BufferOp.address 0 0 1 1, BufferOp.write16 6,
        BufferOp.flush 0].foldl BufferOp.run
      ⟨TFT_IO_Init { TFT_Init_Instance ⟨none, none, 0, 0, 0, 0, 0, 0, 0⟩ (some 0) with
        buffer_size := 8 } (some (List.replicate 8 0)) true, []⟩).htft.buffer_size :=
  (C16_cursor_within_capacity
    ⟨TFT_IO_Init { TFT_Init_Instance ⟨none, none, 0, 0, 0, 0, 0, 0, 0⟩ (some 0) with
      buffer_size := 8 } (some (List.replicate 8 0)) true, []⟩
    (by decide) (by decide) (by decide) _).1

/-- C16 fails for a capacity of 1: on a device brought up with
`buffer_size = 1` one `TFT_Buffer_Write16` leaves the cursor at 2. -/
theorem C16_counterexample :
    ¬ (([BufferOp.write16 0x1234].foldl BufferOp.run
        ⟨TFT_IO_Init { TFT_Init_Instance ⟨none, none, 0, 0, 0, 0, 0, 0, 0⟩ (some 0) with
          buffer_size := 1 } (some [0]) false, []⟩).htft.buffer_write_index ≤
      ([BufferOp.write16 0x1234].foldl BufferOp.run
        ⟨TFT_IO_Init { TFT_Init_Instance ⟨none, none, 0, 0, 0, 0, 0, 0, 0⟩ (some 0) with
          buffer_size := 1 } (some [0]) false, []⟩).htft.buffer_size) := by
  decide

/-! ## The window command sequence -/

theorem set_address_idle (d : Dev) (x0 y0 x1 y1 : Nat) (hs : d.htft.spi_handle ≠ none)
    (h0 : d.htft.buffer_write_index = 0) :
    Step d (TFT_Set_Address d x0 y0 x1 y1)
      (addressWire (colOffset d.htft) (rowOffset d.htft) x0 y0 x1 y1) := by
  have keep : ∀ {a b : Dev}, (a.htft.spi_handle ≠ none ∧ a.htft.buffer_write_index = 0) →
      FlagOnly a.htft b.htft → (b.htft.spi_handle ≠ none ∧ b.htft.buffer_write_index = 0) := by
    intro a b h f
    exact ⟨by rw [f.1]; exact h.1, by rw [f.2.2.2.1]; exact h.2⟩
  rw [set_address_eq d x0 y0 x1 y1 h0]
  have i0 : d.htft.spi_handle ≠ none ∧ d.htft.buffer_write_index = 0 := ⟨hs, h0⟩
  have s1 := write_command_spec d 0x2A i0.1 i0.2
  have i1 := keep i0 s1.1
  generalize TFT_Write_Command d 0x2A = d1 at *
  have s2 := write_data16_spec d1 ((x0 + colOffset d1.htft) % 65536) i1.1
  have i2 := keep i1 s2.1
  generalize TFT_Write_Data16 d1 ((x0 + colOffset d1.htft) % 65536) = d2 at *
  have s3 := write_data16_spec d2 ((x1 + colOffset d1.htft) % 65536) i2.1
  have i3 := keep i2 s3.1
  generalize TFT_Write_Data16 d2 ((x1 + colOffset d1.htft) % 65536) = d3 at *
  have s4 := write_command_spec d3 0x2B i3.1 i3.2
  have i4 := keep i3 s4.1
  generalize TFT_Write_Command d3 0x2B = d4 at *
  have s5 := write_data16_spec d4 ((y0 + rowOffset d4.htft) % 65536) i4.1
  have i5 := keep i4 s5.1
  generalize TFT_Write_Data16 d4 ((y0 + rowOffset d4.htft) % 65536) = d5 at *
  have s6 := write_data16_spec d5 ((y1 + rowOffset d4.htft) % 65536) i5.1
  have i6 := keep i5 s6.1
  generalize TFT_Write_Data16 d5 ((y1 + rowOffset d4.htft) % 65536) = d6 at *
  have s7 := write_command_spec d6 0x2C i6.1 i6.2
  have key := step_trans (step_trans (step_trans (step_trans (step_trans (step_trans s1 s2) s3)
    s4) s5) s6) s7
  have c1 : colOffset d1.htft = colOffset d.htft := colOffset_flagOnly s1.1
  have c4 : rowOffset d4.htft = rowOffset d.htft :=
    rowOffset_flagOnly (flagOnly_trans (flagOnly_trans (flagOnly_trans s1.1 s2.1) s3.1) s4.1)
  rw [c1, c4] at key
  simpa [addressWire] using key

theorem flush_sends (d : Dev) (w : Nat) (buf : List Nat) (hs : d.htft.spi_handle ≠ none)
    (hb : d.htft.tx_buffer = some buf) :
    Sends d (TFT_Flush_Buffer d w) ((buf.take d.htft.buffer_write_index).map Wire.dat) := by
  by_cases hi : d.htft.buffer_write_index = 0
  · rw [flush_idle d w hi, hi]
    exact ⟨[], by simp, fun _ _ => by simp [wireOf]⟩
  · have e : TFT_Flush_Buffer d w =
        ⟨{ (TFT_SPI_Send d (some buf) d.htft.buffer_write_index w).htft with
            buffer_write_index := 0 },
          (TFT_SPI_Send d (some buf) d.htft.buffer_write_index w).bus⟩ := by
      unfold TFT_Flush_Buffer
      rw [if_neg (by rw [hb]; simp [hi]), hb]
    obtain ⟨t, ht, hd⟩ := (spi_send_spec d buf d.htft.buffer_write_index w hs hi).2
    exact ⟨t, by rw [e]; exact ht, hd⟩

theorem set_address_staged (d : Dev) (x0 y0 x1 y1 : Nat) (buf : List Nat)
    (hs : d.htft.spi_handle ≠ none) (hb : d.htft.tx_buffer = some buf) :
    Sends d (TFT_Set_Address d x0 y0 x1 y1)
        ((buf.take d.htft.buffer_write_index).map Wire.dat ++
          addressWire (colOffset d.htft) (rowOffset d.htft) x0 y0 x1 y1) ∧
      (TFT_Set_Address d x0 y0 x1 y1).htft.buffer_write_index = 0 := by
  obtain ⟨f1, _, f3⟩ := flush_fields d 1
  have h0 := f3 (by rw [hb]; simp)
  have hs1 : (TFT_Flush_Buffer d 1).htft.spi_handle ≠ none := by rw [f1.1]; exact hs
  have st := set_address_idle (TFT_Flush_Buffer d 1) x0 y0 x1 y1 hs1 h0
  rw [colOffset_sameConfig f1, rowOffset_sameConfig f1] at st
  rw [set_address_flush d x0 y0 x1 y1 h0]
  exact ⟨sends_trans (flush_sends d 1 buf hs hb) st.2, by rw [st.1.2.2.2.1]; exact h0⟩

theorem range_of_address (d0 d1 : Dev) (co ro x0 y0 x1 y1 : Nat)
    (h : Sends d0 d1 (addressWire co ro x0 y0 x1 y1)) :
    rangeSent 0x2A d0 d1 = some ((x0 + co) % 65536, (x1 + co) % 65536) ∧
      rangeSent 0x2B d0 d1 = some ((y0 + ro) % 65536, (y1 + ro) % 65536) := by
  obtain ⟨t, ht, hd⟩ := h
  have e : wireOf 1 1 (busSince d0 d1) = addressWire co ro x0 y0 x1 y1 := by
    unfold busSince
    rw [ht, List.drop_left]
    exact hd 1 1
  have v : ∀ n, n % 65536 / 256 % 256 * 256 + n % 65536 % 256 = n % 65536 := by
    intro n; omega
  unfold rangeSent
  rw [e]
  simp [addressWire, be16, lcdFrames, lcdSplit, frameArgs, lcdRange, v]

/-- C19: on a device with a bound transport and an allocated staging buffer,
in orientation 0 or 2, `TFT_Set_Address` first delivers the staged bytes (the
first `buffer_write_index` bytes of the buffer, as data) and then exactly:
command 0x2A, the words `x_start + x_offset` and `x_end + x_offset`, command
0x2B, the words `y_start + y_offset` and `y_end + y_offset`, command 0x2C,
each word modulo 2^16 as two data bytes, most significant first; the cursor
is 0 on return. -/
theorem C19_set_address_sequence (d : Dev) (x0 y0 x1 y1 : Nat) (buf : List Nat)
    (hs : d.htft.spi_handle ≠ none) (hb : d.htft.tx_buffer = some buf)
    (hdir : d.htft.display_direction = 0 ∨ d.htft.display_direction = 2) :
    Sends d (TFT_Flush_Buffer d 1) ((buf.take d.htft.buffer_write_index).map Wire.dat) ∧
      Sends (TFT_Flush_Buffer d 1) (TFT_Set_Address d x0 y0 x1 y1)
        [Wire.cmd 0x2A,
          Wire.dat ((x0 + d.htft.x_offset) % 65536 / 256 % 256),
          Wire.dat ((x0 + d.htft.x_offset) % 65536 % 256),
          Wire.dat ((x1 + d.htft.x_offset) % 65536 / 256 % 256),
          Wire.dat ((x1 + d.htft.x_offset) % 65536 % 256),
          Wire.cmd 0x2B,
          Wire.dat ((y0 + d.htft.y_offset) % 65536 / 256 % 256),
          Wire.dat ((y0 + d.htft.y_offset) % 65536 % 256),
          Wire.dat ((y1 + d.htft.y_offset) % 65536 / 256 % 256),
          Wire.dat ((y1 + d.htft.y_offset) % 65536 % 256),
          Wire.cmd 0x2C] ∧
      Sends d (TFT_Set_Address d x0 y0 x1 y1)
        ((buf.take d.htft.buffer_write_index).map Wire.dat ++
          addressWire d.htft.x_offset d.htft.y_offset x0 y0 x1 y1) ∧
      (TFT_Set_Address d x0 y0 x1 y1).htft.buffer_write_index = 0 := by
  obtain ⟨f1, _, f3⟩ := flush_fields d 1
  have h0 := f3 (by rw [hb]; simp)
  have hs1 : (TFT_Flush_Buffer d 1).htft.spi_handle ≠ none := by rw [f1.1]; exact hs
  have st := set_address_idle (TFT_Flush_Buffer d 1) x0 y0 x1 y1 hs1 h0
  rw [colOffset_sameConfig f1, rowOffset_sameConfig f1, ← set_address_flush d x0 y0 x1 y1 h0]
    at st
  have hc : colOffset d.htft = d.htft.x_offset := by simp [colOffset, hdir]
  have hro : rowOffset d.htft = d.htft.y_offset := by simp [rowOffset, hdir]
  rw [hc, hro] at st
  have fl := flush_sends d 1 buf hs hb
  refine ⟨fl, ?_, sends_trans fl st.2, by rw [st.1.2.2.2.1]; exact h0⟩
  have := st.2
  simpa [addressWire, be16] using this

/-- C19 on a sample: the window (3,4)-(5,6) with two bytes staged, on a
blocking device in orientation 0 with offsets 2 and 1. -/
theorem C19_set_address_sequence_witness :
    (TFT_Set_Address ⟨⟨some 0, some [0xAB, 0xCD, 0, 0], 4, 2, 0, 0, 0, 2, 1⟩, []⟩
      3 4 5 6).htft.buffer_write_index = 0 ∧
    wireOf 1 1 (TFT_Set_Address ⟨⟨some 0, some [0xAB, 0xCD, 0, 0], 4, 2, 0, 0, 0, 2, 1⟩, []⟩
      3 4 5 6).bus =
      [Wire.dat 0xAB, Wire.dat 0xCD, Wire.cmd 0x2A, Wire.dat 0, Wire.dat 5, Wire.dat 0,
        Wire.dat 7, Wire.cmd 0x2B, Wire.dat 0, Wire.dat 5, Wire.dat 0, Wire.dat 7,
        Wire.cmd 0x2C] :=
  ⟨(C19_set_address_sequence ⟨⟨some 0, some [0xAB, 0xCD, 0, 0], 4, 2, 0, 0, 0, 2, 1⟩, []⟩
    3 4 5 6 [0xAB, 0xCD, 0, 0] (by decide) rfl (by decide)).2.2.2, by decide⟩

/-- C20, as the code has it: `TFT_Set_Address` never exchanges the caller's
axes.  In every orientation the column-range command 0x2A carries the
caller's x range and the row-range command 0x2B the caller's y range; what
depends on the orientation is the offset added: `x_offset` to x and
`y_offset` to y in orientations 0 and 2, `y_offset` to x and `x_offset` to y
in the quarter-turn orientations 1 and 3 (and for any other value). -/
theorem C20_set_address_orientation (d : Dev) (x0 y0 x1 y1 : Nat) (buf : List Nat)
    (hs : d.htft.spi_handle ≠ none) (hb : d.htft.tx_buffer = some buf) :
    ((d.htft.display_direction = 0 ∨ d.htft.display_direction = 2) →
        rangeSent 0x2A (TFT_Flush_Buffer d 1) (TFT_Set_Address d x0 y0 x1 y1) =
          some ((x0 + d.htft.x_offset) % 65536, (x1 + d.htft.x_offset) % 65536) ∧
        rangeSent 0x2B (TFT_Flush_Buffer d 1) (TFT_Set_Address d x0 y0 x1 y1) =
          some ((y0 + d.htft.y_offset) % 65536, (y1 + d.htft.y_offset) % 65536)) ∧
      (¬ (d.htft.display_direction = 0 ∨ d.htft.display_direction = 2) →
        rangeSent 0x2A (TFT_Flush_Buffer d 1) (TFT_Set_Address d x0 y0 x1 y1) =
          some ((x0 + d.htft.y_offset) % 65536, (x1 + d.htft.y_offset) % 65536) ∧
        rangeSent 0x2B (TFT_Flush_Buffer d 1) (TFT_Set_Address d x0 y0 x1 y1) =
          some ((y0 + d.htft.x_offset) % 65536, (y1 + d.htft.x_offset) % 65536)) := by
  obtain ⟨f1, _, f3⟩ := flush_fields d 1
  have h0 := f3 (by rw [hb]; simp)
  have hs1 : (TFT_Flush_Buffer d 1).htft.spi_handle ≠ none := by rw [f1.1]; exact hs
  have st := set_address_idle (TFT_Flush_Buffer d 1) x0 y0 x1 y1 hs1 h0
  rw [colOffset_sameConfig f1, rowOffset_sameConfig f1, ← set_address_flush d x0 y0 x1 y1 h0]
    at st
  have r := range_of_address _ _ _ _ x0 y0 x1 y1 st.2
  constructor
  · intro hdir
    have hc : colOffset d.htft = d.htft.x_offset := by simp [colOffset, hdir]
    have hro : rowOffset d.htft = d.htft.y_offset := by simp [rowOffset, hdir]
    rw [hc, hro] at r
    exact r
  · intro hdir
    have hc : colOffset d.htft = d.htft.y_offset := by simp [colOffset, hdir]
    have hro : rowOffset d.htft = d.htft.x_offset := by simp [rowOffset, hdir]
    rw [hc, hro] at r
    exact r

/-- C20 on a sample: the demo device (orientation 3, offsets 2 and 1) and the
window x 10..20, y 30..40. -/
theorem C20_set_address_orientation_witness :
    rangeSent 0x2A (TFT_Flush_Buffer demoDev 1) (TFT_Set_Address demoDev 10 30 20 40) =
        some ((10 + demoDev.htft.y_offset) % 65536, (20 + demoDev.htft.y_offset) % 65536) ∧
      rangeSent 0x2B (TFT_Flush_Buffer demoDev 1) (TFT_Set_Address demoDev 10 30 20 40) =
        some ((30 + demoDev.htft.x_offset) % 65536, (40 + demoDev.htft.x_offset) % 65536) :=
  (C20_set_address_orientation demoDev 10 30 20 40 (List.replicate 8 0) (by decide) rfl).2
    (by decide)

/-- C20 as stated fails: in orientation 3 with offsets 2 and 1 and the window
x 10..20, y 30..40, the column-range command carries 11..21, the caller's x
range with `y_offset` added, and the row-range command 32..42; the column
range is not the caller's y range with either offset. -/
theorem C20_counterexample :
    rangeSent 0x2A demoDev (TFT_Set_Address demoDev 10 30 20 40) = some (10 + 1, 20 + 1) ∧
      rangeSent 0x2B demoDev (TFT_Set_Address demoDev 10 30 20 40) = some (30 + 2, 40 + 2) ∧
      rangeSent 0x2A demoDev (TFT_Set_Address demoDev 10 30 20 40) ≠ some (30 + 2, 40 + 2) ∧
      rangeSent 0x2A demoDev (TFT_Set_Address demoDev 10 30 20 40) ≠ some (30 + 1, 40 + 1) := by
  decide

/-! ## Polygon fill: a scanline crosses a convex polygon twice -/

theorem cross_balance (a b c e : TFT_Point) (L : Int) :
    (2 * (e.y : Int) - L) * cross a b c + (L - 2 * (c.y : Int)) * cross a b e +
      (2 * (b.y : Int) - L) * cross c e a + (L - 2 * (a.y : Int)) * cross c e b = 0 := by
  unfold cross
  ring

theorem next_index (n i : Nat) (hi : i < n) :
    (i + 1) % n = if i + 1 = n then 0 else i + 1 := by
  split_ifs with h
  · rw [h, Nat.mod_self]
  · exact Nat.mod_eq_of_lt (by omega)

theorem next_index_lt (n i : Nat) (hn : 0 < n) : (i + 1) % n < n := Nat.mod_lt _ hn

/-- A point of the line through `a` and `b` whose row lies strictly between
the rows of `a` and `b` lies strictly between `a` and `b`. -/
theorem inside_of_row (a b p : TFT_Point) (hc : cross a b p = 0)
    (h : ((a.y : Int) < p.y ∧ (p.y : Int) < b.y) ∨ ((b.y : Int) < p.y ∧ (p.y : Int) < a.y)) :
    0 < dot a b p ∧ 0 < dot b a p := by
  unfold cross at hc
  unfold dot
  generalize (a.x : Int) = a1 at *
  generalize (a.y : Int) = a2 at *
  generalize (b.x : Int) = b1 at *
  generalize (b.y : Int) = b2 at *
  generalize (p.x : Int) = p1 at *
  generalize (p.y : Int) = p2 at *
  have k1 : (b2 - a2) * ((b1 - a1) * (p1 - a1) + (b2 - a2) * (p2 - a2)) =
      (p2 - a2) * ((b1 - a1) * (b1 - a1) + (b2 - a2) * (b2 - a2)) := by
    linear_combination (-(b1 - a1)) * hc
  have k2 : (b2 - a2) * ((a1 - b1) * (p1 - b1) + (a2 - b2) * (p2 - b2)) =
      (b2 - p2) * ((b1 - a1) * (b1 - a1) + (b2 - a2) * (b2 - a2)) := by
    linear_combination (b1 - a1) * hc
  have sq : 0 < (b1 - a1) * (b1 - a1) + (b2 - a2) * (b2 - a2) := by
    have h1 : 0 ≤ (b1 - a1) * (b1 - a1) := mul_self_nonneg _
    have h2 : 0 < (b2 - a2) * (b2 - a2) := by
      rcases h with h | h
      · exact mul_pos (by omega) (by omega)
      · exact mul_pos_of_neg_of_neg (by omega) (by omega)
    omega
  rcases h with h | h
  · have hD : 0 < b2 - a2 := by omega
    have r1 := mul_pos (show 0 < p2 - a2 by omega) sq
    have r2 := mul_pos (show 0 < b2 - p2 by omega) sq
    rw [← k1] at r1
    rw [← k2] at r2
    exact ⟨(mul_pos_iff_of_pos_left hD).mp r1, (mul_pos_iff_of_pos_left hD).mp r2⟩
  · have hD : 0 < a2 - b2 := by omega
    have r1 := mul_pos (show 0 < a2 - p2 by omega) sq
    have r2 := mul_pos (show 0 < p2 - b2 by omega) sq
    have k3 : (a2 - b2) * ((b1 - a1) * (p1 - a1) + (b2 - a2) * (p2 - a2)) =
        (a2 - p2) * ((b1 - a1) * (b1 - a1) + (b2 - a2) * (b2 - a2)) := by
      linear_combination -k1
    have k4 : (a2 - b2) * ((a1 - b1) * (p1 - b1) + (a2 - b2) * (p2 - b2)) =
        (p2 - b2) * ((b1 - a1) * (b1 - a1) + (b2 - a2) * (b2 - a2)) := by
      linear_combination -k2
    rw [← k3] at r1
    rw [← k4] at r2
    exact ⟨(mul_pos_iff_of_pos_left hD).mp r1, (mul_pos_iff_of_pos_left hD).mp r2⟩

/-- A point of the line through `a` and `b`, which is not horizontal, on the
row of `a` is `a`, and on the row of `b` it is `b`. -/
theorem point_of_row (a b p : TFT_Point) (hc : cross a b p = 0) (hab : a.y ≠ b.y) :
    (p.y = a.y → p = a) ∧ (p.y = b.y → p = b) := by
  unfold cross at hc
  obtain ⟨ax, ay⟩ := a
  obtain ⟨bx, bY⟩ := b
  obtain ⟨px, py⟩ := p
  dsimp only at *
  have hD : ((bY : Int) - ay) ≠ 0 := by omega
  constructor
  · intro h
    subst h
    have e : ((bY : Int) - py) * ((px : Int) - ax) = 0 := by linarith
    rcases mul_eq_zero.mp e with e | e
    · exact absurd e hD
    · have : px = ax := by omega
      rw [this]
  · intro h
    subst h
    have e : ((py : Int) - ay) * ((bx : Int) - px) = 0 := by linarith
    rcases mul_eq_zero.mp e with e | e
    · exact absurd e hD
    · have : px = bx := by omega
      rw [this]

theorem same_sign_sum (c1 c2 c3 c4 q1 q2 q3 q4 : Int)
    (hc : (0 < c1 ∧ 0 < c2 ∧ 0 < c3 ∧ 0 < c4) ∨ (c1 < 0 ∧ c2 < 0 ∧ c3 < 0 ∧ c4 < 0))
    (hq : (0 ≤ q1 ∧ 0 ≤ q2 ∧ 0 ≤ q3 ∧ 0 ≤ q4) ∨ (q1 ≤ 0 ∧ q2 ≤ 0 ∧ q3 ≤ 0 ∧ q4 ≤ 0))
    (h : c1 * q1 + c2 * q2 + c3 * q3 + c4 * q4 = 0) :
    q1 = 0 ∧ q2 = 0 ∧ q3 = 0 ∧ q4 = 0 := by
  have key : c1 * q1 = 0 ∧ c2 * q2 = 0 ∧ c3 * q3 = 0 ∧ c4 * q4 = 0 := by
    rcases hc with ⟨a1, a2, a3, a4⟩ | ⟨a1, a2, a3, a4⟩ <;>
      rcases hq with ⟨b1, b2, b3, b4⟩ | ⟨b1, b2, b3, b4⟩
    · have t1 := mul_nonneg a1.le b1
      have t2 := mul_nonneg a2.le b2
      have t3 := mul_nonneg a3.le b3
      have t4 := mul_nonneg a4.le b4
      refine ⟨?_, ?_, ?_, ?_⟩ <;> linarith
    · have t1 := mul_nonpos_of_nonneg_of_nonpos a1.le b1
      have t2 := mul_nonpos_of_nonneg_of_nonpos a2.le b2
      have t3 := mul_nonpos_of_nonneg_of_nonpos a3.le b3
      have t4 := mul_nonpos_of_nonneg_of_nonpos a4.le b4
      refine ⟨?_, ?_, ?_, ?_⟩ <;> linarith
    · have t1 := mul_nonpos_of_nonpos_of_nonneg a1.le b1
      have t2 := mul_nonpos_of_nonpos_of_nonneg a2.le b2
      have t3 := mul_nonpos_of_nonpos_of_nonneg a3.le b3
      have t4 := mul_nonpos_of_nonpos_of_nonneg a4.le b4
      refine ⟨?_, ?_, ?_, ?_⟩ <;> linarith
    · have t1 := mul_nonneg_of_nonpos_of_nonpos a1.le b1
      have t2 := mul_nonneg_of_nonpos_of_nonpos a2.le b2
      have t3 := mul_nonneg_of_nonpos_of_nonpos a3.le b3
      have t4 := mul_nonneg_of_nonpos_of_nonpos a4.le b4
      refine ⟨?_, ?_, ?_, ?_⟩ <;> linarith
  obtain ⟨k1, k2, k3, k4⟩ := key
  have n1 : c1 ≠ 0 := by rcases hc with h | h <;> omega
  have n2 : c2 ≠ 0 := by rcases hc with h | h <;> omega
  have n3 : c3 ≠ 0 := by rcases hc with h | h <;> omega
  have n4 : c4 ≠ 0 := by rcases hc with h | h <;> omega
  exact ⟨(mul_eq_zero.mp k1).resolve_left n1, (mul_eq_zero.mp k2).resolve_left n2,
    (mul_eq_zero.mp k3).resolve_left n3, (mul_eq_zero.mp k4).resolve_left n4⟩

/-- A cycle that comes to no point twice has no two edges, each with two
different ends, that start at equal vertices. -/
theorem run_of_equal (pts : List TFT_Point)
    (hrep : OnceRound pts)
    (i k : Nat) (hk : k < pts.length) (hik : i < k) (e : pointAt pts i = pointAt pts k)
    (n1 : pointAt pts ((i + 1) % pts.length) ≠ pointAt pts i)
    (n2 : pointAt pts ((k + 1) % pts.length) ≠ pointAt pts k) : False := by
  have si := next_index pts.length i (by omega)
  have sk := next_index pts.length k hk
  rcases hrep k hk i hik e with h | h
  · rw [si, if_neg (by omega)] at n1
    by_cases h1 : i + 1 < k
    · exact n1 (h (i + 1) h1 (by omega))
    · have : i + 1 = k := by omega
      rw [this] at n1
      exact n1 e.symm
  · rw [sk] at n2
    by_cases h1 : k + 1 = pts.length
    · rw [if_pos h1] at n2
      by_cases h0 : i = 0
      · rw [h0] at e
        exact n2 e
      · exact n2 ((h 0 (by omega) (Or.inl (by omega))).trans e)
    · rw [if_neg h1] at n2
      exact n2 ((h (k + 1) (by omega) (Or.inr (by omega))).trans e)

/-- Two distinct edges of a convex cycle cannot both go through the scanline
in the same direction. -/
theorem same_way_unique (pts : List TFT_Point) (hc : ConvexCycle pts) (y : Int)
    (i k : Nat) (hi : i < pts.length) (hk : k < pts.length)
    (h1 : (((pointAt pts i).y : Int) ≤ y ∧ y < (pointAt pts ((i + 1) % pts.length)).y ∧
        ((pointAt pts k).y : Int) ≤ y ∧ y < (pointAt pts ((k + 1) % pts.length)).y) ∨
      (((pointAt pts ((i + 1) % pts.length)).y : Int) ≤ y ∧ y < (pointAt pts i).y ∧
        ((pointAt pts ((k + 1) % pts.length)).y : Int) ≤ y ∧ y < (pointAt pts k).y)) :
    i = k := by
  by_contra hne
  obtain ⟨hside, hin, hrep⟩ := hc
  have hn : 0 < pts.length := by omega
  have li := next_index_lt pts.length i hn
  have lk := next_index_lt pts.length k hn
  have bal := cross_balance (pointAt pts i) (pointAt pts ((i + 1) % pts.length))
    (pointAt pts k) (pointAt pts ((k + 1) % pts.length)) (2 * y + 1)
  -- the ends of each edge lie on the line of the other
  obtain ⟨z1, z2, z3, z4⟩ := same_sign_sum _ _ _ _ _ _ _ _
    (by
      rcases h1 with ⟨a1, a2, a3, a4⟩ | ⟨a1, a2, a3, a4⟩
      · exact Or.inl ⟨by omega, by omega, by omega, by omega⟩
      · exact Or.inr ⟨by omega, by omega, by omega, by omega⟩)
    (by
      rcases hside with hs | hs
      · exact Or.inl ⟨hs i hi k hk, hs i hi _ lk, hs k hk i hi, hs k hk _ li⟩
      · exact Or.inr ⟨hs i hi k hk, hs i hi _ lk, hs k hk i hi, hs k hk _ li⟩)
    bal
  have d1 := hin i hi k hk z1
  have d2 := hin i hi _ lk z2
  have d3 := hin k hk i hi z3
  have d4 := hin k hk _ li z4
  have hab : (pointAt pts i).y ≠ (pointAt pts ((i + 1) % pts.length)).y := by omega
  have hce : (pointAt pts k).y ≠ (pointAt pts ((k + 1) % pts.length)).y := by omega
  by_cases hac : (pointAt pts k).y = (pointAt pts i).y
  · by_cases hbe :
        (pointAt pts ((k + 1) % pts.length)).y = (pointAt pts ((i + 1) % pts.length)).y
    · -- the two edges have the same ends
      have e1 := (point_of_row _ _ _ z1 hab).1 hac
      have e2 := (point_of_row _ _ _ z2 hab).2 hbe
      have n1 : pointAt pts ((i + 1) % pts.length) ≠ pointAt pts i := by
        intro h; rw [h] at hab; exact hab rfl
      have n2 : pointAt pts ((k + 1) % pts.length) ≠ pointAt pts k := by
        intro h; rw [h] at hce; exact hce rfl
      rcases Nat.lt_or_gt_of_ne hne with hlt | hlt
      · exact run_of_equal pts hrep i k hk hlt e1.symm n1 n2
      · exact run_of_equal pts hrep k i hi hlt e1 n2 n1
    · -- an upper end lies inside the other edge
      have : ((((pointAt pts i).y : Int) < (pointAt pts ((k + 1) % pts.length)).y ∧
            ((pointAt pts ((k + 1) % pts.length)).y : Int) <
              (pointAt pts ((i + 1) % pts.length)).y) ∨
          (((pointAt pts ((i + 1) % pts.length)).y : Int) <
              (pointAt pts ((k + 1) % pts.length)).y ∧
            ((pointAt pts ((k + 1) % pts.length)).y : Int) < (pointAt pts i).y)) ∨
          ((((pointAt pts k).y : Int) < (pointAt pts ((i + 1) % pts.length)).y ∧
            ((pointAt pts ((i + 1) % pts.length)).y : Int) <
              (pointAt pts ((k + 1) % pts.length)).y) ∨
          (((pointAt pts ((k + 1) % pts.length)).y : Int) <
              (pointAt pts ((i + 1) % pts.length)).y ∧
            ((pointAt pts ((i + 1) % pts.length)).y : Int) < (pointAt pts k).y)) := by
        omega
      rcases this with h | h
      · exact d2 (inside_of_row _ _ _ z2 h)
      · exact d4 (inside_of_row _ _ _ z4 h)
  · -- a lower end lies inside the other edge
    have : ((((pointAt pts i).y : Int) < (pointAt pts k).y ∧
          ((pointAt pts k).y : Int) < (pointAt pts ((i + 1) % pts.length)).y) ∨
        (((pointAt pts ((i + 1) % pts.length)).y : Int) < (pointAt pts k).y ∧
          ((pointAt pts k).y : Int) < (pointAt pts i).y)) ∨
        ((((pointAt pts k).y : Int) < (pointAt pts i).y ∧
          ((pointAt pts i).y : Int) < (pointAt pts ((k + 1) % pts.length)).y) ∨
        (((pointAt pts ((k + 1) % pts.length)).y : Int) < (pointAt pts i).y ∧
          ((pointAt pts i).y : Int) < (pointAt pts k).y)) := by
      omega
    rcases this with h | h
    · exact d1 (inside_of_row _ _ _ z1 h)
    · exact d3 (inside_of_row _ _ _ z3 h)

theorem cross_ends (a b : TFT_Point) : cross a b a = 0 ∧ cross a b b = 0 := by
  unfold cross
  constructor <;> ring

theorem dot_ends (a b : TFT_Point) : dot a b a = 0 := by
  unfold dot
  ring

/-- A strictly convex cycle of at least 3 vertices is a convex polygon. -/
theorem strictlyConvex_convexCycle (pts : List TFT_Point) (h3 : 3 ≤ pts.length)
    (h : StrictlyConvex pts) : ConvexCycle pts := by
  have key : ∀ i, i < pts.length → ∀ k, k < pts.length →
      cross (pointAt pts i) (pointAt pts ((i + 1) % pts.length)) (pointAt pts k) = 0 →
      k = i ∨ k = (i + 1) % pts.length := by
    intro i hi k hk hz
    by_contra hne
    push_neg at hne
    rcases h with h | h
    · have := h i hi k hk hne.1 hne.2
      omega
    · have := h i hi k hk hne.1 hne.2
      omega
  refine ⟨?_, ?_, ?_⟩
  · rcases h with h | h
    · refine Or.inl fun i hi k hk => ?_
      by_cases h1 : k = i
      · rw [h1, (cross_ends _ _).1]
      · by_cases h2 : k = (i + 1) % pts.length
        · rw [h2, (cross_ends _ _).2]
        · exact (h i hi k hk h1 h2).le
    · refine Or.inr fun i hi k hk => ?_
      by_cases h1 : k = i
      · rw [h1, (cross_ends _ _).1]
      · by_cases h2 : k = (i + 1) % pts.length
        · rw [h2, (cross_ends _ _).2]
        · exact (h i hi k hk h1 h2).le
  · intro i hi k hk hz hd
    rcases key i hi k hk hz with e | e
    · rw [e, dot_ends] at hd
      exact absurd hd.1 (lt_irrefl _)
    · rw [e, dot_ends] at hd
      exact absurd hd.2 (lt_irrefl _)
  · intro k hk i hik e
    exfalso
    have z1 : cross (pointAt pts i) (pointAt pts ((i + 1) % pts.length)) (pointAt pts k) = 0 := by
      rw [← e]; exact (cross_ends _ _).1
    have z2 : cross (pointAt pts k) (pointAt pts ((k + 1) % pts.length)) (pointAt pts i) = 0 := by
      rw [e]; exact (cross_ends _ _).1
    have a1 := key i (by omega) k hk z1
    have a2 := key k hk i (by omega) z2
    rw [next_index pts.length i (by omega)] at a1
    rw [next_index pts.length k hk] at a2
    split_ifs at a1 a2 <;> omega

theorem pointAt_mem (pts : List TFT_Point) (i : Nat) (hi : i < pts.length) :
    pointAt pts i ∈ pts := by
  unfold pointAt
  rw [List.getD_eq_getElem _ _ hi]
  exact List.getElem_mem hi

theorem tdiv_between (t D w : Int) (hD : 0 < D) (h0 : 0 ≤ t) (h1 : t ≤ D) :
    (0 ≤ w → 0 ≤ Int.tdiv (t * w) D ∧ Int.tdiv (t * w) D ≤ w) ∧
      (w ≤ 0 → w ≤ Int.tdiv (t * w) D ∧ Int.tdiv (t * w) D ≤ 0) := by
  constructor
  · intro hw
    have ha : 0 ≤ t * w := mul_nonneg h0 hw
    rw [Int.tdiv_eq_ediv ha hD.le]
    exact ⟨Int.ediv_nonneg ha hD.le, Int.ediv_le_of_le_mul hD (by nlinarith)⟩
  · intro hw
    have ha : 0 ≤ t * (-w) := mul_nonneg h0 (by omega)
    have e : t * w = -(t * (-w)) := by ring
    rw [e, Int.neg_tdiv, Int.tdiv_eq_ediv ha hD.le]
    have a1 := Int.ediv_nonneg ha hD.le
    have a2 : t * (-w) / D ≤ -w := Int.ediv_le_of_le_mul hD (by nlinarith)
    omega

theorem i32_of_small (v : Int) (h0 : -2147483648 ≤ v) (h1 : v < 2147483648) : i32 v = v := by
  unfold i32; omega

/-- The value of the edge body for an edge that passes the crossing test, all
coordinates being below 2^15: it lies between the x of the two ends. -/
theorem edge_crossing (pts : List TFT_Point) (y : Int) (i : Nat)
    (hr : ∀ p ∈ pts, p.x < 32768 ∧ p.y < 32768) (hi : i < pts.length)
    (h : Crosses pts y i) :
    ∃ x, polygonEdge pts pts.length y i = some x ∧ 0 ≤ x ∧ x < 32768 := by
  have hn : 0 < pts.length := by omega
  have ra := hr _ (pointAt_mem pts i hi)
  have rb := hr _ (pointAt_mem pts _ (next_index_lt pts.length i hn))
  unfold Crosses at h
  unfold polygonEdge
  dsimp only
  generalize pointAt pts i = a at *
  generalize pointAt pts ((i + 1) % pts.length) = b at *
  have ax : i16 (a.x : Int) = a.x := i16_of_small _ (by omega) (by omega)
  have ay : i16 (a.y : Int) = a.y := i16_of_small _ (by omega) (by omega)
  have bx : i16 (b.x : Int) = b.x := i16_of_small _ (by omega) (by omega)
  have bY : i16 (b.y : Int) = b.y := i16_of_small _ (by omega) (by omega)
  simp only [ax, ay, bx, bY]
  have hc : ((a.y : Int) ≤ y ∧ (b.y : Int) > y) ∨ ((b.y : Int) ≤ y ∧ (a.y : Int) > y) := by
    rcases h with h | h
    · exact Or.inl ⟨h.1, h.2⟩
    · exact Or.inr ⟨h.1, h.2⟩
  rw [if_pos hc, if_neg (by omega)]
  have hprod : ∀ t w : Int, -32768 < t → t < 32768 → -32768 < w → w < 32768 →
      i32 (t * w) = t * w := by
    intro t w t0 t1 w0 w1
    apply i32_of_small <;> nlinarith
  rw [hprod _ _ (by omega) (by omega) (by omega) (by omega)]
  have key : ((a.x : Int) ≤ b.x →
        0 ≤ Int.tdiv ((y - a.y) * ((b.x : Int) - a.x)) ((b.y : Int) - a.y) ∧
        Int.tdiv ((y - a.y) * ((b.x : Int) - a.x)) ((b.y : Int) - a.y) ≤ (b.x : Int) - a.x) ∧
      ((b.x : Int) ≤ a.x →
        (b.x : Int) - a.x ≤ Int.tdiv ((y - a.y) * ((b.x : Int) - a.x)) ((b.y : Int) - a.y) ∧
        Int.tdiv ((y - a.y) * ((b.x : Int) - a.x)) ((b.y : Int) - a.y) ≤ 0) := by
    rcases hc with hc | hc
    · have := tdiv_between (y - a.y) ((b.y : Int) - a.y) ((b.x : Int) - a.x) (by omega)
        (by omega) (by omega)
      exact ⟨fun h => this.1 (by omega), fun h => this.2 (by omega)⟩
    · have := tdiv_between (-(y - a.y)) (-((b.y : Int) - a.y)) ((b.x : Int) - a.x) (by omega)
        (by omega) (by omega)
      have e : Int.tdiv (-(y - a.y) * ((b.x : Int) - a.x)) (-((b.y : Int) - a.y)) =
          Int.tdiv ((y - a.y) * ((b.x : Int) - a.x)) ((b.y : Int) - a.y) := by
        rw [neg_mul, Int.neg_tdiv_neg]
      rw [e] at this
      exact ⟨fun h => this.1 (by omega), fun h => this.2 (by omega)⟩
  refine ⟨_, rfl, ?_⟩
  rcases le_total (a.x : Int) b.x with hx | hx
  · have := key.1 hx
    rw [i32_of_small _ (by omega) (by omega)]
    omega
  · have := key.2 hx
    rw [i32_of_small _ (by omega) (by omega)]
    omega

theorem edge_not_crossing (pts : List TFT_Point) (y : Int) (i : Nat)
    (hr : ∀ p ∈ pts, p.x < 32768 ∧ p.y < 32768) (hi : i < pts.length)
    (h : ¬ Crosses pts y i) : polygonEdge pts pts.length y i = none := by
  have hn : 0 < pts.length := by omega
  have ra := hr _ (pointAt_mem pts i hi)
  have rb := hr _ (pointAt_mem pts _ (next_index_lt pts.length i hn))
  unfold Crosses at h
  unfold polygonEdge
  dsimp only
  generalize pointAt pts i = a at *
  generalize pointAt pts ((i + 1) % pts.length) = b at *
  have ay : i16 (a.y : Int) = a.y := i16_of_small _ (by omega) (by omega)
  have bY : i16 (b.y : Int) = b.y := i16_of_small _ (by omega) (by omega)
  simp only [ay, bY]
  rw [if_neg]
  intro hc
  apply h
  rcases hc with hc | hc
  · exact Or.inl ⟨hc.1, hc.2⟩
  · exact Or.inr ⟨hc.1, hc.2⟩

/-- The edge loop collects the values of the crossing edges in edge order
and keeps the first 128. -/
theorem polygonScan_eq (pts : List TFT_Point) (n : Nat) (y : Int) :
    polygonScan pts n y =
      ((List.range n).filterMap fun i => (polygonEdge pts n y i).map i16).take 128 := by
  unfold polygonScan
  generalize polygonEdge pts n y = f
  induction n with
  | zero => simp
  | succ k ih =>
    rw [List.range_succ, List.foldl_append, ih, List.filterMap_append]
    generalize (List.range k).filterMap (fun i => (f i).map i16) = l
    cases hf : f k with
    | none => simp [hf]
    | some x =>
      simp only [List.foldl_cons, List.foldl_nil, hf, List.filterMap_cons, Option.map_some',
        List.filterMap_nil, List.length_take]
      by_cases hl : l.length < 128
      · rw [if_pos (by omega), List.take_of_length_le (by omega),
          List.take_of_length_le (by simp; omega)]
      · rw [if_neg (by omega), List.take_append_of_le_length (by omega)]

theorem exists_flip (f : Nat → Prop) : ∀ j i, i ≤ j → f i → ¬ f j →
    ∃ k, i ≤ k ∧ k < j ∧ f k ∧ ¬ f (k + 1) := by
  intro j
  induction j with
  | zero =>
    intro i hi h1 h2
    have : i = 0 := by omega
    subst this
    exact absurd h1 h2
  | succ j ih =>
    intro i hi h1 h2
    by_cases hj : f j
    · by_cases hij : i ≤ j
      · exact ⟨j, hij, by omega, hj, h2⟩
      · have : i = j + 1 := by omega
        subst this
        exact absurd h1 h2
    · have hij : i ≤ j := by
        by_contra hc
        have : i = j + 1 := by omega
        subst this
        exact h2 h1
      obtain ⟨k, k1, k2, k3, k4⟩ := ih i hij h1 hj
      exact ⟨k, k1, by omega, k3, k4⟩

theorem pointAt_of_mem (pts : List TFT_Point) (p : TFT_Point) (h : p ∈ pts) :
    ∃ i, i < pts.length ∧ pointAt pts i = p := by
  obtain ⟨i, hi, e⟩ := List.mem_iff_getElem.mp h
  refine ⟨i, hi, ?_⟩
  unfold pointAt
  rw [List.getD_eq_getElem _ _ hi]
  exact e

/-- Between a vertex on or above the scanline level and a vertex below it
the cycle has an edge going down through the scanline, and one going up. -/
theorem exists_crossings (pts : List TFT_Point) (y : Int)
    (hlo : ∃ p ∈ pts, ((p.y : Nat) : Int) ≤ y) (hhi : ∃ p ∈ pts, y < ((p.y : Nat) : Int)) :
    (∃ u, u < pts.length ∧ ((pointAt pts u).y : Int) ≤ y ∧
        y < (pointAt pts ((u + 1) % pts.length)).y) ∧
      (∃ v, v < pts.length ∧ ((pointAt pts ((v + 1) % pts.length)).y : Int) ≤ y ∧
        y < (pointAt pts v).y) := by
  obtain ⟨p, hp, hpy⟩ := hlo
  obtain ⟨q, hq, hqy⟩ := hhi
  obtain ⟨i0, hi0, ei⟩ := pointAt_of_mem pts p hp
  obtain ⟨j0, hj0, ej⟩ := pointAt_of_mem pts q hq
  have hn : 0 < pts.length := by omega
  constructor
  · obtain ⟨k, _, _, k3, k4⟩ := exists_flip
      (fun k => ((pointAt pts (k % pts.length)).y : Int) ≤ y) (j0 + pts.length) i0 (by omega)
      (by simp only [Nat.mod_eq_of_lt hi0, ei]; exact hpy)
      (by simp only [Nat.add_mod_right, Nat.mod_eq_of_lt hj0, ej]; omega)
    refine ⟨k % pts.length, Nat.mod_lt _ hn, k3, ?_⟩
    rw [Nat.mod_add_mod]
    simp only [not_le] at k4
    exact k4
  · obtain ⟨k, _, _, k3, k4⟩ := exists_flip
      (fun k => y < ((pointAt pts (k % pts.length)).y : Int)) (i0 + pts.length) j0 (by omega)
      (by simp only [Nat.mod_eq_of_lt hj0, ej]; exact hqy)
      (by simp only [Nat.add_mod_right, Nat.mod_eq_of_lt hi0, ei]; omega)
    refine ⟨k % pts.length, Nat.mod_lt _ hn, ?_, k3⟩
    rw [Nat.mod_add_mod]
    simp only [not_lt] at k4
    exact k4

/-- A scanline between a vertex on or above it and a vertex below it meets
exactly two edges of a convex cycle under the half-open rule. -/
theorem crossing_pair (pts : List TFT_Point) (y : Int) (hc : ConvexCycle pts)
    (hlo : ∃ p ∈ pts, ((p.y : Nat) : Int) ≤ y) (hhi : ∃ p ∈ pts, y < ((p.y : Nat) : Int)) :
    ∃ u v, u < pts.length ∧ v < pts.length ∧ u ≠ v ∧
      ∀ i, i < pts.length → (Crosses pts y i ↔ i = u ∨ i = v) := by
  obtain ⟨⟨u, hu, u1, u2⟩, ⟨v, hv, v1, v2⟩⟩ := exists_crossings pts y hlo hhi
  refine ⟨u, v, hu, hv, ?_, ?_⟩
  · intro h; subst h; omega
  · intro i hi
    constructor
    · intro h
      rcases h with h | h
      · exact Or.inl (same_way_unique pts hc y i u hi hu (Or.inl ⟨h.1, h.2, u1, u2⟩))
      · exact Or.inr (same_way_unique pts hc y i v hi hv (Or.inr ⟨h.1, h.2, v1, v2⟩))
    · intro h
      rcases h with h | h
      · subst h; exact Or.inl ⟨u1, u2⟩
      · subst h; exact Or.inr ⟨v1, v2⟩

theorem length_filterMap_pair {β : Type} (f : Nat → Option β) (n u v : Nat) (hu : u < n)
    (hv : v < n) (huv : u ≠ v) (h : ∀ i, i < n → ((f i).isSome = true ↔ i = u ∨ i = v)) :
    ((List.range n).filterMap f).length = 2 := by
  rw [List.length_filterMap_eq_countP, List.countP_eq_length_filter,
    ← List.toFinset_card_of_nodup ((List.nodup_range n).filter _)]
  have e : ((List.range n).filter fun a => (f a).isSome).toFinset = {u, v} := by
    ext i
    simp only [List.toFinset_filter, Finset.mem_filter, List.mem_toFinset, List.mem_range,
      Finset.mem_insert, Finset.mem_singleton]
    constructor
    · rintro ⟨h1, h2⟩
      exact (h i h1).mp h2
    · intro hi
      have hin : i < n := by rcases hi with hi | hi <;> (subst hi; assumption)
      exact ⟨hin, (h i hin).mpr hi⟩
  rw [e, Finset.card_pair huv]

/-- The stored intersections of a scanline of a convex polygon with
at most 128 vertices, below a vertex and not below all: exactly two values,
both x coordinates below 2^15. -/
theorem scan_pair (pts : List TFT_Point) (y : Int) (hc : ConvexCycle pts)
    (hr : ∀ p ∈ pts, p.x < 32768 ∧ p.y < 32768)
    (hlo : ∃ p ∈ pts, ((p.y : Nat) : Int) ≤ y) (hhi : ∃ p ∈ pts, y < ((p.y : Nat) : Int)) :
    ∃ p q : Int, polygonScan pts pts.length y = [p, q] ∧ 0 ≤ p ∧ p < 32768 ∧ 0 ≤ q ∧
      q < 32768 := by
  obtain ⟨u, v, hu, hv, huv, hcr⟩ := crossing_pair pts y hc hlo hhi
  have hval : ∀ x ∈ (List.range pts.length).filterMap
      (fun i => (polygonEdge pts pts.length y i).map i16), 0 ≤ x ∧ x < 32768 := by
    intro x hx
    obtain ⟨i, hi, hix⟩ := List.mem_filterMap.mp hx
    have hi' := List.mem_range.mp hi
    by_cases hk : Crosses pts y i
    · obtain ⟨x0, e0, b0, b1⟩ := edge_crossing pts y i hr hi' hk
      rw [e0] at hix
      simp only [Option.map_some', Option.some.injEq] at hix
      rw [← hix, i16_of_small _ (by omega) (by omega)]
      exact ⟨b0, b1⟩
    · rw [edge_not_crossing pts y i hr hi' hk] at hix
      simp at hix
  have hlen : ((List.range pts.length).filterMap
      (fun i => (polygonEdge pts pts.length y i).map i16)).length = 2 := by
    apply length_filterMap_pair _ _ u v hu hv huv
    intro i hi
    rw [← hcr i hi]
    by_cases hk : Crosses pts y i
    · obtain ⟨x0, e0, _⟩ := edge_crossing pts y i hr hi hk
      simp [e0, hk]
    · simp [edge_not_crossing pts y i hr hi hk, hk]
  rw [polygonScan_eq, List.take_of_length_le (by omega)]
  obtain ⟨p, q, e⟩ := List.length_eq_two.mp hlen
  rw [e] at hval ⊢
  have hp := hval p (by simp)
  have hq := hval q (by simp)
  exact ⟨p, q, rfl, hp.1, hp.2, hq.1, hq.2⟩

/-- At a scanline `y` with no vertex beyond it (every vertex y at most `y`)
no edge passes the crossing test. -/
theorem scan_empty (pts : List TFT_Point) (y : Int)
    (hr : ∀ p ∈ pts, p.x < 32768 ∧ p.y < 32768) (hn : 0 < pts.length)
    (hall : ∀ p ∈ pts, ((p.y : Nat) : Int) ≤ y) :
    polygonScan pts pts.length y = [] := by
  rw [polygonScan_eq]
  have : (List.range pts.length).filterMap
      (fun i => (polygonEdge pts pts.length y i).map i16) = [] := by
    rw [List.filterMap_eq_nil_iff]
    intro i hi
    have hi' := List.mem_range.mp hi
    rw [edge_not_crossing pts y i hr hi']
    · rfl
    · unfold Crosses
      have a := hall _ (pointAt_mem pts i hi')
      have b := hall _ (pointAt_mem pts _ (next_index_lt pts.length i hn))
      omega
  rw [this]
  rfl

theorem polygonBounds_spec (pts : List TFT_Point)
    (hr : ∀ p ∈ pts, p.x < 32768 ∧ p.y < 32768) (hn : 0 < pts.length) :
    (∀ p ∈ pts, (polygonBounds pts pts.length).1 ≤ (p.y : Int) ∧
        (p.y : Int) ≤ (polygonBounds pts pts.length).2) ∧
      (∃ p ∈ pts, (p.y : Int) = (polygonBounds pts pts.length).1) ∧
      (∃ p ∈ pts, (p.y : Int) = (polygonBounds pts pts.length).2) := by
  have hy : ∀ i, i < pts.length → i16 ((pointAt pts i).y : Int) = (pointAt pts i).y := by
    intro i hi
    have := hr _ (pointAt_mem pts i hi)
    exact i16_of_small _ (by omega) (by omega)
  have key : ∀ k, k + 1 ≤ pts.length →
      (∀ i, i ≤ k →
        ((List.range' 1 k).foldl
          (fun (mm : Int × Int) i =>
            ((if ((pointAt pts i).y : Int) < mm.1 then i16 ((pointAt pts i).y : Int) else mm.1),
              (if ((pointAt pts i).y : Int) > mm.2 then i16 ((pointAt pts i).y : Int)
                else mm.2)))
          (i16 (pointAt pts 0).y, i16 (pointAt pts 0).y)).1 ≤ ((pointAt pts i).y : Int) ∧
        ((pointAt pts i).y : Int) ≤ ((List.range' 1 k).foldl
          (fun (mm : Int × Int) i =>
            ((if ((pointAt pts i).y : Int) < mm.1 then i16 ((pointAt pts i).y : Int) else mm.1),
              (if ((pointAt pts i).y : Int) > mm.2 then i16 ((pointAt pts i).y : Int)
                else mm.2)))
          (i16 (pointAt pts 0).y, i16 (pointAt pts 0).y)).2) ∧
      (∃ i, i ≤ k ∧ ((pointAt pts i).y : Int) = ((List.range' 1 k).foldl
          (fun (mm : Int × Int) i =>
            ((if ((pointAt pts i).y : Int) < mm.1 then i16 ((pointAt pts i).y : Int) else mm.1),
              (if ((pointAt pts i).y : Int) > mm.2 then i16 ((pointAt pts i).y : Int)
                else mm.2)))
          (i16 (pointAt pts 0).y, i16 (pointAt pts 0).y)).1) ∧
      (∃ i, i ≤ k ∧ ((pointAt pts i).y : Int) = ((List.range' 1 k).foldl
          (fun (mm : Int × Int) i =>
            ((if ((pointAt pts i).y : Int) < mm.1 then i16 ((pointAt pts i).y : Int) else mm.1),
              (if ((pointAt pts i).y : Int) > mm.2 then i16 ((pointAt pts i).y : Int)
                else mm.2)))
          (i16 (pointAt pts 0).y, i16 (pointAt pts 0).y)).2) := by
    intro k
    induction k with
    | zero =>
      intro _
      simp only [List.range'_zero, List.foldl_nil, hy 0 hn]
      refine ⟨fun i hi => ?_, ⟨0, le_rfl, rfl⟩, ⟨0, le_rfl, rfl⟩⟩
      have : i = 0 := by omega
      subst this
      exact ⟨le_rfl, le_rfl⟩
    | succ k ih =>
      intro hk
      obtain ⟨h1, ⟨a, ha, ea⟩, ⟨b, hb, eb⟩⟩ := ih (by omega)
      rw [List.range'_concat, List.foldl_append]
      simp only [List.foldl_cons, List.foldl_nil, Nat.one_mul]
      generalize (List.range' 1 k).foldl _ _ = mm at *
      rw [hy (1 + k) (by omega)]
      refine ⟨fun i hi => ?_, ?_, ?_⟩
      · by_cases hik : i ≤ k
        · have := h1 i hik
          constructor <;> (dsimp only; split_ifs <;> omega)
        · have : i = 1 + k := by omega
          subst this
          constructor <;> (dsimp only; split_ifs <;> omega)
      · dsimp only
        split_ifs
        · exact ⟨1 + k, by omega, rfl⟩
        · exact ⟨a, by omega, ea⟩
      · dsimp only
        split_ifs
        · exact ⟨1 + k, by omega, rfl⟩
        · exact ⟨b, by omega, eb⟩
  obtain ⟨h1, ⟨a, ha, ea⟩, ⟨b, hb, eb⟩⟩ := key (pts.length - 1) (by omega)
  unfold polygonBounds
  refine ⟨fun p hp => ?_, ⟨pointAt pts a, pointAt_mem pts a (by omega), ea⟩,
    ⟨pointAt pts b, pointAt_mem pts b (by omega), eb⟩⟩
  obtain ⟨i, hi, e⟩ := pointAt_of_mem pts p hp
  rw [← e]
  exact h1 i (by omega)

theorem polygonSort_pair (p q : Int) :
    polygonSort [p, q] = if p > q then [q, p] else [p, q] := by
  simp only [polygonSort, List.length_cons, List.length_nil]
  split_ifs with h <;> simp [List.range', insertLoop, h]

theorem polygonSpans_pair (d : Dev) (p q y : Int) (c : Nat) :
    polygonSpans d [p, q] y c =
      TFT_Draw_Fast_HLine d (u16 p) (u16 y) (u16 (q - p + 1)) c := by
  simp [polygonSpans, List.range_succ]

theorem polygonSpans_nil (d : Dev) (y : Int) (c : Nat) : polygonSpans d [] y c = d := by
  simp [polygonSpans]

/-- One pass of the scanline loop on a convex polygon: one span on a
row that has a vertex on or above it and a vertex below it, nothing on the
row of the last vertices. -/
theorem polygon_row (d : Dev) (pts : List TFT_Point) (c y maxY : Nat) (hd : Ready d.htft)
    (hcv : ConvexCycle pts) (hxy : ∀ p ∈ pts, p.x < 32768 ∧ p.y < 32768)
    (hn : 0 < pts.length) (hlo : ∃ p ∈ pts, p.y ≤ y) (hmax : ∀ p ∈ pts, p.y ≤ maxY)
    (hmax' : ∃ p ∈ pts, p.y = maxY) (hy : y ≤ maxY) :
    Emits d (polygonSpans d (polygonSort (polygonScan pts pts.length y)) y c)
        (if y < maxY then [rowSpan c y (polygonSort (polygonScan pts pts.length y))] else []) ∧
      (y < maxY → ∃ xl xr : Nat, xl ≤ xr ∧ xr < 32768 ∧
        polygonScan pts pts.length y ≠ [] ∧ (polygonScan pts pts.length y).length = 2 ∧
        polygonSort (polygonScan pts pts.length y) = [(xl : Int), (xr : Int)] ∧
        rowSpan c y (polygonSort (polygonScan pts pts.length y)) =
          ⟨xl, y, xr, y, List.replicate (xr - xl + 1) c⟩) := by
  by_cases hlt : y < maxY
  · obtain ⟨p, q, e, p0, p1, q0, q1⟩ := scan_pair pts y hcv hxy
      (by obtain ⟨a, ha, hay⟩ := hlo; exact ⟨a, ha, by exact_mod_cast hay⟩)
      (by obtain ⟨a, ha, hay⟩ := hmax'; exact ⟨a, ha, by rw [hay]; exact_mod_cast hlt⟩)
    have hs : ∃ xl xr : Nat, xl ≤ xr ∧ xr < 32768 ∧
        polygonSort [p, q] = [(xl : Int), (xr : Int)] := by
      rw [polygonSort_pair]
      obtain ⟨a, rfl⟩ := Int.eq_ofNat_of_zero_le p0
      obtain ⟨b, rfl⟩ := Int.eq_ofNat_of_zero_le q0
      split_ifs with h
      · exact ⟨b, a, by omega, by omega, rfl⟩
      · exact ⟨a, b, by omega, by omega, rfl⟩
    obtain ⟨xl, xr, h1, h2, h3⟩ := hs
    have hb : rowSpan c y [(xl : Int), (xr : Int)] =
        ⟨xl, y, xr, y, List.replicate (xr - xl + 1) c⟩ := by
      have e1 : u16 (xl : Int) = xl := u16_of_nat xl (by omega)
      have e2 : u16 (y : Int) = y := u16_of_nat y (by
        obtain ⟨a, ha, hay⟩ := hmax'
        have := (hxy a ha).2
        omega)
      have e3 : u16 ((xr : Int) - xl + 1) = xr - xl + 1 := by
        have := u16_of_nonneg ((xr : Int) - xl + 1) (by omega) (by omega)
        omega
      simp only [rowSpan, spanBurst, List.getD_cons_zero, List.getD_cons_succ, e1, e2, e3]
      congr 1
      rw [Nat.mod_eq_of_lt (by omega)]
      omega
    rw [e, h3, polygonSpans_pair, if_pos hlt]
    refine ⟨?_, fun _ => ⟨xl, xr, h1, h2, by simp, rfl, rfl, hb⟩⟩
    have hw : u16 ((xr : Int) - xl + 1) ≠ 0 := by
      have := u16_of_nonneg ((xr : Int) - xl + 1) (by omega) (by omega)
      omega
    exact hline_spec d _ _ _ c hd hw
  · have hym : y = maxY := by omega
    rw [scan_empty pts y hxy hn (by
      intro p hp
      have := hmax p hp
      exact_mod_cast (by omega : p.y ≤ y))]
    have e0 : polygonSort [] = [] := by simp [polygonSort]
    rw [e0, polygonSpans_nil, if_neg hlt]
    exact ⟨emits_refl d hd, fun h => absurd h hlt⟩

theorem polygonRows_convex (pts : List TFT_Point) (c minY maxY : Nat)
    (hcv : ConvexCycle pts) (hxy : ∀ p ∈ pts, p.x < 32768 ∧ p.y < 32767)
    (hn : 0 < pts.length) (hmin' : ∃ p ∈ pts, p.y = minY) (hmax : ∀ p ∈ pts, p.y ≤ maxY)
    (hmax' : ∃ p ∈ pts, p.y = maxY) :
    ∀ (fuel : Nat) (d : Dev) (y : Nat), Ready d.htft → minY ≤ y → y ≤ maxY + 1 →
      maxY + 1 - y < fuel →
      ∃ d1, polygonRows pts pts.length c maxY fuel d y = some d1 ∧
        Emits d d1 ((List.range' y (maxY - y)).map fun r =>
          rowSpan c r (polygonSort (polygonScan pts pts.length r))) := by
  have hm : maxY < 32767 := by
    obtain ⟨a, ha, hay⟩ := hmax'
    have := (hxy a ha).2
    omega
  intro fuel
  induction fuel with
  | zero => intro d y _ _ _ h; omega
  | succ f ih =>
    intro d y hd h1 h2 h3
    rw [polygonRows]
    by_cases hy : y ≤ maxY
    · rw [if_pos (by exact_mod_cast hy)]
      obtain ⟨he, _⟩ := polygon_row d pts c y maxY hd hcv
        (fun p hp => ⟨(hxy p hp).1, by have := (hxy p hp).2; omega⟩) hn
        (by obtain ⟨a, ha, hay⟩ := hmin'; exact ⟨a, ha, by omega⟩) hmax hmax' hy
      have ey : i16 ((y : Int) + 1) = ((y + 1 : Nat) : Int) := by
        rw [i16_of_small _ (by omega) (by omega)]
        push_cast
        rfl
      rw [ey]
      obtain ⟨d1, hl, hem⟩ := ih _ (y + 1) he.1 (by omega) (by omega) (by omega)
      refine ⟨d1, hl, ?_⟩
      have := emits_trans he hem
      by_cases hlt : y < maxY
      · have er : List.range' y (maxY - y) = y :: List.range' (y + 1) (maxY - (y + 1)) := by
          have : maxY - y = (maxY - (y + 1)) + 1 := by omega
          rw [this, List.range'_succ]
        rw [er, List.map_cons]
        simpa [hlt] using this
      · have e0 : maxY - y = 0 := by omega
        have e1 : maxY - (y + 1) = 0 := by omega
        rw [e0]
        rw [e1] at this
        simpa [hlt] using this
    · rw [if_neg (by
        intro h
        have : y ≤ maxY := by exact_mod_cast h
        exact hy this)]
      have e0 : maxY - y = 0 := by omega
      rw [e0]
      exact ⟨d, rfl, by simpa using emits_refl d hd⟩

/-! ## Polygon fill: the convex case -/

theorem i16_le (v : Int) : i16 v ≤ 32767 := by
  unfold i16; omega

/-- With `maxY = 32767` the condition `y <= maxY` holds for every `int16_t`
value of `y`: the scanline loop never ends. -/
theorem polygonRows_endless (pts : List TFT_Point) (n c : Nat) :
    ∀ (fuel : Nat) (d : Dev) (y : Int), y ≤ 32767 →
      polygonRows pts n c 32767 fuel d y = none := by
  intro fuel
  induction fuel with
  | zero => intro d y _; rfl
  | succ f ih =>
    intro d y hy
    rw [polygonRows, if_pos hy]
    exact ih _ _ (i16_le _)

theorem spanBurst_ok (c : Nat) (hc : c < 65536) (x y w : Int) : (spanBurst c x y w).ok :=
  ⟨u16_lt _, u16_lt _, Nat.mod_lt _ (by norm_num), u16_lt _, replicate_ok _ c hc⟩

/-- C11, with the y coordinates below 2^15 - 1: for a convex polygon of at
least 3 vertices (vertices on a side and vertices given several times in a
row included) whose least and greatest vertex y are `minY` and `maxY`, the
edge loop of `TFT_Fill_Polygon` stores exactly two intersections, an even
number, on every scanline `y` with `minY <= y < maxY`; the call returns, and
what it writes is exactly one span on each of these rows, in increasing row
order, from the smaller to the larger intersection, and nothing else. -/
theorem C11_fill_polygon_convex (d : Dev) (pts : List TFT_Point) (color minY maxY : Nat)
    (hd : Ready d.htft) (hc : color < 65536) (hn3 : 3 ≤ pts.length)
    (hxy : ∀ p ∈ pts, p.x < 32768 ∧ p.y < 32767) (hcv : ConvexCycle pts)
    (hmin : ∀ p ∈ pts, minY ≤ p.y) (hmin' : ∃ p ∈ pts, p.y = minY)
    (hmax : ∀ p ∈ pts, p.y ≤ maxY) (hmax' : ∃ p ∈ pts, p.y = maxY) :
    (∀ y : Nat, minY ≤ y → y < maxY →
        (polygonScan pts pts.length y).length = 2 ∧ Even (polygonScan pts pts.length y).length) ∧
      ∃ d1, TFT_Fill_Polygon d (some pts) pts.length color = some d1 ∧
        ∃ xl xr : Nat → Nat,
          (∀ y, minY ≤ y → y < maxY → xl y ≤ xr y ∧ xr y < 32768 ∧
            polygonSort (polygonScan pts pts.length y) = [(xl y : Int), (xr y : Int)]) ∧
          written d d1 = (List.range' minY (maxY - minY)).map fun y =>
            ⟨xl y, y, xr y, y, List.replicate (xr y - xl y + 1) color⟩ := by
  have hn0 : 0 < pts.length := by omega
  have hxy' : ∀ p ∈ pts, p.x < 32768 ∧ p.y < 32768 :=
    fun p hp => ⟨(hxy p hp).1, by have := (hxy p hp).2; omega⟩
  -- every row of the range has its pair
  have hrow : ∀ y : Nat, minY ≤ y → y < maxY → ∃ xl xr : Nat, xl ≤ xr ∧ xr < 32768 ∧
      polygonScan pts pts.length y ≠ [] ∧ (polygonScan pts pts.length y).length = 2 ∧
      polygonSort (polygonScan pts pts.length y) = [(xl : Int), (xr : Int)] ∧
      rowSpan color y (polygonSort (polygonScan pts pts.length y)) =
        ⟨xl, y, xr, y, List.replicate (xr - xl + 1) color⟩ := by
    intro y h1 h2
    exact (polygon_row d pts color y maxY hd hcv hxy' hn0
      (by obtain ⟨a, ha, hay⟩ := hmin'; exact ⟨a, ha, by omega⟩) hmax hmax' (by omega)).2 h2
  refine ⟨fun y h1 h2 => ?_, ?_⟩
  · obtain ⟨_, _, _, _, _, h, _⟩ := hrow y h1 h2
    exact ⟨h, by rw [h]; decide⟩
  -- the bounds found by the first loop
  obtain ⟨b1, ⟨pa, hpa, ea⟩, ⟨pb, hpb, eb⟩⟩ := polygonBounds_spec pts hxy' hn0
  have emin : (polygonBounds pts pts.length).1 = (minY : Int) := by
    obtain ⟨a, ha, hay⟩ := hmin'
    have := (b1 a ha).1
    have := hmin pa hpa
    omega
  have emax : (polygonBounds pts pts.length).2 = (maxY : Int) := by
    obtain ⟨a, ha, hay⟩ := hmax'
    have := (b1 a ha).2
    have := hmax pb hpb
    omega
  have hmm : minY ≤ maxY := by
    obtain ⟨a, ha, hay⟩ := hmin'
    have := hmax a ha
    omega
  -- the call
  have hcall : ∃ d1, TFT_Fill_Polygon d (some pts) pts.length color = some d1 ∧
      Emits d d1 ((List.range' minY (maxY - minY)).map fun r =>
        rowSpan color r (polygonSort (polygonScan pts pts.length r))) := by
    unfold TFT_Fill_Polygon
    simp only [if_neg (show ¬ pts.length < 3 by omega), emin, emax]
    by_cases he : minY = maxY
    · rw [if_pos (by rw [he])]
      have e0 : maxY - minY = 0 := by omega
      rw [e0]
      exact ⟨d, rfl, by simpa using emits_refl d hd⟩
    · rw [if_neg (by omega)]
      have hm : maxY < 32767 := by
        obtain ⟨a, ha, hay⟩ := hmax'
        have := (hxy a ha).2
        omega
      exact polygonRows_convex pts color minY maxY hcv hxy hn0 hmin' hmax hmax' loopFuel d minY
        hd le_rfl (by omega) (by simp only [loopFuel]; omega)
  obtain ⟨d1, hl, hem⟩ := hcall
  refine ⟨d1, hl,
    fun y => ((polygonSort (polygonScan pts pts.length y)).getD 0 0).toNat,
    fun y => ((polygonSort (polygonScan pts pts.length y)).getD 1 0).toNat, ?_, ?_⟩
  · intro y h1 h2
    obtain ⟨xl, xr, a1, a2, _, _, a3, _⟩ := hrow y h1 h2
    dsimp only
    rw [a3]
    simp only [List.getD_cons_zero, List.getD_cons_succ, Int.toNat_ofNat]
    exact ⟨a1, a2, trivial⟩
  · rw [written_of_emits hem (by
      intro b hb
      obtain ⟨r, _, rfl⟩ := List.mem_map.mp hb
      exact spanBurst_ok color hc _ _ _)]
    apply List.map_congr_left
    intro y hy
    obtain ⟨_, h1, h2⟩ := List.mem_range'.mp hy
    obtain ⟨xl, xr, _, _, _, _, a3, a4⟩ := hrow y (by omega) (by omega)
    dsimp only
    rw [a4, a3]
    simp only [List.getD_cons_zero, List.getD_cons_succ, Int.toNat_ofNat]

set_option maxRecDepth 100000 in
/-- C11 on a sample: the rectangle (2,1)-(8,5) with a vertex in the middle of
its side on row 1 and the corner (8,5) given twice, on the demo device. -/
theorem C11_fill_polygon_convex_witness :
    ConvexCycle demoSquare ∧ ¬ StrictlyConvex demoSquare ∧
      (∀ y : Nat, 1 ≤ y → y < 5 →
        (polygonScan demoSquare demoSquare.length y).length = 2 ∧
          Even (polygonScan demoSquare demoSquare.length y).length) ∧
      ∃ d1, TFT_Fill_Polygon demoDev (some demoSquare) demoSquare.length 7 = some d1 ∧
        ∃ xl xr : Nat → Nat,
          (∀ y, 1 ≤ y → y < 5 → xl y ≤ xr y ∧ xr y < 32768 ∧
            polygonSort (polygonScan demoSquare demoSquare.length y) =
              [(xl y : Int), (xr y : Int)]) ∧
          written demoDev d1 = (List.range' 1 (5 - 1)).map fun y =>
            ⟨xl y, y, xr y, y, List.replicate (xr y - xl y + 1) 7⟩ :=
  ⟨by decide, by decide,
   C11_fill_polygon_convex demoDev demoSquare 7 1 5 demoDev_ready (by decide) (by decide)
     (by decide) (by decide) (by decide) (by decide) (by decide) (by decide)⟩

/-- C11 fails with a vertex on row 32767: for the convex triangle (0,0),
(4,32767), (8,0), whose coordinates are all below 2^15, the scanline loop
`for (int16_t y = minY; y <= maxY; y++)` has `maxY = 32767`, so its condition
never fails and `TFT_Fill_Polygon` does not return. -/
theorem C11_counterexample :
    ConvexCycle tallTriangle ∧ (∀ p ∈ tallTriangle, p.x < 32768 ∧ p.y < 32768) ∧
      polygonBounds tallTriangle 3 = (0, 32767) ∧
      TFT_Fill_Polygon demoDev (some tallTriangle) 3 7 = none := by
  have hb : polygonBounds tallTriangle 3 = (0, 32767) := by decide
  refine ⟨by decide, by decide, hb, ?_⟩
  unfold TFT_Fill_Polygon
  simp only [hb]
  rw [if_neg (by decide), if_neg (by decide)]
  exact polygonRows_endless _ _ _ _ _ _ (by decide)

/-! ## Polygon fill: the intersection list -/

/-- C30: for every vertex array and count, the edge loop of
`TFT_Fill_Polygon` stores at most 128 intersections per scanline.  The loop
state after the edges `0 .. k` is the state after `0 .. k - 1` with the value
of edge `k` appended at index `intersectCount` when that is below 128, and
unchanged otherwise; so what is stored in the end is the first 128 of the
values found, in edge order. -/
theorem C30_polygon_intersections_capped (pts : List TFT_Point) (n : Nat) (y : Int) :
    polygonScan pts n y = scanPrefix pts n y n ∧
      polygonScan pts n y = (polygonFound pts n y).take 128 ∧
      (polygonScan pts n y).length ≤ 128 ∧
      (∀ k x, polygonEdge pts n y k = some x →
        scanPrefix pts n y (k + 1) =
          if (scanPrefix pts n y k).length < 128 then scanPrefix pts n y k ++ [i16 x]
          else scanPrefix pts n y k) ∧
      (∀ k, polygonEdge pts n y k = none →
        scanPrefix pts n y (k + 1) = scanPrefix pts n y k) := by
  refine ⟨rfl, polygonScan_eq pts n y, ?_, ?_, ?_⟩
  · rw [polygonScan_eq, List.length_take]
    exact Nat.min_le_left _ _
  · intro k x h
    simp only [scanPrefix, List.range_succ, List.foldl_append, List.foldl_cons, List.foldl_nil, h]
  · intro k h
    simp only [scanPrefix, List.range_succ, List.foldl_append, List.foldl_cons, List.foldl_nil, h]

/-! ## Polygon fill: the insertion sort and the pairing loop -/

/-- The inner loop of the insertion sort, entered at index `j` with a sorted
part `A` of length `j` before the hole and the part `B`, already moved up and
all above `temp`, after it: it puts `temp` in its place. -/
theorem insertLoop_spec (temp : Int) : ∀ (j : Nat) (A B post : List Int) (g : Int),
    A.length = j → (A ++ B).Pairwise (· ≤ ·) → (∀ b ∈ B, temp < b) →
    ∃ S, insertLoop (A ++ g :: (B ++ post)) temp j = S ++ post ∧
      S.Perm (temp :: (A ++ B)) ∧ S.Pairwise (· ≤ ·) := by
  intro j
  induction j with
  | zero =>
    intro A B post g hA hs hB
    have : A = [] := List.length_eq_zero.mp hA
    subst this
    refine ⟨temp :: B, by simp [insertLoop], List.Perm.refl _, ?_⟩
    rw [List.pairwise_cons]
    exact ⟨fun b hb => (hB b hb).le, by simpa using hs⟩
  | succ j ih =>
    intro A B post g hA hs hB
    rcases List.eq_nil_or_concat A with h | ⟨A0, z, h⟩
    · subst h; simp at hA
    rw [List.concat_eq_append] at h
    subst h
    have hA0 : A0.length = j := by simpa using hA
    have hz : (A0 ++ [z] ++ g :: (B ++ post)).getD j 0 = z := by
      rw [List.append_assoc, List.getD_append_right _ _ _ _ (by omega)]
      simp [hA0]
    have hset : ∀ v, (A0 ++ [z] ++ g :: (B ++ post)).set (j + 1) v =
        A0 ++ z :: v :: (B ++ post) := by
      intro v
      rw [List.append_assoc, List.set_append_right _ _ (by omega)]
      simp [hA0]
    rw [insertLoop, hz]
    by_cases hgt : z > temp
    · rw [if_pos hgt, hset]
      have e : A0 ++ z :: z :: (B ++ post) = A0 ++ z :: ((z :: B) ++ post) := by simp
      rw [e]
      obtain ⟨S, h1, h2, h3⟩ := ih A0 (z :: B) post z hA0 (by simpa using hs)
        (by
          intro b hb
          rcases List.mem_cons.mp hb with rfl | hb
          · exact hgt
          · exact hB b hb)
      refine ⟨S, h1, h2.trans ?_, h3⟩
      simp only [List.append_assoc, List.singleton_append]
      exact List.Perm.refl _
    · rw [if_neg hgt, hset]
      refine ⟨A0 ++ z :: temp :: B, by simp, ?_, ?_⟩
      · have : (temp :: (A0 ++ [z] ++ B)).Perm (A0 ++ [z] ++ temp :: B) :=
          (List.perm_middle).symm
        simpa using this.symm
      · have hs' : (A0 ++ z :: B).Pairwise (· ≤ ·) := by simpa using hs
        rw [List.pairwise_append] at hs' ⊢
        obtain ⟨s1, s2, s3⟩ := hs'
        rw [List.pairwise_cons] at s2
        refine ⟨s1, ?_, ?_⟩
        · rw [List.pairwise_cons, List.pairwise_cons]
          refine ⟨?_, fun b hb => (hB b hb).le, s2.2⟩
          intro b hb
          rcases List.mem_cons.mp hb with rfl | hb
          · omega
          · exact s2.1 b hb
        · intro a ha b hb
          rcases List.mem_cons.mp hb with rfl | hb
          · exact s3 a ha b (List.mem_cons_self _ _)
          · rcases List.mem_cons.mp hb with rfl | hb
            · have := s3 a ha z (List.mem_cons_self _ _)
              omega
            · exact s3 a ha b (List.mem_cons_of_mem _ hb)

/-- The outer loop of the insertion sort after the passes `i = 1 .. k`: the
first `k + 1` entries are sorted and a permutation of what they were, the
rest is untouched. -/
theorem polygonSort_prefix (a : List Int) : ∀ k, k + 1 ≤ a.length →
    ∃ S, (List.range' 1 k).foldl (fun b i => insertLoop b (b.getD i 0) i) a =
        S ++ a.drop (k + 1) ∧
      S.Perm (a.take (k + 1)) ∧ S.Pairwise (· ≤ ·) := by
  intro k
  induction k with
  | zero =>
    intro h
    refine ⟨a.take 1, by
      simp only [List.range'_zero, List.foldl_nil]
      exact (List.take_append_drop 1 a).symm, List.Perm.refl _, ?_⟩
    cases a with
    | nil => simp
    | cons x t => simp
  | succ k ih =>
    intro h
    obtain ⟨S, h1, h2, h3⟩ := ih (by omega)
    have hlen : S.length = k + 1 := by
      rw [h2.length_eq, List.length_take]; omega
    rw [List.range'_concat, List.foldl_append]
    simp only [List.foldl_cons, List.foldl_nil, Nat.one_mul, h1]
    have hd : a.drop (k + 1) = a[k + 1] :: a.drop (k + 2) := by
      rw [List.drop_eq_getElem_cons (by omega)]
    have hg : (S ++ a.drop (k + 1)).getD (1 + k) 0 = a[k + 1] := by
      rw [List.getD_append_right _ _ _ _ (by omega), hd]
      have : 1 + k - S.length = 0 := by omega
      rw [this]
      rfl
    rw [hg, hd]
    obtain ⟨S', e1, e2, e3⟩ := insertLoop_spec a[k + 1] (1 + k) S [] (a.drop (k + 2)) a[k + 1]
      (by omega) (by simpa using h3) (by simp)
    simp only [List.nil_append, List.append_nil] at e1 e2
    refine ⟨S', e1, e2.trans ?_, e3⟩
    rw [List.take_succ, List.getElem?_eq_getElem (by omega : k + 1 < a.length)]
    simp only [Option.toList_some]
    exact (List.perm_append_singleton _ _).symm.trans ((List.Perm.refl _).append_right _ |>.trans
      (List.Perm.append_right _ h2))

theorem polygonSort_sorted (a : List Int) :
    (polygonSort a).Pairwise (· ≤ ·) ∧ (polygonSort a).Perm a := by
  unfold polygonSort
  cases a with
  | nil => simp
  | cons x t =>
    obtain ⟨S, h1, h2, h3⟩ := polygonSort_prefix (x :: t) t.length (by simp)
    simp only [List.length_cons, Nat.add_sub_cancel]
    rw [h1]
    have e1 : (x :: t).drop (t.length + 1) = [] := by simp
    have e2 : (x :: t).take (t.length + 1) = x :: t := by simp
    rw [e1, List.append_nil]
    rw [e2] at h2
    exact ⟨h3, h2⟩

/-- The pairing loop, which runs over the even indices, draws the span of
each consecutive pair of the list, in order. -/
theorem polygonSpans_pairs (y : Int) (c : Nat) : ∀ (a : List Int) (d : Dev),
    polygonSpans d a y c =
      (pairsOf a).foldl
        (fun acc pq =>
          TFT_Draw_Fast_HLine acc (u16 pq.1) (u16 y) (u16 (pq.2 - pq.1 + 1)) c) d
  | [], d => by simp [polygonSpans, pairsOf]
  | [p], d => by simp [polygonSpans, pairsOf]
  | p :: q :: t, d => by
    have ih := polygonSpans_pairs y c t
      (TFT_Draw_Fast_HLine d (u16 p) (u16 y) (u16 (q - p + 1)) c)
    have hm : (t.length + 1 + 1 + 1) / 2 = (t.length + 1) / 2 + 1 := by omega
    simp only [pairsOf, List.foldl_cons]
    rw [← ih]
    simp only [polygonSpans, List.length_cons, hm, List.range_succ_eq_map, List.map_cons,
      List.map_map, List.foldl_cons, List.foldl_map, Nat.mul_zero, Nat.zero_add,
      List.getD_cons_zero, List.getD_cons_succ]
    rw [if_pos (by omega)]
    congr 1
    funext acc k
    simp only [Function.comp, Nat.succ_eq_add_one, Nat.mul_add, Nat.mul_one,
      List.getD_cons_succ]
    by_cases h : 2 * k + 1 < t.length
    · rw [if_pos (by omega), if_pos h]
    · rw [if_neg (by omega), if_neg h]

/-- C29: in every pass of the scanline loop of `TFT_Fill_Polygon` the list
left by the insertion sort is in ascending order and a permutation of the
intersections collected for the scanline, and the pass then draws exactly
the spans of the consecutive pairs (0,1), (2,3), ... of that sorted list, in
order, each from the first entry of the pair over `second - first + 1`
columns. -/
theorem C29_polygon_sort_and_pairs (d : Dev) (pts : List TFT_Point) (n c : Nat) (y maxY : Int)
    (fuel : Nat) :
    (polygonSort (polygonScan pts n y)).Pairwise (· ≤ ·) ∧
      (polygonSort (polygonScan pts n y)).Perm (polygonScan pts n y) ∧
      polygonSpans d (polygonSort (polygonScan pts n y)) y c =
        (pairsOf (polygonSort (polygonScan pts n y))).foldl
          (fun acc pq =>
            TFT_Draw_Fast_HLine acc (u16 pq.1) (u16 y) (u16 (pq.2 - pq.1 + 1)) c) d ∧
      (y ≤ maxY →
        polygonRows pts n c maxY (fuel + 1) d y =
          polygonRows pts n c maxY fuel
            ((pairsOf (polygonSort (polygonScan pts n y))).foldl
              (fun acc pq =>
                TFT_Draw_Fast_HLine acc (u16 pq.1) (u16 y) (u16 (pq.2 - pq.1 + 1)) c) d)
            (i16 (y + 1))) := by
  obtain ⟨h1, h2⟩ := polygonSort_sorted (polygonScan pts n y)
  refine ⟨h1, h2, polygonSpans_pairs y c _ d, fun hy => ?_⟩
  rw [polygonRows, if_pos hy, polygonSpans_pairs]

/-- C29 on a sample: the scanline 2 of the demo triangle, whose edges give
the intersections 6 and 4 in edge order. -/
theorem C29_polygon_sort_and_pairs_witness :
    polygonScan demoTriangle 3 2 = [6, 4] ∧ polygonSort (polygonScan demoTriangle 3 2) = [4, 6] ∧
      (polygonSort (polygonScan demoTriangle 3 2)).Pairwise (· ≤ ·) ∧
      polygonRows demoTriangle 3 7 6 (0 + 1) demoDev 2 =
        polygonRows demoTriangle 3 7 6 0
          ((pairsOf (polygonSort (polygonScan demoTriangle 3 2))).foldl
            (fun acc pq =>
              TFT_Draw_Fast_HLine acc (u16 pq.1) (u16 2) (u16 (pq.2 - pq.1 + 1)) 7) demoDev)
          (i16 (2 + 1)) :=
  ⟨by decide, by decide, (C29_polygon_sort_and_pairs demoDev demoTriangle 3 7 2 6 0).1,
    (C29_polygon_sort_and_pairs demoDev demoTriangle 3 7 2 6 0).2.2.2 (by decide)⟩

/-! ## Commands, colours, the registry -/

/-- C21: on a device with a bound transport and an allocated staging buffer
`TFT_Write_Command` first flushes with `wait_completion = 1`, which delivers
the `buffer_write_index` staged bytes as data and leaves the cursor at 0, and
then appends exactly: command mode, chip-select low, a blocking transmission
of the single byte `command`, chip-select high.  With nothing staged the
flush does nothing and these four actions are all that happens. -/
theorem C21_write_command (d : Dev) (c : Nat) (buf : List Nat)
    (hs : d.htft.spi_handle ≠ none) (hb : d.htft.tx_buffer = some buf) :
    Sends d (TFT_Flush_Buffer d 1) ((buf.take d.htft.buffer_write_index).map Wire.dat) ∧
      TFT_Write_Command d c =
        ⟨(TFT_Flush_Buffer d 1).htft,
          (TFT_Flush_Buffer d 1).bus ++
            [HwEvent.DC 0, HwEvent.CS 0, HwEvent.tx [c], HwEvent.CS 1]⟩ ∧
      (TFT_Write_Command d c).htft.buffer_write_index = 0 ∧
      Sends d (TFT_Write_Command d c)
        ((buf.take d.htft.buffer_write_index).map Wire.dat ++ [Wire.cmd c]) ∧
      (d.htft.buffer_write_index = 0 →
        TFT_Write_Command d c =
          ⟨d.htft, d.bus ++ [HwEvent.DC 0, HwEvent.CS 0, HwEvent.tx [c], HwEvent.CS 1]⟩) ∧
      (d.htft.is_dma_enabled = 0 → d.htft.buffer_write_index ≠ 0 →
        TFT_Write_Command d c =
          ⟨{ d.htft with buffer_write_index := 0 },
            d.bus ++ [HwEvent.DC 1, HwEvent.CS 0,
              HwEvent.tx (buf.take d.htft.buffer_write_index), HwEvent.CS 1,
              HwEvent.DC 0, HwEvent.CS 0, HwEvent.tx [c], HwEvent.CS 1]⟩) := by
  have e : TFT_Write_Command d c =
      ⟨(TFT_Flush_Buffer d 1).htft,
        (TFT_Flush_Buffer d 1).bus ++
          [HwEvent.DC 0, HwEvent.CS 0, HwEvent.tx [c], HwEvent.CS 1]⟩ := by
    simp [TFT_Write_Command, hs, TFT_Pin_CS_Set, TFT_Pin_DC_Set,
      TFT_Platform_SPI_Transmit_Blocking]
  obtain ⟨f1, _, f3⟩ := flush_fields d 1
  have h0 := f3 (by rw [hb]; simp)
  have fl := flush_sends d 1 buf hs hb
  have cmd : Sends (TFT_Flush_Buffer d 1) (TFT_Write_Command d c) [Wire.cmd c] := by
    rw [e]
    exact ⟨[HwEvent.DC 0, HwEvent.CS 0, HwEvent.tx [c], HwEvent.CS 1], rfl,
      fun dc cs => by simp [wireOf, wireBytes]⟩
  refine ⟨fl, e, by rw [e]; exact h0, sends_trans fl cmd, ?_, ?_⟩
  · intro hi
    rw [e, flush_idle d 1 hi]
  · intro hdma hi
    rw [e]
    have e2 : TFT_Flush_Buffer d 1 =
        ⟨{ d.htft with buffer_write_index := 0 },
          d.bus ++ [HwEvent.DC 1, HwEvent.CS 0,
            HwEvent.tx (buf.take d.htft.buffer_write_index), HwEvent.CS 1]⟩ := by
      obtain ⟨s, hs1⟩ := Option.ne_none_iff_exists.mp hs
      unfold TFT_Flush_Buffer
      rw [if_neg (by rw [hb]; simp [hi]), hb]
      unfold TFT_SPI_Send
      rw [← hs1]
      simp [hi, hdma, TFT_Wait_DMA_Transfer_Complete, TFT_Pin_CS_Set, TFT_Pin_DC_Set,
        TFT_Platform_SPI_Transmit_Blocking]
    rw [e2]
    simp

/-- C21 on a sample: two staged bytes on a blocking device, command 0x2C. -/
theorem C21_write_command_witness :
    TFT_Write_Command ⟨⟨some 0, some [0xAB, 0xCD, 0, 0], 4, 2, 0, 0, 0, 0, 0⟩, []⟩ 0x2C =
      ⟨⟨some 0, some [0xAB, 0xCD, 0, 0], 4, 0, 0, 0, 0, 0, 0⟩,
        [HwEvent.DC 1, HwEvent.CS 0, HwEvent.tx [0xAB, 0xCD], HwEvent.CS 1,
          HwEvent.DC 0, HwEvent.CS 0, HwEvent.tx [0x2C], HwEvent.CS 1]⟩ :=
  ((C21_write_command ⟨⟨some 0, some [0xAB, 0xCD, 0, 0], 4, 2, 0, 0, 0, 0, 0⟩, []⟩ 0x2C
    [0xAB, 0xCD, 0, 0] (by decide) rfl).2.2.2.2.2 rfl (by decide)).trans (by decide)

set_option maxRecDepth 100000 in
/-- C22: for 8-bit channels `TFT_RGB` is the 5:6:5 packing
`(r >> 3) * 2048 + (g >> 2) * 32 + (b >> 3)`; the low 3, 2 and 3 bits of the
channels do not matter, and pure red, green and blue give 0xF800, 0x07E0 and
0x001F. -/
theorem C22_rgb565 (r g b : Nat) (hr : r < 256) (hg : g < 256) (hb : b < 256) :
    TFT_RGB r g b = (r >>> 3) * 2048 + (g >>> 2) * 32 + (b >>> 3) ∧
      TFT_RGB r g b = TFT_RGB (r &&& 0xF8) (g &&& 0xFC) (b &&& 0xF8) ∧
      TFT_RGB 255 0 0 = 0xF800 ∧ TFT_RGB 0 255 0 = 0x07E0 ∧ TFT_RGB 0 0 255 = 0x001F := by
  have key : ∀ r g b, r < 256 → g < 256 → b < 256 →
      TFT_RGB r g b = (r >>> 3) * 2048 + (g >>> 2) * 32 + (b >>> 3) := by
    intro r g b hr hg hb
    have h1 : ∀ r, r < 256 → (r &&& 0xF8) <<< 8 = 2 ^ 11 * (r >>> 3) ∧ r >>> 3 < 32 := by decide
    have h2 : ∀ g, g < 256 → (g &&& 0xFC) <<< 3 = 2 ^ 5 * (g >>> 2) ∧ g >>> 2 < 64 := by decide
    have h3 : ∀ b, b < 256 → b >>> 3 < 32 := by decide
    obtain ⟨e1, b1⟩ := h1 r hr
    obtain ⟨e2, b2⟩ := h2 g hg
    have b3 := h3 b hb
    unfold TFT_RGB
    rw [e1, e2, ← Nat.mul_add_lt_is_or (by omega)]
    have e4 : 2 ^ 11 * (r >>> 3) + 2 ^ 5 * (g >>> 2) = 2 ^ 5 * (64 * (r >>> 3) + (g >>> 2)) := by
      omega
    rw [e4, ← Nat.mul_add_lt_is_or (by omega)]
    omega
  have m1 : ∀ r, r < 256 → (r &&& 0xF8) < 256 ∧ (r &&& 0xF8) >>> 3 = r >>> 3 := by decide
  have m2 : ∀ g, g < 256 → (g &&& 0xFC) < 256 ∧ (g &&& 0xFC) >>> 2 = g >>> 2 := by decide
  refine ⟨key r g b hr hg hb, ?_, by decide, by decide, by decide⟩
  rw [key r g b hr hg hb, key _ _ _ (m1 r hr).1 (m2 g hg).1 (m1 b hb).1, (m1 r hr).2,
    (m2 g hg).2, (m1 b hb).2]

/-- C22 on a sample: the colour `BROWN` of `TFT_config.h`, 0xBC40, from
(0xB8, 0x88, 0x00) and from channels with low bits set. -/
theorem C22_rgb565_witness :
    TFT_RGB 0xBF 0x8B 0x07 = (0xBF >>> 3) * 2048 + (0x8B >>> 2) * 32 + (0x07 >>> 3) ∧
      TFT_RGB 0xBF 0x8B 0x07 = 0xBC40 :=
  ⟨(C22_rgb565 0xBF 0x8B 0x07 (by decide) (by decide) (by decide)).1, by decide⟩

theorem registerLoop_first (h : RegEntry) (g : List (Option RegEntry)) :
    ∀ (n i j : Nat), i ≤ j → j < i + n → slotMatches g h j →
      (∀ k, i ≤ k → k < j → ¬ slotMatches g h k) →
      registerLoop h n i g = g.set j (some h) := by
  intro n
  induction n with
  | zero => intro i j h1 h2; omega
  | succ n ih =>
    intro i j h1 h2 hj hk
    rw [registerLoop]
    by_cases hij : i = j
    · subst hij
      exact if_pos hj
    · have hn : ¬ (g.getD i none = none ∨
          (g.getD i none).map RegEntry.spi_handle = some h.spi_handle) := hk i le_rfl (by omega)
      rw [if_neg hn]
      exact ih (i + 1) j (by omega) (by omega) hj (fun k k1 k2 => hk k (by omega) k2)

theorem registerLoop_none (h : RegEntry) (g : List (Option RegEntry)) :
    ∀ (n i : Nat), (∀ k, i ≤ k → k < i + n → ¬ slotMatches g h k) →
      registerLoop h n i g = g := by
  intro n
  induction n with
  | zero => intro i _; rfl
  | succ n ih =>
    intro i hk
    have hn : ¬ (g.getD i none = none ∨
        (g.getD i none).map RegEntry.spi_handle = some h.spi_handle) := hk i le_rfl (by omega)
    rw [registerLoop, if_neg hn]
    exact ih (i + 1) (fun k k1 k2 => hk k (by omega) (by omega))

theorem registerLoop_cases (h : RegEntry) (g : List (Option RegEntry)) (n : Nat) :
    registerLoop h n 0 g = g ∨
      ∃ j, j < n ∧ slotMatches g h j ∧ registerLoop h n 0 g = g.set j (some h) := by
  by_cases hex : ∃ j, j < n ∧ slotMatches g h j
  · right
    classical
    let j := Nat.find hex
    have hj := Nat.find_spec hex
    refine ⟨j, hj.1, hj.2, registerLoop_first h g n 0 j (Nat.zero_le _) (by omega) hj.2 ?_⟩
    intro k _ k2 hk
    exact Nat.find_min hex k2 ⟨by omega, hk⟩
  · left
    exact registerLoop_none h g n 0 (fun k _ k2 hk => hex ⟨k, by omega, hk⟩)

/-- C23, as the code has it: `TFT_Register_Device` puts the new device into
the first of the 4 slots that is `NULL` or holds a device with the same
`spi_handle`, which it then replaces; when no slot is of that kind, that is
when all 4 hold devices with other transports, the array is left as it is.
A slot holding a device with another transport is never changed. -/
theorem C23_register_device (g : List (Option RegEntry)) (h : RegEntry) :
    ((∀ i, i < 4 → ¬ slotMatches g h i) → TFT_Register_Device g h = g) ∧
      (∀ j, j < 4 → slotMatches g h j → (∀ i, i < j → ¬ slotMatches g h i) →
        TFT_Register_Device g h = g.set j (some h)) ∧
      (∀ i e, g.getD i none = some e → e.spi_handle ≠ h.spi_handle →
        (TFT_Register_Device g h).getD i none = some e) ∧
      (TFT_Register_Device g h).length = g.length := by
  unfold TFT_Register_Device
  refine ⟨fun hno => registerLoop_none h g 4 0 (fun k _ k2 => hno k (by omega)),
    fun j hj hm hf => registerLoop_first h g 4 0 j (Nat.zero_le _) (by omega) hm
      (fun k _ k2 => hf k k2), ?_, ?_⟩
  · intro i e hi he
    rcases registerLoop_cases h g 4 with h0 | ⟨j, _, hm, h1⟩
    · rw [h0]; exact hi
    · rw [h1]
      have hne : j ≠ i := by
        intro hji
        subst hji
        unfold slotMatches at hm
        rw [hi] at hm
        simp at hm
        exact he hm
      rw [List.getD_eq_getElem?_getD, List.getElem?_set_ne hne, ← List.getD_eq_getElem?_getD]
      exact hi
  · rcases registerLoop_cases h g 4 with h0 | ⟨j, _, _, h1⟩
    · rw [h0]
    · rw [h1, List.length_set]

/-- C23 on a sample: a third transport on an array with two entries, and a
fifth transport on a full one. -/
theorem C23_register_device_witness :
    TFT_Register_Device [some ⟨10, some 1⟩, some ⟨20, some 2⟩, none, none] ⟨30, some 3⟩ =
        [some ⟨10, some 1⟩, some ⟨20, some 2⟩, none, none].set 2 (some ⟨30, some 3⟩) ∧
      TFT_Register_Device
          [some ⟨10, some 1⟩, some ⟨20, some 2⟩, some ⟨30, some 3⟩, some ⟨40, some 4⟩]
          ⟨50, some 5⟩ =
        [some ⟨10, some 1⟩, some ⟨20, some 2⟩, some ⟨30, some 3⟩, some ⟨40, some 4⟩] :=
  ⟨(C23_register_device [some ⟨10, some 1⟩, some ⟨20, some 2⟩, none, none] ⟨30, some 3⟩).2.1 2
      (by decide) (by decide) (by decide),
    (C23_register_device
      [some ⟨10, some 1⟩, some ⟨20, some 2⟩, some ⟨30, some 3⟩, some ⟨40, some 4⟩]
      ⟨50, some 5⟩).1 (by decide)⟩

/-- C23 as stated fails: with one entry on transport 7 and three free slots,
registering a second device on transport 7 does not store it in the first
free slot, slot 1, but in slot 0, and the entry that was there is gone. -/
theorem C23_counterexample :
    TFT_Register_Device [some ⟨10, some 7⟩, none, none, none] ⟨20, some 7⟩ =
        [some ⟨20, some 7⟩, none, none, none] ∧
      TFT_Register_Device [some ⟨10, some 7⟩, none, none, none] ⟨20, some 7⟩ ≠
        [some ⟨10, some 7⟩, some ⟨20, some 7⟩, none, none] ∧
      some ⟨10, some 7⟩ ∉
        TFT_Register_Device [some ⟨10, some 7⟩, none, none, none] ⟨20, some 7⟩ := by
  decide

/-! ## Polygon outline, empty areas -/

theorem drawLines_append (c : Nat) : ∀ (l1 l2 : List (TFT_Point × TFT_Point)) (d : Dev),
    drawLines c d (l1 ++ l2) = (drawLines c d l1).bind fun d1 => drawLines c d1 l2 := by
  intro l1
  induction l1 with
  | nil => intro l2 d; simp [drawLines]
  | cons pq t ih =>
    intro l2 d
    obtain ⟨p, q⟩ := pq
    simp only [List.cons_append, drawLines]
    cases TFT_Draw_Line d p.x p.y q.x q.y c with
    | none => rfl
    | some d1 => simp [ih]

theorem foldl_lines (c : Nat) (f g : Nat → TFT_Point) : ∀ (l : List Nat) (acc : Option Dev),
    l.foldl (fun acc i => acc.bind fun d1 =>
        TFT_Draw_Line d1 (f i).x (f i).y (g i).x (g i).y c) acc =
      acc.bind fun d => drawLines c d (l.map fun i => (f i, g i)) := by
  intro l
  induction l with
  | nil => intro acc; cases acc <;> simp [drawLines]
  | cons i t ih =>
    intro acc
    rw [List.foldl_cons, ih]
    cases acc with
    | none => rfl
    | some d => simp [drawLines]

theorem polygonBounds_flat (pts : List TFT_Point) (n y0 : Nat)
    (h : ∀ i, i < n → (pointAt pts i).y = y0) (hn : 0 < n) :
    polygonBounds pts n = (i16 y0, i16 y0) := by
  unfold polygonBounds
  rw [h 0 hn]
  have key : ∀ k, k + 1 ≤ n → (List.range' 1 k).foldl
      (fun (mm : Int × Int) i =>
        (if ((pointAt pts i).y : Int) < mm.1 then i16 ((pointAt pts i).y : Int) else mm.1,
          if ((pointAt pts i).y : Int) > mm.2 then i16 ((pointAt pts i).y : Int) else mm.2))
      (i16 y0, i16 y0) = (i16 y0, i16 y0) := by
    intro k
    induction k with
    | zero => intro _; rfl
    | succ k ih =>
      intro hk
      rw [List.range'_concat, List.foldl_append, ih (by omega)]
      simp only [List.foldl_cons, List.foldl_nil, Nat.one_mul, h (1 + k) (by omega)]
      simp
  exact key (n - 1) (by omega)

/-- C25: `TFT_Draw_Polygon` returns at once, nothing drawn, for a `NULL`
vertex array or fewer than 3 vertices; for `N >= 3` it draws with
`TFT_Draw_Line` exactly the `N` sides, in order: vertex `i` to vertex `i + 1`
for `i = 0 .. N - 2`, then vertex `N - 1` to vertex 0.  `TFT_Fill_Polygon`
returns at once for a `NULL` array, for fewer than 3 vertices and when all
`N` vertices have the same y. -/
theorem C25_polygon_outline (d : Dev) (pts : List TFT_Point) (N c : Nat) :
    TFT_Draw_Polygon d none N c = some d ∧
      (N < 3 → TFT_Draw_Polygon d (some pts) N c = some d) ∧
      (3 ≤ N →
        TFT_Draw_Polygon d (some pts) N c = drawLines c d (polygonSides pts N) ∧
        (polygonSides pts N).length = N ∧
        (∀ i, i < N - 1 →
          (polygonSides pts N)[i]? = some (pointAt pts i, pointAt pts (i + 1))) ∧
        (polygonSides pts N)[N - 1]? = some (pointAt pts (N - 1), pointAt pts 0)) ∧
      TFT_Fill_Polygon d none N c = some d ∧
      (N < 3 → TFT_Fill_Polygon d (some pts) N c = some d) ∧
      (∀ y0, (∀ i, i < N → (pointAt pts i).y = y0) →
        TFT_Fill_Polygon d (some pts) N c = some d) := by
  refine ⟨rfl, fun h => by simp [TFT_Draw_Polygon, h], fun h => ⟨?_, ?_, ?_, ?_⟩, rfl,
    fun h => by simp [TFT_Fill_Polygon, h], fun y0 h => ?_⟩
  · unfold TFT_Draw_Polygon
    simp only [if_neg (show ¬ N < 3 by omega)]
    rw [foldl_lines c (fun i => pointAt pts i) (fun i => pointAt pts (i + 1))]
    unfold polygonSides
    rw [drawLines_append]
    simp only [Option.some_bind, drawLines]
    congr 1
    funext d1
    cases TFT_Draw_Line d1 (pointAt pts (N - 1)).x (pointAt pts (N - 1)).y (pointAt pts 0).x
      (pointAt pts 0).y c <;> rfl
  · simp [polygonSides]; omega
  · intro i hi
    unfold polygonSides
    rw [List.getElem?_append_left (by simpa using hi)]
    simp [hi]
  · unfold polygonSides
    rw [List.getElem?_append_right (by simp)]
    simp
  · by_cases hn : N < 3
    · simp [TFT_Fill_Polygon, hn]
    · unfold TFT_Fill_Polygon
      simp only [if_neg hn, polygonBounds_flat pts N y0 h (by omega)]
      rw [if_pos le_rfl]

/-- C25 on a sample: the outline of the demo triangle is the three lines
(5,1)-(9,4), (9,4)-(2,6), (2,6)-(5,1), in this order. -/
theorem C25_polygon_outline_witness :
    TFT_Draw_Polygon demoDev (some demoTriangle) 3 7 =
        drawLines 7 demoDev (polygonSides demoTriangle 3) ∧
      polygonSides demoTriangle 3 =
        [(⟨5, 1⟩, ⟨9, 4⟩), (⟨9, 4⟩, ⟨2, 6⟩), (⟨2, 6⟩, ⟨5, 1⟩)] :=
  ⟨((C25_polygon_outline demoDev demoTriangle 3 7).2.2.1 (by decide)).1, by decide⟩

/-- C26: `TFT_Fill_Area` with `x_end <= x_start` or `y_end <= y_start`
returns the device as it was: nothing on the lines, the handle and so the
cursor untouched.  Otherwise, on a ready device and with 16-bit end
coordinates, what it writes is exactly one memory write: the window
`(x_start, y_start)`-`(x_end - 1, y_end - 1)` and
`(x_end - x_start) * (y_end - y_start)` words, all equal to `color`. -/
theorem C26_fill_area (d : Dev) (xs ys xe ye c : Nat) :
    ((xe ≤ xs ∨ ye ≤ ys) → TFT_Fill_Area d xs ys xe ye c = d) ∧
      (xs < xe → ys < ye → xe < 65536 → ye < 65536 → c < 65536 → Ready d.htft →
        Ready (TFT_Fill_Area d xs ys xe ye c).htft ∧
        written d (TFT_Fill_Area d xs ys xe ye c) =
          [⟨xs, ys, xe - 1, ye - 1, List.replicate ((xe - xs) * (ye - ys)) c⟩] ∧
        (pixelsOf (written d (TFT_Fill_Area d xs ys xe ye c))).length =
          (xe - xs) * (ye - ys)) := by
  constructor
  · intro h
    unfold TFT_Fill_Area
    rw [if_pos h]
  · intro hx hy hxe hye hc hr
    have he := fill_area_spec d xs ys xe ye c hr hx hy hxe hye
    have hw := written_of_emits he
      (ok_single _ _ _ _ _ (by omega) (by omega) (by omega) (by omega) (replicate_ok _ c hc))
    refine ⟨he.1, hw, ?_⟩
    rw [hw]
    simp [pixelsOf, Burst.pixels]

/-- C26 on a sample: the area (3,4)-(6,6), exclusive, on the demo device: the
window (3,4)-(5,5) and 6 words. -/
theorem C26_fill_area_witness :
    Ready (TFT_Fill_Area demoDev 3 4 6 6 7).htft ∧
      written demoDev (TFT_Fill_Area demoDev 3 4 6 6 7) =
        [⟨3, 4, 6 - 1, 6 - 1, List.replicate ((6 - 3) * (6 - 4)) 7⟩] ∧
      (pixelsOf (written demoDev (TFT_Fill_Area demoDev 3 4 6 6 7))).length =
        (6 - 3) * (6 - 4) :=
  (C26_fill_area demoDev 3 4 6 6 7).2 (by decide) (by decide) (by decide) (by decide)
    (by decide) demoDev_ready

/-! ## Rounded rectangles: the radius clamp -/

theorem quarterLoop_returns (cx cy mask c : Nat) : ∀ (fuel : Nat) (d : Dev) (X Y D : Int),
    -32768 ≤ X → Y < 32768 → (Y - X).toNat < fuel →
    ∃ d1, quarterLoop cx cy mask c fuel d X Y D = some d1 := by
  intro fuel
  induction fuel with
  | zero => intro d X Y D _ _ h; omega
  | succ f ih =>
    intro d X Y D hX hY hf
    rw [quarterLoop]
    by_cases hlt : X < Y
    · simp only [hlt, if_true]
      have ex : i16 (X + 1) = X + 1 := i16_of_small _ (by omega) (by omega)
      have ey : i16 (Y - 1) = Y - 1 := i16_of_small _ (by omega) (by omega)
      rw [ex, ey]
      generalize hpy : (if D < 0 then Y else Y - 1) = py
      have hpy1 : py ≤ Y ∧ Y - 1 ≤ py := by
        rw [← hpy]; split_ifs <;> omega
      exact ih _ (X + 1) py _ (by omega) (by omega) (by omega)
    · simp only [hlt, if_false]
      exact ⟨d, rfl⟩

theorem fillQuarterLoop_returns (cx cy mask c : Nat) : ∀ (fuel : Nat) (d : Dev) (X Y D : Int),
    -32768 ≤ X → Y < 32768 → (Y - X).toNat < fuel →
    ∃ d1, fillQuarterLoop cx cy mask c fuel d X Y D = some d1 := by
  intro fuel
  induction fuel with
  | zero => intro d X Y D _ _ h; omega
  | succ f ih =>
    intro d X Y D hX hY hf
    rw [fillQuarterLoop]
    by_cases hlt : X < Y
    · simp only [hlt, if_true]
      have ex : i16 (X + 1) = X + 1 := i16_of_small _ (by omega) (by omega)
      have ey : i16 (Y - 1) = Y - 1 := i16_of_small _ (by omega) (by omega)
      rw [ex, ey]
      generalize hpy : (if D < 0 then Y else Y - 1) = py
      have hpy1 : py ≤ Y ∧ Y - 1 ≤ py := by
        rw [← hpy]; split_ifs <;> omega
      exact ih _ (X + 1) py _ (by omega) (by omega) (by omega)
    · simp only [hlt, if_false]
      exact ⟨d, rfl⟩

theorem draw_quarter_returns (d : Dev) (cx cy r mask c : Nat) (hr : r < 256) :
    ∃ d1, TFT_Draw_Quarter_Circle d cx cy r mask c = some d1 := by
  unfold TFT_Draw_Quarter_Circle
  obtain ⟨d1, h⟩ := quarterLoop_returns cx cy mask c loopFuel
    (drawPoints d c (quarterAxisPoints cx cy r mask)) 0 r (i16 (3 - 2 * (r : Int)))
    (by omega) (by omega) (by unfold loopFuel; omega)
  exact ⟨TFT_Flush_Buffer d1 1, by simp only [h, Option.map_some']⟩

theorem fill_quarter_returns (d : Dev) (cx cy r mask c : Nat) (hr : r < 256) :
    ∃ d1, TFT_Fill_Quarter_Circle d cx cy r mask c = some d1 := by
  unfold TFT_Fill_Quarter_Circle
  exact fillQuarterLoop_returns cx cy mask c loopFuel _ 0 r _
    (by omega) (by omega) (by unfold loopFuel; omega)

theorem clampRadius_eq (width height radius : Nat) (hr : radius < 256) :
    clampRadius width height radius = min radius (min (width / 2) (height / 2)) := by
  unfold clampRadius
  dsimp only
  split_ifs <;> omega

theorem clampRadius_idem (width height radius : Nat) (hr : radius < 256) :
    clampRadius width height (min radius (min (width / 2) (height / 2))) =
      clampRadius width height radius := by
  rw [clampRadius_eq _ _ _ hr, clampRadius_eq _ _ _ (by omega)]
  omega

/-- C24: for a `uint8_t` radius and a rectangle of positive width and height,
`TFT_Draw_Rounded_Rectangle` and `TFT_Fill_Rounded_Rectangle` return, and
leave the device, event log included, exactly as the same call with the radius
`min(radius, width/2, height/2)` does; with `width == 0` or `height == 0`
both return with the device untouched. -/
theorem C24_rounded_rectangle_clamp (d : Dev) (x y width height radius color : Nat)
    (hr : radius < 256) :
    (0 < width → 0 < height →
      TFT_Draw_Rounded_Rectangle d x y width height radius color =
        TFT_Draw_Rounded_Rectangle d x y width height
          (min radius (min (width / 2) (height / 2))) color ∧
      TFT_Fill_Rounded_Rectangle d x y width height radius color =
        TFT_Fill_Rounded_Rectangle d x y width height
          (min radius (min (width / 2) (height / 2))) color ∧
      (∃ d1, TFT_Draw_Rounded_Rectangle d x y width height radius color = some d1) ∧
      (∃ d2, TFT_Fill_Rounded_Rectangle d x y width height radius color = some d2)) ∧
    (width = 0 ∨ height = 0 →
      TFT_Draw_Rounded_Rectangle d x y width height radius color = some d ∧
      TFT_Fill_Rounded_Rectangle d x y width height radius color = some d) := by
  constructor
  · intro hw hh
    have hc : clampRadius width height radius < 256 := by
      rw [clampRadius_eq _ _ _ hr]; omega
    have hz : ¬ (width = 0 ∨ height = 0) := by omega
    refine ⟨?_, ?_, ?_, ?_⟩
    · unfold TFT_Draw_Rounded_Rectangle
      rw [clampRadius_idem _ _ _ hr]
    · unfold TFT_Fill_Rounded_Rectangle
      rw [clampRadius_idem _ _ _ hr]
    · unfold TFT_Draw_Rounded_Rectangle
      rw [if_neg hz]
      dsimp only
      obtain ⟨d5, h5⟩ := draw_quarter_returns
        (TFT_Draw_Fast_VLine
          (TFT_Draw_Fast_VLine
            (TFT_Draw_Fast_HLine
              (TFT_Draw_Fast_HLine d (u16 ((x : Int) + clampRadius width height radius)) y
                (u16 ((width : Int) - 2 * clampRadius width height radius)) color)
              (u16 ((x : Int) + clampRadius width height radius)) (u16 ((y : Int) + height - 1))
              (u16 ((width : Int) - 2 * clampRadius width height radius)) color)
            x (u16 ((y : Int) + clampRadius width height radius))
            (u16 ((height : Int) - 2 * clampRadius width height radius)) color)
          (u16 ((x : Int) + width - 1)) (u16 ((y : Int) + clampRadius width height radius))
          (u16 ((height : Int) - 2 * clampRadius width height radius)) color)
        (u16 ((x : Int) + clampRadius width height radius))
        (u16 ((y : Int) + clampRadius width height radius))
        (clampRadius width height radius) 8 color hc
      rw [h5, Option.some_bind]
      obtain ⟨d6, h6⟩ := draw_quarter_returns d5
        (u16 ((x : Int) + width - clampRadius width height radius - 1))
        (u16 ((y : Int) + clampRadius width height radius))
        (clampRadius width height radius) 1 color hc
      rw [h6, Option.some_bind]
      obtain ⟨d7, h7⟩ := draw_quarter_returns d6
        (u16 ((x : Int) + width - clampRadius width height radius - 1))
        (u16 ((y : Int) + height - clampRadius width height radius - 1))
        (clampRadius width height radius) 2 color hc
      rw [h7, Option.some_bind]
      exact draw_quarter_returns d7 _ _ _ 4 color hc
    · unfold TFT_Fill_Rounded_Rectangle
      rw [if_neg hz]
      dsimp only
      obtain ⟨d4, h4⟩ := fill_quarter_returns
        (TFT_Fill_Rectangle
          (TFT_Fill_Rectangle
            (TFT_Fill_Rectangle d (u16 ((x : Int) + clampRadius width height radius)) y
              (u16 ((x : Int) + width - clampRadius width height radius - 1))
              (u16 ((y : Int) + height - 1)) color)
            x (u16 ((y : Int) + clampRadius width height radius))
            (u16 ((x : Int) + clampRadius width height radius - 1))
            (u16 ((y : Int) + height - clampRadius width height radius - 1)) color)
          (u16 ((x : Int) + width - clampRadius width height radius))
          (u16 ((y : Int) + clampRadius width height radius))
          (u16 ((x : Int) + width - 1))
          (u16 ((y : Int) + height - clampRadius width height radius - 1)) color)
        (u16 ((x : Int) + clampRadius width height radius))
        (u16 ((y : Int) + clampRadius width height radius))
        (clampRadius width height radius) 8 color hc
      rw [h4, Option.some_bind]
      obtain ⟨d5, h5⟩ := fill_quarter_returns d4
        (u16 ((x : Int) + width - clampRadius width height radius - 1))
        (u16 ((y : Int) + clampRadius width height radius))
        (clampRadius width height radius) 1 color hc
      rw [h5, Option.some_bind]
      obtain ⟨d6, h6⟩ := fill_quarter_returns d5
        (u16 ((x : Int) + width - clampRadius width height radius - 1))
        (u16 ((y : Int) + height - clampRadius width height radius - 1))
        (clampRadius width height radius) 2 color hc
      rw [h6, Option.some_bind]
      exact fill_quarter_returns d6 _ _ _ 4 color hc
  · intro hz
    unfold TFT_Draw_Rounded_Rectangle TFT_Fill_Rounded_Rectangle
    rw [if_pos hz, if_pos hz]
    exact ⟨rfl, rfl⟩

/-- C24 at concrete inputs: an 8 by 6 rectangle at `(10,10)` asked for with
radius 200, which is drawn as with radius 3. -/
theorem C24_rounded_rectangle_clamp_witness :
    (200 : Nat) < 256 ∧ (0 : Nat) < 8 ∧ (0 : Nat) < 6 ∧
      TFT_Draw_Rounded_Rectangle demoDev 10 10 8 6 200 7 =
        TFT_Draw_Rounded_Rectangle demoDev 10 10 8 6 3 7 ∧
      TFT_Fill_Rounded_Rectangle demoDev 10 10 8 6 200 7 =
        TFT_Fill_Rounded_Rectangle demoDev 10 10 8 6 3 7 ∧
      (∃ d1, TFT_Draw_Rounded_Rectangle demoDev 10 10 8 6 200 7 = some d1) ∧
      (∃ d2, TFT_Fill_Rounded_Rectangle demoDev 10 10 8 6 200 7 = some d2) :=
  ⟨by decide, by decide, by decide,
   (C24_rounded_rectangle_clamp demoDev 10 10 8 6 200 7 (by decide)).1 (by decide) (by decide)⟩

/-! ## Quarter circles: several corners in one pass -/

set_option maxRecDepth 100000 in
/-- C28 at the centre `(10,10)` with radius 2: `TFT_Draw_Quarter_Circle` writes
the axis points `(12,10)` and `(10,8)` for mask 1, `(12,10)` and `(10,12)` for
mask 2, and none of them for mask 3, whose pixels are only those of the loop;
`TFT_Fill_Quarter_Circle` makes for mask 3 the writes of mask 1 and those of
mask 2, interleaved. -/
theorem C28_quarter_circle_masks :
    ((TFT_Draw_Quarter_Circle demoDev 10 10 2 1 7).map
          (fun d => pixelsOf (written demoDev d)) =
        some [⟨12, 10, 7⟩, ⟨10, 8, 7⟩, ⟨11, 8, 7⟩, ⟨12, 9, 7⟩, ⟨12, 9, 7⟩, ⟨11, 8, 7⟩] ∧
      (TFT_Draw_Quarter_Circle demoDev 10 10 2 2 7).map
          (fun d => pixelsOf (written demoDev d)) =
        some [⟨12, 10, 7⟩, ⟨10, 12, 7⟩, ⟨12, 11, 7⟩, ⟨11, 12, 7⟩, ⟨11, 12, 7⟩, ⟨12, 11, 7⟩] ∧
      (TFT_Draw_Quarter_Circle demoDev 10 10 2 3 7).map
          (fun d => pixelsOf (written demoDev d)) =
        some [⟨11, 8, 7⟩, ⟨12, 9, 7⟩, ⟨12, 11, 7⟩, ⟨11, 12, 7⟩,
          ⟨12, 9, 7⟩, ⟨11, 8, 7⟩, ⟨11, 12, 7⟩, ⟨12, 11, 7⟩]) ∧
    ((TFT_Fill_Quarter_Circle demoDev 10 10 2 1 7).map (written demoDev) =
        some [⟨10, 8, 10, 10, [7, 7, 7]⟩, ⟨10, 10, 12, 10, [7, 7, 7]⟩,
          ⟨10, 9, 12, 9, [7, 7, 7]⟩, ⟨10, 8, 12, 8, [7, 7, 7]⟩, ⟨10, 8, 11, 8, [7, 7]⟩] ∧
      (TFT_Fill_Quarter_Circle demoDev 10 10 2 2 7).map (written demoDev) =
        some [⟨10, 10, 10, 12, [7, 7, 7]⟩, ⟨10, 10, 12, 10, [7, 7, 7]⟩,
          ⟨10, 11, 12, 11, [7, 7, 7]⟩, ⟨10, 12, 12, 12, [7, 7, 7]⟩,
          ⟨10, 12, 11, 12, [7, 7]⟩] ∧
      (TFT_Fill_Quarter_Circle demoDev 10 10 2 3 7).map (written demoDev) =
        some [⟨10, 8, 10, 10, [7, 7, 7]⟩, ⟨10, 10, 12, 10, [7, 7, 7]⟩,
          ⟨10, 10, 10, 12, [7, 7, 7]⟩, ⟨10, 10, 12, 10, [7, 7, 7]⟩,
          ⟨10, 9, 12, 9, [7, 7, 7]⟩, ⟨10, 11, 12, 11, [7, 7, 7]⟩,
          ⟨10, 8, 12, 8, [7, 7, 7]⟩, ⟨10, 12, 12, 12, [7, 7, 7]⟩,
          ⟨10, 8, 11, 8, [7, 7]⟩, ⟨10, 12, 11, 12, [7, 7]⟩]) := by
  decide

/-! ## Filled triangle: flat sides -/

set_option maxRecDepth 100000 in
/-- C27 at the flat-bottom triangle `(2,0)`, `(0,3)`, `(4,3)`:
`TFT_Fill_Triangle` writes spans on rows 0, 1 and 2 and none on row 3,
whatever `currentY` held at entry; and at the flat-top triangle `(0,0)`,
`(4,0)`, `(2,3)` the rows depend on what `currentY` held: none when it held 99,
rows 2 and 3 when it held 2. -/
theorem C27_fill_triangle_flat_sides :
    (∀ currentY0 : Int,
      (TFT_Fill_Triangle demoDev 2 0 0 3 4 3 7 currentY0).map (written demoDev) =
        some [⟨2, 0, 2, 0, [7]⟩, ⟨2, 1, 2, 1, [7]⟩, ⟨1, 2, 3, 2, [7, 7, 7]⟩]) ∧
      (TFT_Fill_Triangle demoDev 0 0 4 0 2 3 7 99).map (written demoDev) = some [] ∧
      (TFT_Fill_Triangle demoDev 0 0 4 0 2 3 7 2).map (written demoDev) =
        some [⟨0, 2, 3, 2, [7, 7, 7, 7]⟩, ⟨0, 3, 2, 3, [7, 7, 7]⟩] := by
  refine ⟨fun c => ?_, by decide, by decide⟩
  have : TFT_Fill_Triangle demoDev 2 0 0 3 4 3 7 c = TFT_Fill_Triangle demoDev 2 0 0 3 4 3 7 0 := by
    unfold TFT_Fill_Triangle
    simp
  rw [this]
  decide

/-! ## Polygon fill: parity of the crossings -/

/-- Along a path the number of changes of `b` is odd exactly when the two
ends differ. -/
theorem path_flips (b : Nat → Bool) : ∀ k : Nat,
    ((List.range k).filter (fun i => b i != b (i + 1))).length % 2 =
      if b 0 = b k then 0 else 1 := by
  intro k
  induction k with
  | zero => simp
  | succ k ih =>
    rw [List.range_succ, List.filter_append, List.length_append, Nat.add_mod, ih]
    cases h0 : b 0 <;> cases h1 : b k <;> cases h2 : b (k + 1) <;> simp [h1, h2]

/-- Around a cycle the number of changes of `b` is even. -/
theorem cycle_flips (b : Nat → Bool) (n : Nat) :
    ((List.range n).filter (fun i => b i != b ((i + 1) % n))).length % 2 = 0 := by
  cases n with
  | zero => simp
  | succ m =>
    rw [List.range_succ, List.filter_append, List.length_append, Nat.add_mod]
    have e : (List.range m).filter (fun i => b i != b ((i + 1) % (m + 1))) =
        (List.range m).filter (fun i => b i != b (i + 1)) := by
      apply List.filter_congr
      intro i hi
      have : i < m := List.mem_range.mp hi
      rw [Nat.mod_eq_of_lt (by omega)]
    rw [e, path_flips]
    cases h0 : b 0 <;> cases h1 : b m <;> simp [h0, h1]

theorem edgePasses_flip (pts : List TFT_Point) (n : Nat) (y : Int) (i : Nat) :
    edgePasses pts n y i =
      (decide (i16 (pointAt pts i).y ≤ y) != decide (i16 (pointAt pts ((i + 1) % n)).y ≤ y)) := by
  unfold edgePasses
  dsimp only
  generalize i16 (pointAt pts i).y = a
  generalize i16 (pointAt pts ((i + 1) % n)).y = b
  by_cases ha : a ≤ y <;> by_cases hb : b ≤ y <;> simp [ha, hb] <;> omega

theorem polygonEdge_isSome (pts : List TFT_Point) (n : Nat) (y : Int) (i : Nat) :
    (polygonEdge pts n y i).isSome = edgePasses pts n y i := by
  unfold polygonEdge edgePasses
  dsimp only
  split_ifs with h1 h2
  · simp [h1]
  · simp [h1]
  · simp [h1]

theorem length_filterMap_isSome {α β : Type} (f : α → Option β) (l : List α) :
    (l.filterMap f).length = (l.filter fun a => (f a).isSome).length := by
  induction l with
  | nil => rfl
  | cons a t ih =>
    cases h : f a <;> simp [List.filterMap_cons, List.filter_cons, h, ih]

theorem pairsOf_length : ∀ a : List Int, (pairsOf a).length = a.length / 2
  | [] => by simp [pairsOf]
  | [_] => by simp [pairsOf]
  | p :: q :: t => by
    have := pairsOf_length t
    simp only [pairsOf, List.length_cons, this]
    omega

/-- C39: for every vertex array, vertex count and scanline `y`, the number of
edges of the closed vertex cycle that pass the half-open crossing test of
`TFT_Fill_Polygon` is even; the edge loop finds one intersection per passing
edge, so the stored count, which is the count found capped at 128, is even,
and the pairing loop uses every stored intersection: the pairs it draws are
half as many as the entries. -/
theorem C39_polygon_crossings_even (pts : List TFT_Point) (n : Nat) (y : Int) :
    Even ((List.range n).filter (edgePasses pts n y)).length ∧
      (polygonFound pts n y).length = ((List.range n).filter (edgePasses pts n y)).length ∧
      Even (polygonScan pts n y).length ∧
      2 * (pairsOf (polygonSort (polygonScan pts n y))).length =
        (polygonScan pts n y).length := by
  have h1 : ((List.range n).filter (edgePasses pts n y)).length % 2 = 0 := by
    have e : edgePasses pts n y = fun i =>
        ((fun k => decide (i16 (pointAt pts k).y ≤ y)) i !=
          (fun k => decide (i16 (pointAt pts k).y ≤ y)) ((i + 1) % n)) := by
      funext i
      exact edgePasses_flip pts n y i
    rw [e]
    exact cycle_flips _ n
  have h2 : (polygonFound pts n y).length =
      ((List.range n).filter (edgePasses pts n y)).length := by
    unfold polygonFound
    rw [length_filterMap_isSome]
    congr 2
    funext i
    rw [Option.isSome_map', polygonEdge_isSome]
  have h3 : (polygonScan pts n y).length % 2 = 0 := by
    rw [polygonScan_eq]
    change ((polygonFound pts n y).take 128).length % 2 = 0
    rw [List.length_take, h2]
    omega
  refine ⟨Nat.even_iff.mpr h1, h2, Nat.even_iff.mpr h3, ?_⟩
  rw [pairsOf_length, (polygonSort_sorted (polygonScan pts n y)).2.length_eq]
  omega

/-! ## No division by zero -/

theorem i16_sub_ne_zero (a b : Nat) (ha : a < 65536) (hb : b < 65536) (h : a ≠ b) :
    i16 ((a : Int) - b) ≠ 0 := by
  unfold i16
  omega

theorem loopTopChecked_eq (x1 : Nat) (dx1 dy1 dx2 dy2 lastY : Int) (c : Nat)
    (h1 : dy1 ≠ 0) (h2 : dy2 ≠ 0) : ∀ (fuel : Nat) (d : Dev) (y a1 a2 : Int),
    triangleLoopTopChecked x1 dx1 dy1 dx2 dy2 lastY c fuel d y a1 a2 ≠ Outcome.divByZero ∧
      (triangleLoopTopChecked x1 dx1 dy1 dx2 dy2 lastY c fuel d y a1 a2).toOption =
        triangleLoopTop x1 dx1 dy1 dx2 dy2 lastY c fuel d y a1 a2 := by
  intro fuel
  induction fuel with
  | zero =>
    intro d y a1 a2
    exact ⟨by simp [triangleLoopTopChecked], rfl⟩
  | succ f ih =>
    intro d y a1 a2
    rw [triangleLoopTopChecked, triangleLoopTop]
    by_cases hy : y ≤ lastY
    · rw [if_pos hy, if_pos hy, if_neg (by simp [h1, h2])]
      exact ih _ _ _ _
    · rw [if_neg hy, if_neg hy]
      exact ⟨by simp, rfl⟩

theorem loopBottomChecked_eq (x1 x2 : Nat) (dx3 dy3 dx2 dy2 lastY : Int) (c : Nat)
    (h1 : dy3 ≠ 0) (h2 : dy2 ≠ 0) : ∀ (fuel : Nat) (d : Dev) (y a1 a2 : Int),
    triangleLoopBottomChecked x1 x2 dx3 dy3 dx2 dy2 lastY c fuel d y a1 a2 ≠
        Outcome.divByZero ∧
      (triangleLoopBottomChecked x1 x2 dx3 dy3 dx2 dy2 lastY c fuel d y a1 a2).toOption =
        triangleLoopBottom x1 x2 dx3 dy3 dx2 dy2 lastY c fuel d y a1 a2 := by
  intro fuel
  induction fuel with
  | zero =>
    intro d y a1 a2
    exact ⟨by simp [triangleLoopBottomChecked], rfl⟩
  | succ f ih =>
    intro d y a1 a2
    rw [triangleLoopBottomChecked, triangleLoopBottom]
    by_cases hy : y ≤ lastY
    · rw [if_pos hy, if_pos hy, if_neg (by simp [h1, h2])]
      exact ih _ _ _ _
    · rw [if_neg hy, if_neg hy]
      exact ⟨by simp, rfl⟩

theorem fill_triangle_checked (d : Dev) (x1 y1 x2 y2 x3 y3 color : Nat) (currentY0 : Int)
    (h1 : y1 < 65536) (h2 : y2 < 65536) (h3 : y3 < 65536) :
    TFT_Fill_Triangle_Checked d x1 y1 x2 y2 x3 y3 color currentY0 ≠ Outcome.divByZero ∧
      (TFT_Fill_Triangle_Checked d x1 y1 x2 y2 x3 y3 color currentY0).toOption =
        TFT_Fill_Triangle d x1 y1 x2 y2 x3 y3 color currentY0 := by
  unfold TFT_Fill_Triangle_Checked TFT_Fill_Triangle
  dsimp only
  generalize hpy : (if (if y1 > y2 then y2 else y1) > (if (if y1 > y2 then y1 else y2) > y3
    then y3 else (if y1 > y2 then y1 else y2)) then
      (if (if y1 > y2 then y1 else y2) > y3 then y3 else (if y1 > y2 then y1 else y2))
    else (if y1 > y2 then y2 else y1)) = py
  generalize hqy : (if (if y1 > y2 then y2 else y1) > (if (if y1 > y2 then y1 else y2) > y3
    then y3 else (if y1 > y2 then y1 else y2)) then (if y1 > y2 then y2 else y1)
    else (if (if y1 > y2 then y1 else y2) > y3 then y3 else (if y1 > y2 then y1 else y2))) = qy
  generalize hcy : (if (if y1 > y2 then y1 else y2) > y3 then (if y1 > y2 then y1 else y2)
    else y3) = cy
  have bp : py < 65536 := by rw [← hpy]; split_ifs <;> omega
  have bq : qy < 65536 := by rw [← hqy]; split_ifs <;> omega
  have bc : cy < 65536 := by rw [← hcy]; split_ifs <;> omega
  generalize (if (if y1 > y2 then y2 else y1) > (if (if y1 > y2 then y1 else y2) > y3
    then y3 else (if y1 > y2 then y1 else y2)) then
      (if (if y1 > y2 then y1 else y2) > y3 then x3 else (if y1 > y2 then x1 else x2))
    else (if y1 > y2 then x2 else x1)) = px
  generalize (if (if y1 > y2 then y2 else y1) > (if (if y1 > y2 then y1 else y2) > y3
    then y3 else (if y1 > y2 then y1 else y2)) then (if y1 > y2 then x2 else x1)
    else (if (if y1 > y2 then y1 else y2) > y3 then x3 else (if y1 > y2 then x1 else x2))) = qx
  generalize (if (if y1 > y2 then y1 else y2) > y3 then (if y1 > y2 then x1 else x2)
    else x3) = cx
  by_cases hd : py = cy
  · rw [if_pos hd, if_pos hd]
    exact ⟨by simp, rfl⟩
  · rw [if_neg hd, if_neg hd]
    have n2 : i16 ((cy : Int) - py) ≠ 0 := i16_sub_ne_zero cy py bc bp (Ne.symm hd)
    by_cases ht : py = qy
    · simp only [ht, ne_eq, not_true_eq_false, if_false]
      by_cases hb : qy = cy
      · simp [hb, Outcome.toOption]
      · simp only [hb, ne_eq, not_false_eq_true, if_true]
        rw [ht] at n2
        exact loopBottomChecked_eq _ _ _ _ _ _ _ _ (i16_sub_ne_zero cy qy bc bq (Ne.symm hb)) n2
          _ _ _ _ _
    · simp only [ht, ne_eq, not_false_eq_true, if_true]
      obtain ⟨t1, t2⟩ := loopTopChecked_eq px (i16 ((qx : Int) - px)) (i16 ((qy : Int) - py))
        (i16 ((cx : Int) - px)) (i16 ((cy : Int) - py)) (i16 ((qy : Int) - 1)) color
        (i16_sub_ne_zero qy py bq bp (Ne.symm ht)) n2 loopFuel d (i16 py) 0 0
      rw [← t2]
      generalize triangleLoopTopChecked px (i16 ((qx : Int) - px)) (i16 ((qy : Int) - py))
        (i16 ((cx : Int) - px)) (i16 ((cy : Int) - py)) (i16 ((qy : Int) - 1)) color
        loopFuel d (i16 py) 0 0 = o at *
      cases o with
      | divByZero => exact absurd rfl t1
      | noFuel => exact ⟨by simp, rfl⟩
      | done r =>
        obtain ⟨d1, cY, a1, a2⟩ := r
        rw [show (Outcome.done (d1, cY, a1, a2)).toOption = some (d1, cY, a1, a2) from rfl]
        dsimp only
        by_cases hb : qy = cy
        · simp [hb, Outcome.toOption]
        · simp only [hb, ne_eq, not_false_eq_true, if_true]
          exact loopBottomChecked_eq _ _ _ _ _ _ _ _
            (i16_sub_ne_zero cy qy bc bq (Ne.symm hb)) n2 _ _ _ _ _

/-- C40: in the edge loop of `TFT_Fill_Polygon` an edge that passes the
crossing test has `y1 != y2`, so the value stored for it is the one of the
branch for non-horizontal edges, computed with the non-zero divisor `y2 - y1`,
and the branch for horizontal edges is never taken; and in
`TFT_Fill_Triangle`, for 16-bit vertex rows, no division is reached with a
zero divisor: the run with checked divisions never stops at one and gives
the result of `TFT_Fill_Triangle`. -/
theorem C40_no_division_by_zero (d : Dev) (pts : List TFT_Point) (n : Nat) (y : Int) (i : Nat)
    (x1 y1 x2 y2 x3 y3 color : Nat) (currentY0 : Int)
    (h1 : y1 < 65536) (h2 : y2 < 65536) (h3 : y3 < 65536) :
    (∀ x, polygonEdge pts n y i = some x →
        i16 (pointAt pts ((i + 1) % n)).y - i16 (pointAt pts i).y ≠ 0 ∧
        x = i32 (i16 (pointAt pts i).x +
          Int.tdiv (i32 ((y - i16 (pointAt pts i).y) *
              (i16 (pointAt pts ((i + 1) % n)).x - i16 (pointAt pts i).x)))
            (i16 (pointAt pts ((i + 1) % n)).y - i16 (pointAt pts i).y))) ∧
      TFT_Fill_Triangle_Checked d x1 y1 x2 y2 x3 y3 color currentY0 ≠ Outcome.divByZero ∧
      (TFT_Fill_Triangle_Checked d x1 y1 x2 y2 x3 y3 color currentY0).toOption =
        TFT_Fill_Triangle d x1 y1 x2 y2 x3 y3 color currentY0 := by
  refine ⟨?_, fill_triangle_checked d x1 y1 x2 y2 x3 y3 color currentY0 h1 h2 h3⟩
  intro x hx
  unfold polygonEdge at hx
  dsimp only at hx
  generalize i16 (pointAt pts i).y = a at *
  generalize i16 (pointAt pts ((i + 1) % n)).y = b at *
  have hne : a ≠ b := by
    intro hab
    subst hab
    split_ifs at hx with hc
    all_goals omega
  split_ifs at hx with hc
  exact ⟨by omega, (Option.some.inj hx).symm⟩

/-- C40 at concrete inputs: the edge 0 of the demo triangle on the scanline 2,
and a flat-top triangle. -/
theorem C40_no_division_by_zero_witness :
    (∀ x, polygonEdge demoTriangle 3 2 0 = some x →
        i16 (pointAt demoTriangle ((0 + 1) % 3)).y - i16 (pointAt demoTriangle 0).y ≠ 0 ∧
        x = i32 (i16 (pointAt demoTriangle 0).x +
          Int.tdiv (i32 ((2 - i16 (pointAt demoTriangle 0).y) *
              (i16 (pointAt demoTriangle ((0 + 1) % 3)).x - i16 (pointAt demoTriangle 0).x)))
            (i16 (pointAt demoTriangle ((0 + 1) % 3)).y - i16 (pointAt demoTriangle 0).y))) ∧
      TFT_Fill_Triangle_Checked demoDev 0 0 4 0 2 3 7 0 ≠ Outcome.divByZero ∧
      (TFT_Fill_Triangle_Checked demoDev 0 0 4 0 2 3 7 0).toOption =
        TFT_Fill_Triangle demoDev 0 0 4 0 2 3 7 0 :=
  C40_no_division_by_zero demoDev demoTriangle 3 2 0 0 0 4 0 2 3 7 0
    (by decide) (by decide) (by decide)

/-! ## Arcs -/

theorem arcLoop_spec (sample : Nat → TFT_Point) (n c : Nat) (hn : n < 65535) :
    ∀ (fuel : Nat) (d : Dev) (i : Nat), 1 ≤ i → i ≤ n + 1 → n + 1 - i < fuel →
    arcLoop sample n c fuel d i (sample (i - 1)) =
      drawLines c d ((List.range' (i - 1) (n + 1 - i)).map fun k => (sample k, sample (k + 1))) := by
  intro fuel
  induction fuel with
  | zero => intro d i _ _ h; omega
  | succ f ih =>
    intro d i h1 h2 hf
    rw [arcLoop]
    by_cases hi : i ≤ n
    · rw [if_pos hi]
      have e : n + 1 - i = (n + 1 - (i + 1)) + 1 := by omega
      rw [e, List.range'_succ, List.map_cons, drawLines]
      have e1 : i - 1 + 1 = i := by omega
      rw [e1]
      congr 1
      funext d1
      rw [Nat.mod_eq_of_lt (by omega)]
      have := ih d1 (i + 1) (by omega) (by omega) (by omega)
      rw [Nat.add_sub_cancel] at this
      exact this
    · rw [if_neg hi]
      have e : n + 1 - i = 0 := by omega
      rw [e]
      rfl

theorem arc_angles (startAngle endAngle : Nat) :
    arcStart startAngle = startAngle % 360 ∧
      arcEnd startAngle endAngle =
        endAngle % 360 + (if endAngle % 360 < startAngle % 360 then 360 else 0) ∧
      arcStart startAngle < 360 ∧ arcStart startAngle ≤ arcEnd startAngle endAngle ∧
      arcEnd startAngle endAngle < arcStart startAngle + 360 ∧
      arcSegments startAngle endAngle =
        max 1 ((arcEnd startAngle endAngle - arcStart startAngle) / 2) := by
  have hs : startAngle % 360 < 360 := Nat.mod_lt _ (by norm_num)
  have he : endAngle % 360 < 360 := Nat.mod_lt _ (by norm_num)
  have e2 : arcEnd startAngle endAngle =
      endAngle % 360 + (if endAngle % 360 < startAngle % 360 then 360 else 0) := by
    unfold arcEnd arcStart
    split_ifs
    · exact Nat.mod_eq_of_lt (by omega)
    · rfl
  refine ⟨rfl, e2, hs, ?_, ?_, ?_⟩
  · rw [e2]; unfold arcStart; split_ifs <;> omega
  · rw [e2]; unfold arcStart; split_ifs <;> omega
  · have h4 : arcStart startAngle ≤ arcEnd startAngle endAngle := by
      rw [e2]; unfold arcStart; split_ifs <;> omega
    have h5 : arcEnd startAngle endAngle < arcStart startAngle + 360 := by
      rw [e2]; unfold arcStart; split_ifs <;> omega
    unfold arcSegments
    dsimp only
    generalize arcStart startAngle = s at *
    generalize arcEnd startAngle endAngle = e at *
    rw [Int.tdiv_eq_ediv (by omega) (by norm_num)]
    unfold u16
    rcases Nat.lt_or_ge ((e - s) / 2) 1 with h | h
    · rw [Nat.max_eq_left (by omega)]
      split_ifs <;> omega
    · rw [Nat.max_eq_right (by omega)]
      split_ifs <;> omega

/-- C32: `TFT_Draw_Arc` reduces the two angles to `s = startAngle mod 360`
and `e = endAngle mod 360`, adds 360 to `e` exactly when `e < s`, so that
`0 <= s < 360` and `s <= e < s + 360`; the number of segments is
`max(1, (e - s) / 2)`; and after the first point the call draws exactly that
many chords, chord `i` from sample `i` to sample `i + 1`, so that each chord
starts where the one before it ended, and nothing else. -/
theorem C32_arc_segments (d : Dev) (sample : Nat → TFT_Point) (startAngle endAngle color : Nat) :
    arcStart startAngle = startAngle % 360 ∧
      arcEnd startAngle endAngle =
        endAngle % 360 + (if endAngle % 360 < startAngle % 360 then 360 else 0) ∧
      arcStart startAngle < 360 ∧ arcStart startAngle ≤ arcEnd startAngle endAngle ∧
      arcEnd startAngle endAngle < arcStart startAngle + 360 ∧
      arcSegments startAngle endAngle =
        max 1 ((arcEnd startAngle endAngle - arcStart startAngle) / 2) ∧
      TFT_Draw_Arc d sample startAngle endAngle color =
        drawLines color (TFT_Draw_Point d (sample 0).x (sample 0).y color)
          (arcChords sample (arcSegments startAngle endAngle)) ∧
      (arcChords sample (arcSegments startAngle endAngle)).length =
        max 1 ((arcEnd startAngle endAngle - arcStart startAngle) / 2) ∧
      ∀ i, i + 1 < arcSegments startAngle endAngle →
        ∃ p q r, (arcChords sample (arcSegments startAngle endAngle))[i]? = some (p, q) ∧
          (arcChords sample (arcSegments startAngle endAngle))[i + 1]? = some (q, r) := by
  obtain ⟨a1, a2, a3, a4, a5, a6⟩ := arc_angles startAngle endAngle
  refine ⟨a1, a2, a3, a4, a5, a6, ?_, ?_, ?_⟩
  · unfold TFT_Draw_Arc
    dsimp only
    have hn : arcSegments startAngle endAngle < 65535 := by rw [a6]; omega
    have := arcLoop_spec sample (arcSegments startAngle endAngle) color hn loopFuel
      (TFT_Draw_Point d (sample 0).x (sample 0).y color) 1 (le_refl _) (by omega)
      (by unfold loopFuel; omega)
    rw [this]
    unfold arcChords
    rw [List.range_eq_range']
    rfl
  · unfold arcChords
    rw [List.length_map, List.length_range, a6]
  · intro i hi
    refine ⟨sample i, sample (i + 1), sample (i + 2), ?_, ?_⟩
    · unfold arcChords
      rw [List.getElem?_map, List.getElem?_range (by omega)]
      rfl
    · unfold arcChords
      rw [List.getElem?_map, List.getElem?_range (by omega)]
      rfl

/-! ## The staging buffer as a byte stream -/

theorem txChunks_append : ∀ s t : List HwEvent, txChunks (s ++ t) = txChunks s ++ txChunks t
  | [], t => rfl
  | HwEvent.tx bs :: s, t => by simp [txChunks, txChunks_append s t]
  | HwEvent.dma bs :: s, t => by simp [txChunks, txChunks_append s t]
  | HwEvent.DC _ :: s, t => by simp [txChunks, txChunks_append s t]
  | HwEvent.CS _ :: s, t => by simp [txChunks, txChunks_append s t]

/-- On a device without DMA `TFT_SPI_Send` hands the first `len` bytes to the
blocking transmit and leaves the handle as it is. -/
theorem send_blocking (d : Dev) (buf : List Nat) (len wait : Nat)
    (hs : d.htft.spi_handle ≠ none) (hl : len ≠ 0) (hdma : d.htft.is_dma_enabled = 0) :
    TFT_SPI_Send d (some buf) len wait =
      ⟨d.htft, d.bus ++ [HwEvent.DC 1, HwEvent.CS 0, HwEvent.tx (buf.take len), HwEvent.CS 1]⟩ := by
  obtain ⟨h, bus⟩ := d
  cases hsp : h.spi_handle with
  | none => exact absurd hsp hs
  | some sp =>
    simp only at hdma
    simp [TFT_SPI_Send, hsp, hl, TFT_Wait_DMA_Transfer_Complete, TFT_Pin_DC_Set, TFT_Pin_CS_Set,
      TFT_Platform_SPI_Transmit_Blocking, hdma]

theorem streaming_flush (size : Nat) (bus0 : List HwEvent) (d : Dev) (sent : List Nat)
    (w : Nat) (h : Streaming size bus0 d sent) :
    Streaming size bus0 (TFT_Flush_Buffer d w) sent ∧
      (TFT_Flush_Buffer d w).htft.buffer_write_index = 0 := by
  obtain ⟨hs, hdma, hsz, hev, hle, t, buf, hbus, hbuf, hlen, hsent, hch⟩ := h
  unfold TFT_Flush_Buffer
  by_cases h0 : d.htft.buffer_write_index = 0
  · rw [if_pos (Or.inr h0)]
    exact ⟨⟨hs, hdma, hsz, hev, hle, t, buf, hbus, hbuf, hlen, hsent, hch⟩, h0⟩
  · rw [if_neg (by simp [hbuf, h0])]
    dsimp only
    rw [hbuf, send_blocking d buf _ w hs h0 hdma]
    refine ⟨⟨hs, hdma, hsz, by simp, by simp, t ++ [HwEvent.DC 1, HwEvent.CS 0,
      HwEvent.tx (buf.take d.htft.buffer_write_index), HwEvent.CS 1], buf, ?_, hbuf, hlen,
      ?_, ?_⟩, rfl⟩
    · simp [hbus]
    · simp only [txChunks_append, txChunks, List.flatten_append, List.flatten_cons,
        List.flatten_nil, List.append_nil, List.take_zero]
      exact hsent
    · intro c hc
      simp only [txChunks_append, txChunks, List.mem_append, List.mem_singleton] at hc
      rcases hc with hc | hc
      · exact hch c hc
      · subst hc
        have : (buf.take d.htft.buffer_write_index).length = d.htft.buffer_write_index := by
          rw [List.length_take]; omega
        refine ⟨by omega, by omega, ?_⟩
        intro hnil
        rw [hnil] at this
        simp at this
        omega

theorem streaming_write16 (size : Nat) (bus0 : List HwEvent) (d : Dev) (sent : List Nat)
    (v : Nat) (h2 : 2 ≤ size) (h16 : size < 65536) (h : Streaming size bus0 d sent) :
    Streaming size bus0 (TFT_Buffer_Write16 d v) (sent ++ be16 v) := by
  have key : ∀ d1 : Dev, Streaming size bus0 d1 sent → d1.htft.buffer_write_index + 2 ≤ size →
      Streaming size bus0
        ⟨bufferStore (bufferStore d1.htft (v / 256 % 256)) (v % 256), d1.bus⟩
        (sent ++ be16 v) := by
    intro d1 h1 hroom
    obtain ⟨hs, hdma, hsz, hev, hle, t, buf, hbus, hbuf, hlen, hsent, hch⟩ := h1
    rw [store_two d1.htft buf _ _ hbuf (by omega)]
    refine ⟨hs, hdma, hsz, ?_, ?_, t, _, hbus, rfl, by simp [hlen], ?_, hch⟩
    · show (d1.htft.buffer_write_index + 2) % 2 = 0
      omega
    · show d1.htft.buffer_write_index + 2 ≤ size
      exact hroom
    · show (txChunks t).flatten ++
        ((buf.set d1.htft.buffer_write_index (v / 256 % 256)).set
          (d1.htft.buffer_write_index + 1) (v % 256)).take (d1.htft.buffer_write_index + 2) =
        sent ++ be16 v
      rw [take_set_two _ _ _ _ (by omega), ← List.append_assoc, hsent]
      rfl
  have hbuf : d.htft.tx_buffer ≠ none := by
    obtain ⟨_, _, _, _, _, t, buf, _, hb, _⟩ := h
    rw [hb]; simp
  unfold TFT_Buffer_Write16
  rw [if_neg hbuf]
  dsimp only
  by_cases hf : (d.htft.buffer_write_index : Int) ≥ (d.htft.buffer_size : Int) - 1
  · rw [if_pos hf]
    obtain ⟨f1, f2⟩ := streaming_flush size bus0 d sent 0 h
    exact key _ f1 (by omega)
  · rw [if_neg hf]
    have hsz := h.2.2.1
    have hev := h.2.2.2.1
    exact key d h (by omega)

theorem streaming_words (size : Nat) (bus0 : List HwEvent) (h2 : 2 ≤ size) (h16 : size < 65536) :
    ∀ (ws : List Nat) (d : Dev) (sent : List Nat), Streaming size bus0 d sent →
      Streaming size bus0 (ws.foldl TFT_Buffer_Write16 d) (sent ++ ws.flatMap be16)
  | [], d, sent, h => by simpa using h
  | w :: ws, d, sent, h => by
    have := streaming_words size bus0 h2 h16 ws _ _ (streaming_write16 size bus0 d sent w h2 h16 h)
    simpa [List.flatMap_cons, List.append_assoc] using this

/-- C33: on a device without DMA whose transport is bound and whose staging
buffer of `buffer_size >= 2` bytes is empty, writing the words `ws` one by one
with `TFT_Buffer_Write16` and then calling `TFT_Flush_Buffer(htft, 1)` hands
to the transport chunks whose concatenation is exactly the bytes
`hi(w1), lo(w1), ..., hi(wn), lo(wn)`; every chunk is non-empty, of even
length and no longer than the buffer; and the cursor is 0 at the end. -/
theorem C33_buffered_stream (d : Dev) (buf : List Nat) (ws : List Nat)
    (hs : d.htft.spi_handle ≠ none) (hb : d.htft.tx_buffer = some buf)
    (hl : buf.length = d.htft.buffer_size) (h2 : 2 ≤ d.htft.buffer_size)
    (h16 : d.htft.buffer_size < 65536) (h0 : d.htft.buffer_write_index = 0)
    (hdma : d.htft.is_dma_enabled = 0) :
    (txChunks (busSince d (TFT_Flush_Buffer (ws.foldl TFT_Buffer_Write16 d) 1))).flatten =
        ws.flatMap be16 ∧
      (∀ c ∈ txChunks (busSince d (TFT_Flush_Buffer (ws.foldl TFT_Buffer_Write16 d) 1)),
        c ≠ [] ∧ c.length % 2 = 0 ∧ c.length ≤ d.htft.buffer_size) ∧
      (TFT_Flush_Buffer (ws.foldl TFT_Buffer_Write16 d) 1).htft.buffer_write_index = 0 := by
  have start : Streaming d.htft.buffer_size d.bus d [] :=
    ⟨hs, hdma, rfl, by omega, by omega, [], buf, by simp, hb, hl, by simp [h0, txChunks],
      by simp [txChunks]⟩
  have run := streaming_words d.htft.buffer_size d.bus h2 h16 ws d [] start
  obtain ⟨⟨_, _, _, _, _, t, buf1, hbus, _, _, hsent, hch⟩, hz⟩ :=
    streaming_flush _ _ _ _ 1 run
  have hsince : busSince d (TFT_Flush_Buffer (ws.foldl TFT_Buffer_Write16 d) 1) = t := by
    unfold busSince
    rw [hbus, List.drop_left]
  rw [hsince]
  rw [hz] at hsent
  refine ⟨by simpa using hsent, fun c hc => ?_, hz⟩
  obtain ⟨c1, c2, c3⟩ := hch c hc
  exact ⟨c3, c1, c2⟩

/-- C33 at a concrete input: five words through a 4-byte buffer go out as the
chunks of 4, 4 and 2 bytes. -/
theorem C33_buffered_stream_witness :
    (txChunks (busSince
        ⟨⟨some 0, some [0, 0, 0, 0], 4, 0, 0, 0, 0, 0, 0⟩, []⟩
        (TFT_Flush_Buffer ([0x1122, 0x3344, 0x5566, 0x7788, 0x99AA].foldl TFT_Buffer_Write16
          ⟨⟨some 0, some [0, 0, 0, 0], 4, 0, 0, 0, 0, 0, 0⟩, []⟩) 1))).flatten =
        [0x1122, 0x3344, 0x5566, 0x7788, 0x99AA].flatMap be16 ∧
      txChunks (busSince
        ⟨⟨some 0, some [0, 0, 0, 0], 4, 0, 0, 0, 0, 0, 0⟩, []⟩
        (TFT_Flush_Buffer ([0x1122, 0x3344, 0x5566, 0x7788, 0x99AA].foldl TFT_Buffer_Write16
          ⟨⟨some 0, some [0, 0, 0, 0], 4, 0, 0, 0, 0, 0, 0⟩, []⟩) 1)) =
        [[0x11, 0x22, 0x33, 0x44], [0x55, 0x66, 0x77, 0x88], [0x99, 0xAA]] :=
  ⟨(C33_buffered_stream ⟨⟨some 0, some [0, 0, 0, 0], 4, 0, 0, 0, 0, 0, 0⟩, []⟩ [0, 0, 0, 0]
      [0x1122, 0x3344, 0x5566, 0x7788, 0x99AA] (by decide) rfl rfl (by decide) (by decide) rfl
      rfl).1, by decide⟩

/-! ## Blocks of offsets: their pixels -/

theorem block_pixels (x0 y0 c : Nat) (k : Block) (R : Int) (hk : k.within R)
    (hx : R ≤ x0) (hx1 : x0 + R < 65536) (hy : R ≤ y0) (hy1 : y0 + R < 65536) (p : Pixel) :
    p ∈ (blockBurst x0 y0 c k).pixels ↔ ∃ a b, k.has a b ∧ p = offsetPixel x0 y0 c a b := by
  obtain ⟨a0, a1, b0, b1⟩ := k
  obtain ⟨k1, k2, k3, k4, k5, k6⟩ := hk
  dsimp only at k1 k2 k3 k4 k5 k6
  obtain ⟨X0, hX0⟩ := Int.eq_ofNat_of_zero_le (show 0 ≤ (x0 : Int) + a0 by omega)
  obtain ⟨Y0, hY0⟩ := Int.eq_ofNat_of_zero_le (show 0 ≤ (y0 : Int) + b0 by omega)
  obtain ⟨W, hW⟩ := Int.eq_ofNat_of_zero_le (show 0 ≤ a1 - a0 by omega)
  obtain ⟨H, hH⟩ := Int.eq_ofNat_of_zero_le (show 0 ≤ b1 - b0 by omega)
  have e1 : u16 ((x0 : Int) + a0) = X0 := by
    have := u16_of_nonneg ((x0 : Int) + a0) (by omega) (by omega); omega
  have e2 : u16 ((y0 : Int) + b0) = Y0 := by
    have := u16_of_nonneg ((y0 : Int) + b0) (by omega) (by omega); omega
  have e3 : u16 ((x0 : Int) + a1) = X0 + W := by
    have := u16_of_nonneg ((x0 : Int) + a1) (by omega) (by omega); omega
  have e4 : u16 ((y0 : Int) + b1) = Y0 + H := by
    have := u16_of_nonneg ((y0 : Int) + b1) (by omega) (by omega); omega
  have e5 : (a1 - a0 + 1).toNat = W + 1 := by omega
  have e6 : (b1 - b0 + 1).toNat = H + 1 := by omega
  unfold blockBurst Block.has offsetPixel
  dsimp only
  rw [e1, e2, e3, e4, e5, e6, pixels_replicate, List.mem_map]
  have w1 : X0 + W + 1 - X0 = W + 1 := by omega
  have w2 : Y0 + H + 1 - Y0 = H + 1 := by omega
  rw [w1, w2]
  constructor
  · rintro ⟨i, hi, rfl⟩
    have hi' : i < (W + 1) * (H + 1) := List.mem_range.mp hi
    have hq : i / (W + 1) < H + 1 := Nat.div_lt_of_lt_mul hi'
    have hm : i % (W + 1) < W + 1 := Nat.mod_lt _ (by omega)
    rw [Nat.mod_eq_of_lt hq]
    generalize i / (W + 1) = q at hq ⊢
    generalize i % (W + 1) = m at hm ⊢
    refine ⟨a0 + (m : Nat), b0 + (q : Nat), ⟨by omega, by omega, by omega, by omega⟩, ?_⟩
    have f1 : u16 ((x0 : Int) + (a0 + (m : Nat))) = X0 + m := by
      have := u16_of_nonneg ((x0 : Int) + (a0 + (m : Nat))) (by omega) (by omega)
      omega
    have f2 : u16 ((y0 : Int) + (b0 + (q : Nat))) = Y0 + q := by
      have := u16_of_nonneg ((y0 : Int) + (b0 + (q : Nat))) (by omega) (by omega)
      omega
    rw [f1, f2]
  · rintro ⟨a, b, ⟨h1, h2, h3, h4⟩, rfl⟩
    obtain ⟨u, hu⟩ := Int.eq_ofNat_of_zero_le (show 0 ≤ a - a0 by omega)
    obtain ⟨v, hv⟩ := Int.eq_ofNat_of_zero_le (show 0 ≤ b - b0 by omega)
    have hu1 : u < W + 1 := by omega
    have hv1 : v < H + 1 := by omega
    refine ⟨v * (W + 1) + u, List.mem_range.mpr ?_, ?_⟩
    · calc v * (W + 1) + u < v * (W + 1) + (W + 1) := by omega
        _ = (v + 1) * (W + 1) := by ring
        _ ≤ (H + 1) * (W + 1) := Nat.mul_le_mul_right _ (by omega)
        _ = (W + 1) * (H + 1) := Nat.mul_comm _ _
    · have g1 : (v * (W + 1) + u) % (W + 1) = u := by
        rw [Nat.add_comm, Nat.add_mul_mod_self_right, Nat.mod_eq_of_lt hu1]
      have g2 : (v * (W + 1) + u) / (W + 1) = v := by
        rw [Nat.add_comm, Nat.add_mul_div_right _ _ (by omega), Nat.div_eq_of_lt hu1,
          Nat.zero_add]
      have f1 : u16 ((x0 : Int) + a) = X0 + u := by
        have := u16_of_nonneg ((x0 : Int) + a) (by omega) (by omega); omega
      have f2 : u16 ((y0 : Int) + b) = Y0 + v := by
        have := u16_of_nonneg ((y0 : Int) + b) (by omega) (by omega); omega
      rw [g1, g2, Nat.mod_eq_of_lt hv1, f1, f2]

theorem blocks_pixels (x0 y0 c : Nat) (R : Int) (hx : R ≤ x0) (hx1 : x0 + R < 65536)
    (hy : R ≤ y0) (hy1 : y0 + R < 65536) (ks : List Block) (hk : ∀ k ∈ ks, k.within R)
    (p : Pixel) :
    p ∈ pixelsOf (ks.map (blockBurst x0 y0 c)) ↔
      ∃ k ∈ ks, ∃ a b, k.has a b ∧ p = offsetPixel x0 y0 c a b := by
  unfold pixelsOf
  rw [List.mem_flatMap]
  constructor
  · rintro ⟨b, hb, hp⟩
    obtain ⟨k, hkm, rfl⟩ := List.mem_map.mp hb
    exact ⟨k, hkm, (block_pixels x0 y0 c k R (hk k hkm) hx hx1 hy hy1 p).mp hp⟩
  · rintro ⟨k, hkm, h⟩
    exact ⟨_, List.mem_map_of_mem _ hkm,
      (block_pixels x0 y0 c k R (hk k hkm) hx hx1 hy hy1 p).mpr h⟩

theorem blockBurst_ok (x0 y0 c : Nat) (hc : c < 65536) (ks : List Block) :
    ∀ b ∈ ks.map (blockBurst x0 y0 c), b.ok := by
  intro b hb
  obtain ⟨k, _, rfl⟩ := List.mem_map.mp hb
  exact ⟨u16_lt _, u16_lt _, u16_lt _, u16_lt _, replicate_ok _ c hc⟩

/-- The memory write of a span is that of its block when no coordinate wraps. -/
theorem spanOf_block (x0 y0 c : Nat) (R : Int) (hx : R ≤ x0) (hx1 : x0 + R < 65536)
    (f : Int × Int) (h0 : 0 ≤ f.2) (h1 : f.2 ≤ R) :
    spanOf x0 y0 c f = blockBurst x0 y0 c (spanBlock f) := by
  obtain ⟨row, hw⟩ := f
  dsimp only at h0 h1
  unfold spanOf spanBurst blockBurst spanBlock
  dsimp only
  have e1 := u16_of_nonneg ((x0 : Int) - hw) (by omega) (by omega)
  have e2 := u16_of_nonneg (2 * hw + 1) (by omega) (by omega)
  have e3 := u16_of_nonneg ((x0 : Int) + hw) (by omega) (by omega)
  have e4 : (x0 : Int) + -hw = x0 - hw := by ring
  have e5 : (hw - -hw + 1).toNat * (row - row + 1).toNat = u16 (2 * hw + 1) := by
    have : (row - row + 1).toNat = 1 := by simp
    rw [this, Nat.mul_one]
    omega
  rw [e4, e5]
  congr 1
  omega

/-! ## Filled circle: distance from the centre -/

/-- The squared norm `plotX^2 + plotY^2 - r^2` just before `plotY` is
decremented: the end of the narrow span of a pass lies at most `3r - 1` above
the circle. -/
theorem circleSteps_narrow (r : Int) (hr1 : 1 ≤ r) (hr : r < 256) :
    ∀ (fuel : Nat) (X Y D N : Int), 0 ≤ X → X ≤ Y + 1 → Y ≤ r →
      N = X * X + Y * Y - r * r → D = 2 * N + 8 * X - 6 * Y + 3 + 4 * r →
      -3 * r + 3 ≤ N → N ≤ r →
      ∀ s ∈ circleSteps fuel X Y D, s.x * s.x + s.yOld * s.yOld - r * r ≤ 3 * r - 1 := by
  intro fuel
  induction fuel with
  | zero => intro X Y D N _ _ _ _ _ _ _ s hs; simp [circleSteps] at hs
  | succ f ih =>
    intro X Y D N hX hXY hY hN hD hl hu s hs
    rw [circleSteps] at hs
    by_cases hlt : X < Y
    · simp only [hlt, if_true] at hs
      have ex : i16 (X + 1) = X + 1 := i16_of_small _ (by omega) (by omega)
      have ey : i16 (Y - 1) = Y - 1 := i16_of_small _ (by omega) (by omega)
      rw [ex, ey] at hs
      have hN0 : N + 2 * X + 1 = (X + 1) * (X + 1) + Y * Y - r * r := by rw [hN]; ring
      by_cases hneg : D < 0
      · simp only [hneg, if_true, not_true_eq_false, decide_False] at hs
        have ed : i16 (D + ((X + 1) * 4 + 6)) = D + ((X + 1) * 4 + 6) :=
          i16_of_small _ (by omega) (by omega)
        rw [ed] at hs
        rcases List.mem_cons.mp hs with h | h
        · subst h
          dsimp only
          rw [← hN0]
          omega
        · exact ih (X + 1) Y _ (N + 2 * X + 1) (by omega) (by omega) hY hN0 (by omega)
            (by omega) (by omega) s h
      · simp only [hneg, if_false, not_false_eq_true, decide_True] at hs
        have hN1 : N + 2 * X - 2 * Y + 2 = (X + 1) * (X + 1) + (Y - 1) * (Y - 1) - r * r := by
          rw [hN]; ring
        have ed : i16 (D + ((X + 1 - (Y - 1)) * 4 + 10)) = D + ((X + 1 - (Y - 1)) * 4 + 10) :=
          i16_of_small _ (by omega) (by omega)
        rw [ed] at hs
        rcases List.mem_cons.mp hs with h | h
        · subst h
          dsimp only
          rw [← hN0]
          omega
        · exact ih (X + 1) (Y - 1) _ (N + 2 * X - 2 * Y + 2) (by omega) (by omega) (by omega)
            hN1 (by omega) (by omega) (by omega) s h
    · simp [hlt] at hs

theorem fillCircleSpans_bound (r : Nat) (hr1 : 1 ≤ r) (hr : r < 256) :
    ∀ f ∈ fillCircleSpans r,
      4 * (f.2 * f.2 + f.1 * f.1) < (2 * (r : Int) + 3) * (2 * (r : Int) + 3) := by
  intro f hf
  unfold fillCircleSpans at hf
  rcases List.mem_cons.mp hf with h | h
  · subst h
    dsimp only
    nlinarith
  · obtain ⟨s, hs, hfs⟩ := List.mem_flatMap.mp h
    have ed : i16 (3 - 2 * (r : Int)) = 3 - 2 * (r : Int) :=
      i16_of_small _ (by omega) (by omega)
    rw [ed] at hs
    have b1 := circleSteps_norm r (by omega) (by omega) loopFuel 0 r _ 0
      (by norm_num) (by omega) le_rfl (by ring) (by ring) (by omega) (by omega) s hs
    have b2 := circleSteps_narrow r (by omega) (by omega) loopFuel 0 r _ 0
      (by norm_num) (by omega) le_rfl (by ring) (by ring) (by omega) (by omega) s hs
    unfold stepSpans at hfs
    rcases List.mem_append.mp hfs with h1 | h1
    · split_ifs at h1
      · simp only [List.mem_cons, List.mem_singleton, List.not_mem_nil, or_false] at h1
        rcases h1 with rfl | rfl <;> dsimp only <;> nlinarith
      · simp at h1
    · simp only [List.mem_cons, List.mem_singleton, List.not_mem_nil, or_false] at h1
      rcases h1 with rfl | rfl <;> dsimp only <;> nlinarith

/-- C35: for every radius `r` in 1..255 and every centre at least `r` away
from both ends of the 16-bit coordinate range, `TFT_Fill_Circle` returns and
every pixel `(x,y)` it writes on a ready device has
`4*((x-x0)^2+(y-y0)^2) < (2r+3)^2`, so that its distance from the centre,
rounded to the nearest integer, is at most `r+1`. -/
theorem C35_fill_circle_within (d : Dev) (x0 y0 r color : Nat) (hr : Ready d.htft)
    (hr1 : 1 ≤ r) (hr8 : r < 256) (hx : r ≤ x0) (hx1 : x0 + r < 65536) (hy : r ≤ y0)
    (hy1 : y0 + r < 65536) (hc : color < 65536) :
    ∃ d1, TFT_Fill_Circle d x0 y0 r color = some d1 ∧
      ∀ p ∈ pixelsOf (written d d1),
        4 * sqDist x0 y0 p < (2 * r + 3) ^ 2 ∧ roundSqrt (sqDist x0 y0 p) ≤ r + 1 := by
  obtain ⟨d1, hf, he⟩ := fill_circle_spec d x0 y0 r color hr (by omega) hr1 hr8
  refine ⟨d1, hf, ?_⟩
  have hrange := fillCircleSpans_range r hr8
  have eb : (fillCircleSpans r).map (spanOf x0 y0 color) =
      ((fillCircleSpans r).map spanBlock).map (blockBurst x0 y0 color) := by
    rw [List.map_map]
    apply List.map_congr_left
    intro f hfm
    obtain ⟨g0, g1, _, _⟩ := hrange f hfm
    exact spanOf_block x0 y0 color r (by omega) (by omega) f g0 g1
  rw [written_of_emits he (spanOf_ok x0 y0 color hc _), eb]
  intro p hp
  have hw : ∀ k ∈ (fillCircleSpans r).map spanBlock, k.within r := by
    intro k hk
    obtain ⟨f, hfm, rfl⟩ := List.mem_map.mp hk
    obtain ⟨g0, g1, g2, g3⟩ := hrange f hfm
    exact ⟨by simp only [spanBlock]; omega, by simp only [spanBlock]; omega, g1, g2, le_refl _, g3⟩
  obtain ⟨k, hk, a, b, ⟨h1, h2, h3, h4⟩, rfl⟩ :=
    (blocks_pixels x0 y0 color r (by omega) (by omega) (by omega) (by omega) _ hw p).mp hp
  obtain ⟨f, hfm, rfl⟩ := List.mem_map.mp hk
  obtain ⟨g0, g1, g2, g3⟩ := hrange f hfm
  simp only [spanBlock] at h1 h2 h3 h4
  have hb := fillCircleSpans_bound r hr1 hr8 f hfm
  have e := sqDist_offset x0 y0 color (a, b) (by dsimp only; omega) (by dsimp only; omega)
    (by dsimp only; omega) (by dsimp only; omega)
  dsimp only at e
  have hab : a * a + b * b ≤ f.2 * f.2 + f.1 * f.1 := by
    have : b = f.1 := by omega
    subst this
    nlinarith
  have u : 4 * sqDist x0 y0 (offsetPixel x0 y0 color a b) < (2 * r + 3) * (2 * r + 3) := by
    have : (4 * (sqDist x0 y0 (offsetPixel x0 y0 color a b) : Int)) <
        (2 * (r : Int) + 3) * (2 * (r : Int) + 3) := by
      unfold offsetPixel
      rw [e]
      omega
    exact_mod_cast this
  refine ⟨by rw [sq]; exact u, ?_⟩
  unfold roundSqrt
  have h1 : Nat.sqrt (4 * sqDist x0 y0 (offsetPixel x0 y0 color a b)) < 2 * r + 3 :=
    Nat.sqrt_lt.mpr u
  omega

/-- C35 at a concrete input: the filled circle of radius 3 around `(50,60)`. -/
theorem C35_fill_circle_within_witness :
    Ready demoDev.htft ∧
      ∃ d1, TFT_Fill_Circle demoDev 50 60 3 7 = some d1 ∧
        ∀ p ∈ pixelsOf (written demoDev d1),
          4 * sqDist 50 60 p < (2 * 3 + 3) ^ 2 ∧ roundSqrt (sqDist 50 60 p) ≤ 3 + 1 :=
  ⟨demoDev_ready,
   C35_fill_circle_within demoDev 50 60 3 7 demoDev_ready (by decide) (by decide) (by decide)
     (by decide) (by decide) (by decide) (by decide)⟩

/-! ## Quarter circles: what the fill writes -/

theorem drawFastLines_spec (c : Nat) : ∀ (ls : List LineCall) (d : Dev), Ready d.htft →
    (∀ l ∈ ls, l.size ≠ 0) → Emits d (drawFastLines d c ls) (ls.map (lineBurst c))
  | [], d, hr, _ => by simpa [drawFastLines] using emits_refl d hr
  | l :: t, d, hr, hs => by
    have hl := hs l (by simp)
    have ht : ∀ l ∈ t, l.size ≠ 0 := fun l' h' => hs l' (by simp [h'])
    cases l with
    | h x y w =>
      have a := hline_spec d x y w c hr hl
      have b := drawFastLines_spec c t _ a.1 ht
      simpa [drawFastLines, lineBurst] using emits_trans a b
    | v x y h =>
      have a := vline_spec d x y h c hr hl
      have b := drawFastLines_spec c t _ a.1 ht
      simpa [drawFastLines, lineBurst] using emits_trans a b

theorem drawFastLines_append (c : Nat) (l1 l2 : List LineCall) (d : Dev) :
    drawFastLines (drawFastLines d c l1) c l2 = drawFastLines d c (l1 ++ l2) := by
  unfold drawFastLines
  rw [List.foldl_append]

theorem quarterSpans_size (cx cy mask : Nat) (offX offY : Int) (h0 : 0 ≤ offX)
    (h1 : offX < 65535) : ∀ l ∈ quarterSpans cx cy mask offX offY, l.size ≠ 0 := by
  intro l hl
  have hw : u16 (offX + 1) ≠ 0 := by unfold u16; omega
  unfold quarterSpans at hl
  simp only [List.mem_append] at hl
  rcases hl with ((hl | hl) | hl) | hl <;>
    (split_ifs at hl
     · rw [List.mem_singleton.mp hl]; exact hw
     · simp at hl)

theorem fillQuarterLoop_spec (cx cy mask c : Nat) : ∀ (fuel : Nat) (d : Dev) (X Y D : Int),
    Ready d.htft → 0 ≤ X → Y < 32768 → (Y - X).toNat < fuel →
    ∃ d1, fillQuarterLoop cx cy mask c fuel d X Y D = some d1 ∧
      Emits d d1 ((circleSteps fuel X Y D).flatMap
        (fun s => (quarterStepLines cx cy mask s).map (lineBurst c))) := by
  intro fuel
  induction fuel with
  | zero => intro d X Y D _ _ _ h; omega
  | succ f ih =>
    intro d X Y D hr hX hY hf
    rw [fillQuarterLoop, circleSteps]
    by_cases hlt : X < Y
    · simp only [hlt, if_true]
      have ex : i16 (X + 1) = X + 1 := i16_of_small _ (by omega) (by omega)
      have ey : i16 (Y - 1) = Y - 1 := i16_of_small _ (by omega) (by omega)
      rw [ex, ey]
      generalize hpy : (if D < 0 then Y else Y - 1) = py
      have hpy1 : py ≤ Y ∧ Y - 1 ≤ py := by
        rw [← hpy]; split_ifs <;> omega
      have hn : Emits d
          (if D < 0 then d else drawFastLines d c (quarterSpans cx cy mask (X + 1) Y))
          ((if decide (¬ D < 0) then quarterSpans cx cy mask (X + 1) Y else []).map
            (lineBurst c)) := by
        by_cases hD : D < 0
        · simp only [hD, if_true, not_true_eq_false, decide_False, Bool.false_eq_true, if_false,
            List.map_nil]
          exact emits_refl d hr
        · simp only [hD, if_false, not_false_eq_true, decide_True, if_true]
          exact drawFastLines_spec c _ d hr
            (quarterSpans_size cx cy mask (X + 1) Y (by omega) (by omega))
      generalize (if D < 0 then d else drawFastLines d c (quarterSpans cx cy mask (X + 1) Y)) =
        d2 at *
      have hw := drawFastLines_spec c (quarterSpans cx cy mask py (X + 1)) d2 hn.1
        (quarterSpans_size cx cy mask py (X + 1) (by omega) (by omega))
      obtain ⟨d1, hl, he⟩ := ih _ (X + 1) py
        (if D < 0 then i16 (D + ((X + 1) * 4 + 6)) else i16 (D + ((X + 1 - py) * 4 + 10)))
        hw.1 (by omega) (by omega) (by omega)
      refine ⟨d1, hl, ?_⟩
      rw [List.flatMap_cons]
      have := emits_trans (emits_trans hn hw) he
      simpa [quarterStepLines, List.append_assoc] using this
    · simp only [hlt, if_false]
      exact ⟨d, rfl, by simpa using emits_refl d hr⟩

theorem quarterAxisLines_size (cx cy r mask : Nat) (hr : r < 65535) :
    ∀ l ∈ quarterAxisLines cx cy r mask, l.size ≠ 0 := by
  intro l hl
  have hw : u16 ((r : Int) + 1) ≠ 0 := by unfold u16; omega
  unfold quarterAxisLines at hl
  simp only [List.mem_append] at hl
  rcases hl with ((hl | hl) | hl) | hl <;>
    (split_ifs at hl
     · simp only [List.mem_cons, List.mem_singleton, List.not_mem_nil, or_false] at hl
       rcases hl with rfl | rfl <;> exact hw
     · simp at hl)

theorem fill_quarter_spec (d : Dev) (cx cy r mask c : Nat) (hr : Ready d.htft) (hr8 : r < 256) :
    ∃ d1, TFT_Fill_Quarter_Circle d cx cy r mask c = some d1 ∧
      Emits d d1 ((quarterAxisLines cx cy r mask ++
        (circleSteps loopFuel 0 r (i16 (3 - 2 * (r : Int)))).flatMap
          (quarterStepLines cx cy mask)).map (lineBurst c)) := by
  unfold TFT_Fill_Quarter_Circle
  have a := drawFastLines_spec c (quarterAxisLines cx cy r mask) d hr
    (quarterAxisLines_size cx cy r mask (by omega))
  obtain ⟨d1, hl, he⟩ := fillQuarterLoop_spec cx cy mask c loopFuel _ 0 r
    (i16 (3 - 2 * (r : Int))) a.1 (le_refl _) (by omega) (by unfold loopFuel; omega)
  refine ⟨d1, hl, ?_⟩
  rw [List.map_append, List.map_flatMap]
  exact emits_trans a he

theorem hline_block (cx cy c : Nat) (R : Int) (hx : R ≤ cx) (hx1 : cx + R < 65536)
    (a0 a1 b : Int) (h0 : -R ≤ a0) (h1 : a0 ≤ a1) (h2 : a1 ≤ R) (x y w : Nat)
    (ex : x = u16 (cx + a0)) (ey : y = u16 (cy + b)) (ew : w = u16 (a1 - a0 + 1)) :
    lineBurst c (LineCall.h x y w) = blockBurst cx cy c ⟨a0, a1, b, b⟩ := by
  subst ex ey ew
  unfold lineBurst blockBurst
  dsimp only
  have e1 := u16_of_nonneg ((cx : Int) + a0) (by omega) (by omega)
  have e2 := u16_of_nonneg (a1 - a0 + 1) (by omega) (by omega)
  have e3 := u16_of_nonneg ((cx : Int) + a1) (by omega) (by omega)
  have e5 : (a1 - a0 + 1).toNat * (b - b + 1).toNat = u16 (a1 - a0 + 1) := by
    have : (b - b + 1).toNat = 1 := by simp
    rw [this, Nat.mul_one]
    omega
  rw [e5]
  congr 1
  omega

theorem vline_block (cx cy c : Nat) (R : Int) (hy : R ≤ cy) (hy1 : cy + R < 65536)
    (a b0 b1 : Int) (h0 : -R ≤ b0) (h1 : b0 ≤ b1) (h2 : b1 ≤ R) (x y n : Nat)
    (ex : x = u16 (cx + a)) (ey : y = u16 (cy + b0)) (en : n = u16 (b1 - b0 + 1)) :
    lineBurst c (LineCall.v x y n) = blockBurst cx cy c ⟨a, a, b0, b1⟩ := by
  subst ex ey en
  unfold lineBurst blockBurst
  dsimp only
  have e1 := u16_of_nonneg ((cy : Int) + b0) (by omega) (by omega)
  have e2 := u16_of_nonneg (b1 - b0 + 1) (by omega) (by omega)
  have e3 := u16_of_nonneg ((cy : Int) + b1) (by omega) (by omega)
  have e5 : (a - a + 1).toNat * (b1 - b0 + 1).toNat = u16 (b1 - b0 + 1) := by
    have : (a - a + 1).toNat = 1 := by simp
    rw [this, Nat.one_mul]
    omega
  rw [e5]
  congr 1
  omega

theorem quarterSpans_blocks (cx cy c : Nat) (R : Int) (hx : R ≤ cx) (hx1 : cx + R < 65536)
    (hx0 : cx < 65536) (offX offY : Int) (h0 : 0 ≤ offX) (h1 : offX ≤ R) :
    (quarterSpans cx cy 15 offX offY).map (lineBurst c) =
      (quarterSpanBlocks offX offY).map (blockBurst cx cy c) := by
  have m1 : (15 &&& 1 ≠ 0) := by decide
  have m2 : (15 &&& 2 ≠ 0) := by decide
  have m4 : (15 &&& 4 ≠ 0) := by decide
  have m8 : (15 &&& 8 ≠ 0) := by decide
  have ux : cx = u16 ((cx : Int) + 0) := by rw [add_zero, u16_of_nat _ hx0]
  have b1 := hline_block cx cy c R hx hx1 0 offX (-offY) (by omega) h0 h1 cx
    (u16 ((cy : Int) - offY)) (u16 (offX + 1)) ux (by rw [sub_eq_add_neg]) (by rw [sub_zero])
  have b2 := hline_block cx cy c R hx hx1 0 offX offY (by omega) h0 h1 cx
    (u16 ((cy : Int) + offY)) (u16 (offX + 1)) ux rfl (by rw [sub_zero])
  have b3 := hline_block cx cy c R hx hx1 (-offX) 0 offY (by omega) (by omega) (by omega)
    (u16 ((cx : Int) - offX)) (u16 ((cy : Int) + offY)) (u16 (offX + 1))
    (by rw [sub_eq_add_neg]) rfl (by rw [zero_sub, neg_neg])
  have b4 := hline_block cx cy c R hx hx1 (-offX) 0 (-offY) (by omega) (by omega) (by omega)
    (u16 ((cx : Int) - offX)) (u16 ((cy : Int) - offY)) (u16 (offX + 1))
    (by rw [sub_eq_add_neg]) (by rw [sub_eq_add_neg]) (by rw [zero_sub, neg_neg])
  unfold quarterSpans quarterSpanBlocks
  rw [if_pos m1, if_pos m2, if_pos m4, if_pos m8]
  simp only [List.cons_append, List.nil_append, List.map_cons, List.map_nil, b1, b2, b3, b4]

theorem quarterStepLines_blocks (cx cy c : Nat) (R : Int) (hx : R ≤ cx) (hx1 : cx + R < 65536)
    (hx0 : cx < 65536) (s : CircleStep) (h0 : 0 ≤ s.x) (h1 : s.x ≤ R) (h2 : 0 ≤ s.y)
    (h3 : s.y ≤ R) :
    (quarterStepLines cx cy 15 s).map (lineBurst c) =
      (quarterStepBlocks s).map (blockBurst cx cy c) := by
  unfold quarterStepLines quarterStepBlocks
  rw [List.map_append, List.map_append, quarterSpans_blocks cx cy c R hx hx1 hx0 s.y s.x h2 h3]
  congr 1
  split_ifs
  · exact quarterSpans_blocks cx cy c R hx hx1 hx0 s.x s.yOld h0 h1
  · rfl

theorem quarterAxis_blocks (cx cy c r : Nat) (hx : r ≤ cx) (hx1 : cx + r < 65536)
    (hy : r ≤ cy) (hy1 : cy + r < 65536) :
    (quarterAxisLines cx cy r 15).map (lineBurst c) =
      [(⟨0, 0, -(r : Int), 0⟩ : Block), ⟨0, r, 0, 0⟩, ⟨0, 0, 0, r⟩, ⟨0, r, 0, 0⟩,
        ⟨0, 0, 0, r⟩, ⟨-(r : Int), 0, 0, 0⟩, ⟨0, 0, -(r : Int), 0⟩,
        ⟨-(r : Int), 0, 0, 0⟩].map (blockBurst cx cy c) := by
  have m1 : (15 &&& 1 ≠ 0) := by decide
  have m2 : (15 &&& 2 ≠ 0) := by decide
  have m4 : (15 &&& 4 ≠ 0) := by decide
  have m8 : (15 &&& 8 ≠ 0) := by decide
  have ux : cx = u16 ((cx : Int) + 0) := by rw [add_zero, u16_of_nat _ (by omega)]
  have uy : cy = u16 ((cy : Int) + 0) := by rw [add_zero, u16_of_nat _ (by omega)]
  have hv1 := vline_block cx cy c r (by omega) (by omega) 0 (-(r : Int)) 0 (by omega)
    (by omega) (by omega) cx (u16 ((cy : Int) - r)) (u16 ((r : Int) + 1)) ux
    (by rw [sub_eq_add_neg]) (by rw [zero_sub, neg_neg])
  have hv2 := vline_block cx cy c r (by omega) (by omega) 0 0 r (by omega)
    (by omega) (by omega) cx cy (u16 ((r : Int) + 1)) ux uy (by rw [sub_zero])
  have hh1 := hline_block cx cy c r (by omega) (by omega) 0 r 0 (by omega)
    (by omega) (by omega) cx cy (u16 ((r : Int) + 1)) ux uy (by rw [sub_zero])
  have hh2 := hline_block cx cy c r (by omega) (by omega) (-(r : Int)) 0 0 (by omega)
    (by omega) (by omega) (u16 ((cx : Int) - r)) cy (u16 ((r : Int) + 1))
    (by rw [sub_eq_add_neg]) uy (by rw [zero_sub, neg_neg])
  unfold quarterAxisLines
  rw [if_pos m1, if_pos m2, if_pos m4, if_pos m8]
  simp only [List.cons_append, List.nil_append, List.map_cons, List.map_nil, hv1, hv2, hh1, hh2]

theorem quarterLines_blocks (cx cy c r : Nat) (hr8 : r < 256) (hx : r ≤ cx)
    (hx1 : cx + r < 65536) (hy : r ≤ cy) (hy1 : cy + r < 65536) :
    (quarterAxisLines cx cy r 15 ++
        (circleSteps loopFuel 0 r (i16 (3 - 2 * (r : Int)))).flatMap
          (quarterStepLines cx cy 15)).map (lineBurst c) =
      (quarterBlocks r).map (blockBurst cx cy c) := by
  unfold quarterBlocks
  rw [List.map_append, List.map_append, quarterAxis_blocks cx cy c r hx hx1 hy hy1,
    List.map_flatMap, List.map_flatMap]
  congr 1
  apply List.flatMap_congr
  intro s hs
  obtain ⟨s1, s2, s3, s4, s5, s6⟩ := circleSteps_range r (by omega) loopFuel 0 r _
    (le_refl _) (by omega) (le_refl _) s hs
  exact quarterStepLines_blocks cx cy c r (by omega) (by omega) (by omega) s (by omega)
    (by omega) s4 (by omega)

/-- Every row between `plotX` and `plotY` gets a span in the passes that
follow: a wide one while `plotX` walks up to it, or a narrow one when `plotY`
steps down from it. -/
theorem circleSteps_rows : ∀ (fuel : Nat) (X Y D : Int), 0 ≤ X → Y < 32768 →
    (Y - X).toNat < fuel → ∀ j, X < j → j ≤ Y →
    ∃ s ∈ circleSteps fuel X Y D, s.x = j ∨ (s.se = true ∧ s.yOld = j) := by
  intro fuel
  induction fuel with
  | zero => intro X Y D _ _ h; omega
  | succ f ih =>
    intro X Y D hX hY hf j hj0 hj1
    rw [circleSteps]
    have hlt : X < Y := by omega
    simp only [hlt, if_true]
    have ex : i16 (X + 1) = X + 1 := i16_of_small _ (by omega) (by omega)
    have ey : i16 (Y - 1) = Y - 1 := i16_of_small _ (by omega) (by omega)
    rw [ex, ey]
    by_cases h1 : j = X + 1
    · exact ⟨_, List.mem_cons_self _ _, Or.inl h1.symm⟩
    · by_cases hD : D < 0
      · simp only [hD, if_true, not_true_eq_false, decide_False]
        obtain ⟨s, hs, h⟩ := ih (X + 1) Y (i16 (D + ((X + 1) * 4 + 6))) (by omega) hY
          (by omega) j (by omega) hj1
        exact ⟨s, List.mem_cons_of_mem _ hs, h⟩
      · simp only [hD, if_false, not_false_eq_true, decide_True]
        by_cases h2 : j = Y
        · exact ⟨_, List.mem_cons_self _ _, Or.inr ⟨rfl, h2.symm⟩⟩
        · obtain ⟨s, hs, h⟩ := ih (X + 1) (Y - 1) (i16 (D + ((X + 1 - (Y - 1)) * 4 + 10)))
            (by omega) (by omega) (by omega) j (by omega) (by omega)
          exact ⟨s, List.mem_cons_of_mem _ hs, h⟩

theorem quarterSpanBlocks_iff (offX offY a b : Int) (h0 : 0 ≤ offX) :
    (∃ k ∈ quarterSpanBlocks offX offY, k.has a b) ↔
      ∃ k ∈ [spanBlock (offY, offX), spanBlock (-offY, offX)], k.has a b := by
  simp only [quarterSpanBlocks, spanBlock, Block.has, List.mem_cons, List.mem_singleton,
    List.not_mem_nil, or_false, exists_eq_or_imp, exists_eq_left]
  omega

theorem quarterStepBlocks_iff (s : CircleStep) (a b : Int) (h0 : 0 ≤ s.x) (h1 : 0 ≤ s.y) :
    (∃ k ∈ quarterStepBlocks s, k.has a b) ↔ ∃ k ∈ (stepSpans s).map spanBlock, k.has a b := by
  have e1 := quarterSpanBlocks_iff s.x s.yOld a b h0
  have e2 := quarterSpanBlocks_iff s.y s.x a b h1
  unfold quarterStepBlocks stepSpans
  by_cases hse : s.se = true
  · simp only [hse, if_true, List.mem_append, List.map_append, List.map_cons, List.map_nil,
      or_and_right, exists_or, e1, e2]
  · simp only [hse, if_false, List.nil_append, List.map_cons, List.map_nil, e2,
      Bool.false_eq_true]

theorem quarter_fill_offsets (r : Nat) (hr8 : r < 256) (a b : Int) :
    (∃ k ∈ quarterBlocks r, k.has a b) ↔
      ∃ k ∈ (fillCircleSpans r).map spanBlock, k.has a b := by
  have hrange := circleSteps_range r (by omega) loopFuel 0 r (i16 (3 - 2 * (r : Int)))
    (le_refl _) (by omega) (le_refl _)
  have hsteps : (∃ k ∈ (circleSteps loopFuel 0 r (i16 (3 - 2 * (r : Int)))).flatMap
        quarterStepBlocks, k.has a b) ↔
      ∃ k ∈ ((circleSteps loopFuel 0 r (i16 (3 - 2 * (r : Int)))).flatMap stepSpans).map
        spanBlock, k.has a b := by
    rw [List.map_flatMap]
    constructor
    · rintro ⟨k, hk, h⟩
      obtain ⟨s, hs, hks⟩ := List.mem_flatMap.mp hk
      obtain ⟨s1, _, _, s4, _, _⟩ := hrange s hs
      obtain ⟨k1, hk1, h1⟩ := (quarterStepBlocks_iff s a b (by omega) s4).mp ⟨k, hks, h⟩
      exact ⟨k1, List.mem_flatMap.mpr ⟨s, hs, hk1⟩, h1⟩
    · rintro ⟨k, hk, h⟩
      obtain ⟨s, hs, hks⟩ := List.mem_flatMap.mp hk
      obtain ⟨s1, _, _, s4, _, _⟩ := hrange s hs
      obtain ⟨k1, hk1, h1⟩ := (quarterStepBlocks_iff s a b (by omega) s4).mpr ⟨k, hks, h⟩
      exact ⟨k1, List.mem_flatMap.mpr ⟨s, hs, hk1⟩, h1⟩
  have hcentre : (⟨-(r : Int), r, 0, 0⟩ : Block) ∈ (fillCircleSpans r).map spanBlock := by
    unfold fillCircleSpans
    rw [List.map_cons]
    exact List.mem_cons_self _ _
  unfold quarterBlocks
  constructor
  · rintro ⟨k, hk, h⟩
    rcases List.mem_append.mp hk with hk | hk
    · -- an axis line
      by_cases hb : b = 0
      · refine ⟨_, hcentre, ?_⟩
        simp only [List.mem_cons, List.mem_singleton, List.not_mem_nil, or_false] at hk
        unfold Block.has at h ⊢
        rcases hk with rfl | rfl | rfl | rfl | rfl | rfl | rfl | rfl <;> dsimp only at h ⊢ <;>
          omega
      · have ha : a = 0 ∧ -(r : Int) ≤ b ∧ b ≤ r := by
          simp only [List.mem_cons, List.mem_singleton, List.not_mem_nil, or_false] at hk
          unfold Block.has at h
          rcases hk with rfl | rfl | rfl | rfl | rfl | rfl | rfl | rfl <;> dsimp only at h <;>
            omega
        obtain ⟨s, hs, hrow⟩ := circleSteps_rows loopFuel 0 r (i16 (3 - 2 * (r : Int)))
          (le_refl _) (by omega) (by unfold loopFuel; omega) |b| (by positivity)
          (abs_le.mpr ⟨ha.2.1, ha.2.2⟩)
        obtain ⟨s1, _, _, s4, _, _⟩ := hrange s hs
        have hbb : b = |b| ∨ b = -|b| := by
          rcases abs_cases b with ⟨h1, _⟩ | ⟨h1, _⟩ <;> omega
        refine ⟨spanBlock (b, if s.x = |b| then s.y else s.x), ?_, ?_⟩
        · unfold fillCircleSpans
          rw [List.map_cons]
          refine List.mem_cons_of_mem _ (List.mem_map_of_mem _ (List.mem_flatMap.mpr ⟨s, hs, ?_⟩))
          unfold stepSpans
          by_cases hx : s.x = |b|
          · rw [if_pos hx]
            refine List.mem_append_right _ ?_
            rcases hbb with h1 | h1
            · rw [hx, ← h1]; simp
            · rw [hx]
              have : b = -|b| := h1
              simp only [List.mem_cons, List.mem_singleton, List.not_mem_nil, or_false,
                Prod.mk.injEq, and_true]
              right
              exact this
          · rw [if_neg hx]
            rcases hrow with h1 | ⟨h1, h2⟩
            · exact absurd h1 hx
            · refine List.mem_append_left _ ?_
              rw [h1, if_pos rfl, h2]
              rcases hbb with h3 | h3
              · rw [← h3]; simp
              · simp only [List.mem_cons, List.mem_singleton, List.not_mem_nil, or_false,
                  Prod.mk.injEq, and_true]
                right
                exact h3
        · unfold spanBlock Block.has
          dsimp only
          split_ifs <;> omega
    · obtain ⟨k1, hk1, h1⟩ := hsteps.mp ⟨k, hk, h⟩
      unfold fillCircleSpans
      rw [List.map_cons]
      exact ⟨k1, List.mem_cons_of_mem _ hk1, h1⟩
  · rintro ⟨k, hk, h⟩
    unfold fillCircleSpans at hk
    rw [List.map_cons] at hk
    rcases List.mem_cons.mp hk with hk | hk
    · subst hk
      unfold spanBlock Block.has at h
      dsimp only at h
      by_cases ha : 0 ≤ a
      · exact ⟨⟨0, r, 0, 0⟩, by simp, by unfold Block.has; dsimp only; omega⟩
      · exact ⟨⟨-(r : Int), 0, 0, 0⟩, by simp, by unfold Block.has; dsimp only; omega⟩
    · obtain ⟨k1, hk1, h1⟩ := hsteps.mpr ⟨k, hk, h⟩
      exact ⟨k1, List.mem_append_right _ hk1, h1⟩

/-- The memory writes of `TFT_Fill_Circle` as blocks of offsets, for every
radius below 256 and a centre at which no coordinate wraps. -/
theorem fill_circle_blocks (d : Dev) (x0 y0 r c : Nat) (hr : Ready d.htft) (hr8 : r < 256)
    (hx : r ≤ x0) (hx1 : x0 + r < 65536) (hy0 : y0 < 65536) :
    ∃ d1, TFT_Fill_Circle d x0 y0 r c = some d1 ∧
      Emits d d1 (((fillCircleSpans r).map spanBlock).map (blockBurst x0 y0 c)) := by
  rcases Nat.eq_zero_or_pos r with h0 | h0
  · subst h0
    refine ⟨TFT_Flush_Buffer (TFT_Draw_Point d x0 y0 c) 1, by simp [TFT_Fill_Circle], ?_⟩
    have p1 := draw_point_spec d x0 y0 c hr
    rw [flush_ready _ 1 p1.1]
    have e : ((fillCircleSpans 0).map spanBlock).map (blockBurst x0 y0 c) =
        [⟨x0, y0, x0, y0, [c]⟩] := by
      have h1 : circleSteps loopFuel 0 ((0 : Nat) : Int) (i16 (3 - 2 * ((0 : Nat) : Int))) = [] := by
        unfold loopFuel
        rw [circleSteps]
        simp
      unfold fillCircleSpans
      rw [h1]
      simp [spanBlock, blockBurst, u16_of_nat _ (show x0 < 65536 by omega), u16_of_nat _ hy0]
    rw [e]
    exact p1
  · obtain ⟨d1, hf, he⟩ := fill_circle_spec d x0 y0 r c hr hy0 h0 hr8
    refine ⟨d1, hf, ?_⟩
    have eb : (fillCircleSpans r).map (spanOf x0 y0 c) =
        ((fillCircleSpans r).map spanBlock).map (blockBurst x0 y0 c) := by
      rw [List.map_map]
      apply List.map_congr_left
      intro f hfm
      obtain ⟨g0, g1, _, _⟩ := fillCircleSpans_range r hr8 f hfm
      exact spanOf_block x0 y0 c r (by omega) (by omega) f g0 g1
    rw [← eb]
    exact he

theorem fillCircleBlocks_within (r : Nat) (hr8 : r < 256) :
    ∀ k ∈ (fillCircleSpans r).map spanBlock, k.within r := by
  intro k hk
  obtain ⟨f, hfm, rfl⟩ := List.mem_map.mp hk
  obtain ⟨g0, g1, g2, g3⟩ := fillCircleSpans_range r hr8 f hfm
  exact ⟨by simp only [spanBlock]; omega, by simp only [spanBlock]; omega, g1, g2, le_refl _, g3⟩

theorem quarterBlocks_within (r : Nat) (hr8 : r < 256) :
    ∀ k ∈ quarterBlocks r, k.within r := by
  intro k hk
  unfold quarterBlocks at hk
  rcases List.mem_append.mp hk with hk | hk
  · simp only [List.mem_cons, List.mem_singleton, List.not_mem_nil, or_false] at hk
    unfold Block.within
    rcases hk with rfl | rfl | rfl | rfl | rfl | rfl | rfl | rfl <;> dsimp only <;> omega
  · obtain ⟨s, hs, hks⟩ := List.mem_flatMap.mp hk
    obtain ⟨s1, s2, s3, s4, s5, s6⟩ := circleSteps_range r (by omega) loopFuel 0 r _
      (le_refl _) (by omega) (le_refl _) s hs
    unfold quarterStepBlocks quarterSpanBlocks at hks
    unfold Block.within
    rcases List.mem_append.mp hks with h | h
    · split_ifs at h
      · simp only [List.mem_cons, List.mem_singleton, List.not_mem_nil, or_false] at h
        rcases h with rfl | rfl | rfl | rfl <;> dsimp only <;> omega
      · simp at h
    · simp only [List.mem_cons, List.mem_singleton, List.not_mem_nil, or_false] at h
      rcases h with rfl | rfl | rfl | rfl <;> dsimp only <;> omega

/-- C36: for every radius below 256 and every centre at least `r` away from
both ends of the 16-bit coordinate range, `TFT_Fill_Quarter_Circle` with
`cornerMask = 15` and `TFT_Fill_Circle` both return on a ready device and
write the same set of pixels, with the same colour. -/
theorem C36_quarter_fill_all_corners (d : Dev) (x0 y0 r color : Nat) (hr : Ready d.htft)
    (hr8 : r < 256) (hx : r ≤ x0) (hx1 : x0 + r < 65536) (hy : r ≤ y0) (hy1 : y0 + r < 65536)
    (hc : color < 65536) :
    ∃ dq df, TFT_Fill_Quarter_Circle d x0 y0 r 15 color = some dq ∧
      TFT_Fill_Circle d x0 y0 r color = some df ∧
      ∀ p, p ∈ pixelsOf (written d dq) ↔ p ∈ pixelsOf (written d df) := by
  obtain ⟨dq, hq, heq⟩ := fill_quarter_spec d x0 y0 r 15 color hr hr8
  obtain ⟨df, hf, hef⟩ := fill_circle_blocks d x0 y0 r color hr hr8 hx hx1 (by omega)
  refine ⟨dq, df, hq, hf, fun p => ?_⟩
  rw [quarterLines_blocks x0 y0 color r hr8 hx hx1 hy hy1] at heq
  rw [written_of_emits heq (blockBurst_ok x0 y0 color hc _),
    written_of_emits hef (blockBurst_ok x0 y0 color hc _),
    blocks_pixels x0 y0 color r (by omega) (by omega) (by omega) (by omega) _
      (quarterBlocks_within r hr8) p,
    blocks_pixels x0 y0 color r (by omega) (by omega) (by omega) (by omega) _
      (fillCircleBlocks_within r hr8) p]
  constructor
  · rintro ⟨k, hk, a, b, h, rfl⟩
    obtain ⟨k1, hk1, h1⟩ := (quarter_fill_offsets r hr8 a b).mp ⟨k, hk, h⟩
    exact ⟨k1, hk1, a, b, h1, rfl⟩
  · rintro ⟨k, hk, a, b, h, rfl⟩
    obtain ⟨k1, hk1, h1⟩ := (quarter_fill_offsets r hr8 a b).mpr ⟨k, hk, h⟩
    exact ⟨k1, hk1, a, b, h1, rfl⟩

set_option maxRecDepth 100000 in
/-- C36 at a concrete input: radius 3 around `(50,60)` on the demo device. -/
theorem C36_quarter_fill_all_corners_witness :
    Ready demoDev.htft ∧
      ∃ dq df, TFT_Fill_Quarter_Circle demoDev 50 60 3 15 7 = some dq ∧
        TFT_Fill_Circle demoDev 50 60 3 7 = some df ∧
        ∀ p, p ∈ pixelsOf (written demoDev dq) ↔ p ∈ pixelsOf (written demoDev df) :=
  ⟨demoDev_ready,
   C36_quarter_fill_all_corners demoDev 50 60 3 7 demoDev_ready (by decide) (by decide)
     (by decide) (by decide) (by decide) (by decide)⟩

/-! ## Circle outline: repeated points -/

set_option maxRecDepth 100000 in
/-- C34 at the centre `(10,10)`: with radius 2 the second pass of the loop of
`TFT_Draw_Circle` ends at `plotX = 2`, `plotY = 1`, past the diagonal, and
writes the 8 pixels of the first pass again; with radius 1 the only pass ends
at `plotX = 1`, `plotY = 0` and writes each of the four axis pixels twice
more. -/
theorem C34_circle_repeated_points :
    (∃ d1, TFT_Draw_Circle demoDev 10 10 2 7 = some d1 ∧
      pixelsOf (written demoDev d1) =
        [⟨10, 12, 7⟩, ⟨10, 8, 7⟩, ⟨12, 10, 7⟩, ⟨8, 10, 7⟩,
          ⟨11, 12, 7⟩, ⟨9, 12, 7⟩, ⟨11, 8, 7⟩, ⟨9, 8, 7⟩,
          ⟨12, 11, 7⟩, ⟨8, 11, 7⟩, ⟨12, 9, 7⟩, ⟨8, 9, 7⟩,
          ⟨12, 11, 7⟩, ⟨8, 11, 7⟩, ⟨12, 9, 7⟩, ⟨8, 9, 7⟩,
          ⟨11, 12, 7⟩, ⟨9, 12, 7⟩, ⟨11, 8, 7⟩, ⟨9, 8, 7⟩] ∧
      ¬ (pixelsOf (written demoDev d1)).Nodup) ∧
    (∃ d1, TFT_Draw_Circle demoDev 10 10 1 7 = some d1 ∧
      pixelsOf (written demoDev d1) =
        [⟨10, 11, 7⟩, ⟨10, 9, 7⟩, ⟨11, 10, 7⟩, ⟨9, 10, 7⟩,
          ⟨11, 10, 7⟩, ⟨9, 10, 7⟩, ⟨11, 10, 7⟩, ⟨9, 10, 7⟩,
          ⟨10, 11, 7⟩, ⟨10, 11, 7⟩, ⟨10, 9, 7⟩, ⟨10, 9, 7⟩] ∧
      ¬ (pixelsOf (written demoDev d1)).Nodup) ∧
    circleSteps loopFuel 0 2 (i16 (3 - 2 * 2)) = [⟨1, 2, 2, false⟩, ⟨2, 1, 2, true⟩] ∧
    circleSteps loopFuel 0 1 (i16 (3 - 2 * 1)) = [⟨1, 0, 1, true⟩] := by
  refine ⟨?_, ?_, by decide, by decide⟩
  · obtain ⟨d1, h, he⟩ := draw_circle_spec demoDev 10 10 2 7 demoDev_ready (by decide)
      (by decide) (by decide)
    have hw := written_of_emits he (offsetBurst_ok 10 10 7 (by decide) _)
    refine ⟨d1, h, ?_, ?_⟩
    · rw [hw, pixelsOf_offsets]; decide
    · rw [hw, pixelsOf_offsets]; decide
  · obtain ⟨d1, h, he⟩ := draw_circle_spec demoDev 10 10 1 7 demoDev_ready (by decide)
      (by decide) (by decide)
    have hw := written_of_emits he (offsetBurst_ok 10 10 7 (by decide) _)
    refine ⟨d1, h, ?_, ?_⟩
    · rw [hw, pixelsOf_offsets]; decide
    · rw [hw, pixelsOf_offsets]; decide

/-! ## Filled rounded rectangle: radius 0 -/

set_option maxRecDepth 100000 in
/-- C37 at the rectangle of width 8 and height 6 at `(10,10)` with radius 0:
`TFT_Fill_Rounded_Rectangle` writes, after the rectangle itself, the columns
9 to 10 and the columns 17 to 18 over the full height, so the columns 9 and 18
outside the rectangle `10..17` are painted. -/
theorem C37_rounded_rectangle_radius_zero :
    (TFT_Fill_Rounded_Rectangle demoDev 10 10 8 6 0 7).map
        (fun d => (written demoDev d).map fun b => (b.x0, b.y0, b.x1, b.y1, b.words.length)) =
      some [(10, 10, 17, 15, 48), (9, 10, 10, 15, 12), (17, 10, 18, 15, 12),
        (10, 10, 10, 10, 1), (10, 10, 10, 10, 1), (17, 10, 17, 10, 1), (17, 10, 17, 10, 1),
        (17, 15, 17, 15, 1), (17, 15, 17, 15, 1), (10, 15, 10, 15, 1), (10, 15, 10, 15, 1)] ∧
      (∃ d1, TFT_Fill_Rounded_Rectangle demoDev 10 10 8 6 0 7 = some d1 ∧
        (⟨9, 10, 7⟩ : Pixel) ∈ pixelsOf (written demoDev d1) ∧
        (⟨18, 15, 7⟩ : Pixel) ∈ pixelsOf (written demoDev d1)) := by
  refine ⟨by decide, ?_⟩
  cases h : TFT_Fill_Rounded_Rectangle demoDev 10 10 8 6 0 7 with
  | none => exact absurd h (by decide)
  | some d1 =>
    refine ⟨d1, rfl, ?_, ?_⟩
    · have : (⟨9, 10, 7⟩ : Pixel) ∈ ((TFT_Fill_Rounded_Rectangle demoDev 10 10 8 6 0 7).map
          (fun d => pixelsOf (written demoDev d))).getD [] := by decide
      rw [h] at this
      exact this
    · have : (⟨18, 15, 7⟩ : Pixel) ∈ ((TFT_Fill_Rounded_Rectangle demoDev 10 10 8 6 0 7).map
          (fun d => pixelsOf (written demoDev d))).getD [] := by decide
      rw [h] at this
      exact this

/-! ## Ellipses: the integer recurrence -/

theorem ellipseCtx_of_fits (radiusX radiusY : Nat) (h : EllipseFits radiusX radiusY) :
    EllipseCtx radiusX radiusY ((radiusX : Int) * radiusX) ((radiusY : Int) * radiusY) := by
  unfold EllipseFits at h
  have h0 : (0 : Int) ≤ radiusX := Int.ofNat_nonneg _
  have h1 : (0 : Int) ≤ radiusY := Int.ofNat_nonneg _
  have hP : ((radiusX : Int) + 2) * (radiusY + 2) ≤ 32767 := by
    have : ((radiusX + 2) * (radiusY + 2) : Nat) ≤ 32767 := by omega
    exact_mod_cast this
  have hP0 : (0 : Int) ≤ ((radiusX : Int) + 2) * (radiusY + 2) := by positivity
  have hPP : (((radiusX : Int) + 2) * (radiusY + 2)) * (((radiusX : Int) + 2) * (radiusY + 2)) ≤
      32767 * 32767 := mul_le_mul hP hP hP0 (by norm_num)
  have hX : (radiusX : Int) < 32768 := by
    have h3 : (radiusX + 2) * 2 ≤ (radiusX + 2) * (radiusY + 2) :=
      Nat.mul_le_mul_left _ (by omega)
    have : radiusX < 32768 := by omega
    exact_mod_cast this
  have hY : (radiusY : Int) < 32768 := by
    have h3 : 2 * (radiusY + 2) ≤ (radiusX + 2) * (radiusY + 2) :=
      Nat.mul_le_mul_right _ (by omega)
    have : radiusY < 32768 := by omega
    exact_mod_cast this
  refine ⟨h0, h1, hX, hY, rfl, rfl, ?_⟩
  have e : (((radiusX : Int) + 2) * (radiusY + 2)) * (((radiusX : Int) + 2) * (radiusY + 2)) =
      (radiusX : Int) * radiusX * ((radiusY : Int) * radiusY) +
        4 * ((radiusX : Int) * radiusX * radiusY) + 4 * ((radiusX : Int) * radiusX) +
        4 * ((radiusY : Int) * radiusY * radiusX) + 4 * ((radiusY : Int) * radiusY) + 16 +
        (16 * ((radiusX : Int) * radiusY) + 16 * radiusX + 16 * radiusY) := by ring
  have p : (0 : Int) ≤ 16 * ((radiusX : Int) * radiusY) + 16 * radiusX + 16 * radiusY := by
    positivity
  rw [e] at hPP
  linarith

theorem ellipse_err1_bounds (rx ry A B x y e : Int) (c : EllipseCtx rx ry A B)
    (hx : 0 ≤ x) (hxr : x ≤ rx) (hy : 0 ≤ y) (hyr : y ≤ ry)
    (hE : 4 * e = 4 * (B * ((x + 1) * (x + 1))) + A * ((2 * y - 1) * (2 * y - 1)) -
      4 * (A * B) - A % 4) :
    -(A * B) - 1 ≤ e ∧ e ≤ A * B + 2 * (B * rx) + B + A := by
  obtain ⟨rx0, ry0, rx1, ry1, hA, hB, hK⟩ := c
  have A0 : 0 ≤ A := by rw [hA]; exact mul_self_nonneg rx
  have B0 : 0 ≤ B := by rw [hB]; exact mul_self_nonneg ry
  have m0 : 0 ≤ A % 4 := Int.emod_nonneg _ (by norm_num)
  have m1 : A % 4 < 4 := Int.emod_lt_of_pos _ (by norm_num)
  have p1 : 0 ≤ B * ((x + 1) * (x + 1)) := mul_nonneg B0 (mul_self_nonneg _)
  have q2 : (x + 1) * (x + 1) ≤ (rx + 1) * (rx + 1) :=
    mul_self_le_mul_self (by omega) (by omega)
  have p2 : B * ((x + 1) * (x + 1)) ≤ B * ((rx + 1) * (rx + 1)) :=
    mul_le_mul_of_nonneg_left q2 B0
  have e2 : B * ((rx + 1) * (rx + 1)) = A * B + 2 * (B * rx) + B := by rw [hA]; ring
  have p3 : 0 ≤ A * ((2 * y - 1) * (2 * y - 1)) := mul_nonneg A0 (mul_self_nonneg _)
  have q4 : (2 * y - 1) * (2 * y - 1) ≤ 4 * (ry * ry) + 1 := by nlinarith
  have p4 : A * ((2 * y - 1) * (2 * y - 1)) ≤ A * (4 * (ry * ry) + 1) :=
    mul_le_mul_of_nonneg_left q4 A0
  have e4 : A * (4 * (ry * ry) + 1) = 4 * (A * B) + A := by rw [hB]; ring
  constructor <;> linarith

theorem ellipseNext1_eq (rx ry A B x y e : Int) (c : EllipseCtx rx ry A B)
    (hx : 0 ≤ x) (hxr : x < rx) (hy : 1 ≤ y) (hyr : y ≤ ry)
    (hel : -(A * B) - 1 ≤ e) (heu : e ≤ A * B + 2 * (B * rx) + B + A) :
    ellipseNext1 A B x y e =
      (x + 1, (if e ≥ 0 then y - 1 else y),
        (if e ≥ 0 then e - 2 * A * (y - 1) else e) + (2 * B * (x + 1) + B)) := by
  obtain ⟨rx0, ry0, rx1, ry1, hA, hB, hK⟩ := c
  have A0 : 0 ≤ A := by rw [hA]; exact mul_self_nonneg rx
  have B0 : 0 ≤ B := by rw [hB]; exact mul_self_nonneg ry
  have AB0 : 0 ≤ A * B := mul_nonneg A0 B0
  have Ar0 : 0 ≤ A * ry := mul_nonneg A0 ry0
  have Br0 : 0 ≤ B * rx := mul_nonneg B0 rx0
  have a1 : 0 ≤ A * (y - 1) := mul_nonneg A0 (by omega)
  have a2 : A * (y - 1) ≤ A * ry := mul_le_mul_of_nonneg_left (by omega) A0
  have b1 : 0 ≤ B * (x + 1) := mul_nonneg B0 (by omega)
  have b2 : B * (x + 1) ≤ B * rx := mul_le_mul_of_nonneg_left (by omega) B0
  have t1 : i32 (y - 1) = y - 1 := i32_of_small _ (by linarith) (by linarith)
  have t2 : i32 (2 * A) = 2 * A := i32_of_small _ (by linarith) (by linarith)
  have t3 : i32 (2 * A * (y - 1)) = 2 * A * (y - 1) :=
    i32_of_small _ (by linarith) (by linarith)
  have t4 : i32 (e - 2 * A * (y - 1)) = e - 2 * A * (y - 1) :=
    i32_of_small _ (by linarith) (by linarith)
  have t5 : i32 (x + 1) = x + 1 := i32_of_small _ (by linarith) (by linarith)
  have t6 : i32 (2 * B) = 2 * B := i32_of_small _ (by linarith) (by linarith)
  have t7 : i32 (2 * B * (x + 1)) = 2 * B * (x + 1) :=
    i32_of_small _ (by linarith) (by linarith)
  have t8 : i32 (2 * B * (x + 1) + B) = 2 * B * (x + 1) + B :=
    i32_of_small _ (by linarith) (by linarith)
  unfold ellipseNext1
  dsimp only
  by_cases he : e ≥ 0
  · simp only [he, if_true]
    rw [t1, t2, t3, t4, t5, t6, t7, t8]
    rw [i32_of_small _ (by linarith) (by linarith)]
  · simp only [he, if_false]
    rw [t5, t6, t7, t8]
    rw [i32_of_small _ (by linarith) (by linarith)]

theorem ellipse_region1 (rx ry A B : Int) (c : EllipseCtx rx ry A B) :
    ∀ (fuel : Nat) (x y e : Int), 0 ≤ x → x ≤ rx → 0 ≤ y → y ≤ ry →
      4 * e = 4 * (B * ((x + 1) * (x + 1))) + A * ((2 * y - 1) * (2 * y - 1)) -
        4 * (A * B) - A % 4 →
      (A * y > B * x → 4 * (B * (x * x)) + A * ((2 * y - 1) * (2 * y - 1)) - 4 * (A * B) < 0) →
      (rx - x).toNat < fuel →
      ∃ x1 y1, ellipseExit1 A B fuel x y e = some (x1, y1) ∧ 0 ≤ x1 ∧ x1 ≤ rx ∧ 0 ≤ y1 ∧
        y1 ≤ ry ∧
        ∀ s ∈ ellipseSteps1 A B fuel x y e, 0 ≤ s.1 ∧ s.1 < rx ∧ 1 ≤ s.2 ∧ s.2 ≤ ry := by
  obtain ⟨rx0, ry0, rx1, ry1, hA, hB, hK⟩ := id c
  have A0 : 0 ≤ A := by rw [hA]; exact mul_self_nonneg rx
  have B0 : 0 ≤ B := by rw [hB]; exact mul_self_nonneg ry
  have AB0 : 0 ≤ A * B := mul_nonneg A0 B0
  have Ar0 : 0 ≤ A * ry := mul_nonneg A0 ry0
  have Br0 : 0 ≤ B * rx := mul_nonneg B0 rx0
  intro fuel
  induction fuel with
  | zero => intro x y e _ _ _ _ _ _ h; omega
  | succ f ih =>
    intro x y e hx hxr hy hyr hE hJ hf
    have a1 : 0 ≤ A * y := mul_nonneg A0 hy
    have a2 : A * y ≤ A * ry := mul_le_mul_of_nonneg_left hyr A0
    have b1 : 0 ≤ B * x := mul_nonneg B0 hx
    have b2 : B * x ≤ B * rx := mul_le_mul_of_nonneg_left hxr B0
    rw [ellipseExit1, ellipseSteps1, i32_of_small (A * y) (by linarith) (by linarith),
      i32_of_small (B * x) (by linarith) (by linarith)]
    by_cases hc : A * y > B * x
    · rw [if_pos hc, if_pos hc]
      have hJ1 := hJ hc
      have hy1 : 1 ≤ y := by
        by_contra h
        have : y = 0 := by omega
        subst this
        simp at hc
        linarith
      have hx1 : x < rx := by
        by_contra h
        have q : rx * rx ≤ x * x := mul_self_le_mul_self rx0 (by omega)
        have q1 : B * (rx * rx) ≤ B * (x * x) := mul_le_mul_of_nonneg_left q B0
        have q2 : 0 ≤ A * ((2 * y - 1) * (2 * y - 1)) := mul_nonneg A0 (mul_self_nonneg _)
        have q3 : B * (rx * rx) = A * B := by rw [hA]; ring
        linarith
      obtain ⟨hel, heu⟩ := ellipse_err1_bounds rx ry A B x y e c hx hxr hy hyr hE
      rw [ellipseNext1_eq rx ry A B x y e c hx hx1 hy1 hyr hel heu]
      dsimp only
      have m0 : 0 ≤ A % 4 := Int.emod_nonneg _ (by norm_num)
      have m1 : A % 4 < 4 := Int.emod_lt_of_pos _ (by norm_num)
      by_cases he : e ≥ 0
      · simp only [he, if_true]
        obtain ⟨x1, y1, h1, h2, h3, h4, h5, h6⟩ := ih (x + 1) (y - 1)
          (e - 2 * A * (y - 1) + (2 * B * (x + 1) + B)) (by omega) (by omega) (by omega)
          (by omega) (by linear_combination hE)
          (by
            intro hc1
            have : 4 * (B * ((x + 1) * (x + 1))) +
                A * ((2 * (y - 1) - 1) * (2 * (y - 1) - 1)) - 4 * (A * B) =
              (4 * (B * (x * x)) + A * ((2 * y - 1) * (2 * y - 1)) - 4 * (A * B)) +
                (8 * (B * (x + 1)) - 4 * B - 8 * (A * (y - 1))) := by ring
            linarith)
          (by omega)
        refine ⟨x1, y1, h1, h2, h3, h4, h5, ?_⟩
        intro s hs
        rcases List.mem_cons.mp hs with h | h
        · subst h
          exact ⟨hx, hx1, hy1, hyr⟩
        · exact h6 s h
      · simp only [he, if_false]
        obtain ⟨x1, y1, h1, h2, h3, h4, h5, h6⟩ := ih (x + 1) y
          (e + (2 * B * (x + 1) + B)) (by omega) (by omega) (by omega)
          (by omega) (by linear_combination hE)
          (by
            intro _
            have : e ≤ -1 := by omega
            linarith)
          (by omega)
        refine ⟨x1, y1, h1, h2, h3, h4, h5, ?_⟩
        intro s hs
        rcases List.mem_cons.mp hs with h | h
        · subst h
          exact ⟨hx, hx1, hy1, hyr⟩
        · exact h6 s h
    · rw [if_neg hc, if_neg hc]
      exact ⟨x, y, rfl, hx, hxr, hy, hyr, by simp⟩
theorem ellipseNext2_eq (rx ry A B x y e : Int) (c : EllipseCtx rx ry A B)
    (hx : 0 ≤ x) (hxe : e ≤ 0 → x ≤ rx) (hy : 0 ≤ y) (hyr : y ≤ ry)
    (hel : -(A * B) ≤ e)
    (heu : e ≤ A * B + 3 * (B * rx) + 2 * B + 2 * (A * ry) + 3 * A) :
    ellipseNext2 A B x y e =
      ((if e ≤ 0 then x + 1 else x), y - 1,
        (if e ≤ 0 then e + 2 * B * (x + 1) else e) + (-2 * A * (y - 1) + A)) := by
  obtain ⟨rx0, ry0, rx1, ry1, hA, hB, hK⟩ := c
  have A0 : 0 ≤ A := by rw [hA]; exact mul_self_nonneg rx
  have B0 : 0 ≤ B := by rw [hB]; exact mul_self_nonneg ry
  have AB0 : 0 ≤ A * B := mul_nonneg A0 B0
  have Ar0 : 0 ≤ A * ry := mul_nonneg A0 ry0
  have Br0 : 0 ≤ B * rx := mul_nonneg B0 rx0
  have a1 : 0 ≤ A * y := mul_nonneg A0 hy
  have a2 : A * y ≤ A * ry := mul_le_mul_of_nonneg_left hyr A0
  have a3 : -2 * A * (y - 1) = -2 * (A * y) + 2 * A := by ring
  have t5 : i32 (y - 1) = y - 1 := i32_of_small _ (by linarith) (by linarith)
  have t6 : i32 (-2 * A) = -2 * A := i32_of_small _ (by linarith) (by linarith)
  have t7 : i32 (-2 * A * (y - 1)) = -2 * A * (y - 1) :=
    i32_of_small _ (by linarith) (by linarith)
  have t8 : i32 (-2 * A * (y - 1) + A) = -2 * A * (y - 1) + A :=
    i32_of_small _ (by linarith) (by linarith)
  unfold ellipseNext2
  dsimp only
  by_cases he : e ≤ 0
  · have hxr1 := hxe he
    have b1 : 0 ≤ B * (x + 1) := mul_nonneg B0 (by omega)
    have b2 : B * (x + 1) ≤ B * (rx + 1) := mul_le_mul_of_nonneg_left (by omega) B0
    have b3 : B * (rx + 1) = B * rx + B := by ring
    have b4 : 2 * B * (x + 1) = 2 * (B * (x + 1)) := by ring
    have t1 : i32 (x + 1) = x + 1 := i32_of_small _ (by linarith) (by linarith)
    have t2 : i32 (2 * B) = 2 * B := i32_of_small _ (by linarith) (by linarith)
    have t3 : i32 (2 * B * (x + 1)) = 2 * B * (x + 1) :=
      i32_of_small _ (by linarith) (by linarith)
    have t4 : i32 (e + 2 * B * (x + 1)) = e + 2 * B * (x + 1) :=
      i32_of_small _ (by linarith) (by linarith)
    simp only [he, if_true]
    rw [t1, t2, t3, t4, t5, t6, t7, t8]
    rw [i32_of_small _ (by linarith) (by linarith)]
  · simp only [he, if_false]
    rw [t5, t6, t7, t8]
    rw [i32_of_small _ (by linarith) (by linarith)]

theorem ellipse_err2_bounds (rx ry A B x y e : Int) (c : EllipseCtx rx ry A B)
    (hx : 0 ≤ x) (hxr : x ≤ rx + 1) (hy : 0 ≤ y) (hyr : y ≤ ry)
    (hF1 : B * (x * x) + A * (y * y) - A * B ≤ e)
    (hF2 : e ≤ B * (x * x) + A * (y * y) - A * B + B * x + 2 * (A * (ry - y))) :
    -(A * B) ≤ e ∧ e ≤ A * B + 3 * (B * rx) + 2 * B + 2 * (A * ry) + 3 * A := by
  obtain ⟨rx0, ry0, rx1, ry1, hA, hB, hK⟩ := c
  have A0 : 0 ≤ A := by rw [hA]; exact mul_self_nonneg rx
  have B0 : 0 ≤ B := by rw [hB]; exact mul_self_nonneg ry
  have q1 : 0 ≤ B * (x * x) := mul_nonneg B0 (mul_self_nonneg _)
  have q2 : 0 ≤ A * (y * y) := mul_nonneg A0 (mul_self_nonneg _)
  have q3 : B * (x * x) ≤ B * ((rx + 1) * (rx + 1)) :=
    mul_le_mul_of_nonneg_left (mul_self_le_mul_self hx hxr) B0
  have q4 : B * ((rx + 1) * (rx + 1)) = A * B + 2 * (B * rx) + B := by rw [hA]; ring
  have q5 : A * (y * y) ≤ A * (ry * ry) :=
    mul_le_mul_of_nonneg_left (mul_self_le_mul_self hy hyr) A0
  have q6 : A * (ry * ry) = A * B := by rw [hB]
  have q8 : B * x ≤ B * (rx + 1) := mul_le_mul_of_nonneg_left hxr B0
  have q9 : B * (rx + 1) = B * rx + B := by ring
  have q10 : 0 ≤ A * y := mul_nonneg A0 hy
  have q11 : A * (ry - y) = A * ry - A * y := by ring
  clear hK rx1 ry1 hA hB
  constructor <;> linarith

/-- In the second loop `x` is only incremented at a point inside the ellipse. -/
theorem ellipse_inside (rx ry A B x y e : Int) (c : EllipseCtx rx ry A B) (hry : 1 ≤ ry)
    (hF1 : B * (x * x) + A * (y * y) - A * B ≤ e) (he : e ≤ 0) : x ≤ rx := by
  obtain ⟨rx0, ry0, rx1, ry1, hA, hB, hK⟩ := c
  have A0 : 0 ≤ A := by rw [hA]; exact mul_self_nonneg rx
  have B0 : 0 ≤ B := by rw [hB]; exact mul_self_nonneg ry
  have B1 : 1 ≤ B := by rw [hB]; nlinarith
  have q2 : 0 ≤ A * (y * y) := mul_nonneg A0 (mul_self_nonneg _)
  by_contra h
  have h1 : rx + 1 ≤ x := by omega
  have h2 : (rx + 1) * (rx + 1) ≤ x * x := mul_self_le_mul_self (by omega) h1
  have h3 : B * ((rx + 1) * (rx + 1)) ≤ B * (x * x) := mul_le_mul_of_nonneg_left h2 B0
  have q4 : B * ((rx + 1) * (rx + 1)) = A * B + 2 * (B * rx) + B := by rw [hA]; ring
  have Br0 : 0 ≤ B * rx := mul_nonneg B0 rx0
  clear hK rx1 ry1 hA hB
  linarith

/-- In the second loop, when `x` is incremented on a row above the centre row,
it stays within `radiusX`, or within 1 when `radiusX` is 0. -/
theorem ellipse_inside_strict (rx ry A B x y e : Int) (c : EllipseCtx rx ry A B)
    (hry : 1 ≤ ry) (hx : 0 ≤ x) (hy : 1 ≤ y)
    (hF1 : B * (x * x) + A * (y * y) - A * B ≤ e) (he : e ≤ 0) :
    x + 1 ≤ rx ∨ (rx = 0 ∧ x + 1 ≤ 1) := by
  obtain ⟨rx0, ry0, rx1, ry1, hA, hB, hK⟩ := c
  have A0 : 0 ≤ A := by rw [hA]; exact mul_self_nonneg rx
  have B0 : 0 ≤ B := by rw [hB]; exact mul_self_nonneg ry
  have B1 : 1 ≤ B := by rw [hB]; nlinarith
  clear hK rx1 ry1
  by_cases hr0 : rx = 0
  · right
    refine ⟨hr0, ?_⟩
    have hA0 : A = 0 := by rw [hA, hr0]; ring
    have : B * (x * x) ≤ 0 := by
      rw [hA0] at hF1
      simp at hF1
      linarith
    have hxx : x * x ≤ 0 := by
      by_contra hh
      have : 1 ≤ x * x := by omega
      have : B * 1 ≤ B * (x * x) := mul_le_mul_of_nonneg_left this B0
      linarith
    have : x = 0 := by nlinarith
    omega
  · left
    by_contra h
    have h1 : rx ≤ x := by omega
    have h2 : rx * rx ≤ x * x := mul_self_le_mul_self rx0 h1
    have h3 : B * (rx * rx) ≤ B * (x * x) := mul_le_mul_of_nonneg_left h2 B0
    have h4 : B * (rx * rx) = A * B := by rw [hA]; ring
    have h5 : 1 ≤ y * y := by nlinarith
    have h6 : A * 1 ≤ A * (y * y) := mul_le_mul_of_nonneg_left h5 A0
    have h7 : 1 ≤ A := by
      have hr1 : (1 : Int) ≤ rx := by omega
      have : (1 : Int) * 1 ≤ rx * rx := mul_self_le_mul_self (by norm_num) hr1
      rw [hA]
      linarith
    linarith

theorem ellipse_next2_incr (A B ry x y e : Int)
    (hF1 : B * (x * x) + A * (y * y) - A * B ≤ e)
    (hF2 : e ≤ B * (x * x) + A * (y * y) - A * B + B * x + 2 * (A * (ry - y)))
    (A0 : 0 ≤ A) (B0 : 0 ≤ B) :
    B * ((x + 1) * (x + 1)) + A * ((y - 1) * (y - 1)) - A * B ≤
        e + 2 * B * (x + 1) + (-2 * A * (y - 1) + A) ∧
      e + 2 * B * (x + 1) + (-2 * A * (y - 1) + A) ≤
        B * ((x + 1) * (x + 1)) + A * ((y - 1) * (y - 1)) - A * B + B * (x + 1) +
          2 * (A * (ry - (y - 1))) := by
  constructor <;> nlinarith

theorem ellipse_next2_keep (A B ry x y e : Int)
    (hF1 : B * (x * x) + A * (y * y) - A * B ≤ e)
    (hF2 : e ≤ B * (x * x) + A * (y * y) - A * B + B * x + 2 * (A * (ry - y)))
    (A0 : 0 ≤ A) :
    B * (x * x) + A * ((y - 1) * (y - 1)) - A * B ≤ e + (-2 * A * (y - 1) + A) ∧
      e + (-2 * A * (y - 1) + A) ≤
        B * (x * x) + A * ((y - 1) * (y - 1)) - A * B + B * x +
          2 * (A * (ry - (y - 1))) := by
  constructor <;> nlinarith

theorem ellipse_region2 (rx ry A B : Int) (c : EllipseCtx rx ry A B) (hry : 1 ≤ ry) :
    ∀ (fuel : Nat) (x y e : Int), 0 ≤ x → -1 ≤ y → y ≤ ry →
      B * (x * x) + A * (y * y) - A * B ≤ e →
      e ≤ B * (x * x) + A * (y * y) - A * B + B * x + 2 * (A * (ry - y)) →
      (0 ≤ y → x ≤ rx ∨ (rx = 0 ∧ x ≤ 1)) →
      (y + 1).toNat < fuel →
      ellipseEnds2 A B fuel x y e = true ∧
        ∀ s ∈ ellipseSteps2 A B fuel x y e,
          0 ≤ s.1 ∧ (s.1 ≤ rx ∨ (rx = 0 ∧ s.1 ≤ 1)) ∧ 0 ≤ s.2 ∧ s.2 ≤ ry := by
  have A0 : 0 ≤ A := by rw [c.2.2.2.2.1]; exact mul_self_nonneg rx
  have B0 : 0 ≤ B := by rw [c.2.2.2.2.2.1]; exact mul_self_nonneg ry
  have rx0 : 0 ≤ rx := c.1
  intro fuel
  induction fuel with
  | zero => intro x y e _ _ _ _ _ _ h; omega
  | succ f ih =>
    intro x y e hx hy hyr hF1 hF2 hX hf
    rw [ellipseEnds2, ellipseSteps2]
    by_cases hc : y ≥ 0
    · rw [if_pos hc, if_pos hc]
      have hX1 := hX hc
      have hxr : x ≤ rx + 1 := by omega
      have hxe : e ≤ 0 → x ≤ rx := ellipse_inside rx ry A B x y e c hry hF1
      obtain ⟨hel, heu⟩ := ellipse_err2_bounds rx ry A B x y e c hx hxr hc hyr hF1 hF2
      rw [ellipseNext2_eq rx ry A B x y e c hx hxe hc hyr hel heu]
      dsimp only
      by_cases he : e ≤ 0
      · simp only [he, if_true]
        obtain ⟨n1, n2⟩ := ellipse_next2_incr A B ry x y e hF1 hF2 A0 B0
        obtain ⟨h1, h2⟩ := ih (x + 1) (y - 1) (e + 2 * B * (x + 1) + (-2 * A * (y - 1) + A))
          (by omega) (by omega) (by omega) n1 n2
          (fun hy1 => ellipse_inside_strict rx ry A B x y e c hry hx (by omega) hF1 he)
          (by omega)
        refine ⟨h1, ?_⟩
        intro s hs
        rcases List.mem_cons.mp hs with h | h
        · subst h
          exact ⟨hx, hX1, hc, hyr⟩
        · exact h2 s h
      · simp only [he, if_false]
        obtain ⟨n1, n2⟩ := ellipse_next2_keep A B ry x y e hF1 hF2 A0
        obtain ⟨h1, h2⟩ := ih x (y - 1) (e + (-2 * A * (y - 1) + A))
          hx (by omega) (by omega) n1 n2 (fun _ => hX1) (by omega)
        refine ⟨h1, ?_⟩
        intro s hs
        rcases List.mem_cons.mp hs with h | h
        · subst h
          exact ⟨hx, hX1, hc, hyr⟩
        · exact h2 s h
    · rw [if_neg hc, if_neg hc]
      exact ⟨rfl, by simp⟩
theorem loopFuel_succ : loopFuel = 65534 + 1 + 1 := rfl

theorem ellipse_steps_flat (radiusX : Nat) :
    ellipseEnds radiusX 0 = true ∧ ellipseSteps radiusX 0 = [(0, 0)] := by
  have e1 : ∀ (A e : Int) (f : Nat), ellipseExit1 A (i32 (((0 : Nat) : Int) * (0 : Nat))) (f + 1) 0
      ((0 : Nat) : Int) e = some (0, 0) := by
    intro A e f
    rw [ellipseExit1]
    simp [i32]
  have e2 : ∀ (A e : Int) (f : Nat), ellipseSteps1 A (i32 (((0 : Nat) : Int) * (0 : Nat))) (f + 1) 0
      ((0 : Nat) : Int) e = [] := by
    intro A e f
    rw [ellipseSteps1]
    simp [i32]
  have e3 : ∀ (A B e : Int) (f : Nat), ellipseSteps2 A B (f + 1 + 1) 0 0 e = [(0, 0)] := by
    intro A B e f
    rw [ellipseSteps2]
    simp only [ge_iff_le, le_refl, if_true]
    rw [ellipseSteps2]
    simp [ellipseNext2, i32]
  have e4 : ∀ (A B e : Int) (f : Nat), ellipseEnds2 A B (f + 1 + 1) 0 0 e = true := by
    intro A B e f
    rw [ellipseEnds2]
    simp only [ge_iff_le, le_refl, if_true]
    rw [ellipseEnds2]
    simp [ellipseNext2, i32]
  constructor
  · unfold ellipseEnds
    dsimp only
    rw [loopFuel_succ, e1, Option.map_some', Option.getD_some]
    exact e4 _ _ _ _
  · unfold ellipseSteps
    dsimp only
    rw [loopFuel_succ, e1, e2, Option.map_some', Option.getD_some]
    simp only [List.nil_append]
    exact e3 _ _ _ _

theorem ellipse_steps_spec (radiusX radiusY : Nat) (h : EllipseFits radiusX radiusY) :
    ellipseEnds radiusX radiusY = true ∧ ellipseSteps radiusX radiusY ≠ [] ∧
      ∀ s ∈ ellipseSteps radiusX radiusY,
        0 ≤ s.1 ∧ s.1 ≤ max (radiusX : Int) 1 ∧
          (1 ≤ radiusX ∨ radiusY = 0 → s.1 ≤ radiusX) ∧ 0 ≤ s.2 ∧ s.2 ≤ radiusY := by
  rcases Nat.eq_zero_or_pos radiusY with h0 | h0
  · subst h0
    obtain ⟨f1, f2⟩ := ellipse_steps_flat radiusX
    refine ⟨f1, by rw [f2]; simp, ?_⟩
    rw [f2]
    intro s hs
    rw [List.mem_singleton.mp hs]
    refine ⟨le_refl _, by simp, fun _ => Int.ofNat_nonneg _, le_refl _, le_refl _⟩
  · have c := ellipseCtx_of_fits radiusX radiusY h
    obtain ⟨rx0, ry0, rx1, ry1, hA, hB, hK⟩ := id c
    have hry : (1 : Int) ≤ radiusY := by exact_mod_cast h0
    generalize hAe : (radiusX : Int) * radiusX = A at *
    generalize hBe : (radiusY : Int) * radiusY = B at *
    have A0 : 0 ≤ A := by rw [← hAe]; exact mul_self_nonneg _
    have B0 : 0 ≤ B := by rw [← hBe]; exact mul_self_nonneg _
    have AB0 : 0 ≤ A * B := mul_nonneg A0 B0
    have Ar0 : 0 ≤ A * radiusY := mul_nonneg A0 ry0
    have Br0 : 0 ≤ B * radiusX := mul_nonneg B0 rx0
    have iA : i32 A = A := i32_of_small _ (by linarith) (by linarith)
    have iB : i32 B = B := i32_of_small _ (by linarith) (by linarith)
    have m0 : 0 ≤ A % 4 := Int.emod_nonneg _ (by norm_num)
    have m1 : A % 4 < 4 := Int.emod_lt_of_pos _ (by norm_num)
    have md : A % 4 + 4 * (A / 4) = A := Int.emod_add_ediv A 4
    have hE1 : ellipseError1 A B radiusY = B - A * radiusY + A / 4 := by
      unfold ellipseError1
      rw [Int.tdiv_eq_ediv A0 (by norm_num),
        i32_of_small (A * radiusY) (by linarith) (by linarith),
        i32_of_small (B - A * radiusY) (by linarith) (by linarith),
        i32_of_small _ (by linarith) (by linarith)]
    obtain ⟨x1, y1, hex, hx0, hx1, hy0, hy1, hs1⟩ := ellipse_region1 radiusX radiusY A B c
      loopFuel 0 radiusY (ellipseError1 A B radiusY) (le_refl _) rx0 ry0 (le_refl _)
      (by
        rw [hE1]
        have : A * ((2 * (radiusY : Int) - 1) * (2 * (radiusY : Int) - 1)) =
            4 * (A * B) - 4 * (A * radiusY) + A := by rw [← hBe]; ring
        linarith)
      (by
        intro hc
        have : A * ((2 * (radiusY : Int) - 1) * (2 * (radiusY : Int) - 1)) =
            4 * (A * B) - 4 * (A * radiusY) + A := by rw [← hBe]; ring
        have h2 : A * 1 ≤ A * radiusY := mul_le_mul_of_nonneg_left hry A0
        simp only [mul_zero] at hc ⊢
        linarith)
      (by unfold loopFuel; omega)
    have q1 : 0 ≤ B * x1 := mul_nonneg B0 hx0
    have q2 : B * x1 ≤ B * radiusX := mul_le_mul_of_nonneg_left hx1 B0
    have q3 : 0 ≤ B * (x1 * x1) := mul_nonneg B0 (mul_self_nonneg _)
    have q4 : B * (x1 * x1) ≤ B * ((radiusX : Int) * radiusX) :=
      mul_le_mul_of_nonneg_left (mul_self_le_mul_self hx0 hx1) B0
    have q5 : B * ((radiusX : Int) * radiusX) = A * B := by rw [hAe]; ring
    have q6 : 0 ≤ A * y1 := mul_nonneg A0 hy0
    have q7 : A * y1 ≤ A * radiusY := mul_le_mul_of_nonneg_left hy1 A0
    have q8 : 0 ≤ A * (y1 * y1) := mul_nonneg A0 (mul_self_nonneg _)
    have q9 : A * (y1 * y1) ≤ A * ((radiusY : Int) * radiusY) :=
      mul_le_mul_of_nonneg_left (mul_self_le_mul_self hy0 hy1) A0
    have q10 : A * ((radiusY : Int) * radiusY) = A * B := by rw [hBe]
    have q11 : B * x1 * x1 = B * (x1 * x1) := by ring
    have q12 : A * y1 * y1 = A * (y1 * y1) := by ring
    have hE2 : ellipseError2 A B x1 y1 = B * (x1 * x1) + A * (y1 * y1) - A * B := by
      unfold ellipseError2
      rw [i32_of_small (B * x1) (by linarith) (by linarith),
        i32_of_small (B * x1 * x1) (by linarith) (by linarith),
        i32_of_small (A * y1) (by linarith) (by linarith),
        i32_of_small (A * y1 * y1) (by linarith) (by linarith),
        i32_of_small (A * B) (by linarith) (by linarith),
        i32_of_small (B * x1 * x1 + A * y1 * y1) (by linarith) (by linarith),
        i32_of_small _ (by linarith) (by linarith), q11, q12]
    have q13 : 0 ≤ A * ((radiusY : Int) - y1) := mul_nonneg A0 (by omega)
    obtain ⟨hen, hs2⟩ := ellipse_region2 radiusX radiusY A B c hry loopFuel x1 y1
      (ellipseError2 A B x1 y1) hx0 (by omega) hy1 (by rw [hE2]) (by rw [hE2]; linarith)
      (fun _ => Or.inl hx1) (by unfold loopFuel; omega)
    have hst : ellipseSteps radiusX radiusY =
        ellipseSteps1 A B loopFuel 0 radiusY (ellipseError1 A B radiusY) ++
          ellipseSteps2 A B loopFuel x1 y1 (ellipseError2 A B x1 y1) := by
      unfold ellipseSteps
      dsimp only
      rw [hAe, hBe, iA, iB, hex, Option.map_some', Option.getD_some]
    have hend : ellipseEnds radiusX radiusY = true := by
      unfold ellipseEnds
      dsimp only
      rw [hAe, hBe, iA, iB, hex, Option.map_some', Option.getD_some]
      exact hen
    refine ⟨hend, ?_, ?_⟩
    · rw [hst]
      intro hnil
      have h2 := (List.append_eq_nil.mp hnil).2
      rw [loopFuel_succ, ellipseSteps2, if_pos hy0] at h2
      exact absurd h2 (by simp)
    · rw [hst]
      intro s hs
      rcases List.mem_append.mp hs with hs | hs
      · obtain ⟨a1, a2, a3, a4⟩ := hs1 s hs
        exact ⟨a1, le_trans a2.le (le_max_left _ _), fun _ => a2.le, by omega, a4⟩
      · obtain ⟨a1, a2, a3, a4⟩ := hs2 s hs
        refine ⟨a1, ?_, ?_, a3, a4⟩
        · rcases a2 with a2 | ⟨_, a2⟩
          · exact le_trans a2 (le_max_left _ _)
          · exact le_trans a2 (le_max_right _ _)
        · intro hr
          rcases a2 with a2 | ⟨a5, a2⟩
          · exact a2
          · rcases hr with hr | hr
            · have : (1 : Int) ≤ radiusX := by exact_mod_cast hr
              omega
            · omega
/-! ## Ellipses: the loops on the device -/

theorem ellipseRegion1_eq (plot : Dev → Int → Int → Dev) (A B : Int) :
    ∀ (fuel : Nat) (d : Dev) (x y e : Int),
      ellipseRegion1 plot A B fuel d x y e =
        (ellipseExit1 A B fuel x y e).map fun q =>
          ((ellipseSteps1 A B fuel x y e).foldl (fun acc s => plot acc s.1 s.2) d, q.1, q.2) := by
  intro fuel
  induction fuel with
  | zero => intro d x y e; rfl
  | succ f ih =>
    intro d x y e
    rw [ellipseRegion1, ellipseExit1, ellipseSteps1]
    by_cases hc : i32 (A * y) > i32 (B * x)
    · rw [if_pos hc, if_pos hc, if_pos hc, ih]
      rfl
    · rw [if_neg hc, if_neg hc, if_neg hc]
      rfl

theorem ellipseRegion2_eq (plot : Dev → Int → Int → Dev) (A B : Int) :
    ∀ (fuel : Nat) (d : Dev) (x y e : Int),
      ellipseRegion2 plot A B fuel d x y e =
        if ellipseEnds2 A B fuel x y e = true then
          some ((ellipseSteps2 A B fuel x y e).foldl (fun acc s => plot acc s.1 s.2) d)
        else none := by
  intro fuel
  induction fuel with
  | zero => intro d x y e; rfl
  | succ f ih =>
    intro d x y e
    rw [ellipseRegion2, ellipseEnds2, ellipseSteps2]
    by_cases hc : y ≥ 0
    · rw [if_pos hc, if_pos hc, if_pos hc, ih]
      rfl
    · rw [if_neg hc, if_neg hc, if_neg hc]
      rfl

theorem ellipseRun_eq (plot : Dev → Int → Int → Dev) (d : Dev) (radiusX radiusY : Nat)
    (h : ellipseEnds radiusX radiusY = true) :
    ellipseRun plot d radiusX radiusY =
      some ((ellipseSteps radiusX radiusY).foldl (fun acc s => plot acc s.1 s.2) d) := by
  unfold ellipseEnds at h
  unfold ellipseRun ellipseSteps
  dsimp only at h ⊢
  rw [ellipseRegion1_eq]
  cases hx : ellipseExit1 (i32 ((radiusX : Int) * radiusX)) (i32 ((radiusY : Int) * radiusY))
      loopFuel 0 radiusY
      (ellipseError1 (i32 ((radiusX : Int) * radiusX)) (i32 ((radiusY : Int) * radiusY)) radiusY) with
  | none =>
    rw [hx] at h
    simp at h
  | some q =>
    rw [hx] at h
    simp only [Option.map_some', Option.getD_some] at h
    simp only [Option.map_some', Option.some_bind, Option.getD_some]
    rw [ellipseRegion2_eq, if_pos h, List.foldl_append]

theorem foldl_flatMap_eq {α β γ : Type} (f : α → List β) (g : γ → β → γ) :
    ∀ (l : List α) (d : γ),
      (l.flatMap f).foldl g d = l.foldl (fun acc s => (f s).foldl g acc) d
  | [], d => rfl
  | a :: t, d => by
    rw [List.flatMap_cons, List.foldl_append, List.foldl_cons, foldl_flatMap_eq f g t]

theorem ellipsePoints_offsets (cx cy c : Nat) (s : Int × Int) :
    (ellipsePoints cx cy s.1 s.2).map (fun p => pointBurst c (p.x, p.y)) =
      (ellipseOffsets s).map (offsetBurst cx cy c) := by
  unfold ellipsePoints ellipseOffsets offsetBurst
  simp only [List.map_cons, List.map_nil, sub_eq_add_neg]

/-- What `TFT_Draw_Ellipse` writes: one point for each of the four offsets of
every pass. -/
theorem draw_ellipse_spec (d : Dev) (cx cy radiusX radiusY c : Nat) (hr : Ready d.htft)
    (hfit : EllipseFits radiusX radiusY) :
    ∃ d1, TFT_Draw_Ellipse d cx cy radiusX radiusY c = some d1 ∧
      Emits d d1 (((ellipseSteps radiusX radiusY).flatMap ellipseOffsets).map
        (offsetBurst cx cy c)) := by
  obtain ⟨hend, hne, _⟩ := ellipse_steps_spec radiusX radiusY hfit
  unfold TFT_Draw_Ellipse
  rw [ellipseRun_eq _ _ _ _ hend, Option.map_some']
  refine ⟨_, rfl, ?_⟩
  have hm := multipoint_spec d
    ((ellipseSteps radiusX radiusY).flatMap fun s => ellipsePoints cx cy s.1 s.2)
    ((ellipseSteps radiusX radiusY).flatMap fun s => ellipsePoints cx cy s.1 s.2).length c hr
    (by
      cases hs : ellipseSteps radiusX radiusY with
      | nil => exact absurd hs hne
      | cons a t => simp [ellipsePoints])
  have e1 : TFT_Draw_MultiPoint d
      ((ellipseSteps radiusX radiusY).flatMap fun s => ellipsePoints cx cy s.1 s.2)
      ((ellipseSteps radiusX radiusY).flatMap fun s => ellipsePoints cx cy s.1 s.2).length c =
      TFT_Flush_Buffer ((ellipseSteps radiusX radiusY).foldl
        (fun acc s => ellipsePlot cx cy c acc s.1 s.2) (TFT_Reset_Buffer d)) 1 := by
    unfold TFT_Draw_MultiPoint
    rw [if_neg (by
      cases hs : ellipseSteps radiusX radiusY with
      | nil => exact absurd hs hne
      | cons a t => simp [ellipsePoints])]
    dsimp only
    rw [List.take_length, foldl_flatMap_eq]
    rfl
  rw [e1, List.take_length] at hm
  have e2 : ((ellipseSteps radiusX radiusY).flatMap fun s => ellipsePoints cx cy s.1 s.2).map
      (fun p => pointBurst c (p.x, p.y)) =
      ((ellipseSteps radiusX radiusY).flatMap ellipseOffsets).map (offsetBurst cx cy c) := by
    rw [List.map_flatMap, List.map_flatMap]
    apply List.flatMap_congr
    intro s _
    exact ellipsePoints_offsets cx cy c s
  rw [e2] at hm
  exact hm

theorem ellipseSpans_spec (d : Dev) (cx cy c : Nat) (s : Int × Int) (hr : Ready d.htft) :
    Emits d (ellipseSpans cx cy c d s.1 s.2)
      [spanOf cx cy c (s.2, s.1), spanOf cx cy c (-s.2, s.1)] := by
  have a := span_spec d c ((cx : Int) - s.1) ((cy : Int) + s.2) s.1 hr
  have b := span_spec _ c ((cx : Int) - s.1) ((cy : Int) - s.2) s.1 a.1
  have := emits_trans a b
  unfold ellipseSpans spanOf
  simpa [sub_eq_add_neg] using this

theorem ellipseSpans_fold (cx cy c : Nat) : ∀ (l : List (Int × Int)) (d : Dev), Ready d.htft →
    Emits d (l.foldl (fun acc s => ellipseSpans cx cy c acc s.1 s.2) d)
      (l.flatMap fun s => [spanOf cx cy c (s.2, s.1), spanOf cx cy c (-s.2, s.1)])
  | [], d, hr => by simpa using emits_refl d hr
  | s :: t, d, hr => by
    have a := ellipseSpans_spec d cx cy c s hr
    have b := ellipseSpans_fold cx cy c t _ a.1
    rw [List.foldl_cons, List.flatMap_cons]
    exact emits_trans a b

/-- What `TFT_Fill_Ellipse` writes: the spans `-x .. x` on the rows `+y` and
`-y` of every pass. -/
theorem fill_ellipse_spec (d : Dev) (cx cy radiusX radiusY c : Nat) (hr : Ready d.htft)
    (hfit : EllipseFits radiusX radiusY) :
    ∃ d1, TFT_Fill_Ellipse d cx cy radiusX radiusY c = some d1 ∧
      Emits d d1 (((ellipseSteps radiusX radiusY).flatMap
        fun s => [(s.2, s.1), (-s.2, s.1)]).map (spanOf cx cy c)) := by
  obtain ⟨hend, _, _⟩ := ellipse_steps_spec radiusX radiusY hfit
  unfold TFT_Fill_Ellipse
  rw [ellipseRun_eq _ _ _ _ hend]
  refine ⟨_, rfl, ?_⟩
  have := ellipseSpans_fold cx cy c (ellipseSteps radiusX radiusY) d hr
  rw [List.map_flatMap]
  exact this
theorem offsetsOf_box (x0 y0 c : Nat) (RX RY : Int) (hx : RX ≤ x0) (hx1 : x0 + RX < 65536)
    (hy : RY ≤ y0) (hy1 : y0 + RY < 65536) (os : List (Int × Int))
    (h : ∀ o ∈ os, -RX ≤ o.1 ∧ o.1 ≤ RX ∧ -RY ≤ o.2 ∧ o.2 ≤ RY) :
    offsetsOf x0 y0 (os.map (fun o => (⟨u16 (x0 + o.1), u16 (y0 + o.2), c⟩ : Pixel))) = os := by
  unfold offsetsOf
  rw [List.map_map]
  conv_rhs => rw [← List.map_id os]
  apply List.map_congr_left
  intro o ho
  obtain ⟨h1, h2, h3, h4⟩ := h o ho
  simp only [Function.comp, id]
  rw [u16_of_nonneg _ (by omega) (by omega), u16_of_nonneg _ (by omega) (by omega)]
  simp

theorem ellipseOffsets_range (radiusX radiusY : Nat) (h : EllipseFits radiusX radiusY) :
    ∀ o ∈ (ellipseSteps radiusX radiusY).flatMap ellipseOffsets,
      -max (radiusX : Int) 1 ≤ o.1 ∧ o.1 ≤ max (radiusX : Int) 1 ∧
        (1 ≤ radiusX ∨ radiusY = 0 → -(radiusX : Int) ≤ o.1 ∧ o.1 ≤ radiusX) ∧
        -(radiusY : Int) ≤ o.2 ∧ o.2 ≤ radiusY := by
  intro o ho
  obtain ⟨s, hs, hos⟩ := List.mem_flatMap.mp ho
  obtain ⟨_, _, hb⟩ := ellipse_steps_spec radiusX radiusY h
  obtain ⟨b1, b2, b3, b4, b5⟩ := hb s hs
  unfold ellipseOffsets at hos
  simp only [List.mem_cons, List.mem_singleton, List.not_mem_nil, or_false] at hos
  rcases hos with rfl | rfl | rfl | rfl <;> dsimp only <;>
    refine ⟨by omega, by omega, fun hc => ?_, by omega, by omega⟩ <;>
    have := b3 hc <;> omega

theorem axisClosed_ellipse (l : List (Int × Int)) : AxisClosed (l.flatMap ellipseOffsets) := by
  intro a b hab
  obtain ⟨s, hs, hos⟩ := List.mem_flatMap.mp hab
  unfold ellipseOffsets at hos
  simp only [List.mem_cons, List.mem_singleton, List.not_mem_nil, or_false, Prod.mk.injEq] at hos
  constructor <;> refine List.mem_flatMap.mpr ⟨s, hs, ?_⟩ <;> unfold ellipseOffsets <;>
    simp only [List.mem_cons, List.mem_singleton, List.not_mem_nil, or_false, Prod.mk.injEq] <;>
    rcases hos with ⟨rfl, rfl⟩ | ⟨rfl, rfl⟩ | ⟨rfl, rfl⟩ | ⟨rfl, rfl⟩ <;> simp

end TFT
